import Mathlib

/-!
Card games: Freecell / Klondike move validation

A shallow embedding of the move-validation and pile-transition logic of
`Solitaire.hpp`, `Freecell.hpp` and `Klondike.hpp`.

* A `Pile<T>` (`std::vector<std::unique_ptr<T>>`) is a `List T`, bottom card
  first; the top of a pile is the back of the vector, i.e. the last element.
* `size_t` values are natural numbers; every `size_t` subtraction, addition and
  multiplication of the source is written with an explicit reduction modulo
  `2 ^ 64`.
* Reading a vector outside its bounds, `back()` on an empty vector and
  dereferencing an absent card are undefined behaviour in the source; the
  embedding reports them as a `Fault` instead of inventing a result.
* Ranks are `int` values. The sums `rank + 1` and the differences `rank - 1` of
  the source are `int` operations; a result that is no `int` value is a signed
  overflow, undefined behaviour as well, and is reported as a `Fault`.
* Console output (`std::cout`, `std::cin.get()`) is not part of the state and is
  left out.
-/

namespace CardGames

/-! ## Machine integers -/

/-- Number of values of a 64-bit `size_t`. -/
def SIZE_MOD : Nat := 2 ^ 64

/-- The `size_t` difference `a - b`, wrapping modulo `2 ^ 64`. -/
def szSub (a b : Nat) : Nat := (a % SIZE_MOD + (SIZE_MOD - b % SIZE_MOD)) % SIZE_MOD

/-- The `size_t` sum `a + b`, wrapping modulo `2 ^ 64`. -/
def szAdd (a b : Nat) : Nat := (a + b) % SIZE_MOD

/-- The `size_t` product `a * b`, wrapping modulo `2 ^ 64`. -/
def szMul (a b : Nat) : Nat := (a * b) % SIZE_MOD

/-- Conversion of an `int` to `size_t` (as in `size_t prev_rank = ...->GetRank()`). -/
def szOfInt (r : Int) : Nat := (r % (SIZE_MOD : Int)).toNat

/-- The values a 32-bit `int` can hold. -/
def IsInt32 (r : Int) : Prop := -(2 ^ 31 : Int) ≤ r ∧ r < (2 ^ 31 : Int)

instance (r : Int) : Decidable (IsInt32 r) :=
  inferInstanceAs (Decidable (-(2 ^ 31 : Int) ≤ r ∧ r < (2 ^ 31 : Int)))

/-! ## Faults (undefined behaviour of the source) -/

/-- Ways in which the source leaves the defined behaviour of C++ or ends a call
with an exception that nothing catches, plus the exhaustion of the fuel of a
loop model. -/
inductive Fault where
  /-- A vector was indexed at a position at or beyond its size. -/
  | outOfRange
  /-- The function `back()` was called on an empty vector. -/
  | emptyBack
  /-- An absent card (`nullptr`) was pushed or dereferenced. -/
  | nullCard
  /-- The fuel given to a loop ran out before the loop ended. -/
  | noFuel
  /-- A vector was asked to `reserve` more than `max_size()` elements:
  `std::length_error` is thrown. -/
  | lengthError
  /-- An `int` addition or subtraction whose result is no `int` value: signed
  overflow. -/
  | intOverflow
  deriving DecidableEq, Repr

instance {ε α : Type} [DecidableEq ε] [DecidableEq α] : DecidableEq (Except ε α)
  | .ok a, .ok b =>
    if h : a = b then isTrue (by rw [h]) else isFalse (fun h2 => h (Except.ok.inj h2))
  | .error a, .error b =>
    if h : a = b then isTrue (by rw [h]) else isFalse (fun h2 => h (Except.error.inj h2))
  | .ok _, .error _ => isFalse (fun h => by cases h)
  | .error _, .ok _ => isFalse (fun h => by cases h)

/-- The vector access `v[i]`. -/
def vecAt {α : Type} (v : List α) (i : Nat) : Except Fault α :=
  match v[i]? with
  | some x => .ok x
  | none => .error .outOfRange

/-- The vector access `v.back()`. -/
def vecBack {α : Type} (v : List α) : Except Fault α :=
  match v.getLast? with
  | some x => .ok x
  | none => .error .emptyBack

/-- The short-circuit conjunction `a && b`: `b` is evaluated only when `a` is
true. -/
def sAnd (a b : Except Fault Bool) : Except Fault Bool :=
  match a with
  | .ok true => b
  | .ok false => .ok false
  | .error e => .error e

/-- The short-circuit disjunction `a || b`: `b` is evaluated only when `a` is
false. -/
def sOr (a b : Except Fault Bool) : Except Fault Bool :=
  match a with
  | .ok true => .ok true
  | .ok false => b
  | .error e => .error e

/-- The negation `!a`. -/
def sNot (a : Except Fault Bool) : Except Fault Bool :=
  match a with
  | .ok b => .ok (!b)
  | .error e => .error e

/-- The test `v[i].empty()` on a vector of piles. -/
def emptyAt {α : Type} (v : List (List α)) (i : Nat) : Except Fault Bool :=
  match vecAt v i with
  | .ok p => .ok p.isEmpty
  | .error e => .error e

/-- The statement `v[i].push_back(c)` on a vector of piles. -/
def pushAt {α : Type} (v : List (List α)) (i : Nat) (c : α) : Except Fault (List (List α)) :=
  match vecAt v i with
  | .ok p => .ok (v.set i (p ++ [c]))
  | .error e => .error e

/-- The statement `v[i].pop_back()` on a vector of piles. -/
def popAt {α : Type} (v : List (List α)) (i : Nat) : Except Fault (List (List α)) :=
  match vecAt v i with
  | .ok [] => .error .emptyBack
  | .ok p => .ok (v.set i p.dropLast)
  | .error e => .error e

/-- The expression `v[i].back()` on a vector of piles. -/
def backAt {α : Type} (v : List (List α)) (i : Nat) : Except Fault α :=
  match vecAt v i with
  | .ok p => vecBack p
  | .error e => .error e

/-- The `int` sum `a + b`. A sum outside the values of an `int` is a signed
overflow, which the source leaves undefined. -/
def intAdd (a b : Int) : Except Fault Int :=
  if IsInt32 (a + b) then .ok (a + b) else .error .intOverflow

/-- The `int` difference `a - b`. A difference outside the values of an `int`
is a signed overflow, which the source leaves undefined. -/
def intSub (a b : Int) : Except Fault Int :=
  if IsInt32 (a - b) then .ok (a - b) else .error .intOverflow

/-! ## Cards -/

/-- The class `StandardPlayingCard`: an `int` rank and a `std::string` suit. -/
structure StandardPlayingCard where
  rank : Int
  suit : String
  deriving DecidableEq, Repr

/-- The class `PolarStandardPlayingCard`: a standard card plus a face-up flag,
face-down by default. -/
structure PolarStandardPlayingCard extends StandardPlayingCard where
  face_up : Bool := false
  deriving DecidableEq, Repr

/-- The interface of a card the `Solitaire<T>` template relies on. -/
class PlayingCard (T : Type) where
  /-- The member `GetRank()`. -/
  GetRank : T → Int
  /-- The member `GetSuit()`. -/
  GetSuit : T → String
  /-- The constructor `T(rank, suit)`. -/
  make : Int → String → T

instance : PlayingCard StandardPlayingCard where
  GetRank c := c.rank
  GetSuit c := c.suit
  make r u := { rank := r, suit := u }

instance : PlayingCard PolarStandardPlayingCard where
  GetRank c := c.rank
  GetSuit c := c.suit
  make r u := { rank := r, suit := u, face_up := false }

open PlayingCard (GetRank GetSuit)

/-- The member `StandardPlayingCard::GetColor`. -/
def GetColor {T : Type} [PlayingCard T] (c : T) : String :=
  if GetSuit c = "heart" ∨ GetSuit c = "diamond" then "red" else "black"

/-- Modelled from the spec: the table `CardGraphicsAndInfo::suits` of the header
`StandardPlayingCardStaticVariables.h`, which is not among the sources; the
spec gives the suits as spade, heart, club, diamond. -/
def CardGraphicsAndInfo.suits : List String := ["spade", "heart", "club", "diamond"]

/-- Modelled from the spec: the table `CardGraphicsAndInfo::ranks` of the header
`StandardPlayingCardStaticVariables.h`, which is not among the sources; the
spec gives the ranks as the integers 1 to 13. -/
def CardGraphicsAndInfo.ranks : List Int := [1, 2, 3, 4, 5, 6, 7, 8, 9, 10, 11, 12, 13]

/-- The constructor `StandardDeck<T>()`: for every suit, for every rank, one
card is pushed. -/
def StandardDeck.fresh (T : Type) [PlayingCard T] : List T :=
  CardGraphicsAndInfo.suits.flatMap fun suit =>
    CardGraphicsAndInfo.ranks.map fun rank => PlayingCard.make rank suit

/-- The member `StandardDeck::DrawOne`: the absent card and the same deck when
the deck is empty, else the back card and the deck without it. -/
def StandardDeck.DrawOne {T : Type} (deck : List T) : Option T × List T :=
  match deck.getLast? with
  | none => (none, deck)
  | some c => (some c, deck.dropLast)

/-- The member `PolarStandardPlayingCard::GetFaceUp`. -/
def GetFaceUp (c : PolarStandardPlayingCard) : Bool := c.face_up

/-- The member `PolarStandardPlayingCard::FlipCard`. -/
def FlipCard (c : PolarStandardPlayingCard) : PolarStandardPlayingCard :=
  if c.face_up then { c with face_up := false } else { c with face_up := true }

/-! ## The `Solitaire<T>` base class -/

/-- The member variables of `Solitaire<T>`; the member `stacks` is written
`stacks_`. -/
structure Solitaire (T : Type) where
  deck : List T
  free : List T
  board : List (List T)
  stacks_ : List (List T)
  deriving DecidableEq, Repr

namespace Solitaire

variable {T : Type} [PlayingCard T]

/-- The body of the `for` loop of `CheckDescendingPile`; `n` counts the
iterations that remain, `base` is `board_pile_size - amount`. -/
def CheckDescendingPile.loop (col : List T) (base : Nat) :
    Nat → Nat → Nat → String → Except Fault Bool
  | 0, _, _, _ => .ok true
  | n + 1, i, prev_rank, prev_color =>
    match vecAt col (szAdd base i) with
    | .error e => .error e
    | .ok c =>
      let curn_rank := szOfInt (GetRank c)
      let curnColor := GetColor c
      if curnColor = prev_color ∨ ¬ (prev_rank = szAdd curn_rank 1) then .ok false
      else CheckDescendingPile.loop col base n (szAdd i 1) curn_rank curnColor

/-- The member `Solitaire::CheckDescendingPile`. -/
def CheckDescendingPile (s : Solitaire T) (pile_from : Nat) (amount : Nat) :
    Except Fault Bool :=
  if amount = 1 then .ok true
  else
    match vecAt s.board (szSub pile_from 1) with
    | .error e => .error e
    | .ok col =>
      let board_pile_size := col.length
      match vecAt col (szSub board_pile_size amount) with
      | .error e => .error e
      | .ok c0 =>
        CheckDescendingPile.loop col (szSub board_pile_size amount) (amount - 1) 1
          (szOfInt (GetRank c0)) (GetColor c0)

/-- The member `Solitaire::GetStackSuit`; the final `return -1` is the
`size_t` value `2 ^ 64 - 1`. -/
def GetStackSuit (stack : String) : Nat :=
  if stack = "spade" then 0
  else if stack = "heart" then 1
  else if stack = "club" then 2
  else if stack = "diamond" then 3
  else SIZE_MOD - 1

/-- A game object as constructed: a fresh 52-card deck and no piles. -/
def fresh (T : Type) [PlayingCard T] : Solitaire T :=
  { deck := StandardDeck.fresh T, free := [], board := [], stacks_ := [] }

/-- The loop of `Solitaire::AutoMoveBoard`, with the virtual member
`MoveBoardToStack` as a parameter. The loop test `i < board.size()` is
evaluated before each iteration; `fuel` bounds the number of tests. -/
def AutoMoveBoard.loop (MoveBoardToStack : Solitaire T → Nat → String → Bool →
    Except Fault (Solitaire T)) :
    Nat → Nat → Bool → Solitaire T → Except Fault (Bool × Solitaire T)
  | 0, _, _, _ => .error .noFuel
  | fuel + 1, i, out, s =>
    if i < s.board.length then
      match vecAt s.board i with
      | .error e => .error e
      | .ok col =>
        if !col.isEmpty then
          let size := col.length
          match vecBack col with
          | .error e => .error e
          | .ok c =>
            match MoveBoardToStack s (szAdd i 1) (GetSuit c) true with
            | .error e => .error e
            | .ok s1 =>
              match vecAt s1.board i with
              | .error e => .error e
              | .ok col1 =>
                AutoMoveBoard.loop MoveBoardToStack fuel (szAdd i 1)
                  (decide (col1.length ≠ size) || out) s1
        else AutoMoveBoard.loop MoveBoardToStack fuel (szAdd i 1) out s
    else .ok (out, s)

/-- The member `Solitaire::AutoMoveBoard`: the loop runs over the columns of the
board, so one test more than there are columns is enough fuel. -/
def AutoMoveBoard (MoveBoardToStack : Solitaire T → Nat → String → Bool →
    Except Fault (Solitaire T)) (s : Solitaire T) : Except Fault (Bool × Solitaire T) :=
  AutoMoveBoard.loop MoveBoardToStack (s.board.length + 1) 0 false s

/-- The member `Solitaire::AutoMove`, `do { } while (AutoMoveFree() ||
AutoMoveBoard())`, with the two virtual members as parameters; `fuel` bounds
the number of passes. -/
def AutoMove (AutoMoveFree AutoMoveBoard : Solitaire T → Except Fault (Bool × Solitaire T)) :
    Nat → Solitaire T → Except Fault (Solitaire T)
  | 0, _ => .error .noFuel
  | fuel + 1, s =>
    match AutoMoveFree s with
    | .error e => .error e
    | .ok (true, s1) => AutoMove AutoMoveFree AutoMoveBoard fuel s1
    | .ok (false, s1) =>
      match AutoMoveBoard s1 with
      | .error e => .error e
      | .ok (true, s2) => AutoMove AutoMoveFree AutoMoveBoard fuel s2
      | .ok (false, s2) => .ok s2

/-- The loop of `Solitaire::WinCondition` over the foundations. -/
def WinCondition.loop : List (List T) → Bool
  | [] => true
  | p :: rest => if p.length < 13 then false else WinCondition.loop rest

/-- The member `Solitaire::WinCondition`. -/
def WinCondition (s : Solitaire T) : Bool := WinCondition.loop s.stacks_

end Solitaire

/-! ## The `Freecell` class -/

/-- A Freecell game: `Solitaire<StandardPlayingCard>`. -/
abbrev Freecell := Solitaire StandardPlayingCard

namespace Freecell

open Solitaire (GetStackSuit)

/-- The member `Freecell::CheckPileBounds`. -/
def CheckPileBounds (pile_index : Nat) : Bool :=
  decide (pile_index ≥ 1) && decide (pile_index ≤ 8)

/-- The member `Freecell::CheckCanMoveCardOnCard`. -/
def CheckCanMoveCardOnCard (s : Freecell) (pile_from pile_to amount : Nat) :
    Except Fault Bool := do
  let src ← vecAt s.board (szSub pile_from 1)
  let c ← vecAt src (szSub src.length amount)
  let d ← backAt s.board (szSub pile_to 1)
  sAnd (.ok (decide (GetColor c ≠ GetColor d))) (do
    let r ← intAdd (GetRank c) 1
    pure (decide (GetRank d = r)))

/-- The member `Freecell::CheckMoveAmount`. -/
def CheckMoveAmount (s : Freecell) (pile_to amount : Nat) : Except Fault Bool :=
  let empties := s.board.countP List.isEmpty
  match sOr (.ok (decide (empties = 0)))
      (sAnd (.ok (decide (empties = 1))) (emptyAt s.board (szSub pile_to 1))) with
  | .error e => .error e
  | .ok true => .ok (decide (100000 > szSub (szSub 5 s.free.length) amount))
  | .ok false =>
    .ok (decide (100000 > szSub (szMul (szAdd empties 1) (szSub 5 s.free.length)) amount))

/-- The member `Freecell::CheckCardToStack`. -/
def CheckCardToStack (s : Freecell) (stack_suit index : Nat) : Except Fault Bool := do
  let c ← vecAt s.free (szSub index 1)
  sOr (sAnd (emptyAt s.stacks_ stack_suit) (.ok (decide (GetRank c = 1))))
    (sAnd (sNot (emptyAt s.stacks_ stack_suit)) (do
      let t ← backAt s.stacks_ stack_suit
      let r ← intSub (GetRank c) 1
      pure (decide (GetRank t = r))))

/-- The loop `for (i = n; 0 < i; i--)` that moves the back card of `src` to the
back of `dst`, `n` times. -/
def moveBack {α : Type} : Nat → List α → List α → Except Fault (List α × List α)
  | 0, src, dst => .ok (src, dst)
  | n + 1, src, dst =>
    match vecBack src with
    | .error e => .error e
    | .ok c => moveBack n src.dropLast (dst ++ [c])

/-- The condition of the `if` of `Freecell::MoveBoardToBoard`. -/
def MoveBoardToBoard.test (s : Freecell) (pile_from pile_to amount : Nat) :
    Except Fault Bool :=
  sAnd (.ok (CheckPileBounds pile_from)) <|
  sAnd (.ok (CheckPileBounds pile_to)) <|
  sAnd (s.CheckDescendingPile pile_from amount) <|
  sAnd (sNot (emptyAt s.board (szSub pile_from 1))) <|
  sAnd (.ok (decide (amount ≥ 1))) <|
  sAnd (CheckMoveAmount s pile_to amount) <|
  sAnd (.ok (decide (pile_to ≠ pile_from))) <|
  sOr (emptyAt s.board (szSub pile_to 1)) (CheckCanMoveCardOnCard s pile_from pile_to amount)

/-- The two loops of the `then` branch of `MoveBoardToBoard`: `amount` cards go
from the source column to `temp`, then from `temp` to the destination column. -/
def MoveBoardToBoard.move {α : Type} (board : List (List α)) (pile_from pile_to amount : Nat) :
    Except Fault (List (List α)) := do
  let src ← vecAt board (szSub pile_from 1)
  let (src1, temp) ← moveBack amount src []
  let board1 := board.set (szSub pile_from 1) src1
  let dst ← vecAt board1 (szSub pile_to 1)
  let (_, dst1) ← moveBack amount temp dst
  pure (board1.set (szSub pile_to 1) dst1)

/-- The member `Freecell::MoveBoardToBoard`. -/
def MoveBoardToBoard (s : Freecell) (pile_from pile_to amount : Nat) : Except Fault Freecell :=
  match MoveBoardToBoard.test s pile_from pile_to amount with
  | .error e => .error e
  | .ok false => .ok s
  | .ok true =>
    match MoveBoardToBoard.move s.board pile_from pile_to amount with
    | .error e => .error e
    | .ok b => .ok { s with board := b }

/-- The condition of the `if` of `Freecell::MoveBoardToStack`. -/
def MoveBoardToStack.test (s : Freecell) (pile_from : Nat) (stack : String) :
    Except Fault Bool := do
  let stack_suit := GetStackSuit stack
  let c ← backAt s.board (szSub pile_from 1)
  sAnd (.ok (decide (GetSuit c = stack))) <|
  sOr (sAnd (emptyAt s.stacks_ stack_suit) (.ok (decide (GetRank c = 1))))
    (sAnd (sNot (emptyAt s.stacks_ stack_suit)) (do
      let t ← backAt s.stacks_ stack_suit
      let r ← intSub (GetRank c) 1
      pure (decide (GetRank t = r))))

/-- The member `Freecell::MoveBoardToStack`; the flag `aut` only silences the
error message. -/
def MoveBoardToStack (s : Freecell) (pile_from : Nat) (stack : String) (_aut : Bool) :
    Except Fault Freecell :=
  match MoveBoardToStack.test s pile_from stack with
  | .error e => .error e
  | .ok false => .ok s
  | .ok true => do
    let c ← backAt s.board (szSub pile_from 1)
    let st ← pushAt s.stacks_ (GetStackSuit stack) c
    let b ← popAt s.board (szSub pile_from 1)
    pure { s with stacks_ := st, board := b }

/-- The condition of the `if` of `Freecell::MoveBoardToFree`. -/
def MoveBoardToFree.test (s : Freecell) (pile_from : Nat) : Except Fault Bool :=
  sAnd (sNot (emptyAt s.board (szSub pile_from 1))) (.ok (decide (s.free.length < 4)))

/-- The member `Freecell::MoveBoardToFree`. -/
def MoveBoardToFree (s : Freecell) (pile_from : Nat) : Except Fault Freecell :=
  match MoveBoardToFree.test s pile_from with
  | .error e => .error e
  | .ok false => .ok s
  | .ok true => do
    let c ← backAt s.board (szSub pile_from 1)
    let b ← popAt s.board (szSub pile_from 1)
    pure { s with free := s.free ++ [c], board := b }

/-- The condition of the `if` of `Freecell::MoveFreeToBoard`. -/
def MoveFreeToBoard.test (s : Freecell) (pile_to index : Nat) : Except Fault Bool :=
  sAnd (.ok (!s.free.isEmpty)) <|
  sAnd (.ok (decide (1 ≤ index))) <|
  sAnd (.ok (decide (index ≤ s.free.length))) <|
  sOr (emptyAt s.board (szSub pile_to 1)) (do
    let c ← vecAt s.free (szSub index 1)
    let d ← backAt s.board (szSub pile_to 1)
    sAnd (.ok (decide (GetColor c ≠ GetColor d))) (do
      let r ← intAdd (GetRank c) 1
      pure (decide (r = GetRank d))))

/-- The member `Freecell::MoveFreeToBoard`. -/
def MoveFreeToBoard (s : Freecell) (pile_to index : Nat) : Except Fault Freecell :=
  match MoveFreeToBoard.test s pile_to index with
  | .error e => .error e
  | .ok false => .ok s
  | .ok true => do
    let c ← vecAt s.free (szSub index 1)
    let b ← pushAt s.board (szSub pile_to 1) c
    pure { s with board := b, free := s.free.eraseIdx (szSub index 1) }

/-- The condition of the `if` of `Freecell::MoveFreeToStack`. -/
def MoveFreeToStack.test (s : Freecell) (stack : String) (index : Nat) : Except Fault Bool :=
  sAnd (.ok (!s.free.isEmpty)) <|
  sAnd (.ok (decide (1 ≤ index))) <|
  sAnd (.ok (decide (index ≤ s.free.length))) <|
  sAnd (do
    let c ← vecAt s.free (szSub index 1)
    pure (decide (GetSuit c = stack))) <|
  CheckCardToStack s (GetStackSuit stack) index

/-- The member `Freecell::MoveFreeToStack`; the flag `aut` only silences the
error message. -/
def MoveFreeToStack (s : Freecell) (stack : String) (index : Nat) (_aut : Bool) :
    Except Fault Freecell :=
  match MoveFreeToStack.test s stack index with
  | .error e => .error e
  | .ok false => .ok s
  | .ok true => do
    let c ← vecAt s.free (szSub index 1)
    let st ← pushAt s.stacks_ (GetStackSuit stack) c
    pure { s with stacks_ := st, free := s.free.eraseIdx (szSub index 1) }

/-- The condition of the `if` of `Freecell::MoveStackToBoard`. -/
def MoveStackToBoard.test (s : Freecell) (pile_to : Nat) (stack : String) :
    Except Fault Bool :=
  let stack_suit := GetStackSuit stack
  sAnd (sNot (emptyAt s.stacks_ stack_suit)) <|
  sAnd (sNot (emptyAt s.board (szSub pile_to 1))) <|
  sAnd (.ok (CheckPileBounds pile_to)) <|
  sAnd (do
    let d ← backAt s.board (szSub pile_to 1)
    let t ← backAt s.stacks_ stack_suit
    let r ← intAdd (GetRank t) 1
    pure (decide (GetRank d = r))) <|
  (do
    let d ← backAt s.board (szSub pile_to 1)
    let t ← backAt s.stacks_ stack_suit
    pure (decide (GetColor d ≠ GetColor t)))

/-- The member `Freecell::MoveStackToBoard`. -/
def MoveStackToBoard (s : Freecell) (pile_to : Nat) (stack : String) : Except Fault Freecell :=
  match MoveStackToBoard.test s pile_to stack with
  | .error e => .error e
  | .ok false => .ok s
  | .ok true => do
    let t ← backAt s.stacks_ (GetStackSuit stack)
    let b ← pushAt s.board (szSub pile_to 1) t
    let st ← popAt s.stacks_ (GetStackSuit stack)
    pure { s with board := b, stacks_ := st }

/-- The condition of the `if` of `Freecell::MoveStackToFree`. -/
def MoveStackToFree.test (s : Freecell) (stack : String) : Except Fault Bool :=
  sAnd (sNot (emptyAt s.stacks_ (GetStackSuit stack))) (.ok (decide (s.free.length < 4)))

/-- The member `Freecell::MoveStackToFree`. -/
def MoveStackToFree (s : Freecell) (stack : String) : Except Fault Freecell :=
  match MoveStackToFree.test s stack with
  | .error e => .error e
  | .ok false => .ok s
  | .ok true => do
    let t ← backAt s.stacks_ (GetStackSuit stack)
    let st ← popAt s.stacks_ (GetStackSuit stack)
    pure { s with free := s.free ++ [t], stacks_ := st }

/-- The dealing loop of `Freecell::Deal`; `n` counts the iterations that
remain. Piles hold present cards only, so pushing the absent card that
`DrawOne` returns on an empty deck is reported as a fault. -/
def Deal.loop : Nat → Nat → Freecell → Except Fault Freecell
  | 0, _, s => .ok s
  | n + 1, i, s =>
    match StandardDeck.DrawOne s.deck with
    | (none, _) => .error .nullCard
    | (some c, deck1) =>
      if i < 8 then
        match pushAt (s.board ++ [[]]) i c with
        | .error e => .error e
        | .ok b => Deal.loop n (szAdd i 1) { s with deck := deck1, board := b }
      else
        match pushAt s.board (i % 8) c with
        | .error e => .error e
        | .ok b => Deal.loop n (szAdd i 1) { s with deck := deck1, board := b }

/-- The member `Freecell::Deal`. The outcome of `deck.RandomizeDeck()` (a
`std::shuffle`) is the parameter `shuffled`, a rearrangement of the deck. -/
def Deal (s : Freecell) (shuffled : List StandardPlayingCard) : Except Fault Freecell :=
  Deal.loop shuffled.length 0
    { s with deck := shuffled, free := [], stacks_ := s.stacks_ ++ [[], [], [], []] }

/-- The member `Freecell::AutoMoveFree`: the body of its `for` loop returns in
the first iteration, so only `free[0]` is tried. -/
def AutoMoveFree (s : Freecell) : Except Fault (Bool × Freecell) :=
  let size := s.free.length
  if 0 < szAdd size 1 ∧ !s.free.isEmpty then
    match vecAt s.free 0 with
    | .error e => .error e
    | .ok c =>
      match MoveFreeToStack s (GetSuit c) (szAdd 0 1) true with
      | .error e => .error e
      | .ok s1 => .ok (decide (s1.free.length ≠ size), s1)
  else .ok (false, s)

/-- The member `AutoMoveBoard` as inherited by `Freecell`. -/
def AutoMoveBoard (s : Freecell) : Except Fault (Bool × Freecell) :=
  Solitaire.AutoMoveBoard MoveBoardToStack s

/-- The member `AutoMove` as inherited by `Freecell`; `fuel` bounds the number of
passes of the loop. -/
def AutoMove (fuel : Nat) (s : Freecell) : Except Fault Freecell :=
  Solitaire.AutoMove AutoMoveFree AutoMoveBoard fuel s

end Freecell

/-! ## The `Klondike` class -/

/-- A Klondike game: `Solitaire<PolarStandardPlayingCard>`. The member
`draw_one_game` is written once, in `PlayGame` before `Deal`, and is read
only by `DrawCards`, of which it is a parameter here. -/
abbrev Klondike := Solitaire PolarStandardPlayingCard

namespace Klondike

open Solitaire (GetStackSuit)

/-- The member `Klondike::CheckPileBounds`. -/
def CheckPileBounds (pile_index : Nat) : Bool :=
  decide (pile_index ≥ 1) && decide (pile_index ≤ 7)

/-- The member `Klondike::CheckCardToStack`. -/
def CheckCardToStack (s : Klondike) (stack_suit : Nat) : Except Fault Bool :=
  sOr (sAnd (emptyAt s.stacks_ stack_suit) (do
      let c ← vecBack s.free
      pure (decide (GetRank c = 1))))
    (sAnd (sNot (emptyAt s.stacks_ stack_suit)) (do
      let t ← backAt s.stacks_ stack_suit
      let c ← vecBack s.free
      let r ← intSub (GetRank c) 1
      pure (decide (GetRank t = r))))

/-- The statement `if (!board[i].empty() && !board[i].back()->GetFaceUp())
board[i].back()->FlipCard();`. -/
def flipBackAt (board : List (List PolarStandardPlayingCard)) (i : Nat) :
    Except Fault (List (List PolarStandardPlayingCard)) :=
  match vecAt board i with
  | .error e => .error e
  | .ok col =>
    match col.getLast? with
    | none => .ok board
    | some c => if !GetFaceUp c then .ok (board.set i (col.dropLast ++ [FlipCard c])) else .ok board

/-- The expression `board[pile_from - 1][board[pile_from - 1].size() - amount]`. -/
def runBottom (s : Klondike) (pile_from amount : Nat) : Except Fault PolarStandardPlayingCard := do
  let src ← vecAt s.board (szSub pile_from 1)
  vecAt src (szSub src.length amount)

/-- The condition of the `if` of `Klondike::MoveBoardToBoard`. -/
def MoveBoardToBoard.test (s : Klondike) (pile_from pile_to amount : Nat) :
    Except Fault Bool :=
  sAnd (.ok (CheckPileBounds pile_from)) <|
  sAnd (.ok (CheckPileBounds pile_to)) <|
  sAnd (s.CheckDescendingPile pile_from amount) <|
  sAnd (sNot (emptyAt s.board (szSub pile_from 1))) <|
  sAnd (.ok (decide (1 ≤ amount))) <|
  sAnd (do
    let c ← runBottom s pile_from amount
    pure (GetFaceUp c)) <|
  sOr
    (sAnd (sNot (emptyAt s.board (szSub pile_to 1))) <|
     sAnd (do
       let d ← backAt s.board (szSub pile_to 1)
       let c ← runBottom s pile_from amount
       let r ← intAdd (GetRank c) 1
       pure (decide (GetRank d = r))) <|
     (do
       let c ← runBottom s pile_from amount
       let d ← backAt s.board (szSub pile_to 1)
       pure (decide (GetColor c ≠ GetColor d))))
    (sAnd (emptyAt s.board (szSub pile_to 1)) <|
     sAnd (do
       let c ← runBottom s pile_from amount
       pure (GetFaceUp c)) <|
     (do
       let c ← runBottom s pile_from amount
       pure (decide (GetRank c = 13))))

/-- The member `Klondike::MoveBoardToBoard`. -/
def MoveBoardToBoard (s : Klondike) (pile_from pile_to amount : Nat) : Except Fault Klondike :=
  match MoveBoardToBoard.test s pile_from pile_to amount with
  | .error e => .error e
  | .ok false => .ok s
  | .ok true => do
    let b ← Freecell.MoveBoardToBoard.move s.board pile_from pile_to amount
    let b1 ← flipBackAt b (szSub pile_from 1)
    pure { s with board := b1 }

/-- The condition of the first `if` of `Klondike::MoveFreeToBoard`. -/
def MoveFreeToBoard.test (s : Klondike) (pile_to : Nat) : Except Fault Bool :=
  sAnd (sNot (emptyAt s.board (szSub pile_to 1))) <|
  sAnd (.ok (decide (1 ≤ pile_to) && decide (pile_to ≤ 7))) <|
  sAnd (do
    let d ← backAt s.board (szSub pile_to 1)
    let c ← vecBack s.free
    let r ← intAdd (GetRank c) 1
    pure (decide (GetRank d = r))) <|
  sAnd (do
    let c ← vecBack s.free
    let d ← backAt s.board (szSub pile_to 1)
    pure (decide (GetColor c ≠ GetColor d))) <|
  sAnd (do
    let d ← backAt s.board (szSub pile_to 1)
    pure (GetFaceUp d)) <|
  (do
    let c ← vecBack s.free
    pure (GetFaceUp c))

/-- The condition of the `else if` of `Klondike::MoveFreeToBoard`. -/
def MoveFreeToBoard.testKing (s : Klondike) (pile_to : Nat) : Except Fault Bool :=
  sAnd (emptyAt s.board (szSub pile_to 1)) (do
    let c ← vecBack s.free
    pure (decide (GetRank c = 13)))

/-- The statements `board[pile_to - 1].push_back(std::move(free.back()));
free.pop_back();`. -/
def MoveFreeToBoard.move (s : Klondike) (pile_to : Nat) : Except Fault Klondike := do
  let c ← vecBack s.free
  let b ← pushAt s.board (szSub pile_to 1) c
  pure { s with board := b, free := s.free.dropLast }

/-- The member `Klondike::MoveFreeToBoard`. -/
def MoveFreeToBoard (s : Klondike) (pile_to : Nat) : Except Fault Klondike :=
  match MoveFreeToBoard.test s pile_to with
  | .error e => .error e
  | .ok true => MoveFreeToBoard.move s pile_to
  | .ok false =>
    match MoveFreeToBoard.testKing s pile_to with
    | .error e => .error e
    | .ok true => MoveFreeToBoard.move s pile_to
    | .ok false => .ok s

/-- The condition of the `if` of `Klondike::MoveFreeToStack`. -/
def MoveFreeToStack.test (s : Klondike) (stack : String) : Except Fault Bool :=
  sAnd (do
    let c ← vecBack s.free
    pure (GetFaceUp c)) <|
  sAnd (do
    let c ← vecBack s.free
    pure (decide (GetSuit c = stack))) <|
  CheckCardToStack s (GetStackSuit stack)

/-- The member `Klondike::MoveFreeToStack`; the flag `aut` only silences the
error message. -/
def MoveFreeToStack (s : Klondike) (stack : String) (_aut : Bool) : Except Fault Klondike :=
  match MoveFreeToStack.test s stack with
  | .error e => .error e
  | .ok false => .ok s
  | .ok true => do
    let c ← vecBack s.free
    let st ← pushAt s.stacks_ (GetStackSuit stack) c
    pure { s with stacks_ := st, free := s.free.dropLast }

/-- The condition of the `if` of `Klondike::MoveBoardToStack`. -/
def MoveBoardToStack.test (s : Klondike) (pile_from : Nat) (stack : String) :
    Except Fault Bool := do
  let stack_suit := GetStackSuit stack
  let c ← backAt s.board (szSub pile_from 1)
  sAnd (.ok (decide (GetSuit c = stack))) <|
  sOr (sAnd (emptyAt s.stacks_ stack_suit) (.ok (decide (GetRank c = 1))))
    (sAnd (sNot (emptyAt s.stacks_ stack_suit)) (do
      let t ← backAt s.stacks_ stack_suit
      let r ← intSub (GetRank c) 1
      pure (decide (GetRank t = r))))

/-- The member `Klondike::MoveBoardToStack`; the flag `aut` only silences the
error message. -/
def MoveBoardToStack (s : Klondike) (pile_from : Nat) (stack : String) (_aut : Bool) :
    Except Fault Klondike :=
  match MoveBoardToStack.test s pile_from stack with
  | .error e => .error e
  | .ok false => .ok s
  | .ok true => do
    let c ← backAt s.board (szSub pile_from 1)
    let st ← pushAt s.stacks_ (GetStackSuit stack) c
    let b ← popAt s.board (szSub pile_from 1)
    let b1 ← flipBackAt b (szSub pile_from 1)
    pure { s with stacks_ := st, board := b1 }

/-- The condition of the `if` of `Klondike::MoveStackToBoard`. -/
def MoveStackToBoard.test (s : Klondike) (pile_to : Nat) (stack : String) :
    Except Fault Bool :=
  let stack_suit := GetStackSuit stack
  sAnd (sAnd (sNot (emptyAt s.stacks_ stack_suit)) (sNot (emptyAt s.board (szSub pile_to 1)))) <|
  sAnd (do
    let d ← backAt s.board (szSub pile_to 1)
    let t ← backAt s.stacks_ stack_suit
    let r ← intAdd (GetRank t) 1
    pure (decide (GetRank d = r))) <|
  (do
    let d ← backAt s.board (szSub pile_to 1)
    let t ← backAt s.stacks_ stack_suit
    pure (decide (GetColor d ≠ GetColor t)))

/-- The member `Klondike::MoveStackToBoard`. -/
def MoveStackToBoard (s : Klondike) (pile_to : Nat) (stack : String) : Except Fault Klondike :=
  match MoveStackToBoard.test s pile_to stack with
  | .error e => .error e
  | .ok false => .ok s
  | .ok true => do
    let t ← backAt s.stacks_ (GetStackSuit stack)
    let b ← pushAt s.board (szSub pile_to 1) t
    let st ← popAt s.stacks_ (GetStackSuit stack)
    pure { s with board := b, stacks_ := st }

/-- The loop `while (!free.empty())` of `DrawCards`, which moves the back card
of `free` to `temp` and turns it face-down; `n` bounds the iterations. -/
def DrawCards.recycle : Nat → List PolarStandardPlayingCard → List PolarStandardPlayingCard →
    List PolarStandardPlayingCard × List PolarStandardPlayingCard
  | 0, free, temp => (free, temp)
  | n + 1, free, temp =>
    match free.getLast? with
    | none => (free, temp)
    | some c =>
      DrawCards.recycle n free.dropLast (temp ++ [if GetFaceUp c then FlipCard c else c])

/-- The loop `for (int i = 0; i < draw_amount; i++)` of `DrawCards`; `n` counts
the iterations that remain. Pushing the absent card that `DrawOne` returns on
an empty deck and reading its face is reported as a fault. -/
def DrawCards.draw : Nat → Klondike → Except Fault Klondike
  | 0, s => .ok s
  | n + 1, s =>
    match StandardDeck.DrawOne s.deck with
    | (none, _) => .error .nullCard
    | (some c, deck1) =>
      DrawCards.draw n
        { s with deck := deck1, free := s.free ++ [if !GetFaceUp c then FlipCard c else c] }

/-- The first `if` / `else if` of `Klondike::DrawCards`: the value of
`draw_amount` (initially 3) and the state after it. With fewer than 3 but more
than 0 cards in the deck `draw_amount` becomes the size of the deck; with an
empty deck the waste pile is recycled into the deck (`SetDeck(temp)`) and
`draw_amount` stays 3. -/
def DrawCards.prepare (s : Klondike) : Nat × Klondike :=
  if s.deck.length < 3 ∧ s.deck.length > 0 then (s.deck.length, s)
  else if s.deck.length = 0 then
    let r := DrawCards.recycle s.free.length s.free []
    (3, { s with free := r.1, deck := r.2 })
  else (3, s)

/-- The member `Klondike::DrawCards`. -/
def DrawCards (draw_one_game : Bool) (s : Klondike) : Except Fault Klondike :=
  let p := DrawCards.prepare s
  let draw_amount := if draw_one_game then 1 else p.1
  if !p.2.deck.isEmpty then DrawCards.draw draw_amount p.2 else .ok p.2

/-- The inner loop `for (j = 0; j < i + 1; j++)` of `Klondike::Deal`, which
fills `temp`; `n` counts the iterations that remain. -/
def Deal.column (i : Nat) : Nat → Nat → List PolarStandardPlayingCard →
    List PolarStandardPlayingCard →
    Except Fault (List PolarStandardPlayingCard × List PolarStandardPlayingCard)
  | 0, _, deck, temp => .ok (deck, temp)
  | n + 1, j, deck, temp =>
    match StandardDeck.DrawOne deck with
    | (none, _) => .error .nullCard
    | (some c, deck1) =>
      if i ≠ j then Deal.column i n (szAdd j 1) deck1 (temp ++ [c])
      else Deal.column i n (szAdd j 1) deck1 (temp ++ [FlipCard c])

/-- The outer loop `for (i = 0; i < 7; i++)` of `Klondike::Deal`; `n` counts
the iterations that remain. -/
def Deal.loop : Nat → Nat → Klondike → Except Fault Klondike
  | 0, _, s => .ok s
  | n + 1, i, s =>
    match Deal.column i (szAdd i 1) 0 s.deck [] with
    | .error e => .error e
    | .ok (deck1, temp) =>
      Deal.loop n (szAdd i 1) { s with deck := deck1, board := s.board ++ [temp] }

/-- The member `Klondike::Deal`. The outcome of `deck.RandomizeDeck()` (a
`std::shuffle`) is the parameter `shuffled`, a rearrangement of the deck. -/
def Deal (s : Klondike) (shuffled : List PolarStandardPlayingCard) : Except Fault Klondike :=
  Deal.loop 7 0 { s with deck := shuffled, stacks_ := s.stacks_ ++ [[], [], [], []] }

/-- The member `Klondike::AutoMoveFree`. -/
def AutoMoveFree (s : Klondike) : Except Fault (Bool × Klondike) :=
  let size := s.free.length
  if !s.free.isEmpty then
    match vecBack s.free with
    | .error e => .error e
    | .ok c =>
      match MoveFreeToStack s (GetSuit c) true with
      | .error e => .error e
      | .ok s1 => .ok (decide (s1.free.length ≠ size), s1)
  else .ok (false, s)

/-- The member `AutoMoveBoard` as inherited by `Klondike`. -/
def AutoMoveBoard (s : Klondike) : Except Fault (Bool × Klondike) :=
  Solitaire.AutoMoveBoard MoveBoardToStack s

/-- The member `AutoMove` as inherited by `Klondike`; `fuel` bounds the number of
passes of the loop. -/
def AutoMove (fuel : Nat) (s : Klondike) : Except Fault Klondike :=
  Solitaire.AutoMove AutoMoveFree AutoMoveBoard fuel s

end Klondike

/-- The relation between a card of a run and the card directly beneath it: a
different colour and a rank exactly one lower. -/
def StepsDown {T : Type} [PlayingCard T] (below above : T) : Prop :=
  GetColor above ≠ GetColor below ∧ GetRank above = GetRank below - 1

instance {T : Type} [PlayingCard T] (a b : T) : Decidable (StepsDown a b) :=
  inferInstanceAs (Decidable (GetColor b ≠ GetColor a ∧ GetRank b = GetRank a - 1))

/-- The top `k` cards of a column, read from the `k`-th-from-top card up to the
top, form a descending run of alternating colours. -/
def IsDescendingRun {T : Type} [PlayingCard T] (col : List T) (k : Nat) : Prop :=
  List.Chain' StepsDown (col.drop (col.length - k))

/-- A decision procedure for `List.Chain` that evaluates by plain recursion. -/
def decideChain {α : Type} (R : α → α → Prop) [DecidableRel R] :
    (a : α) → (l : List α) → Decidable (List.Chain R a l)
  | _, [] => isTrue List.Chain.nil
  | a, b :: l =>
    if h1 : R a b then
      match decideChain R b l with
      | isTrue h2 => isTrue (List.Chain.cons h1 h2)
      | isFalse h2 => isFalse (fun h => h2 (List.chain_of_chain_cons h))
    else isFalse (fun h => h1 (List.rel_of_chain_cons h))

/-- A decision procedure for `List.Chain'` that evaluates by plain recursion. -/
def decideChain' {α : Type} (R : α → α → Prop) [DecidableRel R] :
    (l : List α) → Decidable (List.Chain' R l)
  | [] => isTrue List.chain'_nil
  | a :: l => decideChain R a l

instance {T : Type} [PlayingCard T] (col : List T) (k : Nat) :
    Decidable (IsDescendingRun col k) :=
  decideChain' StepsDown (col.drop (col.length - k))

/-- The four suit names. -/
def ValidSuit (u : String) : Prop :=
  u = "spade" ∨ u = "heart" ∨ u = "club" ∨ u = "diamond"

instance (u : String) : Decidable (ValidSuit u) :=
  inferInstanceAs (Decidable (u = "spade" ∨ u = "heart" ∨ u = "club" ∨ u = "diamond"))

/-- The legality rule of a move onto a foundation: the card `c` has suit
`stack`, and either the foundation `st` is empty and `c` is an ace, or the top
rank of `st` is the rank of `c` minus one. -/
def FitsFoundation {T : Type} [PlayingCard T] (c : T) (stack : String) (st : List T) : Prop :=
  GetSuit c = stack ∧
    ((st.length = 0 ∧ GetRank c = 1) ∨ st.getLast?.map GetRank = some (GetRank c - 1))

instance {T : Type} [PlayingCard T] (c : T) (stack : String) (st : List T) :
    Decidable (FitsFoundation c stack st) :=
  inferInstanceAs (Decidable (GetSuit c = stack ∧
    ((st.length = 0 ∧ GetRank c = 1) ∨ st.getLast?.map GetRank = some (GetRank c - 1))))

/-- The card `c` may be placed on the card `d`: opposite colours, and `d` is one
rank higher than `c`. -/
def CanStack {T : Type} [PlayingCard T] (c d : T) : Prop :=
  GetColor c ≠ GetColor d ∧ GetRank d = GetRank c + 1

instance {T : Type} [PlayingCard T] (c d : T) : Decidable (CanStack c d) :=
  inferInstanceAs (Decidable (GetColor c ≠ GetColor d ∧ GetRank d = GetRank c + 1))

/-- The board after the top `amount` cards of column `pile_from` were put, in
their order, on top of column `pile_to` (columns are numbered from 1). -/
def moveRun {α : Type} (board : List (List α)) (pile_from pile_to amount : Nat) :
    List (List α) :=
  let src := board.getD (pile_from - 1) []
  let dst := board.getD (pile_to - 1) []
  (board.set (pile_from - 1) (src.take (src.length - amount))).set (pile_to - 1)
    (dst ++ src.drop (src.length - amount))

/-- The number `empties` of the supermove capacity rule of the spec: the empty
board columns, the destination not counted when it is the only empty one. -/
def Freecell.spareColumns (s : Freecell) (pile_to : Nat) : Nat :=
  let empties := s.board.countP List.isEmpty
  if empties = 1 ∧ (s.board.getD (pile_to - 1) []).length = 0 then 0 else empties

/-- The supermove capacity as the spec states it:
`(free_cells_available + 1) × 2^empties`, which is `free_cells_available + 1`
when no column is empty or the destination is the only empty one, with
`free_cells_available = 4 − free.size()`. -/
def Freecell.statedCapacity (s : Freecell) (pile_to : Nat) : Nat :=
  ((4 - s.free.length) + 1) * 2 ^ Freecell.spareColumns s pile_to

/-- The supermove capacity with the linear bound in the place of the power of
two: `(free_cells_available + 1) × (empties + 1)`. The two bounds agree when at
most one column counts as empty. -/
def Freecell.capacity (s : Freecell) (pile_to : Nat) : Nat :=
  ((4 - s.free.length) + 1) * (Freecell.spareColumns s pile_to + 1)

/-- The legality rule of a Freecell board-to-board move for a given capacity
`cap`, as the spec words it: both indices in [1,8], different columns, a
source of at least `amount ≥ 1` cards whose top `amount` cards form a
descending alternating run, an amount within the capacity, and a destination
that is empty or whose top card takes the bottom card of the run. -/
def Freecell.LegalBoardToBoardWith (cap : Nat) (s : Freecell)
    (pile_from pile_to amount : Nat) : Prop :=
  let src := s.board.getD (pile_from - 1) []
  let dst := s.board.getD (pile_to - 1) []
  (1 ≤ pile_from ∧ pile_from ≤ 8) ∧ (1 ≤ pile_to ∧ pile_to ≤ 8) ∧ pile_from ≠ pile_to ∧
    1 ≤ amount ∧ amount ≤ src.length ∧ IsDescendingRun src amount ∧
    amount ≤ cap ∧
    (dst.length = 0 ∨
      ∃ c d, src[src.length - amount]? = some c ∧ dst.getLast? = some d ∧ CanStack c d)

/-- The legality rule of a Freecell board-to-board move with the capacity the
spec states, `(free_cells_available + 1) × 2^empties`. -/
def Freecell.StatedLegalBoardToBoard (s : Freecell) (pile_from pile_to amount : Nat) : Prop :=
  Freecell.LegalBoardToBoardWith (Freecell.statedCapacity s pile_to) s pile_from pile_to amount

/-- The legality rule of a Freecell board-to-board move with the linear
capacity `(free_cells_available + 1) × (empties + 1)`. -/
def Freecell.LegalBoardToBoard (s : Freecell) (pile_from pile_to amount : Nat) : Prop :=
  Freecell.LegalBoardToBoardWith (Freecell.capacity s pile_to) s pile_from pile_to amount

/-- A column after the Klondike auto-flip: a face-down top card is turned
face-up, nothing else changes. -/
def flipTop (col : List PolarStandardPlayingCard) : List PolarStandardPlayingCard :=
  match col.getLast? with
  | none => col
  | some c => if c.face_up then col else col.dropLast ++ [{ c with face_up := true }]

/-! ## Conservation and foundation order: vocabulary -/

/-- The identity of a card: its (rank, suit) pair; the face of a polar card is
not part of it. -/
def cardId {T : Type} [PlayingCard T] (c : T) : Int × String := (GetRank c, GetSuit c)

/-- How often the pair `a` occurs in a pile. -/
def countIn {T : Type} [PlayingCard T] (a : Int × String) (p : List T) : Nat :=
  (p.map cardId).count a

/-- How often the pair `a` occurs in a vector of piles. -/
def countInPiles {T : Type} [PlayingCard T] (a : Int × String) (ps : List (List T)) : Nat :=
  (ps.map (countIn a)).sum

/-- How often the pair `a` occurs across deck, free pile, board and
foundations. -/
def countCards {T : Type} [PlayingCard T] (a : Int × String) (s : Solitaire T) : Nat :=
  countIn a s.deck + countIn a s.free + countInPiles a s.board + countInPiles a s.stacks_

/-- The 52 (rank, suit) pairs of a fresh deck. -/
def allPairs : List (Int × String) :=
  CardGraphicsAndInfo.suits.flatMap fun suit =>
    CardGraphicsAndInfo.ranks.map fun rank => (rank, suit)

/-- The suit name that `GetStackSuit` maps to the foundation index `i`. -/
def suitOfStack (i : Nat) : String :=
  match i with
  | 0 => "spade"
  | 1 => "heart"
  | 2 => "club"
  | _ => "diamond"

/-- A foundation of suit `u` holds, bottom to top, the ranks 1, 2, ..., n. -/
def OrderedFoundation {T : Type} [PlayingCard T] (u : String) (st : List T) : Prop :=
  ∀ (j : Nat) (c : T), st[j]? = some c → GetRank c = (j : Int) + 1 ∧ GetSuit c = u

/-- Foundation monotonicity: there are four foundations and foundation `i`
holds the ranks 1..n of the suit mapped to `i`. -/
def FoundationsOrdered {T : Type} [PlayingCard T] (fs : List (List T)) : Prop :=
  fs.length = 4 ∧ ∀ (i : Nat) (st : List T), fs[i]? = some st → OrderedFoundation (suitOfStack i) st

/-- One change of the foundations: nothing, a fitting card pushed onto the
foundation of its suit, or the top card of a foundation removed. -/
def StacksStep {T : Type} [PlayingCard T] (fs fs' : List (List T)) : Prop :=
  fs' = fs ∨
  (∃ (stack : String) (st : List T) (c : T), fs[Solitaire.GetStackSuit stack]? = some st ∧
    FitsFoundation c stack st ∧ fs' = fs.set (Solitaire.GetStackSuit stack) (st ++ [c])) ∨
  (∃ (k : Nat) (st : List T), fs[k]? = some st ∧ fs' = fs.set k st.dropLast)

/-- What every move operation guarantees about the state it returns. -/
def Effect {T : Type} [PlayingCard T] (s s' : Solitaire T) : Prop :=
  StacksStep s.stacks_ s'.stacks_ ∧ (∀ a, countCards a s' = countCards a s) ∧
    s'.board.length = s.board.length

/-- A state property that no effect of a move can destroy. -/
def Stable {T : Type} [PlayingCard T] (P : Solitaire T → Prop) : Prop :=
  ∀ s s', Effect s s' → P s → P s'

/-- One call of a Freecell move operation that returns. -/
inductive Freecell.Move : Freecell → Freecell → Prop where
  | boardToBoard (s s' : Freecell) (pile_from pile_to amount : Nat) :
      Freecell.MoveBoardToBoard s pile_from pile_to amount = .ok s' → Freecell.Move s s'
  | boardToStack (s s' : Freecell) (pile_from : Nat) (stack : String) (aut : Bool) :
      Freecell.MoveBoardToStack s pile_from stack aut = .ok s' → Freecell.Move s s'
  | boardToFree (s s' : Freecell) (pile_from : Nat) :
      Freecell.MoveBoardToFree s pile_from = .ok s' → Freecell.Move s s'
  | freeToBoard (s s' : Freecell) (pile_to index : Nat) :
      Freecell.MoveFreeToBoard s pile_to index = .ok s' → Freecell.Move s s'
  | freeToStack (s s' : Freecell) (stack : String) (index : Nat) (aut : Bool) :
      Freecell.MoveFreeToStack s stack index aut = .ok s' → Freecell.Move s s'
  | stackToBoard (s s' : Freecell) (pile_to : Nat) (stack : String) :
      Freecell.MoveStackToBoard s pile_to stack = .ok s' → Freecell.Move s s'
  | stackToFree (s s' : Freecell) (stack : String) :
      Freecell.MoveStackToFree s stack = .ok s' → Freecell.Move s s'
  | autoMove (s s' : Freecell) (fuel : Nat) :
      Freecell.AutoMove fuel s = .ok s' → Freecell.Move s s'

/-- The states a Freecell game can be in: `Deal` on a freshly constructed game,
whatever the shuffle, followed by any sequence of move operations. -/
inductive Freecell.Reachable : Freecell → Prop where
  | deal (shuffled : List StandardPlayingCard) (s : Freecell) :
      shuffled.Perm (StandardDeck.fresh StandardPlayingCard) →
      Freecell.Deal (Solitaire.fresh StandardPlayingCard) shuffled = .ok s →
      Freecell.Reachable s
  | move (s s' : Freecell) : Freecell.Reachable s → Freecell.Move s s' → Freecell.Reachable s'

/-- One call of a Klondike operation that returns, in a game whose draw mode is
`draw_one_game`. -/
inductive Klondike.Move (draw_one_game : Bool) : Klondike → Klondike → Prop where
  | boardToBoard (s s' : Klondike) (pile_from pile_to amount : Nat) :
      Klondike.MoveBoardToBoard s pile_from pile_to amount = .ok s' → Klondike.Move draw_one_game s s'
  | freeToBoard (s s' : Klondike) (pile_to : Nat) :
      Klondike.MoveFreeToBoard s pile_to = .ok s' → Klondike.Move draw_one_game s s'
  | freeToStack (s s' : Klondike) (stack : String) (aut : Bool) :
      Klondike.MoveFreeToStack s stack aut = .ok s' → Klondike.Move draw_one_game s s'
  | boardToStack (s s' : Klondike) (pile_from : Nat) (stack : String) (aut : Bool) :
      Klondike.MoveBoardToStack s pile_from stack aut = .ok s' → Klondike.Move draw_one_game s s'
  | stackToBoard (s s' : Klondike) (pile_to : Nat) (stack : String) :
      Klondike.MoveStackToBoard s pile_to stack = .ok s' → Klondike.Move draw_one_game s s'
  | drawCards (s s' : Klondike) :
      Klondike.DrawCards draw_one_game s = .ok s' → Klondike.Move draw_one_game s s'
  | autoMove (s s' : Klondike) (fuel : Nat) :
      Klondike.AutoMove fuel s = .ok s' → Klondike.Move draw_one_game s s'

/-- The states a Klondike game of draw mode `draw_one_game` can be in: `Deal` on
a freshly constructed game, whatever the shuffle, followed by any sequence of
draws and move operations. -/
inductive Klondike.Reachable (draw_one_game : Bool) : Klondike → Prop where
  | deal (shuffled : List PolarStandardPlayingCard) (s : Klondike) :
      shuffled.Perm (StandardDeck.fresh PolarStandardPlayingCard) →
      Klondike.Deal (Solitaire.fresh PolarStandardPlayingCard) shuffled = .ok s →
      Klondike.Reachable draw_one_game s
  | move (s s' : Klondike) : Klondike.Reachable draw_one_game s →
      Klondike.Move draw_one_game s s' → Klondike.Reachable draw_one_game s'

/-! ## Examples used below -/

/-- A black seven, a red six and a black five, bottom to top. -/
def runExample : List StandardPlayingCard :=
  [⟨7, "spade"⟩, ⟨6, "heart"⟩, ⟨5, "club"⟩]

/-- A state whose first column is `runExample`. -/
def runState : Solitaire StandardPlayingCard :=
  { deck := [], free := [], board := [runExample, [], [], [], [], [], [], []],
    stacks_ := [[], [], [], []] }

/-- A Freecell position: an ace of hearts on top of column 1, the two of spades
on column 2, the ace of spades already on its foundation. -/
def aceState : Freecell :=
  { deck := [], free := [],
    board := [[⟨9, "club"⟩, ⟨1, "heart"⟩], [⟨2, "spade"⟩], [], [], [], [], [], []],
    stacks_ := [[⟨1, "spade"⟩], [], [], []] }

/-- A Klondike position: column 1 holds a face-down nine under a face-up ace of
hearts. -/
def aceStateK : Klondike :=
  { deck := [], free := [],
    board := [[⟨⟨9, "club"⟩, false⟩, ⟨⟨1, "heart"⟩, true⟩], [], [], [], [], [], []],
    stacks_ := [[], [], [], []] }

/-- A Freecell position with two empty columns and no occupied free cell. -/
def twoEmptyState : Freecell :=
  { deck := [], free := [],
    board := [[⟨9, "club"⟩], [⟨2, "spade"⟩], [], [], [⟨5, "heart"⟩], [⟨3, "club"⟩],
      [⟨4, "diamond"⟩], [⟨8, "spade"⟩]],
    stacks_ := [[], [], [], []] }

/-- A Freecell position with one occupied free cell and no empty column; column 1
is a run of five cards that would fit the ten of hearts of column 2. -/
def capacityState : Freecell :=
  { deck := [], free := [⟨1, "club"⟩],
    board := [[⟨9, "spade"⟩, ⟨8, "heart"⟩, ⟨7, "spade"⟩, ⟨6, "heart"⟩, ⟨5, "spade"⟩],
      [⟨10, "heart"⟩], [⟨9, "club"⟩], [⟨13, "diamond"⟩], [⟨13, "club"⟩], [⟨12, "diamond"⟩],
      [⟨3, "club"⟩], [⟨4, "diamond"⟩]],
    stacks_ := [[], [], [], []] }

/-- A Freecell position with all four free cells occupied and two empty columns;
column 1 is a run of four cards that would fit the nine of clubs of column 2. -/
def fullCellsState : Freecell :=
  { deck := [],
    free := [⟨1, "club"⟩, ⟨2, "club"⟩, ⟨3, "heart"⟩, ⟨12, "spade"⟩],
    board := [[⟨8, "heart"⟩, ⟨7, "spade"⟩, ⟨6, "heart"⟩, ⟨5, "spade"⟩], [⟨9, "club"⟩], [], [],
      [⟨13, "club"⟩], [⟨12, "diamond"⟩], [⟨3, "club"⟩], [⟨4, "diamond"⟩]],
    stacks_ := [[], [], [], []] }

/-- A Freecell position in which every kind of move has an illegal instance: all
four free cells are occupied, the spade foundation holds the ace. -/
def blockedState : Freecell :=
  { deck := [],
    free := [⟨5, "club"⟩, ⟨2, "club"⟩, ⟨3, "heart"⟩, ⟨12, "spade"⟩],
    board := [[⟨8, "heart"⟩, ⟨7, "heart"⟩], [⟨9, "club"⟩], [⟨6, "diamond"⟩], [⟨13, "heart"⟩],
      [⟨13, "club"⟩], [⟨12, "diamond"⟩], [⟨3, "club"⟩], [⟨4, "diamond"⟩]],
    stacks_ := [[⟨1, "spade"⟩], [], [], []] }

/-- A state whose first column is a black seven under a black six. -/
def sameColourState : Solitaire StandardPlayingCard :=
  { deck := [], free := [],
    board := [[⟨7, "spade"⟩, ⟨6, "club"⟩], [], [], [], [], [], [], []],
    stacks_ := [[], [], [], []] }

/-- The position dealt from the unshuffled deck. -/
def dealtFreecell : Freecell :=
  { deck := [], free := [],
    board := [
      [⟨13, "diamond"⟩, ⟨5, "diamond"⟩, ⟨10, "club"⟩, ⟨2, "club"⟩, ⟨7, "heart"⟩, ⟨12, "spade"⟩,
        ⟨4, "spade"⟩],
      [⟨12, "diamond"⟩, ⟨4, "diamond"⟩, ⟨9, "club"⟩, ⟨1, "club"⟩, ⟨6, "heart"⟩, ⟨11, "spade"⟩,
        ⟨3, "spade"⟩],
      [⟨11, "diamond"⟩, ⟨3, "diamond"⟩, ⟨8, "club"⟩, ⟨13, "heart"⟩, ⟨5, "heart"⟩, ⟨10, "spade"⟩,
        ⟨2, "spade"⟩],
      [⟨10, "diamond"⟩, ⟨2, "diamond"⟩, ⟨7, "club"⟩, ⟨12, "heart"⟩, ⟨4, "heart"⟩, ⟨9, "spade"⟩,
        ⟨1, "spade"⟩],
      [⟨9, "diamond"⟩, ⟨1, "diamond"⟩, ⟨6, "club"⟩, ⟨11, "heart"⟩, ⟨3, "heart"⟩, ⟨8, "spade"⟩],
      [⟨8, "diamond"⟩, ⟨13, "club"⟩, ⟨5, "club"⟩, ⟨10, "heart"⟩, ⟨2, "heart"⟩, ⟨7, "spade"⟩],
      [⟨7, "diamond"⟩, ⟨12, "club"⟩, ⟨4, "club"⟩, ⟨9, "heart"⟩, ⟨1, "heart"⟩, ⟨6, "spade"⟩],
      [⟨6, "diamond"⟩, ⟨11, "club"⟩, ⟨3, "club"⟩, ⟨8, "heart"⟩, ⟨13, "spade"⟩, ⟨5, "spade"⟩]],
    stacks_ := [[], [], [], []] }

/-- The won Freecell position: every foundation holds its thirteen cards. -/
def wonFreecell : Freecell :=
  { deck := [], free := [], board := [[], [], [], [], [], [], [], []],
    stacks_ := CardGraphicsAndInfo.suits.map fun suit =>
      CardGraphicsAndInfo.ranks.map fun rank => ⟨rank, suit⟩ }

/-- The won position without the king of diamonds, which lies on column 1:
foundation sizes 13, 13, 13, 12. -/
def almostWonFreecell : Freecell :=
  { wonFreecell with
    board := [[⟨13, "diamond"⟩], [], [], [], [], [], [], []],
    stacks_ := wonFreecell.stacks_.set 3 ((wonFreecell.stacks_.getD 3 []).dropLast) }

/-- The won position after the king of diamonds went to a free cell. -/
def kingFreeFreecell : Freecell :=
  { wonFreecell with
    free := [⟨13, "diamond"⟩],
    stacks_ := wonFreecell.stacks_.set 3 ((wonFreecell.stacks_.getD 3 []).dropLast) }

/-- The Klondike position dealt from the fresh deck turned upside down, so that
the ace of spades is dealt first; the fresh game stands in if `Deal` faults. -/
def dealtKlondike : Klondike :=
  match Klondike.Deal (Solitaire.fresh PolarStandardPlayingCard)
      (StandardDeck.fresh PolarStandardPlayingCard).reverse with
  | .ok s => s
  | .error _ => Solitaire.fresh PolarStandardPlayingCard

/-- The Klondike position after the ace of spades of column 1 went to its
foundation. -/
def aceKlondike : Klondike :=
  match Klondike.MoveBoardToStack dealtKlondike 1 "spade" false with
  | .ok s => s
  | .error _ => dealtKlondike

/-- The Freecell position reached from `dealtFreecell` by four moves to the
free cells: the seven of spades and the two of hearts of column 6, then the six
of spades and the ace of hearts of column 7. -/
def stuckFreecell : Freecell :=
  { dealtFreecell with
    free := [⟨7, "spade"⟩, ⟨2, "heart"⟩, ⟨6, "spade"⟩, ⟨1, "heart"⟩],
    board := (dealtFreecell.board.set 5
        [⟨8, "diamond"⟩, ⟨13, "club"⟩, ⟨5, "club"⟩, ⟨10, "heart"⟩]).set 6
        [⟨7, "diamond"⟩, ⟨12, "club"⟩, ⟨4, "club"⟩, ⟨9, "heart"⟩] }

/-- The position in which `AutoMove` leaves `stuckFreecell`: the spades from the
ace to the five went from the board to their foundation, the four free cells
are as before. -/
def restFreecell : Freecell :=
  { deck := [],
    free := [⟨7, "spade"⟩, ⟨2, "heart"⟩, ⟨6, "spade"⟩, ⟨1, "heart"⟩],
    board := [
      [⟨13, "diamond"⟩, ⟨5, "diamond"⟩, ⟨10, "club"⟩, ⟨2, "club"⟩, ⟨7, "heart"⟩, ⟨12, "spade"⟩],
      [⟨12, "diamond"⟩, ⟨4, "diamond"⟩, ⟨9, "club"⟩, ⟨1, "club"⟩, ⟨6, "heart"⟩, ⟨11, "spade"⟩],
      [⟨11, "diamond"⟩, ⟨3, "diamond"⟩, ⟨8, "club"⟩, ⟨13, "heart"⟩, ⟨5, "heart"⟩, ⟨10, "spade"⟩],
      [⟨10, "diamond"⟩, ⟨2, "diamond"⟩, ⟨7, "club"⟩, ⟨12, "heart"⟩, ⟨4, "heart"⟩, ⟨9, "spade"⟩],
      [⟨9, "diamond"⟩, ⟨1, "diamond"⟩, ⟨6, "club"⟩, ⟨11, "heart"⟩, ⟨3, "heart"⟩, ⟨8, "spade"⟩],
      [⟨8, "diamond"⟩, ⟨13, "club"⟩, ⟨5, "club"⟩, ⟨10, "heart"⟩],
      [⟨7, "diamond"⟩, ⟨12, "club"⟩, ⟨4, "club"⟩, ⟨9, "heart"⟩],
      [⟨6, "diamond"⟩, ⟨11, "club"⟩, ⟨3, "club"⟩, ⟨8, "heart"⟩, ⟨13, "spade"⟩]],
    stacks_ := [[⟨1, "spade"⟩, ⟨2, "spade"⟩, ⟨3, "spade"⟩, ⟨4, "spade"⟩, ⟨5, "spade"⟩],
      [], [], []] }

/-! ## Further legality rules, layouts and positions -/

/-- The legality rule of a Freecell free-cell-to-board move as the spec words
it: a valid free-cell index, and a destination that is empty or whose top card
has the opposite colour and a rank one higher than the chosen card. -/
def Freecell.LegalFreeToBoard (s : Freecell) (pile_to index : Nat) : Prop :=
  let dst := s.board.getD (pile_to - 1) []
  1 ≤ index ∧ index ≤ s.free.length ∧
    (dst.length = 0 ∨
      ∃ c d, s.free[index - 1]? = some c ∧ dst.getLast? = some d ∧
        GetColor c ≠ GetColor d ∧ GetRank c + 1 = GetRank d)

/-- The legality rule of a Freecell foundation-to-board move as the spec words
it: `t` is the top card of the foundation, `d` the top card of the destination,
`d` is one rank higher than `t` and of the opposite colour. -/
def Freecell.LegalStackToBoard (st dst : List StandardPlayingCard) : Prop :=
  ∃ t d, st.getLast? = some t ∧ dst.getLast? = some d ∧
    GetRank d = GetRank t + 1 ∧ GetColor d ≠ GetColor t

/-- A Freecell position whose spade foundation holds the ace: column 1 ends in
the two of hearts, column 2 in the two of clubs, column 3 is empty. -/
def foundationState : Freecell :=
  { deck := [], free := [],
    board := [[⟨9, "club"⟩, ⟨2, "heart"⟩], [⟨2, "club"⟩], [], [⟨13, "heart"⟩],
      [⟨13, "club"⟩], [⟨12, "diamond"⟩], [⟨3, "club"⟩], [⟨4, "diamond"⟩]],
    stacks_ := [[⟨1, "spade"⟩], [], [], []] }

/-- The card at depth `k / 8` of column `k % 8` of a board: the place the spec
gives to the `k`-th card dealt in Freecell. -/
def dealtAt {α : Type} (board : List (List α)) (k : Nat) : Option α :=
  (board[k % 8]?).bind fun col => col[k / 8]?

/-- The layout the spec describes for a board onto which the cards `drawn` were
dealt, in that order: a column for each of the first eight cards, the `k`-th
card at depth `k / 8` of column `k % 8`, and nothing else. -/
def DealtLayout {α : Type} (board : List (List α)) (drawn : List α) : Prop :=
  board.length = min drawn.length 8 ∧
  (∀ j col, board[j]? = some col → col.length = (drawn.length + 7 - j) / 8) ∧
  (∀ k, k < drawn.length → dealtAt board k = drawn[k]?)

/-- The legality rule of a Klondike board-to-board move as the spec words it,
for indices in [1,7] and `1 ≤ amount ≤` size of the source: the top `amount`
cards of the source form a descending alternating run, the bottom card `c` of
that run is face-up, and either the destination has a top card `d` one rank
higher than `c` and of the opposite colour, or the destination is empty and
`c` is a king. -/
def Klondike.LegalBoardToBoard (s : Klondike) (pile_from pile_to amount : Nat) : Prop :=
  let src := s.board.getD (pile_from - 1) []
  let dst := s.board.getD (pile_to - 1) []
  IsDescendingRun src amount ∧
    ∃ c, src[src.length - amount]? = some c ∧ c.face_up = true ∧
      ((∃ d, dst.getLast? = some d ∧ GetRank d = GetRank c + 1 ∧ GetColor c ≠ GetColor d) ∨
        (dst.length = 0 ∧ GetRank c = 13))

/-- The board after a successful Klondike board-to-board move: the run is moved
and the card uncovered on the source column is turned face-up. -/
def Klondike.movedBoard (board : List (List PolarStandardPlayingCard))
    (pile_from pile_to amount : Nat) : List (List PolarStandardPlayingCard) :=
  let src := board.getD (pile_from - 1) []
  (moveRun board pile_from pile_to amount).set (pile_from - 1)
    (flipTop (src.take (src.length - amount)))

/-- A Klondike position: column 1 holds a face-down eight of diamonds under the
face-up run seven of spades, six of hearts, five of clubs; column 3 is empty;
column 4 holds a face-down four of clubs under the face-up king of hearts. -/
def flipStateK : Klondike :=
  { deck := [], free := [],
    board := [[⟨⟨8, "diamond"⟩, false⟩, ⟨⟨7, "spade"⟩, true⟩, ⟨⟨6, "heart"⟩, true⟩,
        ⟨⟨5, "club"⟩, true⟩],
      [⟨⟨8, "heart"⟩, true⟩], [], [⟨⟨4, "club"⟩, false⟩, ⟨⟨13, "heart"⟩, true⟩],
      [⟨⟨9, "spade"⟩, true⟩], [⟨⟨2, "diamond"⟩, true⟩], [⟨⟨3, "club"⟩, true⟩]],
    stacks_ := [[], [], [], []] }

/-- The number of cards the spec lets `DrawCards` draw from a deck of `n` cards:
one in draw-one mode, three in draw-three mode, all `n` when `n < 3`. -/
def Klondike.drawCount (draw_one_game : Bool) (n : Nat) : Nat :=
  if draw_one_game then 1 else min 3 n

/-- The claim that a recycle makes the card drawn last (the top of the waste
pile) the first card to be redrawn: the card `DrawOne` takes from the recycled
deck is the old top of the waste pile, face-down. -/
def Klondike.RedrawsLastDrawn (s : Klondike) : Prop :=
  (StandardDeck.DrawOne (Klondike.DrawCards.prepare s).2.deck).1 =
    s.free.getLast?.map fun c => { c with face_up := false }

/-- A Klondike position with an empty deck and a waste pile of three cards: the
ace of spades was drawn first, the queen of hearts last. -/
def wasteStateK : Klondike :=
  { deck := [],
    free := [⟨⟨1, "spade"⟩, true⟩, ⟨⟨7, "club"⟩, true⟩, ⟨⟨12, "heart"⟩, true⟩],
    board := [[⟨⟨9, "club"⟩, true⟩], [], [], [], [], [], []],
    stacks_ := [[], [], [], []] }

/-- A Klondike position with a deck of four cards, the two of diamonds on top,
and a waste pile of one card. -/
def stockStateK : Klondike :=
  { deck := [⟨⟨1, "spade"⟩, false⟩, ⟨⟨7, "club"⟩, false⟩, ⟨⟨12, "heart"⟩, false⟩,
      ⟨⟨2, "diamond"⟩, false⟩],
    free := [⟨⟨5, "spade"⟩, true⟩],
    board := [[⟨⟨9, "club"⟩, true⟩], [], [], [], [], [], []],
    stacks_ := [[], [], [], []] }

/-- A sequence of `n` calls of `DrawCards`. -/
def Klondike.drawTimes (draw_one_game : Bool) : Nat → Klondike → Except Fault Klondike
  | 0, s => .ok s
  | n + 1, s =>
    match Klondike.DrawCards draw_one_game s with
    | .error e => .error e
    | .ok s1 => Klondike.drawTimes draw_one_game n s1

/-- The Klondike position reached from `dealtKlondike` by drawing, one card at a
time, the 24 cards of the deck: the deck is empty, the waste pile holds 24
cards. -/
def drawnOutKlondike : Klondike :=
  match Klondike.drawTimes true 24 dealtKlondike with
  | .ok s => s
  | .error _ => dealtKlondike

/-! ## Executing an input -/

/-- Modelled from the C++ standard library, which is not among the sources:
`std::stoul(str)` in base 10. Leading white space is skipped (the characters
of `std::isspace`: space, tab, line feed, vertical tab, form feed, carriage
return), a sign may follow, then the longest run of decimal digits is read. The result is `none`
when `std::stoul` throws: no digit (`std::invalid_argument`) or a value that
does not fit `unsigned long` (`std::out_of_range`). A minus sign negates the
value in `unsigned long`. -/
def stoul (str : String) : Option Nat :=
  let cs := str.toList.dropWhile fun ch =>
    ch.isWhitespace || ch.toNat == 11 || ch.toNat == 12
  let signed : Bool × List Char :=
    match cs with
    | ch :: rest => if ch = '-' then (true, rest) else if ch = '+' then (false, rest)
                    else (false, cs)
    | [] => (false, cs)
  let digits := signed.2.takeWhile fun ch => ch.isDigit
  if digits.isEmpty then none
  else
    let v := digits.foldl (fun acc ch => 10 * acc + (ch.toNat - 48)) 0
    if v ≥ SIZE_MOD then none
    else some (if signed.1 then (SIZE_MOD - v) % SIZE_MOD else v)

/-- The function `Util::CStrToInt`: the value of `std::stoul`, and `-1` as a
`size_t` when it throws. -/
def Util.CStrToInt (str : String) : Nat :=
  match stoul str with
  | some number => number
  | none => SIZE_MOD - 1

/-- The member `Freecell::ExecuteAction`. Reading `inputs[0..2]` of a shorter
vector is a fault; the branches that only print return the state. -/
def Freecell.ExecuteAction (s : Freecell) (inputs : List String) : Except Fault Freecell := do
  let input1 ← vecAt inputs 0
  let input2 ← vecAt inputs 1
  let input3 ← vecAt inputs 2
  if input1 = "free" then
    if input3 = "stack" ∧ !s.free.isEmpty then do
      let index := Util.CStrToInt input2
      let c ← vecBack s.free
      Freecell.MoveFreeToStack s (GetSuit c) index false
    else if !s.free.isEmpty then
      let index := Util.CStrToInt input2
      let pile := Util.CStrToInt input3
      Freecell.MoveFreeToBoard s pile index
    else .ok s
  else if input1 = "stack" then
    let stack_suit := Solitaire.GetStackSuit input2
    match sNot (emptyAt s.stacks_ stack_suit) with
    | .error e => .error e
    | .ok true =>
      let pile := Util.CStrToInt input3
      Freecell.MoveStackToBoard s pile input2
    | .ok false => .ok s
  else
    let pile1 := Util.CStrToInt input1
    match sAnd (.ok (decide (input2 = "stack"))) (sNot (emptyAt s.board (szSub pile1 1))) with
    | .error e => .error e
    | .ok true => do
      let c ← backAt s.board (szSub pile1 1)
      Freecell.MoveBoardToStack s pile1 (GetSuit c) false
    | .ok false =>
      match sAnd (.ok (decide (input2 = "free"))) (sNot (emptyAt s.board (szSub pile1 1))) with
      | .error e => .error e
      | .ok true => Freecell.MoveBoardToFree s pile1
      | .ok false =>
        match sNot (emptyAt s.board (szSub pile1 1)) with
        | .error e => .error e
        | .ok true =>
          let pile2 := Util.CStrToInt input2
          let amount := Util.CStrToInt input3
          Freecell.MoveBoardToBoard s pile1 pile2 amount
        | .ok false => .ok s

/-- The Freecell position reached from `dealtFreecell` by three moves to the
free cells: the six of spades and the ace of hearts of column 7, then the seven
of spades of column 6. -/
def mixedFreecell : Freecell :=
  { dealtFreecell with
    free := [⟨6, "spade"⟩, ⟨1, "heart"⟩, ⟨7, "spade"⟩],
    board := (dealtFreecell.board.set 6
        [⟨7, "diamond"⟩, ⟨12, "club"⟩, ⟨4, "club"⟩, ⟨9, "heart"⟩]).set 5
        [⟨8, "diamond"⟩, ⟨13, "club"⟩, ⟨5, "club"⟩, ⟨10, "heart"⟩, ⟨2, "heart"⟩] }

/-! ## The automatic moves: vocabulary -/

/-- The number of cards that are not on a foundation and that the automatic
moves can reach: the cards of the free (or waste) pile and of the board. -/
def looseCards {T : Type} (s : Solitaire T) : Nat :=
  s.free.length + (s.board.map List.length).sum

/-- The number of cards on the foundations. -/
def stackCards {T : Type} (s : Solitaire T) : Nat :=
  (s.stacks_.map List.length).sum

/-- A state on which the automatic moves index no vector out of bounds and
overflow no `int`: there are four foundations, a `size_t` can index the board,
every card of the free pile and of the board has one of the four suit names,
and for every such card the difference `rank - 1` is an `int` value. -/
def AutoReady {T : Type} [PlayingCard T] (s : Solitaire T) : Prop :=
  s.stacks_.length = 4 ∧ s.board.length < SIZE_MOD ∧
    (∀ c ∈ s.free, ValidSuit (GetSuit c)) ∧
    (∀ col ∈ s.board, ∀ c ∈ col, ValidSuit (GetSuit c)) ∧
    (∀ c ∈ s.free, IsInt32 (GetRank c - 1)) ∧ ∀ col ∈ s.board, ∀ c ∈ col, IsInt32 (GetRank c - 1)

/-- Exactly one card went from the free pile or the board onto a foundation. -/
def CardGained {T : Type} [PlayingCard T] (s s' : Solitaire T) : Prop :=
  AutoReady s' ∧ s'.board.length = s.board.length ∧
    looseCards s' + 1 = looseCards s ∧ stackCards s' = stackCards s + 1

/-- At least one card went onto a foundation, and none came back: the
foundations hold strictly more cards, the free pile and the board strictly
fewer. -/
def Gained {T : Type} [PlayingCard T] (s s' : Solitaire T) : Prop :=
  stackCards s < stackCards s' ∧ looseCards s' < looseCards s

/-- What one pass of `AutoMoveFree` or `AutoMoveBoard`, started in `s` and
returning the flag `r.1` and the state `r.2`, has done: the state is ready
again, no card was lost, a `false` flag comes with an unchanged state and a
`true` flag with strictly fewer cards on the free pile and the board. -/
def PassOutcome {T : Type} [PlayingCard T] (s : Solitaire T) (r : Bool × Solitaire T) : Prop :=
  AutoReady r.2 ∧ looseCards r.2 + stackCards r.2 = looseCards s + stackCards s ∧
    (r.1 = false → r.2 = s) ∧ (r.1 = true → looseCards r.2 < looseCards s)

/-! ## The `StandardDeck` class: splitting, recombining, cutting, riffling -/

namespace StandardDeck

/-- The value of the member `StandardDeck::Split`: the first `mid` cards of the
deck, from its bottom, and the others. For `mid` greater than the size of the
deck the subtraction `deck.size() - mid` wraps around and `reserve` throws
`std::length_error` (as does `reserve(mid)` when it is `mid` that exceeds
`max_size()`), before any card is moved; the call then has no value. The deck
that the call leaves behind is `Split.deck`. -/
def Split {T : Type} (deck : List T) (mid : Nat) : Except Fault (List T × List T) :=
  if deck.length < mid then .error .lengthError
  else .ok (deck.take mid, deck.drop mid)

/-- The member `deck` after a call of `Split`. When the call returns, every card
was moved to one of the two piles and `deck.clear()` was called. When `reserve`
throws, the two statements `reserve` are the first to touch anything: no card
was moved and the deck is as before. -/
def Split.deck {T : Type} (deck : List T) (mid : Nat) : List T :=
  if deck.length < mid then deck else []

/-- The loop `for (size_t i = add; i < total + add; i++)` of
`PutHalvesTogether`; `n` counts the iterations that remain, `k` the calls of
`dist1(rng)` made so far, whose outcomes are `rng 0`, `rng 1`, ... The operator
`||` calls `dist1(rng)` only when the test for a perfect riffle failed and the
type is "random". The cases `[]` are not reached: the size was tested. -/
def PutHalvesTogether.loop {T : Type} (type_input down_first_input : String)
    (rng : Nat → Nat) : Nat → Nat → Nat → List T → List T → List T → List T
  | 0, _, _, _, _, out => out
  | n + 1, i, k, first, second, out =>
    let perfect : Bool := decide (type_input = "perfect") && decide (i % 2 = 0)
    let draws : Bool := !perfect && decide (type_input = "random")
    let random : Bool := draws && decide (rng k = 0)
    let k1 := if draws then k + 1 else k
    if (perfect || random || (decide (down_first_input = "bottom") && decide (i = 0)) ||
        decide (second.length = 0)) && decide (first.length > 0) then
      match first with
      | x :: rest => PutHalvesTogether.loop type_input down_first_input rng n (szAdd i 1) k1
          rest second (out ++ [x])
      | [] => PutHalvesTogether.loop type_input down_first_input rng n (szAdd i 1) k1
          first second out
    else if second.length > 0 then
      match second with
      | x :: rest => PutHalvesTogether.loop type_input down_first_input rng n (szAdd i 1) k1
          first rest (out ++ [x])
      | [] => PutHalvesTogether.loop type_input down_first_input rng n (szAdd i 1) k1
          first second out
    else PutHalvesTogether.loop type_input down_first_input rng n (szAdd i 1) k1
      first second out

/-- The member `StandardDeck::PutHalvesTogether`. The outcomes of the calls of
`dist1(rng)` are `rng 0`, `rng 1`, ...; the first one is used for
`down_first_input == "random"`. -/
def PutHalvesTogether {T : Type} (halves : List T × List T)
    (type_input down_first_input : String) (rng : Nat → Nat) : List T :=
  let total := szAdd halves.1.length halves.2.length
  if type_input = "cut" then halves.2 ++ halves.1
  else
    let draws : Bool := decide (down_first_input ≠ "top") && decide (down_first_input = "random")
    let add : Nat :=
      if down_first_input = "top" ∨ (down_first_input = "random" ∧ rng 0 = 1) then 1 else 0
    PutHalvesTogether.loop type_input down_first_input rng (szAdd total add - add) add
      (if draws then 1 else 0) halves.1 halves.2 []

/-- The member `StandardDeck::Cut`, followed by `SetDeck`: the deck after the
call. The test `mid < 0` of the source is never true of a `size_t`. In the
branch "cut" `PutHalvesTogether` draws no random number. The index that reaches
`Split` is at most the size of the deck, so that `Split` does not throw. -/
def Cut {T : Type} (deck : List T) (mid : Nat) : Except Fault (List T) :=
  let mid1 := if mid ≥ deck.length then deck.length / 2 else mid
  match Split deck mid1 with
  | .error e => .error e
  | .ok halves => .ok (PutHalvesTogether halves "cut" "random" fun _ => 0)

/-- The member `StandardDeck::Riffle`, followed by `SetDeck`: the deck that the
call installs when it returns. The test `mid < 0` of the source is never true
of a `size_t`. `rngR 0` is the outcome of the call of `dist1(rng)` in `Riffle`,
`rngP` gives the outcomes in `PutHalvesTogether`, which seeds a generator of its
own. When `Split` throws the call ends there and installs nothing; the deck
after the call is `Riffle.deck` in both cases. -/
def Riffle {T : Type} (deck : List T) (mid : Nat) (down_first_input type_input : String)
    (rngR rngP : Nat → Nat) : Except Fault (List T) :=
  if down_first_input = "bottom" ∨ (down_first_input = "random" ∧ rngR 0 = 0) then
    match Split deck mid with
    | .error e => .error e
    | .ok halves => .ok (PutHalvesTogether halves type_input "bottom" rngP)
  else
    match Split deck mid with
    | .error e => .error e
    | .ok halves => .ok (PutHalvesTogether halves type_input "top" rngP)

/-- The member `deck` after a call of `Riffle`: the pile given to `SetDeck` when
the call returns, and the deck as `Split` left it when `Split` throws, since
`PutHalvesTogether` and `SetDeck` are then not reached. -/
def Riffle.deck {T : Type} (deck : List T) (mid : Nat) (down_first_input type_input : String)
    (rngR rngP : Nat → Nat) : List T :=
  match Riffle deck mid down_first_input type_input rngR rngP with
  | .ok deck1 => deck1
  | .error _ => Split.deck deck mid

/-- The member `StandardDeck::RandomizeDeck`: `std::shuffle` rearranges the
deck; `shuffle` is the rearrangement it makes. -/
def RandomizeDeck {T : Type} (deck : List T) (shuffle : List T → List T) : List T :=
  shuffle deck

end StandardDeck

/-! ## The layout dealt by Klondike: vocabulary -/

/-- The number of cards in the columns before column `i` of the triangle:
0 + 1 + ... + `i`. -/
def tri : Nat → Nat
  | 0 => 0
  | i + 1 => tri i + (i + 1)

/-- A run of cards dealt onto a column, the last one turned over. -/
def lastFlipped (seg : List PolarStandardPlayingCard) : List PolarStandardPlayingCard :=
  seg.dropLast ++ seg.getLast?.toList.map FlipCard

/-- Column `i` (from 0) of the triangle the spec describes, dealt from the cards
`drawn` in the order in which they are drawn: the `i + 1` cards that follow the
first `tri i`, the last of them turned over. -/
def Klondike.dealtColumn (drawn : List PolarStandardPlayingCard) (i : Nat) :
    List PolarStandardPlayingCard :=
  lastFlipped ((drawn.drop (tri i)).take (i + 1))

/-- The number of cards of the deck and the waste pile of Klondike together. -/
def stockCards (s : Klondike) : Nat := s.deck.length + s.free.length

/-- The Klondike position reached from `dealtKlondike` by two calls of
`DrawCards` in draw-three mode: six cards lie on the waste pile. -/
def drawnTwiceKlondike : Klondike :=
  match Klondike.drawTimes false 2 dealtKlondike with
  | .ok s => s
  | .error _ => dealtKlondike

/-! ## Reading an input -/

namespace Freecell

/-- A loop `do { std::cin >> input; } while (input != ... )` of `GetInput` on
the words still to be read: the first word that is one of `accepted`, and the
words after it. When the words run out the loop never ends, which is reported
as `noFuel`. -/
def GetInput.read (accepted : List String) : List String → Except Fault (String × List String)
  | [] => .error .noFuel
  | w :: rest => if w ∈ accepted then .ok (w, rest) else GetInput.read accepted rest

/-- The loop of `GetInput` that reads the amount: `do { std::cin >> input3;
amount = Util::CStrToInt(input3); } while (amount <= 0 ||
board[pile - 1].size() < amount)`. -/
def GetInput.readAmount (s : Freecell) (pile : Nat) :
    List String → Except Fault (String × List String)
  | [] => .error .noFuel
  | w :: rest =>
    let amount := Util.CStrToInt w
    if amount ≤ 0 then GetInput.readAmount s pile rest
    else
      match vecAt s.board (szSub pile 1) with
      | .error e => .error e
      | .ok col =>
        if col.length < amount then GetInput.readAmount s pile rest else .ok (w, rest)

/-- The member `Freecell::GetInput` on the words typed: the state (which the
command "auto" changes), the three inputs, and the words not yet read. `fuel`
bounds the passes of `AutoMove`. -/
def GetInput (fuel : Nat) (s : Freecell) (words : List String) :
    Except Fault (Freecell × List String × List String) := do
  let (input1, words1) ← GetInput.read
    ["free", "stack", "8", "1", "2", "3", "4", "5", "6", "7", "exit", "e", "stop", "s",
      "auto", "a"] words
  if input1 = "auto" ∨ input1 = "a" then do
    let s1 ← AutoMove fuel s
    pure (s1, [input1, "", ""], words1)
  else if input1 = "free" then do
    let (input2, words2) ← GetInput.read ["1", "2", "3", "4", "exit", "e", "stop", "s"] words1
    let (input3, words3) ← GetInput.read
      ["stack", "7", "8", "1", "2", "3", "4", "5", "6", "exit", "e", "stop", "s"] words2
    pure (s, [input1, input2, input3], words3)
  else if input1 = "stack" then do
    let (input2, words2) ← GetInput.read
      ["spade", "heart", "club", "diamond", "exit", "e", "stop", "s"] words1
    if input2 = "exit" ∨ input2 = "e" ∨ input2 = "stop" ∨ input2 = "s" then
      pure (s, [input1, input2, ""], words2)
    else do
      let (input3, words3) ← GetInput.read
        ["7", "1", "2", "3", "4", "5", "6", "exit", "e", "stop", "s"] words2
      pure (s, [input1, input2, input3], words3)
  else if input1 ∈ ["7", "8", "1", "2", "3", "4", "5", "6"] then do
    let (input2, words2) ← GetInput.read
      ["free", "8", "7", "stack", "1", "2", "3", "4", "5", "6", "exit", "e", "stop", "s"] words1
    if input2 = "stack" ∨ input2 = "free" ∨ input2 = "exit" ∨ input2 = "e" ∨
        input2 = "stop" ∨ input2 = "s" then
      pure (s, [input1, input2, ""], words2)
    else if input1 ∈ ["7", "8", "1", "2", "3", "4", "5", "6"] then do
      let pile := Util.CStrToInt input1
      let (input3, words3) ← GetInput.readAmount s pile words2
      pure (s, [input1, input2, input3], words3)
    else pure (s, [input1, input2, ""], words2)
  else pure (s, [input1, "", ""], words1)

/-- The member `GetInputAndExecuteAction` as inherited by `Freecell`: its
result, the state, and the words not yet read. -/
def GetInputAndExecuteAction (fuel : Nat) (s : Freecell) (words : List String) :
    Except Fault (Bool × Freecell × List String) := do
  let (s1, inputs, rest) ← GetInput fuel s words
  if "e" ∈ inputs ∨ "exit" ∈ inputs then pure (false, s1, rest)
  else if "s" ∈ inputs ∨ "stop" ∈ inputs then pure (true, s1, rest)
  else do
    let s2 ← ExecuteAction s1 inputs
    pure (true, s2, rest)

end Freecell

/-! ## The `War` class -/

/-- The member `hands` of the class `War`: `first` is the hand of the computer,
the opponent, and `second` the hand of the player. The top card of a hand is
its last element. -/
structure War where
  first : List StandardPlayingCard
  second : List StandardPlayingCard
  deriving DecidableEq, Repr

namespace War

/-- The member `War::Deal`: a new deck is shuffled and split at 26. The outcome
of `std::shuffle` is the parameter `shuffle`. -/
def Deal (shuffle : List StandardPlayingCard → List StandardPlayingCard) : Except Fault War :=
  match StandardDeck.Split
      (StandardDeck.RandomizeDeck (StandardDeck.fresh StandardPlayingCard) shuffle) 26 with
  | .error e => .error e
  | .ok halves => .ok { first := halves.1, second := halves.2 }

/-- The loop `while (!cards_input.empty())` of `MoveCards`, on the cards in the
order in which `back()` and `pop_back()` take them, from the back of
`cards_input` to its front: each is inserted at the iterator `iter`, which
stays at the begin of the hand of the winner. -/
def MoveCards.loop : List StandardPlayingCard → List StandardPlayingCard →
    List StandardPlayingCard
  | [], winner => winner
  | c :: rest, winner => MoveCards.loop rest (c :: winner)

/-- The member `War::MoveCards`: the new hand of the winner. The outcome of
`std::shuffle` on `cards_input` is the parameter `shuffle`. -/
def MoveCards (shuffle : List StandardPlayingCard → List StandardPlayingCard)
    (cards_input winner : List StandardPlayingCard) : List StandardPlayingCard :=
  MoveCards.loop (shuffle cards_input).reverse winner

/-- The loop `for (int i = 0; i < 3; i++)` of `GoToWar`; `n` counts the
iterations that remain. -/
def GoToWar.loop : Nat → List StandardPlayingCard → War →
    Except Fault (List StandardPlayingCard × War)
  | 0, previous_cards, w => .ok (previous_cards, w)
  | n + 1, previous_cards, w =>
    if 1 < w.first.length ∧ 1 < w.second.length then do
      let a ← vecBack w.first
      let b ← vecBack w.second
      GoToWar.loop n (previous_cards ++ [a, b])
        { first := w.first.dropLast, second := w.second.dropLast }
    else GoToWar.loop n previous_cards w

/-- The member `War::GoToWar`: the stack of cards played and the hands. -/
def GoToWar (previous_cards : List StandardPlayingCard) (w : War) :
    Except Fault (List StandardPlayingCard × War) :=
  GoToWar.loop 3 previous_cards w

/-- The member `War::OutputGraphics` as far as the hands are concerned: it calls
`back()` on both hands and dereferences the cards. What it writes to the screen
is left out. -/
def OutputGraphics (w : War) (_tie_input : Bool) : Except Fault Unit := do
  let _ ← vecBack w.first
  let _ ← vecBack w.second
  pure ()

/-- The three branches of the body of the loop of `PlayARound`. -/
inductive Branch where
  | playerWon | opponentWon | tie
  deriving DecidableEq, Repr

/-- The conditions of the `if`, `else if`, `else` of `PlayARound` on the top
card `a` of the opponent and the top card `b` of the player. -/
def PlayARound.branch (a b : StandardPlayingCard) : Branch :=
  if (GetRank a < GetRank b ∧ GetRank a ≠ 1) ∨ (GetRank b = 1 ∧ GetRank a ≠ 1) then
    .playerWon
  else if GetRank a > GetRank b ∨ (GetRank a = 1 ∧ GetRank b ≠ 1) then .opponentWon
  else .tie

/-- The loop `do { ... } while (tie)` of `PlayARound`, with the value of `tie`
and the local pile `stack`; `fuel` bounds the number of passes. The word read
from the input before a war in a manual game has no effect on the hands and is
left out. -/
def PlayARound.loop (shuffle : List StandardPlayingCard → List StandardPlayingCard) :
    Nat → Bool → List StandardPlayingCard → War → Except Fault War
  | 0, _, _, _ => .error .noFuel
  | fuel + 1, tie, stack, w => do
    let _ ← OutputGraphics w tie
    let a ← vecBack w.first
    let b ← vecBack w.second
    match PlayARound.branch a b with
    | .playerWon =>
      pure { first := w.first.dropLast,
             second := MoveCards shuffle (stack ++ [a, b]) w.second.dropLast }
    | .opponentWon =>
      pure { first := MoveCards shuffle (stack ++ [a, b]) w.first.dropLast,
             second := w.second.dropLast }
    | .tie =>
      if w.first.length = 0 ∨ w.second.length = 0 then pure w
      else do
        let (stack1, w1) ← GoToWar (stack ++ [a, b])
          { first := w.first.dropLast, second := w.second.dropLast }
        PlayARound.loop shuffle fuel true stack1 w1

/-- The member `War::PlayARound`. -/
def PlayARound (shuffle : List StandardPlayingCard → List StandardPlayingCard) (fuel : Nat)
    (w : War) : Except Fault War :=
  PlayARound.loop shuffle fuel false [] w

/-- The loop of `PlayAAutoGame`; `n` is `1000 - count`, and the shuffle of the
round played at `count` is `shuffles count`. -/
def PlayAAutoGame.loop (shuffles : Nat → List StandardPlayingCard → List StandardPlayingCard)
    (fuel : Nat) : Nat → Nat → War → Except Fault War
  | 0, _, w => .ok w
  | n + 1, count, w =>
    if 0 < w.first.length ∧ 0 < w.second.length then do
      let w1 ← PlayARound (shuffles count) fuel w
      PlayAAutoGame.loop shuffles fuel n (count + 1) w1
    else .ok w

/-- The member `War::PlayAAutoGame`. -/
def PlayAAutoGame (shuffles : Nat → List StandardPlayingCard → List StandardPlayingCard)
    (fuel : Nat) (w : War) : Except Fault War :=
  PlayAAutoGame.loop shuffles fuel 1000 0 w

/-- The member `War::PlayGame` when the game chosen is "auto": the hands when the
game is over. -/
def PlayGame.auto (shuffle : List StandardPlayingCard → List StandardPlayingCard)
    (shuffles : Nat → List StandardPlayingCard → List StandardPlayingCard)
    (fuel : Nat) : Except Fault War :=
  match Deal shuffle with
  | .error e => .error e
  | .ok w => PlayAAutoGame shuffles fuel w

/-- The ace-high key of a rank, in the words of the specification: the ace
counts 14, every other rank counts itself. -/
def aceHighKey (r : Int) : Int := if r = 1 then 14 else r

end War
/-- Hands on which a round goes to war once: the top cards are the nines, three
cards of each hand are taken, and the eight of hearts beats the four of
spades. -/
def War.warHands : War :=
  { first := [⟨3, "spade"⟩, ⟨4, "spade"⟩, ⟨5, "spade"⟩, ⟨6, "spade"⟩, ⟨7, "spade"⟩,
      ⟨9, "spade"⟩],
    second := [⟨2, "heart"⟩, ⟨8, "heart"⟩, ⟨10, "heart"⟩, ⟨11, "heart"⟩, ⟨12, "heart"⟩,
      ⟨9, "heart"⟩] }

/-- Hands of four cards whose top cards tie: once the nines are set aside each
hand holds three cards. -/
def War.shortWarHands : War :=
  { first := [⟨3, "spade"⟩, ⟨4, "spade"⟩, ⟨5, "spade"⟩, ⟨9, "spade"⟩],
    second := [⟨8, "heart"⟩, ⟨10, "heart"⟩, ⟨11, "heart"⟩, ⟨9, "heart"⟩] }

/-- The half of `War.streakDeck` dealt to the opponent: the eight of spades at
the bottom, then the eight of hearts and the ranks 2 to 7 of every suit. -/
def War.streakFirst : List StandardPlayingCard :=
  ⟨8, "spade"⟩ :: ⟨8, "heart"⟩ ::
    (CardGraphicsAndInfo.suits.flatMap fun suit =>
      ([2, 3, 4, 5, 6, 7] : List Int).map fun rank => ⟨rank, suit⟩)

/-- The half of `War.streakDeck` dealt to the player: the eight of diamonds at
the bottom, then the ace of spades (against the eight of hearts), the eight of
clubs, the other aces and the ranks 9 to 13 of every suit. -/
def War.streakSecond : List StandardPlayingCard :=
  ⟨8, "diamond"⟩ :: ⟨1, "spade"⟩ :: ⟨8, "club"⟩ :: ⟨1, "heart"⟩ :: ⟨1, "club"⟩ ::
    ⟨1, "diamond"⟩ ::
    (CardGraphicsAndInfo.suits.flatMap fun suit =>
      ([9, 10, 11, 12, 13] : List Int).map fun rank => ⟨rank, suit⟩)

/-- An order of the 52 cards, one outcome of the shuffle of `Deal`, on which the
player wins the first 25 rounds and the last card of the opponent, the eight of
spades, then meets the eight of diamonds. -/
def War.streakDeck : List StandardPlayingCard := War.streakFirst ++ War.streakSecond

/-! ## Polar cards: construction and the test program -/

/-- Strict alternation as the spec words it: the cards of `a` and of `b` in
turn, beginning with `a`; when one pile is exhausted the rest of the other one
follows in its order. -/
def alternate {T : Type} : List T → List T → List T
  | [], b => b
  | a, [] => a
  | x :: a, y :: b => x :: y :: alternate a b

/-- The position `runState` after its run of three cards went from column 1 to
column 2. -/
def runMovedState : Solitaire StandardPlayingCard :=
  { runState with board := [[], runExample, [], [], [], [], [], []] }

/-- The position `flipStateK` after the run seven of spades, six of hearts, five
of clubs went from column 1 onto the eight of hearts of column 2: the eight of
diamonds it uncovered lies face-up. -/
def flipMovedStateK : Klondike :=
  { flipStateK with
    board := (flipStateK.board.set 0 [⟨⟨8, "diamond"⟩, true⟩]).set 1
      [⟨⟨8, "heart"⟩, true⟩, ⟨⟨7, "spade"⟩, true⟩, ⟨⟨6, "heart"⟩, true⟩, ⟨⟨5, "club"⟩, true⟩] }



/-! ## Klondike: a short waste pile over an empty deck -/

/-- An order of the 52 cards, one outcome of the shuffle of `Deal`: the 24 cards
that stay in the deck are, from the top, the spades and the hearts up to the
jack in an order in which each draw of three can go to the foundations at
once, except for the last two cards, the ten and the jack of hearts under the
nine; the other 28 cards are dealt to the board. -/
def Klondike.shortWasteDeck : List PolarStandardPlayingCard :=
  (([(9, "heart"), (11, "heart"), (10, "heart"), (6, "heart"), (7, "heart"), (8, "heart"),
    (3, "heart"), (4, "heart"), (5, "heart"), (13, "spade"), (1, "heart"), (2, "heart"),
    (10, "spade"), (11, "spade"), (12, "spade"), (7, "spade"), (8, "spade"), (9, "spade"),
    (4, "spade"), (5, "spade"), (6, "spade"), (1, "spade"), (2, "spade"), (3, "spade"),
    (12, "heart"), (13, "heart")] ++
    (["club", "diamond"].flatMap fun suit =>
      CardGraphicsAndInfo.ranks.map fun rank => (rank, suit)) : List (Int × String)).map
    fun p => PlayingCard.make p.1 p.2)

/-- A sequence of `n` rounds of a draw-three game: a call of `DrawCards`, then a
call of `AutoMove`. -/
def Klondike.drawAndAuto : Nat → Klondike → Except Fault Klondike
  | 0, s => .ok s
  | n + 1, s =>
    match Klondike.DrawCards false s with
    | .error e => .error e
    | .ok s1 =>
      match Klondike.AutoMove 60 s1 with
      | .error e => .error e
      | .ok s2 => Klondike.drawAndAuto n s2

/-- The game dealt from `Klondike.shortWasteDeck` and played for eight rounds of
`DrawCards` and `AutoMove`. -/
def Klondike.shortWasteGame : Except Fault Klondike :=
  match Klondike.Deal (Solitaire.fresh PolarStandardPlayingCard) Klondike.shortWasteDeck with
  | .error e => .error e
  | .ok s => Klondike.drawAndAuto 8 s

/-- The position the game `Klondike.shortWasteGame` ends in: the deck is empty and
the waste pile holds the ten and the jack of hearts. The fresh game stands in if
the game faults. -/
def shortWasteKlondike : Klondike :=
  match Klondike.shortWasteGame with
  | .ok s => s
  | .error _ => Solitaire.fresh PolarStandardPlayingCard

/-! ## Klondike: the faces of the cards, vocabulary -/

/-- No face-down card of the column lies above a face-up card: of two cards,
the upper one is face-up whenever the lower one is. -/
def FaceSorted (col : List PolarStandardPlayingCard) : Prop :=
  col.Pairwise fun a b => a.face_up = true → b.face_up = true

/-- The face-down cards of the column lie beneath the face-up cards, and the top
card of the column, if there is one, is face-up. -/
def FaceOrdered (col : List PolarStandardPlayingCard) : Prop :=
  FaceSorted col ∧ ∀ c, col.getLast? = some c → c.face_up = true

/-- The face-up invariant of Klondike: the cards of the deck are face-down, the
cards of the waste pile and of the foundations are face-up, and every board
column has its face-down cards beneath its face-up cards and a face-up top
card. -/
def FacesOk (s : Klondike) : Prop :=
  (∀ c ∈ s.deck, c.face_up = false) ∧ (∀ c ∈ s.free, c.face_up = true) ∧
  (∀ st ∈ s.stacks_, ∀ c ∈ st, c.face_up = true) ∧ (∀ col ∈ s.board, FaceOrdered col)

/-! ## Freecell: the positions of a game, vocabulary -/

/-- The legality rule of a Freecell free-cell-to-foundation move as the spec
words it, "symmetric to Board→Stack, using the chosen free-cell card": a valid
free-cell index whose card fits the foundation named. -/
def Freecell.LegalFreeToStack (s : Freecell) (stack : String) (index : Nat) : Prop :=
  1 ≤ index ∧ index ≤ s.free.length ∧
    ∃ c, s.free[index - 1]? = some c ∧
      FitsFoundation c stack (s.stacks_.getD (Solitaire.GetStackSuit stack) [])

/-- A card of the standard deck: a rank from 1 to 13 and one of the four suit
names. -/
def DeckCard {T : Type} [PlayingCard T] (c : T) : Prop :=
  (1 ≤ GetRank c ∧ GetRank c ≤ 13) ∧ ValidSuit (GetSuit c)

instance {T : Type} [PlayingCard T] (c : T) : Decidable (DeckCard c) :=
  inferInstanceAs (Decidable ((1 ≤ GetRank c ∧ GetRank c ≤ 13) ∧ ValidSuit (GetSuit c)))

/-- What the move operations of Freecell rely on in a position of a game: a
board of eight columns of at most 52 cards each, four foundations, at most four
occupied free cells, and only cards of the standard deck. -/
def Freecell.GamePosition (s : Freecell) : Prop :=
  s.board.length = 8 ∧ s.stacks_.length = 4 ∧ s.free.length ≤ 4 ∧
    (∀ col ∈ s.board, col.length ≤ 52) ∧
    (∀ c ∈ s.free, DeckCard c) ∧ (∀ col ∈ s.board, ∀ c ∈ col, DeckCard c) ∧
    ∀ st ∈ s.stacks_, ∀ c ∈ st, DeckCard c

instance (s : Freecell) : Decidable (Freecell.GamePosition s) :=
  inferInstanceAs (Decidable (s.board.length = 8 ∧ s.stacks_.length = 4 ∧ s.free.length ≤ 4 ∧
    (∀ col ∈ s.board, col.length ≤ 52) ∧
    (∀ c ∈ s.free, DeckCard c) ∧ (∀ col ∈ s.board, ∀ c ∈ col, DeckCard c) ∧
    ∀ st ∈ s.stacks_, ∀ c ∈ st, DeckCard c))

/-! ## Size arithmetic -/

theorem SIZE_MOD_eq : SIZE_MOD = 18446744073709551616 := by
  unfold SIZE_MOD; norm_num

theorem szSub_of_le {a b : Nat} (hb : b ≤ a) (ha : a < SIZE_MOD) : szSub a b = a - b := by
  unfold szSub; rw [SIZE_MOD_eq] at *; omega

theorem szSub_of_lt {a b : Nat} (hb : a < b) (hb2 : b < SIZE_MOD) :
    szSub a b = SIZE_MOD - (b - a) := by
  unfold szSub; rw [SIZE_MOD_eq] at *; omega

theorem szAdd_of_lt {a b : Nat} (h : a + b < SIZE_MOD) : szAdd a b = a + b := by
  unfold szAdd; exact Nat.mod_eq_of_lt h

/-- On `int` values the `size_t` comparison `prev_rank == curn_rank + 1` of
`CheckDescendingPile` is the comparison of the ranks themselves. -/
theorem szOfInt_succ_iff {a b : Int} (ha : IsInt32 a) (hb : IsInt32 b) :
    szOfInt a = szAdd (szOfInt b) 1 ↔ b = a - 1 := by
  unfold szOfInt szAdd IsInt32 at *
  rw [SIZE_MOD_eq]
  norm_num at *
  omega

/-! ## Evaluation lemmas for the access helpers -/

@[simp] theorem sAnd_true (b : Except Fault Bool) : sAnd (.ok true) b = b := rfl
@[simp] theorem sAnd_false (b : Except Fault Bool) : sAnd (.ok false) b = .ok false := rfl
@[simp] theorem sAnd_error (e : Fault) (b : Except Fault Bool) : sAnd (.error e) b = .error e := rfl
@[simp] theorem sOr_true (b : Except Fault Bool) : sOr (.ok true) b = .ok true := rfl
@[simp] theorem sOr_false (b : Except Fault Bool) : sOr (.ok false) b = b := rfl
@[simp] theorem sOr_error (e : Fault) (b : Except Fault Bool) : sOr (.error e) b = .error e := rfl
@[simp] theorem sNot_ok (b : Bool) : sNot (.ok b) = .ok (!b) := rfl
@[simp] theorem sNot_error (e : Fault) : sNot (.error e) = .error e := rfl

@[simp] theorem except_bind_ok {α β : Type} (a : α) (f : α → Except Fault β) :
    (Except.ok a >>= f) = f a := rfl

@[simp] theorem except_bind_error {α β : Type} (e : Fault) (f : α → Except Fault β) :
    ((Except.error e : Except Fault α) >>= f) = .error e := rfl

@[simp] theorem except_pure {α : Type} (a : α) : (pure a : Except Fault α) = .ok a := rfl

theorem intAdd_eq_ok {a b : Int} (h : IsInt32 (a + b)) : intAdd a b = .ok (a + b) := by
  unfold intAdd; rw [if_pos h]

theorem intAdd_eq_error {a b : Int} (h : ¬ IsInt32 (a + b)) :
    intAdd a b = .error .intOverflow := by
  unfold intAdd; rw [if_neg h]

theorem intSub_eq_ok {a b : Int} (h : IsInt32 (a - b)) : intSub a b = .ok (a - b) := by
  unfold intSub; rw [if_pos h]

theorem intSub_eq_error {a b : Int} (h : ¬ IsInt32 (a - b)) :
    intSub a b = .error .intOverflow := by
  unfold intSub; rw [if_neg h]

/-- The comparison `x == a + 1` of the source, where the sum does not
overflow. -/
theorem rankSucc_eval {a : Int} (f : Int → Bool) (h : IsInt32 (a + 1)) :
    (intAdd a 1 >>= fun r => (pure (f r) : Except Fault Bool)) = .ok (f (a + 1)) := by
  rw [intAdd_eq_ok h]; rfl

/-- The comparison `x == a + 1` of the source, where the sum overflows. -/
theorem rankSucc_overflow {a : Int} (f : Int → Bool) (h : ¬ IsInt32 (a + 1)) :
    (intAdd a 1 >>= fun r => (pure (f r) : Except Fault Bool)) = .error .intOverflow := by
  rw [intAdd_eq_error h]; rfl

/-- The comparison `x == a - 1` of the source, where the difference does not
overflow. -/
theorem rankPred_eval {a : Int} (f : Int → Bool) (h : IsInt32 (a - 1)) :
    (intSub a 1 >>= fun r => (pure (f r) : Except Fault Bool)) = .ok (f (a - 1)) := by
  rw [intSub_eq_ok h]; rfl

/-- The comparison `x == a - 1` of the source, where the difference
overflows. -/
theorem rankPred_overflow {a : Int} (f : Int → Bool) (h : ¬ IsInt32 (a - 1)) :
    (intSub a 1 >>= fun r => (pure (f r) : Except Fault Bool)) = .error .intOverflow := by
  rw [intSub_eq_error h]; rfl

/-- A rank between 1 and 13 is far from the ends of the `int` range. -/
theorem IsInt32_of_rank {r : Int} (h1 : 1 ≤ r) (h13 : r ≤ 13) :
    IsInt32 r ∧ IsInt32 (r - 1) ∧ IsInt32 (r + 1) := by
  unfold IsInt32; norm_num; omega

theorem vecAt_eq_ok {α : Type} {v : List α} {i : Nat} {x : α} (h : v[i]? = some x) :
    vecAt v i = .ok x := by
  unfold vecAt; rw [h]

theorem vecAt_eq_error {α : Type} {v : List α} {i : Nat} (h : v.length ≤ i) :
    vecAt v i = .error .outOfRange := by
  unfold vecAt; rw [List.getElem?_eq_none h]

theorem vecBack_eq_ok {α : Type} {v : List α} {x : α} (h : v.getLast? = some x) :
    vecBack v = .ok x := by
  unfold vecBack; rw [h]

theorem vecBack_concat {α : Type} (v : List α) (x : α) : vecBack (v ++ [x]) = .ok x :=
  vecBack_eq_ok (List.getLast?_concat v)

theorem emptyAt_eq_ok {α : Type} {v : List (List α)} {i : Nat} {p : List α}
    (h : v[i]? = some p) : emptyAt v i = .ok p.isEmpty := by
  unfold emptyAt; rw [vecAt_eq_ok h]

theorem backAt_eq_ok {α : Type} {v : List (List α)} {i : Nat} {p : List α} {x : α}
    (h : v[i]? = some p) (hx : p.getLast? = some x) : backAt v i = .ok x := by
  unfold backAt; rw [vecAt_eq_ok h]; exact vecBack_eq_ok hx

theorem pushAt_eq_ok {α : Type} {v : List (List α)} {i : Nat} {p : List α} (c : α)
    (h : v[i]? = some p) : pushAt v i c = .ok (v.set i (p ++ [c])) := by
  unfold pushAt; rw [vecAt_eq_ok h]

theorem popAt_eq_ok {α : Type} {v : List (List α)} {i : Nat} {p : List α} {x : α}
    (h : v[i]? = some p) (hx : p.getLast? = some x) : popAt v i = .ok (v.set i p.dropLast) := by
  unfold popAt; rw [vecAt_eq_ok h]
  cases p with
  | nil => simp at hx
  | cons a l => rfl

theorem GetStackSuit_lt {u : String} (h : ValidSuit u) : Solitaire.GetStackSuit u < 4 := by
  rcases h with h | h | h | h <;> subst h <;> decide

theorem isEmpty_eq_false_of_getLast? {α : Type} {p : List α} {x : α}
    (h : p.getLast? = some x) : p.isEmpty = false := by
  cases p with
  | nil => simp at h
  | cons a l => rfl

/-! ## The descending-run check -/

/-- The loop of `CheckDescendingPile`, started on the card `prev` that lies at
position `pre.length` with `rest` above it, decides whether `prev :: rest` steps
down card by card. -/
theorem CheckDescendingPile_loop_spec {T : Type} [PlayingCard T]
    (rest pre : List T) (prev : T) (base i : Nat)
    (hlen : (pre ++ prev :: rest).length < SIZE_MOD)
    (hidx : rest ≠ [] → base + i = pre.length + 1)
    (hint : ∀ c ∈ prev :: rest, IsInt32 (GetRank c)) :
    ∃ b, Solitaire.CheckDescendingPile.loop (pre ++ prev :: rest) base rest.length i
          (szOfInt (GetRank prev)) (GetColor prev) = .ok b ∧
      (b = true ↔ List.Chain' StepsDown (prev :: rest)) := by
  induction rest generalizing pre prev i with
  | nil => exact ⟨true, by simp [Solitaire.CheckDescendingPile.loop]⟩
  | cons c rest ih =>
    have hi := hidx (by simp)
    have hl : pre.length + 1 + (rest.length + 1) < SIZE_MOD := by
      simpa [Nat.add_assoc, Nat.add_comm, Nat.add_left_comm] using hlen
    have hget : (pre ++ prev :: c :: rest)[szAdd base i]? = some c := by
      rw [szAdd_of_lt (by omega), hi]
      have : pre ++ prev :: c :: rest = (pre ++ [prev]) ++ c :: rest := by simp
      rw [this, List.getElem?_append_right (by simp)]
      simp
    have hprev : IsInt32 (GetRank prev) := hint prev (by simp)
    have hc : IsInt32 (GetRank c) := hint c (by simp)
    simp only [List.length_cons, Solitaire.CheckDescendingPile.loop, vecAt_eq_ok hget]
    by_cases hstep : GetColor c = GetColor prev ∨ ¬ szOfInt (GetRank prev) = szAdd (szOfInt (GetRank c)) 1
    · rw [if_pos hstep]
      refine ⟨false, rfl, ?_⟩
      simp only [Bool.false_eq_true, false_iff, List.chain'_cons, StepsDown, not_and]
      intro h _
      rw [szOfInt_succ_iff hprev hc] at hstep
      tauto
    · rw [if_neg hstep]
      have hpre : pre ++ prev :: c :: rest = (pre ++ [prev]) ++ c :: rest := by simp
      have hlen2 : ((pre ++ [prev]) ++ c :: rest).length < SIZE_MOD := by rw [← hpre]; exact hlen
      obtain ⟨b, hb, hbiff⟩ := ih (pre ++ [prev]) c (szAdd i 1) hlen2
        (by
          intro hne
          have : 0 < rest.length := List.length_pos.mpr hne
          rw [szAdd_of_lt (by omega)]
          simp; omega)
        (fun x hx => hint x (by simp at hx ⊢; tauto))
      rw [hpre]
      refine ⟨b, hb, ?_⟩
      rw [hbiff, List.chain'_cons (x := prev)]
      rw [szOfInt_succ_iff hprev hc] at hstep
      simp only [StepsDown]
      tauto

/-- On a column of at least `k ≥ 1` cards `CheckDescendingPile` returns the
truth value of `IsDescendingRun`. -/
theorem CheckDescendingPile_eq_decide {T : Type} [PlayingCard T]
    (s : Solitaire T) (p k : Nat) (col : List T)
    (hp : 1 ≤ p) (hp2 : p < SIZE_MOD) (hcol : s.board[p - 1]? = some col)
    (hk1 : 1 ≤ k) (hk : k ≤ col.length) (hlen : col.length < SIZE_MOD)
    (hint : ∀ c ∈ col, IsInt32 (GetRank c)) :
    s.CheckDescendingPile p k = .ok (decide (IsDescendingRun col k)) := by
  by_cases h1 : k = 1
  · subst h1
    have hd : (col.drop (col.length - 1)).length = 1 := by simp; omega
    obtain ⟨x, hx⟩ := List.length_eq_one.mp hd
    simp [Solitaire.CheckDescendingPile, IsDescendingRun, hx]
  · have hdl : (col.drop (col.length - k)).length = k := by simp; omega
    obtain ⟨prev, rest, hpr⟩ : ∃ prev rest, col.drop (col.length - k) = prev :: rest := by
      cases hd : col.drop (col.length - k) with
      | nil => rw [hd] at hdl; simp at hdl; omega
      | cons a l => exact ⟨a, l, rfl⟩
    have hsplit : col = col.take (col.length - k) ++ prev :: rest := by
      rw [← hpr, List.take_append_drop]
    have hrest : rest.length = k - 1 := by rw [hpr] at hdl; simp at hdl; omega
    have hprel : (col.take (col.length - k)).length = col.length - k := by simp
    have hbase : szSub col.length k = col.length - k := szSub_of_le hk hlen
    have h0 : col[col.length - k]? = some prev := by
      have h : (col.drop (col.length - k))[0]? = col[col.length - k + 0]? :=
        List.getElem?_drop _ _ _
      rw [hpr] at h
      simpa using h.symm
    obtain ⟨b, hb, hbiff⟩ := CheckDescendingPile_loop_spec rest (col.take (col.length - k))
      prev (col.length - k) 1 (by rw [← hsplit]; exact hlen) (fun _ => by rw [hprel])
      (fun c hc => hint c (by rw [hsplit]; simp at hc ⊢; tauto))
    rw [← hsplit, hrest] at hb
    have hbd : b = decide (List.Chain' StepsDown (prev :: rest)) := by
      by_cases hc : List.Chain' StepsDown (prev :: rest)
      · rw [decide_eq_true hc]; exact hbiff.mpr hc
      · rw [decide_eq_false hc]
        cases b
        · rfl
        · exact absurd (hbiff.mp rfl) hc
    simp only [Solitaire.CheckDescendingPile, if_neg h1, szSub_of_le hp hp2, vecAt_eq_ok hcol,
      hbase, vecAt_eq_ok h0, hb, IsDescendingRun, hpr, hbd]

/-- C1: for a board column `col` (column `p`, 1-based) and every `k` with
`1 ≤ k ≤ col.length`, `CheckDescendingPile(p, k)` returns, and returns true
exactly when the top `k` cards, read from the `k`-th-from-top card up to the
top, each have a different colour from, and a rank one lower than, the card
directly beneath; in particular `k = 1` returns true. Ranks are C++ `int`
values and sizes are `size_t` values. -/
theorem CheckDescendingPile_correct {T : Type} [PlayingCard T]
    (s : Solitaire T) (p k : Nat) (col : List T)
    (hp : 1 ≤ p) (hp2 : p < SIZE_MOD) (hcol : s.board[p - 1]? = some col)
    (hk1 : 1 ≤ k) (hk : k ≤ col.length) (hlen : col.length < SIZE_MOD)
    (hint : ∀ c ∈ col, IsInt32 (GetRank c)) :
    s.CheckDescendingPile p k = .ok (decide (IsDescendingRun col k)) ∧
      (k = 1 → s.CheckDescendingPile p k = .ok true) :=
  ⟨CheckDescendingPile_eq_decide s p k col hp hp2 hcol hk1 hk hlen hint,
   fun h1 => by simp [Solitaire.CheckDescendingPile, h1]⟩

/-- C1, the examples: on the column [black 7, red 6, black 5] the check passes
for `k = 3` (and for `k = 1`), and on [black 7, black 6] it fails for `k = 2`. -/
theorem CheckDescendingPile_correct_witness :
    Solitaire.CheckDescendingPile runState 1 3 = .ok true ∧
    Solitaire.CheckDescendingPile runState 1 1 = .ok true ∧
    Solitaire.CheckDescendingPile sameColourState 1 2 = .ok false :=
  ⟨(CheckDescendingPile_correct runState 1 3 runExample (by decide) (by decide) rfl
      (by decide) (by decide) (by decide) (by decide)).1.trans (by decide),
   (CheckDescendingPile_correct runState 1 1 runExample (by decide) (by decide) rfl
      (by decide) (by decide) (by decide) (by decide)).2 rfl,
   (CheckDescendingPile_correct sameColourState 1 2 [⟨7, "spade"⟩, ⟨6, "club"⟩]
      (by decide) (by decide) rfl (by decide) (by decide) (by decide) (by decide)).1.trans
      (by decide)⟩

/-! ## Moves onto a foundation -/

/-- The rank part of the test of `MoveBoardToStack`, evaluated on a foundation
`st` found at index `k`. -/
theorem stackRank_eval {T : Type} [PlayingCard T] (fs : List (List T)) (k : Nat)
    (st : List T) (c : T) (hst : fs[k]? = some st)
    (hov : st ≠ [] → IsInt32 (GetRank c - 1)) :
    sOr (sAnd (emptyAt fs k) (.ok (decide (GetRank c = 1))))
      (sAnd (sNot (emptyAt fs k)) (do
        let t ← backAt fs k
        let r ← intSub (GetRank c) 1
        pure (decide (GetRank t = r)))) =
    .ok (decide ((st.length = 0 ∧ GetRank c = 1) ∨
      st.getLast?.map GetRank = some (GetRank c - 1))) := by
  rw [emptyAt_eq_ok hst]
  rcases List.eq_nil_or_concat st with h | ⟨l, t, h⟩
  · subst h
    by_cases h1 : GetRank c = 1 <;> simp [h1]
  · rw [List.concat_eq_append] at h
    subst h
    have hb : backAt fs k = .ok t := backAt_eq_ok hst (List.getLast?_concat l)
    have he : (l ++ [t]).isEmpty = false := isEmpty_eq_false_of_getLast? (List.getLast?_concat l)
    rw [he, hb]
    simp only [sNot_ok, Bool.not_false, sAnd_true, sAnd_false, sOr_false, except_bind_ok,
      rankPred_eval _ (hov (by simp))]
    by_cases h1 : GetRank t = GetRank c - 1 <;> simp [h1]

/-- The rank part of the test of `MoveBoardToStack` on a non-empty foundation
and a card whose rank minus one is no `int` value: the subtraction overflows. -/
theorem stackRank_overflow {T : Type} [PlayingCard T] (fs : List (List T)) (k : Nat)
    (st : List T) (c : T) (hst : fs[k]? = some st)
    (hne : st ≠ []) (hov : ¬ IsInt32 (GetRank c - 1)) :
    sOr (sAnd (emptyAt fs k) (.ok (decide (GetRank c = 1))))
      (sAnd (sNot (emptyAt fs k)) (do
        let t ← backAt fs k
        let r ← intSub (GetRank c) 1
        pure (decide (GetRank t = r)))) = .error .intOverflow := by
  rw [emptyAt_eq_ok hst]
  rcases List.eq_nil_or_concat st with h | ⟨l, t, h⟩
  · exact absurd h hne
  · rw [List.concat_eq_append] at h
    subst h
    have hb : backAt fs k = .ok t := backAt_eq_ok hst (List.getLast?_concat l)
    have he : (l ++ [t]).isEmpty = false := isEmpty_eq_false_of_getLast? (List.getLast?_concat l)
    rw [he, hb]
    simp only [sNot_ok, Bool.not_false, sAnd_true, sAnd_false, sOr_false, except_bind_ok,
      rankPred_overflow _ hov]

/-- Whenever the rank part of the test of `MoveBoardToStack` has a result, the
result is the truth value of the rule. -/
theorem stackRank_sound {T : Type} [PlayingCard T] (fs : List (List T)) (k : Nat)
    (st : List T) (c : T) (hst : fs[k]? = some st) (b : Bool)
    (h : sOr (sAnd (emptyAt fs k) (.ok (decide (GetRank c = 1))))
      (sAnd (sNot (emptyAt fs k)) (do
        let t ← backAt fs k
        let r ← intSub (GetRank c) 1
        pure (decide (GetRank t = r)))) = .ok b) :
    b = decide ((st.length = 0 ∧ GetRank c = 1) ∨
      st.getLast?.map GetRank = some (GetRank c - 1)) := by
  by_cases hov : st ≠ [] → IsInt32 (GetRank c - 1)
  · rw [stackRank_eval fs k st c hst hov] at h
    exact (Except.ok.inj h).symm
  · have hne : st ≠ [] := fun h0 => hov (fun h1 => absurd h0 h1)
    rw [stackRank_overflow fs k st c hst hne (fun h1 => hov (fun _ => h1))] at h
    cases h

/-- The Klondike auto-flip applied to a column that was just written. -/
theorem flipBackAt_set (board : List (List PolarStandardPlayingCard)) (i : Nat)
    (col : List PolarStandardPlayingCard) (h : i < board.length) :
    Klondike.flipBackAt (board.set i col) i = .ok (board.set i (flipTop col)) := by
  have hget : (board.set i col)[i]? = some col := by simp [List.getElem?_set, h]
  unfold Klondike.flipBackAt flipTop
  rw [vecAt_eq_ok hget]
  rcases List.eq_nil_or_concat col with hc | ⟨l, d, hc⟩
  · subst hc; simp
  · rw [List.concat_eq_append] at hc
    subst hc
    cases hd : d.face_up <;> simp [GetFaceUp, FlipCard, hd]

/-- Evaluation of the test of Freecell `MoveBoardToStack` on a column with top
card `c` and a foundation `st`, when the subtraction `rank - 1`, made for a
card of the suit asked for and a foundation that is not empty, does not
overflow. -/
theorem Freecell_MoveBoardToStack_test_eval (s : Freecell) (p : Nat) (stack : String)
    (col st : List StandardPlayingCard) (c : StandardPlayingCard)
    (hcol : s.board[szSub p 1]? = some (col ++ [c]))
    (hst : s.stacks_[Solitaire.GetStackSuit stack]? = some st)
    (hov : GetSuit c = stack → st ≠ [] → IsInt32 (GetRank c - 1)) :
    Freecell.MoveBoardToStack.test s p stack = .ok (decide (FitsFoundation c stack st)) := by
  have hback : backAt s.board (szSub p 1) = .ok c := backAt_eq_ok hcol (List.getLast?_concat col)
  by_cases h1 : GetSuit c = stack
  · simp only [Freecell.MoveBoardToStack.test, hback, except_bind_ok,
      stackRank_eval s.stacks_ _ st c hst (hov h1), FitsFoundation]
    simp [h1]
  · simp [Freecell.MoveBoardToStack.test, hback, FitsFoundation, h1]

/-- The test of Freecell `MoveBoardToStack` on a card of the suit asked for,
a foundation that is not empty and a rank whose predecessor is no `int` value:
the subtraction overflows. -/
theorem Freecell_MoveBoardToStack_test_overflow (s : Freecell) (p : Nat) (stack : String)
    (col st : List StandardPlayingCard) (c : StandardPlayingCard)
    (hcol : s.board[szSub p 1]? = some (col ++ [c]))
    (hst : s.stacks_[Solitaire.GetStackSuit stack]? = some st)
    (hsuit : GetSuit c = stack) (hne : st ≠ []) (hov : ¬ IsInt32 (GetRank c - 1)) :
    Freecell.MoveBoardToStack.test s p stack = .error .intOverflow := by
  have hback : backAt s.board (szSub p 1) = .ok c := backAt_eq_ok hcol (List.getLast?_concat col)
  simp only [Freecell.MoveBoardToStack.test, hback, except_bind_ok,
    stackRank_overflow s.stacks_ _ st c hst hne hov]
  simp [hsuit]

/-- Whenever the test of Freecell `MoveBoardToStack` has a result, the result
is the truth value of the rule. -/
theorem Freecell_MoveBoardToStack_test_sound (s : Freecell) (p : Nat) (stack : String)
    (col st : List StandardPlayingCard) (c : StandardPlayingCard)
    (hcol : s.board[szSub p 1]? = some (col ++ [c]))
    (hst : s.stacks_[Solitaire.GetStackSuit stack]? = some st) (b : Bool)
    (h : Freecell.MoveBoardToStack.test s p stack = .ok b) :
    b = decide (FitsFoundation c stack st) := by
  by_cases hov : GetSuit c = stack → st ≠ [] → IsInt32 (GetRank c - 1)
  · rw [Freecell_MoveBoardToStack_test_eval s p stack col st c hcol hst hov] at h
    exact (Except.ok.inj h).symm
  · have h1 : GetSuit c = stack := by
      by_contra h1; exact hov (fun h2 => absurd h2 h1)
    have h2 : st ≠ [] := fun h2 => hov (fun _ h3 => absurd h2 h3)
    have h3 : ¬ IsInt32 (GetRank c - 1) := fun h3 => hov (fun _ _ => h3)
    rw [Freecell_MoveBoardToStack_test_overflow s p stack col st c hcol hst h1 h2 h3] at h
    cases h

/-- Evaluation of the test of Klondike `MoveBoardToStack` on a column with top
card `c` and a foundation `st`, when the subtraction `rank - 1`, made for a
card of the suit asked for and a foundation that is not empty, does not
overflow. -/
theorem Klondike_MoveBoardToStack_test_eval (s : Klondike) (p : Nat) (stack : String)
    (col st : List PolarStandardPlayingCard) (c : PolarStandardPlayingCard)
    (hcol : s.board[szSub p 1]? = some (col ++ [c]))
    (hst : s.stacks_[Solitaire.GetStackSuit stack]? = some st)
    (hov : GetSuit c = stack → st ≠ [] → IsInt32 (GetRank c - 1)) :
    Klondike.MoveBoardToStack.test s p stack = .ok (decide (FitsFoundation c stack st)) := by
  have hback : backAt s.board (szSub p 1) = .ok c := backAt_eq_ok hcol (List.getLast?_concat col)
  by_cases h1 : GetSuit c = stack
  · simp only [Klondike.MoveBoardToStack.test, hback, except_bind_ok,
      stackRank_eval s.stacks_ _ st c hst (hov h1), FitsFoundation]
    simp [h1]
  · simp [Klondike.MoveBoardToStack.test, hback, FitsFoundation, h1]

/-- The test of Klondike `MoveBoardToStack` on a card of the suit asked for,
a foundation that is not empty and a rank whose predecessor is no `int` value:
the subtraction overflows. -/
theorem Klondike_MoveBoardToStack_test_overflow (s : Klondike) (p : Nat) (stack : String)
    (col st : List PolarStandardPlayingCard) (c : PolarStandardPlayingCard)
    (hcol : s.board[szSub p 1]? = some (col ++ [c]))
    (hst : s.stacks_[Solitaire.GetStackSuit stack]? = some st)
    (hsuit : GetSuit c = stack) (hne : st ≠ []) (hov : ¬ IsInt32 (GetRank c - 1)) :
    Klondike.MoveBoardToStack.test s p stack = .error .intOverflow := by
  have hback : backAt s.board (szSub p 1) = .ok c := backAt_eq_ok hcol (List.getLast?_concat col)
  simp only [Klondike.MoveBoardToStack.test, hback, except_bind_ok,
    stackRank_overflow s.stacks_ _ st c hst hne hov]
  simp [hsuit]

/-- Whenever the test of Klondike `MoveBoardToStack` has a result, the result
is the truth value of the rule. -/
theorem Klondike_MoveBoardToStack_test_sound (s : Klondike) (p : Nat) (stack : String)
    (col st : List PolarStandardPlayingCard) (c : PolarStandardPlayingCard)
    (hcol : s.board[szSub p 1]? = some (col ++ [c]))
    (hst : s.stacks_[Solitaire.GetStackSuit stack]? = some st) (b : Bool)
    (h : Klondike.MoveBoardToStack.test s p stack = .ok b) :
    b = decide (FitsFoundation c stack st) := by
  by_cases hov : GetSuit c = stack → st ≠ [] → IsInt32 (GetRank c - 1)
  · rw [Klondike_MoveBoardToStack_test_eval s p stack col st c hcol hst hov] at h
    exact (Except.ok.inj h).symm
  · have h1 : GetSuit c = stack := by
      by_contra h1; exact hov (fun h2 => absurd h2 h1)
    have h2 : st ≠ [] := fun h2 => hov (fun _ h3 => absurd h2 h3)
    have h3 : ¬ IsInt32 (GetRank c - 1) := fun h3 => hov (fun _ _ => h3)
    rw [Klondike_MoveBoardToStack_test_overflow s p stack col st c hcol hst h1 h2 h3] at h
    cases h

/-- A card that fits a foundation of `int` ranks has a rank whose predecessor
is an `int` value whenever the foundation is not empty. -/
theorem pred_int_of_fits {T : Type} [PlayingCard T] (c : T) (stack : String) (st : List T)
    (hint : ∀ t ∈ st, IsInt32 (GetRank t)) (hfit : FitsFoundation c stack st) :
    GetSuit c = stack → st ≠ [] → IsInt32 (GetRank c - 1) := by
  intro _ hne
  rcases hfit.2 with h | h
  · exact absurd (List.length_eq_zero.mp h.1) hne
  · rcases List.eq_nil_or_concat st with h0 | ⟨l, t, h0⟩
    · exact absurd h0 hne
    · rw [List.concat_eq_append] at h0
      subst h0
      simp only [List.getLast?_concat, Option.map_some', Option.some.injEq] at h
      rw [← h]
      exact hint t (by simp)

/-- The outcome of Freecell `MoveBoardToStack` on a column with top card `c` and
a foundation `st`, when the subtraction `rank - 1` does not overflow. -/
theorem Freecell_MoveBoardToStack_cases (s : Freecell) (p : Nat) (stack : String) (aut : Bool)
    (col : List StandardPlayingCard) (c : StandardPlayingCard) (st : List StandardPlayingCard)
    (hp : 1 ≤ p) (hp2 : p < SIZE_MOD) (hcol : s.board[p - 1]? = some (col ++ [c]))
    (hst : s.stacks_[Solitaire.GetStackSuit stack]? = some st)
    (hov : GetSuit c = stack → st ≠ [] → IsInt32 (GetRank c - 1)) :
    (FitsFoundation c stack st →
      Freecell.MoveBoardToStack s p stack aut = .ok
        { s with stacks_ := s.stacks_.set (Solitaire.GetStackSuit stack) (st ++ [c]),
                 board := s.board.set (p - 1) col }) ∧
    (¬ FitsFoundation c stack st → Freecell.MoveBoardToStack s p stack aut = .ok s) := by
  have hidx : szSub p 1 = p - 1 := szSub_of_le hp hp2
  have hback : backAt s.board (p - 1) = .ok c := backAt_eq_ok hcol (List.getLast?_concat col)
  have htest := Freecell_MoveBoardToStack_test_eval s p stack col st c (by rw [hidx]; exact hcol)
    hst hov
  constructor
  · intro hfit
    simp only [Freecell.MoveBoardToStack, htest, decide_eq_true hfit, hidx, hback,
      except_bind_ok, pushAt_eq_ok c hst, popAt_eq_ok hcol (List.getLast?_concat col),
      List.dropLast_concat, except_pure]
  · intro hfit
    simp only [Freecell.MoveBoardToStack, htest, decide_eq_false hfit]

/-- The outcome of Klondike `MoveBoardToStack` on a column with top card `c` and
a foundation `st`, when the subtraction `rank - 1` does not overflow. -/
theorem Klondike_MoveBoardToStack_cases (s : Klondike) (p : Nat) (stack : String) (aut : Bool)
    (col : List PolarStandardPlayingCard) (c : PolarStandardPlayingCard)
    (st : List PolarStandardPlayingCard)
    (hp : 1 ≤ p) (hp2 : p < SIZE_MOD) (hcol : s.board[p - 1]? = some (col ++ [c]))
    (hst : s.stacks_[Solitaire.GetStackSuit stack]? = some st)
    (hov : GetSuit c = stack → st ≠ [] → IsInt32 (GetRank c - 1)) :
    (FitsFoundation c stack st →
      Klondike.MoveBoardToStack s p stack aut = .ok
        { s with stacks_ := s.stacks_.set (Solitaire.GetStackSuit stack) (st ++ [c]),
                 board := s.board.set (p - 1) (flipTop col) }) ∧
    (¬ FitsFoundation c stack st → Klondike.MoveBoardToStack s p stack aut = .ok s) := by
  have hidx : szSub p 1 = p - 1 := szSub_of_le hp hp2
  have hback : backAt s.board (p - 1) = .ok c := backAt_eq_ok hcol (List.getLast?_concat col)
  have htest := Klondike_MoveBoardToStack_test_eval s p stack col st c (by rw [hidx]; exact hcol)
    hst hov
  constructor
  · intro hfit
    have hlt : p - 1 < s.board.length := by
      by_contra hge
      rw [List.getElem?_eq_none (by omega)] at hcol
      cases hcol
    have hflip := flipBackAt_set s.board (p - 1) col hlt
    simp only [Klondike.MoveBoardToStack, htest, decide_eq_true hfit, hidx, hback,
      except_bind_ok, pushAt_eq_ok c hst, popAt_eq_ok hcol (List.getLast?_concat col),
      List.dropLast_concat, except_pure, hflip]
  · intro hfit
    simp only [Klondike.MoveBoardToStack, htest, decide_eq_false hfit]

/-- On a card of the suit asked for whose rank is the least `int` value and a
foundation that is not empty, `MoveBoardToStack` of Freecell and of Klondike
computes `rank - 1`, which overflows: the call has no defined outcome. -/
theorem MoveBoardToStack_overflow :
    (∀ (s : Freecell) (p : Nat) (stack : String) (aut : Bool)
        (col : List StandardPlayingCard) (c : StandardPlayingCard)
        (st : List StandardPlayingCard),
      1 ≤ p → p < SIZE_MOD → s.board[p - 1]? = some (col ++ [c]) →
      s.stacks_[Solitaire.GetStackSuit stack]? = some st →
      GetSuit c = stack → st ≠ [] → ¬ IsInt32 (GetRank c - 1) →
      Freecell.MoveBoardToStack s p stack aut = .error .intOverflow) ∧
    (∀ (s : Klondike) (p : Nat) (stack : String) (aut : Bool)
        (col : List PolarStandardPlayingCard) (c : PolarStandardPlayingCard)
        (st : List PolarStandardPlayingCard),
      1 ≤ p → p < SIZE_MOD → s.board[p - 1]? = some (col ++ [c]) →
      s.stacks_[Solitaire.GetStackSuit stack]? = some st →
      GetSuit c = stack → st ≠ [] → ¬ IsInt32 (GetRank c - 1) →
      Klondike.MoveBoardToStack s p stack aut = .error .intOverflow) := by
  constructor
  · intro s p stack aut col c st hp hp2 hcol hst h1 h2 h3
    have hidx : szSub p 1 = p - 1 := szSub_of_le hp hp2
    simp only [Freecell.MoveBoardToStack, Freecell_MoveBoardToStack_test_overflow s p stack col
      st c (by rw [hidx]; exact hcol) hst h1 h2 h3]
  · intro s p stack aut col c st hp hp2 hcol hst h1 h2 h3
    have hidx : szSub p 1 = p - 1 := szSub_of_le hp hp2
    simp only [Klondike.MoveBoardToStack, Klondike_MoveBoardToStack_test_overflow s p stack col
      st c (by rw [hidx]; exact hcol) hst h1 h2 h3]

/-! ## The supermove capacity check -/

/-- The comparison `100000 > 5 - free.size() - amount` on `size_t` values. -/
theorem capacity_first (f amount : Nat) (hf : f ≤ 4) (h1 : 1 ≤ amount) (h52 : amount ≤ 52) :
    decide (100000 > szSub (szSub 5 f) amount) = decide (amount ≤ (4 - f) + 1) := by
  unfold szSub
  rw [SIZE_MOD_eq]
  by_cases h : amount ≤ (4 - f) + 1
  · rw [decide_eq_true h, decide_eq_true_eq]; omega
  · rw [decide_eq_false h, decide_eq_false_iff_not]; omega

/-- The comparison `100000 > ((empties + 1) * (5 - free.size())) - amount` on
`size_t` values. -/
theorem capacity_second (e f amount : Nat) (he : e ≤ 8) (hf : f ≤ 4) (h1 : 1 ≤ amount)
    (h52 : amount ≤ 52) :
    decide (100000 > szSub (szMul (szAdd e 1) (szSub 5 f)) amount) =
      decide (amount ≤ (e + 1) * ((4 - f) + 1)) := by
  unfold szSub szMul szAdd
  rw [SIZE_MOD_eq]
  rw [decide_eq_decide]
  interval_cases e <;> interval_cases f <;> omega

/-- Evaluation of `CheckMoveAmount` when no column is empty or the destination
is the only empty column. -/
theorem CheckMoveAmount_first (s : Freecell) (pile_to amount : Nat)
    (hcase : s.board.countP List.isEmpty = 0 ∨
      (s.board.countP List.isEmpty = 1 ∧ 1 ≤ pile_to ∧ pile_to < SIZE_MOD ∧
        s.board[pile_to - 1]? = some [])) :
    Freecell.CheckMoveAmount s pile_to amount =
      .ok (decide (100000 > szSub (szSub 5 s.free.length) amount)) := by
  unfold Freecell.CheckMoveAmount
  rcases hcase with h0 | ⟨h1, hp, hp2, hcol⟩
  · simp [h0]
  · simp [h1, szSub_of_le hp hp2, emptyAt_eq_ok hcol]

/-- Evaluation of `CheckMoveAmount` when at least two columns are empty. -/
theorem CheckMoveAmount_second (s : Freecell) (pile_to amount : Nat)
    (hcase : 2 ≤ s.board.countP List.isEmpty) :
    Freecell.CheckMoveAmount s pile_to amount =
      .ok (decide (100000 > szSub (szMul (szAdd (s.board.countP List.isEmpty) 1)
        (szSub 5 s.free.length)) amount)) := by
  unfold Freecell.CheckMoveAmount
  have h0 : ¬ s.board.countP List.isEmpty = 0 := by omega
  have h1 : ¬ s.board.countP List.isEmpty = 1 := by omega
  simp [h0, h1]

/-- The capacity check never reads outside the board when the destination is a
column of the board. -/
theorem CheckMoveAmount_total (s : Freecell) (pile_to amount : Nat) (dst : List StandardPlayingCard)
    (hp : 1 ≤ pile_to) (hp2 : pile_to < SIZE_MOD) (hdst : s.board[pile_to - 1]? = some dst) :
    ∃ b, Freecell.CheckMoveAmount s pile_to amount = .ok b := by
  unfold Freecell.CheckMoveAmount
  rw [szSub_of_le hp hp2, emptyAt_eq_ok hdst]
  by_cases h0 : s.board.countP List.isEmpty = 0
  · simp [h0]
  · by_cases h1 : s.board.countP List.isEmpty = 1
    · cases hd : dst.isEmpty <;> simp [h1]
    · simp [h0, h1]

/-! ## Moving a run between two columns -/

/-- The loop that moves `n` back cards, on a source of at least `n` cards. -/
theorem moveBack_spec {α : Type} (n : Nat) (src dst : List α) (h : n ≤ src.length) :
    Freecell.moveBack n src dst =
      .ok (src.take (src.length - n), dst ++ (src.drop (src.length - n)).reverse) := by
  induction n generalizing src dst with
  | zero => simp [Freecell.moveBack]
  | succ n ih =>
    rcases List.eq_nil_or_concat src with hs | ⟨l, c, hs⟩
    · subst hs; simp at h
    · rw [List.concat_eq_append] at hs
      subst hs
      have hl : n ≤ l.length := by simpa using h
      simp only [Freecell.moveBack, vecBack_concat, List.dropLast_concat, ih l (dst ++ [c]) hl]
      have e1 : (l ++ [c]).length - (n + 1) = l.length - n := by simp
      rw [e1, List.take_append_of_le_length (by omega), List.drop_append_of_le_length (by omega)]
      simp

/-- The two loops of `MoveBoardToBoard` put the top `amount` cards of the
source, in their order, on the destination. -/
theorem MoveBoardToBoard_move_spec {α : Type} (board : List (List α))
    (pile_from pile_to amount : Nat) (src dst : List α)
    (hf : 1 ≤ pile_from) (hf2 : pile_from < SIZE_MOD) (ht : 1 ≤ pile_to)
    (ht2 : pile_to < SIZE_MOD) (hne : pile_from ≠ pile_to)
    (hsrc : board[pile_from - 1]? = some src) (hdst : board[pile_to - 1]? = some dst)
    (ha : amount ≤ src.length) :
    Freecell.MoveBoardToBoard.move board pile_from pile_to amount =
      .ok (moveRun board pile_from pile_to amount) := by
  have hdst1 : (board.set (pile_from - 1) (src.take (src.length - amount)))[pile_to - 1]? =
      some dst := by
    rw [List.getElem?_set_ne (by omega)]; exact hdst
  have htemp : amount ≤ ((src.drop (src.length - amount)).reverse).length := by
    simp; omega
  have hlen : ((src.drop (src.length - amount)).reverse).length - amount = 0 := by
    simp; omega
  simp only [Freecell.MoveBoardToBoard.move, szSub_of_le hf hf2, szSub_of_le ht ht2,
    vecAt_eq_ok hsrc, except_bind_ok, moveBack_spec amount src [] ha, List.nil_append,
    vecAt_eq_ok hdst1, moveBack_spec amount _ dst htemp, hlen, List.drop_zero,
    List.reverse_reverse, except_pure, moveRun, List.getD_eq_getElem?_getD, hsrc, hdst,
    Option.getD_some]

/-- With an index outside [1,8] the test of `MoveBoardToBoard` is false before
any column is read. -/
theorem Freecell_test_out_of_bounds (s : Freecell) (pile_from pile_to amount : Nat)
    (h : ¬ (1 ≤ pile_from ∧ pile_from ≤ 8) ∨ ¬ (1 ≤ pile_to ∧ pile_to ≤ 8)) :
    Freecell.MoveBoardToBoard.test s pile_from pile_to amount = .ok false := by
  unfold Freecell.MoveBoardToBoard.test Freecell.CheckPileBounds
  by_cases hf : 1 ≤ pile_from ∧ pile_from ≤ 8
  · have ht : ¬ (1 ≤ pile_to ∧ pile_to ≤ 8) := by tauto
    have e1 : (decide (pile_from ≥ 1) && decide (pile_from ≤ 8)) = true := by simp [hf]
    have e2 : (decide (pile_to ≥ 1) && decide (pile_to ≤ 8)) = false := by
      simp only [Bool.and_eq_false_imp, decide_eq_true_eq, decide_eq_false_iff_not]
      intro h1 h2; exact ht ⟨h1, h2⟩
    rw [e1, e2]; rfl
  · have e1 : (decide (pile_from ≥ 1) && decide (pile_from ≤ 8)) = false := by
      simp only [Bool.and_eq_false_imp, decide_eq_true_eq, decide_eq_false_iff_not]
      intro h1 h2; exact hf ⟨h1, h2⟩
    rw [e1]; rfl

/-- The test of `MoveBoardToBoard` on one card of an empty source column. -/
theorem Freecell_test_empty_source (s : Freecell) (pile_from pile_to : Nat)
    (hf : 1 ≤ pile_from) (hf2 : pile_from < SIZE_MOD)
    (hsrc : s.board[pile_from - 1]? = some []) :
    Freecell.MoveBoardToBoard.test s pile_from pile_to 1 = .ok false := by
  unfold Freecell.MoveBoardToBoard.test
  cases Freecell.CheckPileBounds pile_from <;> cases Freecell.CheckPileBounds pile_to <;>
    simp [Solitaire.CheckDescendingPile, szSub_of_le hf hf2, emptyAt_eq_ok hsrc]

/-- Evaluation of `CheckCanMoveCardOnCard` on a run whose bottom card is `c` and
a destination whose top card is `d`, when the sum `rank + 1`, made for cards of
different colours, does not overflow. -/
theorem CheckCanMoveCardOnCard_eval (s : Freecell) (pile_from pile_to amount : Nat)
    (src dst : List StandardPlayingCard) (c d : StandardPlayingCard)
    (hf : 1 ≤ pile_from) (hf2 : pile_from < SIZE_MOD) (ht : 1 ≤ pile_to)
    (ht2 : pile_to < SIZE_MOD)
    (hsrc : s.board[pile_from - 1]? = some src) (hdst : s.board[pile_to - 1]? = some dst)
    (ha : amount ≤ src.length) (hlen : src.length < SIZE_MOD)
    (hc : src[src.length - amount]? = some c) (hd : dst.getLast? = some d)
    (hov : GetColor c ≠ GetColor d → IsInt32 (GetRank c + 1)) :
    Freecell.CheckCanMoveCardOnCard s pile_from pile_to amount = .ok (decide (CanStack c d)) := by
  simp only [Freecell.CheckCanMoveCardOnCard, szSub_of_le hf hf2, szSub_of_le ht ht2,
    vecAt_eq_ok hsrc, except_bind_ok, szSub_of_le ha hlen, vecAt_eq_ok hc,
    backAt_eq_ok hdst hd, CanStack]
  by_cases h1 : GetColor c ≠ GetColor d
  · rw [decide_eq_true h1, sAnd_true, rankSucc_eval _ (hov h1)]
    by_cases h2 : GetRank d = GetRank c + 1 <;> simp [h1, h2]
  · rw [decide_eq_false h1, sAnd_false]
    simp [h1]

/-- `CheckCanMoveCardOnCard` on cards of different colours of which the lower
has a rank whose successor is no `int` value: the sum overflows. -/
theorem CheckCanMoveCardOnCard_overflow (s : Freecell) (pile_from pile_to amount : Nat)
    (src dst : List StandardPlayingCard) (c d : StandardPlayingCard)
    (hf : 1 ≤ pile_from) (hf2 : pile_from < SIZE_MOD) (ht : 1 ≤ pile_to)
    (ht2 : pile_to < SIZE_MOD)
    (hsrc : s.board[pile_from - 1]? = some src) (hdst : s.board[pile_to - 1]? = some dst)
    (ha : amount ≤ src.length) (hlen : src.length < SIZE_MOD)
    (hc : src[src.length - amount]? = some c) (hd : dst.getLast? = some d)
    (hcol : GetColor c ≠ GetColor d) (hov : ¬ IsInt32 (GetRank c + 1)) :
    Freecell.CheckCanMoveCardOnCard s pile_from pile_to amount = .error .intOverflow := by
  simp only [Freecell.CheckCanMoveCardOnCard, szSub_of_le hf hf2, szSub_of_le ht ht2,
    vecAt_eq_ok hsrc, except_bind_ok, szSub_of_le ha hlen, vecAt_eq_ok hc,
    backAt_eq_ok hdst hd, decide_eq_true hcol, sAnd_true, rankSucc_overflow _ hov]

/-- On columns of the board and an amount between 1 and the size of the source,
the test of `MoveBoardToBoard` either returns, and is then true exactly when
the columns differ, the run descends, `CheckMoveAmount` accepts the amount and
the destination is empty or takes the run, or it computes `rank + 1` for a
rank whose successor is no `int` value. -/
theorem Freecell_test_stages (s : Freecell) (pile_from pile_to amount : Nat)
    (src dst : List StandardPlayingCard)
    (hf : 1 ≤ pile_from ∧ pile_from ≤ 8) (ht : 1 ≤ pile_to ∧ pile_to ≤ 8)
    (hsrc : s.board[pile_from - 1]? = some src) (hdst : s.board[pile_to - 1]? = some dst)
    (ha1 : 1 ≤ amount) (ha : amount ≤ src.length) (hlen : src.length < SIZE_MOD)
    (hint : ∀ c ∈ src, IsInt32 (GetRank c)) :
    ∃ bm, Freecell.CheckMoveAmount s pile_to amount = .ok bm ∧
      ((∃ b, Freecell.MoveBoardToBoard.test s pile_from pile_to amount = .ok b ∧
        (b = true ↔ (pile_from ≠ pile_to ∧ IsDescendingRun src amount ∧ bm = true ∧
          (dst.length = 0 ∨ ∃ c d, src[src.length - amount]? = some c ∧
            dst.getLast? = some d ∧ CanStack c d)))) ∨
       (Freecell.MoveBoardToBoard.test s pile_from pile_to amount = .error .intOverflow ∧
         bm = true ∧
         ∃ c d, src[src.length - amount]? = some c ∧ dst.getLast? = some d ∧
           GetColor c ≠ GetColor d ∧ ¬ IsInt32 (GetRank c + 1))) := by
  have hf2 : pile_from < SIZE_MOD := by rw [SIZE_MOD_eq]; omega
  have ht2 : pile_to < SIZE_MOD := by rw [SIZE_MOD_eq]; omega
  have hbf : Freecell.CheckPileBounds pile_from = true := by
    simp [Freecell.CheckPileBounds, hf.1, hf.2]
  have hbt : Freecell.CheckPileBounds pile_to = true := by
    simp [Freecell.CheckPileBounds, ht.1, ht.2]
  have hdesc := CheckDescendingPile_eq_decide s pile_from amount src hf.1 hf2 hsrc ha1 ha hlen hint
  have hne : src.isEmpty = false := by
    cases src with
    | nil => simp at ha; omega
    | cons a l => rfl
  obtain ⟨bm, hbm⟩ := CheckMoveAmount_total s pile_to amount dst ht.1 ht2 hdst
  obtain ⟨c, hc⟩ : ∃ c, src[src.length - amount]? = some c := by
    have : src.length - amount < src.length := by omega
    exact ⟨src[src.length - amount], List.getElem?_eq_getElem this⟩
  refine ⟨bm, hbm, ?_⟩
  simp only [Freecell.MoveBoardToBoard.test, hbf, hbt, sAnd_true, hdesc,
    szSub_of_le hf.1 hf2, szSub_of_le ht.1 ht2, emptyAt_eq_ok hsrc, hne, sNot_ok,
    Bool.not_false, hbm, emptyAt_eq_ok hdst]
  by_cases hrun : IsDescendingRun src amount
  swap
  · exact Or.inl ⟨false, by simp [hrun], by simp [hrun]⟩
  cases bm
  · exact Or.inl ⟨false, by simp [hrun, ha1], by simp⟩
  by_cases hneq : pile_to = pile_from
  · refine Or.inl ⟨false, by simp [hrun, ha1, hneq], ?_⟩
    simp only [Bool.false_eq_true, false_iff]
    intro h
    exact h.1 hneq.symm
  have hneq2 : pile_from ≠ pile_to := fun h => hneq h.symm
  rcases List.eq_nil_or_concat dst with hd | ⟨l, d, hd⟩
  · subst hd
    exact Or.inl ⟨true, by simp [hrun, ha1, hneq], by simp [hneq2, hrun]⟩
  · rw [List.concat_eq_append] at hd
    subst hd
    have he : (l ++ [d]).isEmpty = false :=
      isEmpty_eq_false_of_getLast? (List.getLast?_concat l)
    by_cases hov : GetColor c ≠ GetColor d → IsInt32 (GetRank c + 1)
    · have hcan := CheckCanMoveCardOnCard_eval s pile_from pile_to amount src (l ++ [d]) c d
        hf.1 hf2 ht.1 ht2 hsrc hdst ha hlen hc (List.getLast?_concat l) hov
      refine Or.inl ⟨decide (CanStack c d), by simp [hrun, ha1, hneq, hcan, he], ?_⟩
      simp [hneq2, hrun, hc]
    · have hcol : GetColor c ≠ GetColor d :=
        fun h1 => hov (fun h2 => absurd h1 h2)
      have hnov : ¬ IsInt32 (GetRank c + 1) := fun h1 => hov (fun _ => h1)
      have hcan := CheckCanMoveCardOnCard_overflow s pile_from pile_to amount src (l ++ [d]) c d
        hf.1 hf2 ht.1 ht2 hsrc hdst ha hlen hc (List.getLast?_concat l) hcol hnov
      exact Or.inr ⟨by simp [hrun, ha1, hneq, hcan, he], rfl, c, d, hc,
        List.getLast?_concat l, hcol, hnov⟩

/-- For a test of `MoveBoardToBoard` that is true the two loops move the run. -/
theorem Freecell_MoveBoardToBoard_of_test (s : Freecell) (pile_from pile_to amount : Nat)
    (src dst : List StandardPlayingCard)
    (hf : 1 ≤ pile_from ∧ pile_from ≤ 8) (ht : 1 ≤ pile_to ∧ pile_to ≤ 8)
    (hne : pile_from ≠ pile_to)
    (hsrc : s.board[pile_from - 1]? = some src) (hdst : s.board[pile_to - 1]? = some dst)
    (ha1 : 1 ≤ amount) (ha : amount ≤ src.length)
    (htest : Freecell.MoveBoardToBoard.test s pile_from pile_to amount = .ok true) :
    Freecell.MoveBoardToBoard s pile_from pile_to amount =
        .ok { s with board := moveRun s.board pile_from pile_to amount } ∧
      ({ s with board := moveRun s.board pile_from pile_to amount } : Freecell) ≠ s := by
  have hf2 : pile_from < SIZE_MOD := by rw [SIZE_MOD_eq]; omega
  have ht2 : pile_to < SIZE_MOD := by rw [SIZE_MOD_eq]; omega
  have hgetD1 : s.board.getD (pile_from - 1) [] = src := by
    rw [List.getD_eq_getElem?_getD, hsrc]; rfl
  refine ⟨by
    simp only [Freecell.MoveBoardToBoard, htest, MoveBoardToBoard_move_spec s.board pile_from
      pile_to amount src dst hf.1 hf2 ht.1 ht2 hne hsrc hdst ha], ?_⟩
  intro heq
  have hboardeq : moveRun s.board pile_from pile_to amount = s.board :=
    congrArg Solitaire.board heq
  have hcol : (moveRun s.board pile_from pile_to amount)[pile_from - 1]? =
      some (src.take (src.length - amount)) := by
    unfold moveRun
    rw [List.getElem?_set_ne (by omega), hgetD1]
    simp only [List.getElem?_set, if_true]
    rw [if_pos (lt_of_not_ge (fun hge => by
      rw [List.getElem?_eq_none hge] at hsrc; cases hsrc))]
  rw [hboardeq, hsrc] at hcol
  have := congrArg List.length (Option.some.inj hcol)
  simp at this
  omega

/-- The outcome of Freecell `MoveBoardToBoard` on a board of eight columns, for
arguments such that an index is outside [1,8], or `amount = 1`, or
`1 ≤ amount ≤` size of the source column: the state is returned unchanged, or
the run was moved between two different columns of the board, or the sum
`rank + 1` overflowed. -/
theorem Freecell_MoveBoardToBoard_outcome (s : Freecell) (pile_from pile_to amount : Nat)
    (hboard : s.board.length = 8)
    (hlen : ∀ col ∈ s.board, col.length < SIZE_MOD)
    (hint : ∀ col ∈ s.board, ∀ c ∈ col, IsInt32 (GetRank c))
    (hdom : ¬ (1 ≤ pile_from ∧ pile_from ≤ 8) ∨ ¬ (1 ≤ pile_to ∧ pile_to ≤ 8) ∨ amount = 1 ∨
      (1 ≤ amount ∧ amount ≤ (s.board.getD (pile_from - 1) []).length)) :
    Freecell.MoveBoardToBoard s pile_from pile_to amount = .ok s ∨
    (Freecell.MoveBoardToBoard s pile_from pile_to amount =
        .ok { s with board := moveRun s.board pile_from pile_to amount } ∧
      (1 ≤ pile_from ∧ pile_from ≤ 8) ∧ (1 ≤ pile_to ∧ pile_to ≤ 8) ∧ pile_from ≠ pile_to ∧
      1 ≤ amount ∧ amount ≤ (s.board.getD (pile_from - 1) []).length ∧
      Freecell.CheckMoveAmount s pile_to amount = .ok true) ∨
    (Freecell.MoveBoardToBoard s pile_from pile_to amount = .error .intOverflow ∧
      Freecell.CheckMoveAmount s pile_to amount = .ok true) := by
  by_cases hb : (1 ≤ pile_from ∧ pile_from ≤ 8) ∧ (1 ≤ pile_to ∧ pile_to ≤ 8)
  swap
  · have hout : ¬ (1 ≤ pile_from ∧ pile_from ≤ 8) ∨ ¬ (1 ≤ pile_to ∧ pile_to ≤ 8) := by tauto
    have ht := Freecell_test_out_of_bounds s pile_from pile_to amount hout
    exact Or.inl (by simp only [Freecell.MoveBoardToBoard, ht])
  obtain ⟨hf, ht⟩ := hb
  have hf2 : pile_from < SIZE_MOD := by rw [SIZE_MOD_eq]; omega
  obtain ⟨src, hsrc⟩ : ∃ src, s.board[pile_from - 1]? = some src :=
    ⟨s.board[pile_from - 1], List.getElem?_eq_getElem (by omega)⟩
  obtain ⟨dst, hdst⟩ : ∃ dst, s.board[pile_to - 1]? = some dst :=
    ⟨s.board[pile_to - 1], List.getElem?_eq_getElem (by omega)⟩
  have hgetD1 : s.board.getD (pile_from - 1) [] = src := by
    rw [List.getD_eq_getElem?_getD, hsrc]; rfl
  have hmem : src ∈ s.board := List.getElem?_mem hsrc
  by_cases hrange : 1 ≤ amount ∧ amount ≤ src.length
  · obtain ⟨bm, hbm, hst⟩ := Freecell_test_stages s pile_from pile_to amount src dst hf ht hsrc
      hdst hrange.1 hrange.2 (hlen src hmem) (hint src hmem)
    rcases hst with ⟨b, hb, hbiff⟩ | ⟨herr, hbt, _⟩
    · cases b
      · exact Or.inl (by simp only [Freecell.MoveBoardToBoard, hb])
      · have hl := hbiff.mp rfl
        rw [hl.2.2.1] at hbm
        exact Or.inr (Or.inl ⟨(Freecell_MoveBoardToBoard_of_test s pile_from pile_to amount src
          dst hf ht hl.1 hsrc hdst hrange.1 hrange.2 hb).1, hf, ht, hl.1, hrange.1,
          by rw [hgetD1]; exact hrange.2, hbm⟩)
    · rw [hbt] at hbm
      exact Or.inr (Or.inr ⟨by simp only [Freecell.MoveBoardToBoard, herr], hbm⟩)
  · have ha1 : amount = 1 := by
      rcases hdom with h | h | h | h
      · exact absurd hf h
      · exact absurd ht h
      · exact h
      · rw [hgetD1] at h; exact absurd h hrange
    subst ha1
    have hnil : src = [] := by
      cases src with
      | nil => rfl
      | cons a l => simp at hrange
    subst hnil
    have htest := Freecell_test_empty_source s pile_from pile_to hf.1 hf2 hsrc
    exact Or.inl (by simp only [Freecell.MoveBoardToBoard, htest])

/-- On a board of eight columns with at most four occupied free cells, for a
destination that is a column of the board and an amount between 1 and 52,
`CheckMoveAmount` accepts the amount exactly when it is within the linear
capacity `(free_cells_available + 1) × (empties + 1)`. -/
theorem CheckMoveAmount_eq_capacity (s : Freecell) (pile_to amount : Nat)
    (dst : List StandardPlayingCard)
    (hboard : s.board.length = 8) (hfree : s.free.length ≤ 4)
    (ht : 1 ≤ pile_to) (ht2 : pile_to < SIZE_MOD) (hdst : s.board[pile_to - 1]? = some dst)
    (ha1 : 1 ≤ amount) (h52 : amount ≤ 52) :
    Freecell.CheckMoveAmount s pile_to amount =
      .ok (decide (amount ≤ Freecell.capacity s pile_to)) := by
  have hgetD : s.board.getD (pile_to - 1) [] = dst := by
    rw [List.getD_eq_getElem?_getD, hdst]; rfl
  have hle : s.board.countP List.isEmpty ≤ 8 := by
    rw [← hboard]; exact List.countP_le_length _
  by_cases h0 : s.board.countP List.isEmpty = 0
  · rw [CheckMoveAmount_first s pile_to amount (Or.inl h0),
      capacity_first _ amount hfree ha1 h52]
    simp [Freecell.capacity, Freecell.spareColumns, h0]
  by_cases h1 : s.board.countP List.isEmpty = 1
  · rcases List.eq_nil_or_concat dst with hd | ⟨l, d, hd⟩
    · subst hd
      have hsp : Freecell.spareColumns s pile_to = 0 := by
        simp only [Freecell.spareColumns, h1, hgetD]
        simp
      rw [CheckMoveAmount_first s pile_to amount (Or.inr ⟨h1, ht, ht2, hdst⟩),
        capacity_first _ amount hfree ha1 h52]
      simp [Freecell.capacity, hsp]
    · rw [List.concat_eq_append] at hd
      subst hd
      have he : (l ++ [d]).isEmpty = false :=
        isEmpty_eq_false_of_getLast? (List.getLast?_concat l)
      have hcm : Freecell.CheckMoveAmount s pile_to amount =
          .ok (decide (100000 > szSub (szMul (szAdd (s.board.countP List.isEmpty) 1)
            (szSub 5 s.free.length)) amount)) := by
        unfold Freecell.CheckMoveAmount
        simp [h1, szSub_of_le ht ht2, emptyAt_eq_ok hdst, he]
      have hsp : Freecell.spareColumns s pile_to = 1 := by
        simp only [Freecell.spareColumns, h1, hgetD]
        simp
      rw [hcm, capacity_second _ _ amount hle hfree ha1 h52]
      simp [Freecell.capacity, hsp, h1, Nat.mul_comm]
  · rw [CheckMoveAmount_second s pile_to amount (by omega),
      capacity_second _ _ amount hle hfree ha1 h52]
    simp [Freecell.capacity, Freecell.spareColumns, h1, Nat.mul_comm]

/-- C2, the claim as stated fails, twice. On a source column of three cards a
request to move four cards is not rejected with the state unchanged: the run
check reads `board[0][3 - 4]`, outside the column, before any test of the
amount against the size of the source, so the call has no defined outcome.
And with four occupied free cells and two empty columns the run of four of
`fullCellsState` is within the stated capacity `(0 + 1) × 2^2 = 4` and legal by
every part of the stated rule, yet it is not moved: the capacity the code
applies is `(0 + 1) × (2 + 1) = 3`. -/
theorem Freecell_MoveBoardToBoard_unguarded_amount :
    (¬ Freecell.StatedLegalBoardToBoard runState 1 2 4 ∧
      Freecell.MoveBoardToBoard runState 1 2 4 = .error .outOfRange ∧
      Freecell.MoveBoardToBoard runState 1 2 4 ≠ .ok runState) ∧
    (Freecell.StatedLegalBoardToBoard fullCellsState 1 2 4 ∧
      Freecell.statedCapacity fullCellsState 2 = 4 ∧ Freecell.capacity fullCellsState 2 = 3 ∧
      Freecell.MoveBoardToBoard fullCellsState 1 2 4 = .ok fullCellsState) := by
  refine ⟨⟨fun h => ?_, by decide, by decide⟩, ⟨?_, by decide, by decide, by decide⟩⟩
  · have h5 := h.2.2.2.2.1
    revert h5
    decide
  · refine ⟨by decide, by decide, by decide, by decide, by decide, by decide, by decide, ?_⟩
    exact Or.inr ⟨⟨8, "heart"⟩, ⟨9, "club"⟩, rfl, rfl, by decide⟩

/-- The outcome of Freecell `MoveBoardToBoard` on a board of eight columns of at
most 52 cards each, with at most four occupied free cells, for arguments such
that an index is outside [1,8], or `amount = 1`, or `1 ≤ amount ≤` size of the
source column; ranks are `int` values other than the greatest one. -/
theorem Freecell_MoveBoardToBoard_cases (s : Freecell) (pile_from pile_to amount : Nat)
    (hboard : s.board.length = 8) (hfree : s.free.length ≤ 4)
    (hlen : ∀ col ∈ s.board, col.length ≤ 52)
    (hint : ∀ col ∈ s.board, ∀ c ∈ col, IsInt32 (GetRank c) ∧ IsInt32 (GetRank c + 1))
    (hdom : ¬ (1 ≤ pile_from ∧ pile_from ≤ 8) ∨ ¬ (1 ≤ pile_to ∧ pile_to ≤ 8) ∨ amount = 1 ∨
      (1 ≤ amount ∧ amount ≤ (s.board.getD (pile_from - 1) []).length)) :
    (Freecell.LegalBoardToBoard s pile_from pile_to amount →
      Freecell.MoveBoardToBoard s pile_from pile_to amount =
        .ok { s with board := moveRun s.board pile_from pile_to amount } ∧
      ({ s with board := moveRun s.board pile_from pile_to amount } : Freecell) ≠ s) ∧
    (¬ Freecell.LegalBoardToBoard s pile_from pile_to amount →
      Freecell.MoveBoardToBoard s pile_from pile_to amount = .ok s) := by
  by_cases hb : (1 ≤ pile_from ∧ pile_from ≤ 8) ∧ (1 ≤ pile_to ∧ pile_to ≤ 8)
  swap
  · have hout : ¬ (1 ≤ pile_from ∧ pile_from ≤ 8) ∨ ¬ (1 ≤ pile_to ∧ pile_to ≤ 8) := by tauto
    have hnl : ¬ Freecell.LegalBoardToBoard s pile_from pile_to amount := by
      intro h; exact hb ⟨h.1, h.2.1⟩
    have ht := Freecell_test_out_of_bounds s pile_from pile_to amount hout
    exact ⟨fun h => absurd h hnl, fun _ => by simp only [Freecell.MoveBoardToBoard, ht]⟩
  obtain ⟨hf, ht⟩ := hb
  have hf2 : pile_from < SIZE_MOD := by rw [SIZE_MOD_eq]; omega
  have ht2 : pile_to < SIZE_MOD := by rw [SIZE_MOD_eq]; omega
  obtain ⟨src, hsrc⟩ : ∃ src, s.board[pile_from - 1]? = some src :=
    ⟨s.board[pile_from - 1], List.getElem?_eq_getElem (by omega)⟩
  obtain ⟨dst, hdst⟩ : ∃ dst, s.board[pile_to - 1]? = some dst :=
    ⟨s.board[pile_to - 1], List.getElem?_eq_getElem (by omega)⟩
  have hgetD1 : s.board.getD (pile_from - 1) [] = src := by
    rw [List.getD_eq_getElem?_getD, hsrc]; rfl
  have hgetD2 : s.board.getD (pile_to - 1) [] = dst := by
    rw [List.getD_eq_getElem?_getD, hdst]; rfl
  have hmem : src ∈ s.board := List.getElem?_mem hsrc
  have hsz : src.length < SIZE_MOD := by
    have := hlen src hmem
    rw [SIZE_MOD_eq]; omega
  by_cases hrange : 1 ≤ amount ∧ amount ≤ src.length
  · obtain ⟨bm, hbm, hst⟩ := Freecell_test_stages s pile_from pile_to amount src dst hf ht hsrc
      hdst hrange.1 hrange.2 hsz (fun c hc => (hint src hmem c hc).1)
    have hcap := CheckMoveAmount_eq_capacity s pile_to amount dst hboard hfree ht.1 ht2 hdst
      hrange.1 (le_trans hrange.2 (hlen src hmem))
    rw [hbm] at hcap
    have hbmiff : bm = true ↔ amount ≤ Freecell.capacity s pile_to := by
      rw [Except.ok.inj hcap]; simp
    have hleg : Freecell.LegalBoardToBoard s pile_from pile_to amount ↔
        (pile_from ≠ pile_to ∧ IsDescendingRun src amount ∧ bm = true ∧
          (dst.length = 0 ∨ ∃ c d, src[src.length - amount]? = some c ∧
            dst.getLast? = some d ∧ CanStack c d)) := by
      simp only [Freecell.LegalBoardToBoard, Freecell.LegalBoardToBoardWith, hgetD1, hgetD2,
        hbmiff]
      constructor
      · intro h; exact ⟨h.2.2.1, h.2.2.2.2.2.1, h.2.2.2.2.2.2.1, h.2.2.2.2.2.2.2⟩
      · intro h; exact ⟨hf, ht, h.1, hrange.1, hrange.2, h.2.1, h.2.2.1, h.2.2.2⟩
    rcases hst with ⟨b, hb, hbiff⟩ | ⟨_, _, c, d, hc, _, _, hnov⟩
    · constructor
      · intro hl
        have hbt : b = true := hbiff.mpr (hleg.mp hl)
        subst hbt
        exact Freecell_MoveBoardToBoard_of_test s pile_from pile_to amount src dst hf ht
          (hleg.mp hl).1 hsrc hdst hrange.1 hrange.2 hb
      · intro hnl
        have hbf : b = false := by
          cases b
          · rfl
          · exact absurd (hleg.mpr (hbiff.mp rfl)) hnl
        subst hbf
        simp only [Freecell.MoveBoardToBoard, hb]
    · exact absurd (hint src hmem c (List.getElem?_mem hc)).2 hnov
  · have ha1 : amount = 1 := by
      rcases hdom with h | h | h | h
      · exact absurd hf h
      · exact absurd ht h
      · exact h
      · rw [hgetD1] at h; exact absurd h hrange
    subst ha1
    have hnil : src = [] := by
      cases src with
      | nil => rfl
      | cons a l => simp at hrange
    subst hnil
    have hnl : ¬ Freecell.LegalBoardToBoard s pile_from pile_to 1 := by
      intro h
      have h5 := h.2.2.2.2.1
      rw [hgetD1] at h5
      simp at h5
    have htest := Freecell_test_empty_source s pile_from pile_to hf.1 hf2 hsrc
    exact ⟨fun h => absurd h hnl, fun _ => by simp only [Freecell.MoveBoardToBoard, htest]⟩

/-! ## The capacity rule, settled -/

/-- C3: when no board column is empty, or the destination is the only empty
column, `CheckMoveAmount(to, amount)` accepts an amount between 1 and 52
exactly when `amount ≤ (4 - free.size()) + 1`, for every occupancy 0..4 of the
free cells. With one free cell occupied and no empty column an amount of 4 is
accepted, an amount of 5 is rejected, and `MoveBoardToBoard` with amount 5
leaves the state unchanged (the source column holds at least 5 cards, or an
index is outside [1,8]). -/
theorem CheckMoveAmount_no_spare_column (s : Freecell) (pile_to amount : Nat)
    (hfree : s.free.length ≤ 4)
    (hcase : s.board.countP List.isEmpty = 0 ∨
      (s.board.countP List.isEmpty = 1 ∧ 1 ≤ pile_to ∧ pile_to < SIZE_MOD ∧
        s.board[pile_to - 1]? = some []))
    (h1 : 1 ≤ amount) (h52 : amount ≤ 52) :
    Freecell.CheckMoveAmount s pile_to amount = .ok (decide (amount ≤ (4 - s.free.length) + 1)) ∧
    (s.free.length = 1 → s.board.countP List.isEmpty = 0 →
      Freecell.CheckMoveAmount s pile_to 4 = .ok true ∧
      Freecell.CheckMoveAmount s pile_to 5 = .ok false ∧
      ∀ pile_from : Nat, s.board.length = 8 →
        (∀ col ∈ s.board, col.length < SIZE_MOD) →
        (∀ col ∈ s.board, ∀ c ∈ col, IsInt32 (GetRank c)) →
        (¬ (1 ≤ pile_from ∧ pile_from ≤ 8) ∨ ¬ (1 ≤ pile_to ∧ pile_to ≤ 8) ∨
          5 ≤ (s.board.getD (pile_from - 1) []).length) →
        Freecell.MoveBoardToBoard s pile_from pile_to 5 = .ok s) := by
  refine ⟨?_, fun hf1 he0 => ?_⟩
  · rw [CheckMoveAmount_first s pile_to amount hcase, capacity_first _ amount hfree h1 h52]
  · have h4 : Freecell.CheckMoveAmount s pile_to 4 = .ok true := by
      rw [CheckMoveAmount_first s pile_to 4 (Or.inl he0), hf1]; decide
    have h5 : Freecell.CheckMoveAmount s pile_to 5 = .ok false := by
      rw [CheckMoveAmount_first s pile_to 5 (Or.inl he0), hf1]; decide
    refine ⟨h4, h5, fun pile_from hboard hlen hint hdom => ?_⟩
    have hdom2 : ¬ (1 ≤ pile_from ∧ pile_from ≤ 8) ∨ ¬ (1 ≤ pile_to ∧ pile_to ≤ 8) ∨ 5 = 1 ∨
        (1 ≤ 5 ∧ 5 ≤ (s.board.getD (pile_from - 1) []).length) := by
      rcases hdom with h | h | h
      · exact Or.inl h
      · exact Or.inr (Or.inl h)
      · exact Or.inr (Or.inr (Or.inr ⟨by omega, h⟩))
    rcases Freecell_MoveBoardToBoard_outcome s pile_from pile_to 5 hboard hlen hint hdom2 with
      h | h | h
    · exact h
    · have hc := h.2.2.2.2.2.2
      rw [h5] at hc
      cases hc
    · have hc := h.2
      rw [h5] at hc
      cases hc

/-- C3 at a concrete position: in `capacityState` (one free cell occupied, no
empty column) the run of five of column 1 is not moved onto the ten of column
2, although it fits there, and an amount of 4 passes the capacity check. -/
theorem CheckMoveAmount_no_spare_column_witness :
    Freecell.CheckMoveAmount capacityState 2 4 = .ok true ∧
    Freecell.CheckMoveAmount capacityState 2 5 = .ok false ∧
    Freecell.MoveBoardToBoard capacityState 1 2 5 = .ok capacityState :=
  have h := (CheckMoveAmount_no_spare_column capacityState 2 5 (by decide) (Or.inl (by decide))
    (by decide) (by decide)).2 (by decide) (by decide)
  ⟨h.1, h.2.1, h.2.2 1 (by decide) (by decide) (by decide) (Or.inr (Or.inr (by decide)))⟩

/-- C4, the claim as stated fails: with all four free cells occupied and two
empty columns the stated bound is `(0 + 1) * 2 ^ 2 = 4`, yet `CheckMoveAmount`
rejects an amount of 4, and the fitting run of four of `fullCellsState` is not
moved. -/
theorem CheckMoveAmount_rejects_below_power_bound :
    2 ≤ fullCellsState.board.countP List.isEmpty ∧
    4 ≤ ((4 - fullCellsState.free.length) + 1) * 2 ^ fullCellsState.board.countP List.isEmpty ∧
    Freecell.CheckMoveAmount fullCellsState 2 4 = .ok false ∧
    Freecell.MoveBoardToBoard fullCellsState 1 2 4 = .ok fullCellsState := by
  decide

/-- C4, amended: on a board of eight columns of which at least two are empty,
the largest amount `CheckMoveAmount` accepts is
`(free_cells_available + 1) * (empties + 1)` with
`free_cells_available = 4 - free.size()`: every amount from 1 up to that bound
is accepted and every larger amount up to 52 is rejected. -/
theorem CheckMoveAmount_spare_columns (s : Freecell) (pile_to amount : Nat)
    (hboard : s.board.length = 8) (hfree : s.free.length ≤ 4)
    (he : 2 ≤ s.board.countP List.isEmpty) (h1 : 1 ≤ amount) (h52 : amount ≤ 52) :
    Freecell.CheckMoveAmount s pile_to amount =
      .ok (decide (amount ≤ ((4 - s.free.length) + 1) * (s.board.countP List.isEmpty + 1))) := by
  have hle : s.board.countP List.isEmpty ≤ 8 := by
    rw [← hboard]; exact List.countP_le_length _
  rw [CheckMoveAmount_second s pile_to amount he,
    capacity_second _ _ amount hle hfree h1 h52, Nat.mul_comm]

/-- C4, amended, at a concrete position: in `fullCellsState` the bound is
`(0 + 1) * (2 + 1) = 3`; an amount of 3 is accepted and an amount of 4 is not. -/
theorem CheckMoveAmount_spare_columns_witness :
    Freecell.CheckMoveAmount fullCellsState 2 3 = .ok true ∧
    Freecell.CheckMoveAmount fullCellsState 2 4 = .ok false :=
  ⟨(CheckMoveAmount_spare_columns fullCellsState 2 3 (by decide) (by decide) (by decide)
      (by decide) (by decide)).trans (by decide),
   (CheckMoveAmount_spare_columns fullCellsState 2 4 (by decide) (by decide) (by decide)
      (by decide) (by decide)).trans (by decide)⟩

/-! ## Reading an outcome backwards -/

theorem vecAt_ok_iff {α : Type} {v : List α} {i : Nat} {x : α} :
    vecAt v i = .ok x ↔ v[i]? = some x := by
  unfold vecAt
  cases h : v[i]? <;> simp

theorem vecBack_ok_iff {α : Type} {v : List α} {x : α} :
    vecBack v = .ok x ↔ ∃ l, v = l ++ [x] := by
  unfold vecBack
  cases h : v.getLast? with
  | none =>
    simp only [reduceCtorEq, false_iff, not_exists]
    intro l hl
    rw [hl, List.getLast?_concat] at h
    cases h
  | some y =>
    simp only [Except.ok.injEq]
    rw [List.getLast?_eq_some_iff] at h
    obtain ⟨l, hl⟩ := h
    constructor
    · intro hxy; exact ⟨l, by rw [hl, hxy]⟩
    · rintro ⟨l2, hl2⟩
      rw [hl] at hl2
      exact (List.append_inj' hl2 rfl).2 |> List.singleton_inj.mp

theorem emptyAt_ok_iff {α : Type} {v : List (List α)} {i : Nat} {b : Bool} :
    emptyAt v i = .ok b ↔ ∃ p, v[i]? = some p ∧ p.isEmpty = b := by
  unfold emptyAt vecAt
  cases h : v[i]? <;> simp

theorem backAt_ok_iff {α : Type} {v : List (List α)} {i : Nat} {x : α} :
    backAt v i = .ok x ↔ ∃ l, v[i]? = some (l ++ [x]) := by
  unfold backAt vecAt
  cases h : v[i]? with
  | none => simp
  | some p =>
    simp only [vecBack_ok_iff, Option.some.injEq]

theorem pushAt_ok_iff {α : Type} {v w : List (List α)} {i : Nat} {c : α} :
    pushAt v i c = .ok w ↔ ∃ p, v[i]? = some p ∧ w = v.set i (p ++ [c]) := by
  unfold pushAt vecAt
  cases h : v[i]? with
  | none => simp
  | some p => simp [eq_comm]

theorem popAt_ok_iff {α : Type} {v w : List (List α)} {i : Nat} :
    popAt v i = .ok w ↔ ∃ l x, v[i]? = some (l ++ [x]) ∧ w = v.set i l := by
  unfold popAt vecAt
  cases h : v[i]? with
  | none => simp
  | some p =>
    rcases List.eq_nil_or_concat p with hp | ⟨l, x, hp⟩
    · subst hp; simp
    · rw [List.concat_eq_append] at hp
      subst hp
      have hne : l ++ [x] ≠ [] := by simp
      constructor
      · intro hw
        refine ⟨l, x, rfl, ?_⟩
        cases hl : l ++ [x] with
        | nil => exact absurd hl hne
        | cons a t =>
          rw [hl] at hw
          simp only [Except.ok.injEq] at hw
          rw [← hw, ← hl, List.dropLast_concat]
      · rintro ⟨l2, x2, h2, hw⟩
        have h3 := Option.some.inj h2
        have h4 : l = l2 := (List.append_inj' h3 rfl).1
        subst h4
        cases hl : l ++ [x] with
        | nil => exact absurd hl hne
        | cons a t =>
          simp only [Except.ok.injEq]
          rw [hw, ← hl, List.dropLast_concat]

theorem sAnd_eq_true_iff {a b : Except Fault Bool} :
    sAnd a b = .ok true ↔ a = .ok true ∧ b = .ok true := by
  rcases a with e | (_ | _) <;> simp [sAnd]

theorem sOr_eq_true_iff {a b : Except Fault Bool} :
    sOr a b = .ok true ↔ a = .ok true ∨ (a = .ok false ∧ b = .ok true) := by
  rcases a with e | (_ | _) <;> simp [sOr]

theorem sNot_eq_true_iff {a : Except Fault Bool} : sNot a = .ok true ↔ a = .ok false := by
  rcases a with e | (_ | _) <;> simp [sNot]

theorem bind_eq_ok_iff {α β : Type} {a : Except Fault α} {f : α → Except Fault β} {y : β} :
    (a >>= f) = .ok y ↔ ∃ x, a = .ok x ∧ f x = .ok y := by
  rcases a with e | x
  · simp only [except_bind_error, reduceCtorEq, false_and, exists_false]
  · simp only [except_bind_ok, Except.ok.injEq, exists_eq_left']

/-! ## Counting cards -/

theorem countIn_nil {T : Type} [PlayingCard T] (a : Int × String) :
    countIn a ([] : List T) = 0 := rfl

theorem countIn_append {T : Type} [PlayingCard T] (a : Int × String) (p q : List T) :
    countIn a (p ++ q) = countIn a p + countIn a q := by
  simp [countIn, List.count_append]

theorem countIn_reverse {T : Type} [PlayingCard T] (a : Int × String) (p : List T) :
    countIn a p.reverse = countIn a p := by
  unfold countIn
  rw [List.map_reverse, List.count_reverse]

theorem countIn_take_drop {T : Type} [PlayingCard T] (a : Int × String) (k : Nat) (p : List T) :
    countIn a (p.take k) + countIn a (p.drop k) = countIn a p := by
  rw [← countIn_append, List.take_append_drop]

theorem countIn_eraseIdx {T : Type} [PlayingCard T] (a : Int × String) (p : List T) (i : Nat)
    (c : T) (h : p[i]? = some c) :
    countIn a (p.eraseIdx i) + countIn a [c] = countIn a p := by
  induction p generalizing i with
  | nil => simp at h
  | cons x l ih =>
    cases i with
    | zero =>
      simp only [List.getElem?_cons_zero, Option.some.injEq] at h
      subst h
      have : x :: l = [x] ++ l := rfl
      rw [List.eraseIdx_cons_zero, this, countIn_append]; omega
    | succ i =>
      simp only [List.getElem?_cons_succ] at h
      have h1 : x :: l = [x] ++ l := rfl
      have h2 : x :: l.eraseIdx i = [x] ++ l.eraseIdx i := rfl
      rw [List.eraseIdx_cons_succ, h1, h2, countIn_append, countIn_append]
      have := ih i h
      omega

theorem countInPiles_set {T : Type} [PlayingCard T] (a : Int × String) (ps : List (List T))
    (i : Nat) (p q : List T) (h : ps[i]? = some p) :
    countInPiles a (ps.set i q) + countIn a p = countInPiles a ps + countIn a q := by
  induction ps generalizing i with
  | nil => simp at h
  | cons x l ih =>
    cases i with
    | zero =>
      simp only [List.getElem?_cons_zero, Option.some.injEq] at h
      subst h
      simp only [countInPiles, List.set_cons_zero, List.map_cons, List.sum_cons]
      omega
    | succ i =>
      simp only [List.getElem?_cons_succ] at h
      have := ih i h
      simp only [countInPiles, List.set_cons_succ, List.map_cons, List.sum_cons] at this ⊢
      omega

theorem countInPiles_append {T : Type} [PlayingCard T] (a : Int × String)
    (ps qs : List (List T)) :
    countInPiles a (ps ++ qs) = countInPiles a ps + countInPiles a qs := by
  simp [countInPiles]

theorem countIn_flipTop (a : Int × String) (col : List PolarStandardPlayingCard) :
    countIn a (flipTop col) = countIn a col := by
  unfold flipTop
  rcases List.eq_nil_or_concat col with hc | ⟨l, d, hc⟩
  · subst hc; rfl
  · rw [List.concat_eq_append] at hc
    subst hc
    rw [List.getLast?_concat]
    cases hd : d.face_up
    · simp only [hd, Bool.false_eq_true, if_false, List.dropLast_concat, countIn_append]
      rfl
    · simp only [hd, if_true]

/-! ## The effect of each move -/

theorem Effect.refl {T : Type} [PlayingCard T] (s : Solitaire T) : Effect s s :=
  ⟨Or.inl rfl, fun _ => rfl, rfl⟩

theorem Freecell_MoveBoardToStack_effect (s s' : Freecell) (p : Nat) (stack : String)
    (aut : Bool) (h : Freecell.MoveBoardToStack s p stack aut = .ok s') : Effect s s' := by
  unfold Freecell.MoveBoardToStack at h
  split at h
  · cases h
  · cases h; exact Effect.refl s
  · rename_i htest
    simp only [bind_eq_ok_iff, backAt_ok_iff, pushAt_ok_iff, popAt_ok_iff, except_pure,
      Except.ok.injEq] at h
    obtain ⟨c, ⟨l, hl⟩, st', ⟨st, hst, rfl⟩, b, ⟨l2, x, hl2, rfl⟩, rfl⟩ := h
    have hfit : FitsFoundation c stack st := of_decide_eq_true
      (Freecell_MoveBoardToStack_test_sound s p stack l st c hl hst true htest).symm
    rw [hl] at hl2
    have hl3 := Option.some.inj hl2
    have h4 : l = l2 := (List.append_inj' hl3 rfl).1
    subst h4
    refine ⟨Or.inr (Or.inl ⟨stack, st, c, hst, hfit, rfl⟩), fun a => ?_, by simp⟩
    have e1 := countInPiles_set a s.board _ _ l hl
    have e2 := countInPiles_set a s.stacks_ _ _ (st ++ [c]) hst
    simp only [countCards, countIn_append] at e1 e2 ⊢
    omega

theorem Freecell_MoveBoardToFree_effect (s s' : Freecell) (p : Nat)
    (h : Freecell.MoveBoardToFree s p = .ok s') : Effect s s' := by
  unfold Freecell.MoveBoardToFree at h
  split at h
  · cases h
  · cases h; exact Effect.refl s
  · simp only [bind_eq_ok_iff, backAt_ok_iff, popAt_ok_iff, except_pure, Except.ok.injEq] at h
    obtain ⟨c, ⟨l, hl⟩, b, ⟨l2, x, hl2, rfl⟩, rfl⟩ := h
    rw [hl] at hl2
    have h4 : l = l2 := (List.append_inj' (Option.some.inj hl2) rfl).1
    subst h4
    refine ⟨Or.inl rfl, fun a => ?_, by simp⟩
    have e1 := countInPiles_set a s.board _ _ l hl
    simp only [countCards, countIn_append] at e1 ⊢
    omega

theorem Freecell_MoveFreeToBoard_effect (s s' : Freecell) (p index : Nat)
    (h : Freecell.MoveFreeToBoard s p index = .ok s') : Effect s s' := by
  unfold Freecell.MoveFreeToBoard at h
  split at h
  · cases h
  · cases h; exact Effect.refl s
  · simp only [bind_eq_ok_iff, vecAt_ok_iff, pushAt_ok_iff, except_pure, Except.ok.injEq] at h
    obtain ⟨c, hc, b, ⟨col, hcol, rfl⟩, rfl⟩ := h
    refine ⟨Or.inl rfl, fun a => ?_, by simp⟩
    have e1 := countInPiles_set a s.board _ _ (col ++ [c]) hcol
    have e2 := countIn_eraseIdx a s.free _ c hc
    simp only [countCards, countIn_append] at e1 e2 ⊢
    omega

/-- Evaluation of `CheckCardToStack` on the free card `c` and a foundation `st`,
when the subtraction `rank - 1`, made for a foundation that is not empty, does
not overflow. -/
theorem Freecell_CheckCardToStack_eval (s : Freecell) (k index : Nat)
    (st : List StandardPlayingCard) (c : StandardPlayingCard)
    (hc : s.free[szSub index 1]? = some c) (hst : s.stacks_[k]? = some st)
    (hov : st ≠ [] → IsInt32 (GetRank c - 1)) :
    Freecell.CheckCardToStack s k index =
      .ok (decide ((st.length = 0 ∧ GetRank c = 1) ∨
        st.getLast?.map GetRank = some (GetRank c - 1))) := by
  simp only [Freecell.CheckCardToStack, vecAt_eq_ok hc, except_bind_ok,
    stackRank_eval s.stacks_ k st c hst hov]

/-- Whenever `CheckCardToStack` has a result, the result is the truth value of
the rule. -/
theorem Freecell_CheckCardToStack_sound (s : Freecell) (k index : Nat)
    (st : List StandardPlayingCard) (c : StandardPlayingCard)
    (hc : s.free[szSub index 1]? = some c) (hst : s.stacks_[k]? = some st) (b : Bool)
    (h : Freecell.CheckCardToStack s k index = .ok b) :
    b = decide ((st.length = 0 ∧ GetRank c = 1) ∨
      st.getLast?.map GetRank = some (GetRank c - 1)) := by
  simp only [Freecell.CheckCardToStack, vecAt_eq_ok hc, except_bind_ok] at h
  exact stackRank_sound s.stacks_ k st c hst b h

theorem Freecell_MoveFreeToStack_effect (s s' : Freecell) (stack : String) (index : Nat)
    (aut : Bool) (h : Freecell.MoveFreeToStack s stack index aut = .ok s') : Effect s s' := by
  unfold Freecell.MoveFreeToStack at h
  split at h
  · cases h
  · cases h; exact Effect.refl s
  · rename_i htest
    simp only [bind_eq_ok_iff, vecAt_ok_iff, pushAt_ok_iff, except_pure, Except.ok.injEq] at h
    obtain ⟨c, hc, b, ⟨st, hst, rfl⟩, rfl⟩ := h
    simp only [Freecell.MoveFreeToStack.test, sAnd_eq_true_iff, vecAt_eq_ok hc, except_bind_ok,
      except_pure, Except.ok.injEq, decide_eq_true_eq] at htest
    have hfit : FitsFoundation c stack st := ⟨htest.2.2.2.1, of_decide_eq_true
      (Freecell_CheckCardToStack_sound s _ index st c hc hst true htest.2.2.2.2).symm⟩
    refine ⟨Or.inr (Or.inl ⟨stack, st, c, hst, hfit, rfl⟩), fun a => ?_, rfl⟩
    have e1 := countInPiles_set a s.stacks_ _ _ (st ++ [c]) hst
    have e2 := countIn_eraseIdx a s.free _ c hc
    simp only [countCards, countIn_append] at e1 e2 ⊢
    omega

theorem Freecell_MoveStackToBoard_effect (s s' : Freecell) (p : Nat) (stack : String)
    (h : Freecell.MoveStackToBoard s p stack = .ok s') : Effect s s' := by
  unfold Freecell.MoveStackToBoard at h
  split at h
  · cases h
  · cases h; exact Effect.refl s
  · simp only [bind_eq_ok_iff, backAt_ok_iff, pushAt_ok_iff, popAt_ok_iff, except_pure,
      Except.ok.injEq] at h
    obtain ⟨t, ⟨l, hl⟩, b, ⟨col, hcol, rfl⟩, st', ⟨l2, x, hl2, rfl⟩, rfl⟩ := h
    rw [hl] at hl2
    have h4 : l = l2 := (List.append_inj' (Option.some.inj hl2) rfl).1
    subst h4
    refine ⟨Or.inr (Or.inr ⟨_, l ++ [t], hl, by rw [List.dropLast_concat]⟩), fun a => ?_,
      by simp⟩
    have e1 := countInPiles_set a s.board _ _ (col ++ [t]) hcol
    have e2 := countInPiles_set a s.stacks_ _ _ l hl
    simp only [countCards, countIn_append] at e1 e2 ⊢
    omega

theorem Freecell_MoveStackToFree_effect (s s' : Freecell) (stack : String)
    (h : Freecell.MoveStackToFree s stack = .ok s') : Effect s s' := by
  unfold Freecell.MoveStackToFree at h
  split at h
  · cases h
  · cases h; exact Effect.refl s
  · simp only [bind_eq_ok_iff, backAt_ok_iff, popAt_ok_iff, except_pure, Except.ok.injEq] at h
    obtain ⟨t, ⟨l, hl⟩, st', ⟨l2, x, hl2, rfl⟩, rfl⟩ := h
    rw [hl] at hl2
    have h4 : l = l2 := (List.append_inj' (Option.some.inj hl2) rfl).1
    subst h4
    refine ⟨Or.inr (Or.inr ⟨_, l ++ [t], hl, by rw [List.dropLast_concat]⟩), fun a => ?_, rfl⟩
    have e2 := countInPiles_set a s.stacks_ _ _ l hl
    simp only [countCards, countIn_append] at e2 ⊢
    omega

/-- What a returning run of the loop `moveBack` does to the two piles. -/
theorem moveBack_ok {T : Type} [PlayingCard T] (n : Nat) (src dst src' dst' : List T)
    (h : Freecell.moveBack n src dst = .ok (src', dst')) :
    src'.length + n = src.length ∧ dst'.length = dst.length + n ∧
      ∀ a, countIn a src' + countIn a dst' = countIn a src + countIn a dst := by
  induction n generalizing src dst with
  | zero =>
    simp only [Freecell.moveBack, Except.ok.injEq, Prod.mk.injEq] at h
    obtain ⟨rfl, rfl⟩ := h
    exact ⟨rfl, rfl, fun _ => rfl⟩
  | succ n ih =>
    unfold Freecell.moveBack at h
    split at h
    · cases h
    · rename_i c hc
      obtain ⟨l, rfl⟩ := vecBack_ok_iff.mp hc
      rw [List.dropLast_concat] at h
      obtain ⟨h1, h3, h2⟩ := ih _ _ h
      refine ⟨by simp; omega, by simp at h3 ⊢; omega, fun a => ?_⟩
      have := h2 a
      simp only [countIn_append] at this ⊢
      omega

/-- The two loops of `MoveBoardToBoard` keep the number of columns and the
cards of the board. -/
theorem MoveBoardToBoard_move_ok {T : Type} [PlayingCard T] (board b : List (List T))
    (pile_from pile_to amount : Nat)
    (h : Freecell.MoveBoardToBoard.move board pile_from pile_to amount = .ok b) :
    b.length = board.length ∧ ∀ a, countInPiles a b = countInPiles a board := by
  simp only [Freecell.MoveBoardToBoard.move, bind_eq_ok_iff, vecAt_ok_iff, except_pure,
    Except.ok.injEq] at h
  obtain ⟨src, hsrc, ⟨src1, temp⟩, h1, dst, hdst, ⟨temp1, dst1⟩, h2, rfl⟩ := h
  dsimp only at hdst h2 ⊢
  obtain ⟨_, hl1, hc1⟩ := moveBack_ok _ _ _ _ _ h1
  obtain ⟨hl2, _, hc2⟩ := moveBack_ok _ _ _ _ _ h2
  refine ⟨by simp, fun a => ?_⟩
  have e1 := countInPiles_set a board _ _ src1 hsrc
  have e2 := countInPiles_set a _ _ _ dst1 hdst
  have e3 := hc1 a
  have e4 := hc2 a
  have ht : temp1 = [] := by
    apply List.eq_nil_of_length_eq_zero
    simp only [List.length_nil] at hl1
    omega
  subst ht
  simp only [countIn_nil] at e3 e4
  omega

theorem Freecell_MoveBoardToBoard_effect (s s' : Freecell) (pile_from pile_to amount : Nat)
    (h : Freecell.MoveBoardToBoard s pile_from pile_to amount = .ok s') : Effect s s' := by
  unfold Freecell.MoveBoardToBoard at h
  split at h
  · cases h
  · cases h; exact Effect.refl s
  · split at h
    · cases h
    · rename_i b hb
      cases h
      obtain ⟨hl, hc⟩ := MoveBoardToBoard_move_ok _ _ _ _ _ hb
      refine ⟨Or.inl rfl, fun a => ?_, hl⟩
      simp only [countCards, hc a]

/-- The Klondike auto-flip keeps the number of columns and the cards of the
board. -/
theorem flipBackAt_ok (board b : List (List PolarStandardPlayingCard)) (i : Nat)
    (h : Klondike.flipBackAt board i = .ok b) :
    b.length = board.length ∧ ∀ a, countInPiles a b = countInPiles a board := by
  unfold Klondike.flipBackAt at h
  split at h
  · cases h
  · rename_i col hcol
    rw [vecAt_ok_iff] at hcol
    split at h
    · cases h; exact ⟨rfl, fun _ => rfl⟩
    · rename_i c hc
      split at h
      · cases h
        obtain ⟨l, rfl⟩ := List.getLast?_eq_some_iff.mp hc
        refine ⟨by simp, fun a => ?_⟩
        have e1 := countInPiles_set a board _ _ ((l ++ [c]).dropLast ++ [FlipCard c]) hcol
        have e2 : countIn a [FlipCard c] = countIn a [c] := by
          unfold FlipCard; split <;> rfl
        simp only [List.dropLast_concat, countIn_append, e2] at e1 ⊢
        omega
      · cases h; exact ⟨rfl, fun _ => rfl⟩

theorem Klondike_MoveBoardToBoard_effect (s s' : Klondike) (pile_from pile_to amount : Nat)
    (h : Klondike.MoveBoardToBoard s pile_from pile_to amount = .ok s') : Effect s s' := by
  unfold Klondike.MoveBoardToBoard at h
  split at h
  · cases h
  · cases h; exact Effect.refl s
  · simp only [bind_eq_ok_iff, except_pure, Except.ok.injEq] at h
    obtain ⟨b, hb, b1, hb1, rfl⟩ := h
    obtain ⟨hl, hc⟩ := MoveBoardToBoard_move_ok _ _ _ _ _ hb
    obtain ⟨hl1, hc1⟩ := flipBackAt_ok _ _ _ hb1
    refine ⟨Or.inl rfl, fun a => ?_, by rw [← hl]; exact hl1⟩
    simp only [countCards, hc1 a, hc a]

theorem Klondike_MoveFreeToBoard_move_effect (s s' : Klondike) (p : Nat)
    (h : Klondike.MoveFreeToBoard.move s p = .ok s') : Effect s s' := by
  simp only [Klondike.MoveFreeToBoard.move, bind_eq_ok_iff, vecBack_ok_iff, pushAt_ok_iff,
    except_pure, Except.ok.injEq] at h
  obtain ⟨c, ⟨l, hl⟩, b, ⟨col, hcol, rfl⟩, rfl⟩ := h
  refine ⟨Or.inl rfl, fun a => ?_, by simp⟩
  have e1 := countInPiles_set a s.board _ _ (col ++ [c]) hcol
  simp only [countCards, countIn_append, hl, List.dropLast_concat] at e1 ⊢
  omega

theorem Klondike_MoveFreeToBoard_effect (s s' : Klondike) (p : Nat)
    (h : Klondike.MoveFreeToBoard s p = .ok s') : Effect s s' := by
  unfold Klondike.MoveFreeToBoard at h
  split at h
  · cases h
  · exact Klondike_MoveFreeToBoard_move_effect s s' p h
  · split at h
    · cases h
    · exact Klondike_MoveFreeToBoard_move_effect s s' p h
    · cases h; exact Effect.refl s

/-- Klondike `CheckCardToStack` on a waste pile with top card `c`. -/
theorem Klondike_CheckCardToStack_unfold (s : Klondike) (k : Nat)
    (l : List PolarStandardPlayingCard) (c : PolarStandardPlayingCard)
    (hc : s.free = l ++ [c]) :
    Klondike.CheckCardToStack s k =
      sOr (sAnd (emptyAt s.stacks_ k) (.ok (decide (GetRank c = 1))))
        (sAnd (sNot (emptyAt s.stacks_ k)) (do
          let t ← backAt s.stacks_ k
          let r ← intSub (GetRank c) 1
          pure (decide (GetRank t = r)))) := by
  have hb : vecBack s.free = .ok c := by rw [hc]; exact vecBack_concat l c
  simp only [Klondike.CheckCardToStack, hb, except_bind_ok, except_pure]

/-- Evaluation of Klondike `CheckCardToStack` on the waste top `c` and a
foundation `st`, when the subtraction `rank - 1`, made for a foundation that is
not empty, does not overflow. -/
theorem Klondike_CheckCardToStack_eval (s : Klondike) (k : Nat)
    (l st : List PolarStandardPlayingCard) (c : PolarStandardPlayingCard)
    (hc : s.free = l ++ [c]) (hst : s.stacks_[k]? = some st)
    (hov : st ≠ [] → IsInt32 (GetRank c - 1)) :
    Klondike.CheckCardToStack s k =
      .ok (decide ((st.length = 0 ∧ GetRank c = 1) ∨
        st.getLast?.map GetRank = some (GetRank c - 1))) := by
  rw [Klondike_CheckCardToStack_unfold s k l c hc, stackRank_eval s.stacks_ k st c hst hov]

/-- Whenever Klondike `CheckCardToStack` has a result, the result is the truth
value of the rule. -/
theorem Klondike_CheckCardToStack_sound (s : Klondike) (k : Nat)
    (l st : List PolarStandardPlayingCard) (c : PolarStandardPlayingCard)
    (hc : s.free = l ++ [c]) (hst : s.stacks_[k]? = some st) (b : Bool)
    (h : Klondike.CheckCardToStack s k = .ok b) :
    b = decide ((st.length = 0 ∧ GetRank c = 1) ∨
      st.getLast?.map GetRank = some (GetRank c - 1)) := by
  rw [Klondike_CheckCardToStack_unfold s k l c hc] at h
  exact stackRank_sound s.stacks_ k st c hst b h

theorem Klondike_MoveFreeToStack_effect (s s' : Klondike) (stack : String)
    (aut : Bool) (h : Klondike.MoveFreeToStack s stack aut = .ok s') : Effect s s' := by
  unfold Klondike.MoveFreeToStack at h
  split at h
  · cases h
  · cases h; exact Effect.refl s
  · rename_i htest
    simp only [bind_eq_ok_iff, vecBack_ok_iff, pushAt_ok_iff, except_pure, Except.ok.injEq] at h
    obtain ⟨c, ⟨l, hl⟩, b, ⟨st, hst, rfl⟩, rfl⟩ := h
    have hb : vecBack s.free = .ok c := by rw [hl]; exact vecBack_concat l c
    simp only [Klondike.MoveFreeToStack.test, sAnd_eq_true_iff, hb, except_bind_ok,
      except_pure, Except.ok.injEq, decide_eq_true_eq] at htest
    have hfit : FitsFoundation c stack st := ⟨htest.2.1, of_decide_eq_true
      (Klondike_CheckCardToStack_sound s _ l st c hl hst true htest.2.2).symm⟩
    refine ⟨Or.inr (Or.inl ⟨stack, st, c, hst, hfit, rfl⟩), fun a => ?_, rfl⟩
    have e1 := countInPiles_set a s.stacks_ _ _ (st ++ [c]) hst
    simp only [countCards, countIn_append, hl, List.dropLast_concat] at e1 ⊢
    omega

theorem Klondike_MoveBoardToStack_effect (s s' : Klondike) (p : Nat) (stack : String)
    (aut : Bool) (h : Klondike.MoveBoardToStack s p stack aut = .ok s') : Effect s s' := by
  unfold Klondike.MoveBoardToStack at h
  split at h
  · cases h
  · cases h; exact Effect.refl s
  · rename_i htest
    simp only [bind_eq_ok_iff, backAt_ok_iff, pushAt_ok_iff, popAt_ok_iff, except_pure,
      Except.ok.injEq] at h
    obtain ⟨c, ⟨l, hl⟩, st', ⟨st, hst, rfl⟩, b, ⟨l2, x, hl2, rfl⟩, b1, hb1, rfl⟩ := h
    have hfit : FitsFoundation c stack st := of_decide_eq_true
      (Klondike_MoveBoardToStack_test_sound s p stack l st c hl hst true htest).symm
    rw [hl] at hl2
    have h4 : l = l2 := (List.append_inj' (Option.some.inj hl2) rfl).1
    subst h4
    obtain ⟨hl1, hc1⟩ := flipBackAt_ok _ _ _ hb1
    refine ⟨Or.inr (Or.inl ⟨stack, st, c, hst, hfit, rfl⟩), fun a => ?_, by simpa using hl1⟩
    have e1 := countInPiles_set a s.board _ _ l hl
    have e2 := countInPiles_set a s.stacks_ _ _ (st ++ [c]) hst
    have e3 := hc1 a
    simp only [countCards, countIn_append] at e1 e2 e3 ⊢
    omega

theorem Klondike_MoveStackToBoard_effect (s s' : Klondike) (p : Nat) (stack : String)
    (h : Klondike.MoveStackToBoard s p stack = .ok s') : Effect s s' := by
  unfold Klondike.MoveStackToBoard at h
  split at h
  · cases h
  · cases h; exact Effect.refl s
  · simp only [bind_eq_ok_iff, backAt_ok_iff, pushAt_ok_iff, popAt_ok_iff, except_pure,
      Except.ok.injEq] at h
    obtain ⟨t, ⟨l, hl⟩, b, ⟨col, hcol, rfl⟩, st', ⟨l2, x, hl2, rfl⟩, rfl⟩ := h
    rw [hl] at hl2
    have h4 : l = l2 := (List.append_inj' (Option.some.inj hl2) rfl).1
    subst h4
    refine ⟨Or.inr (Or.inr ⟨_, l ++ [t], hl, by rw [List.dropLast_concat]⟩), fun a => ?_,
      by simp⟩
    have e1 := countInPiles_set a s.board _ _ (col ++ [t]) hcol
    have e2 := countInPiles_set a s.stacks_ _ _ l hl
    simp only [countCards, countIn_append] at e1 e2 ⊢
    omega

/-- The recycling loop of `DrawCards` keeps the cards of waste and `temp`
together. -/
theorem recycle_ok (n : Nat) (free temp free1 temp1 : List PolarStandardPlayingCard)
    (h : Klondike.DrawCards.recycle n free temp = (free1, temp1)) :
    ∀ a, countIn a free1 + countIn a temp1 = countIn a free + countIn a temp := by
  induction n generalizing free temp with
  | zero =>
    simp only [Klondike.DrawCards.recycle, Prod.mk.injEq] at h
    obtain ⟨rfl, rfl⟩ := h
    exact fun _ => rfl
  | succ n ih =>
    unfold Klondike.DrawCards.recycle at h
    split at h
    · simp only [Prod.mk.injEq] at h
      obtain ⟨rfl, rfl⟩ := h
      exact fun _ => rfl
    · rename_i c hc
      obtain ⟨l, rfl⟩ := List.getLast?_eq_some_iff.mp hc
      rw [List.dropLast_concat] at h
      intro a
      have := ih _ _ h a
      have e2 : countIn a [if GetFaceUp c = true then FlipCard c else c] = countIn a [c] := by
        unfold FlipCard; split <;> [split <;> rfl; rfl]
      simp only [countIn_append, e2] at this ⊢
      omega

/-- The drawing loop of `DrawCards` only moves cards from the deck to the
waste pile. -/
theorem draw_ok (n : Nat) (s s' : Klondike) (h : Klondike.DrawCards.draw n s = .ok s') :
    s'.stacks_ = s.stacks_ ∧ s'.board = s.board ∧
      ∀ a, countIn a s'.deck + countIn a s'.free = countIn a s.deck + countIn a s.free := by
  induction n generalizing s with
  | zero =>
    simp only [Klondike.DrawCards.draw, Except.ok.injEq] at h
    subst h
    exact ⟨rfl, rfl, fun _ => rfl⟩
  | succ n ih =>
    unfold Klondike.DrawCards.draw at h
    split at h
    · cases h
    · rename_i c deck1 hd
      obtain ⟨h1, h2, h3⟩ := ih _ h
      refine ⟨h1, h2, fun a => ?_⟩
      have := h3 a
      unfold StandardDeck.DrawOne at hd
      split at hd
      · cases hd
      · rename_i c2 hc2
        simp only [Prod.mk.injEq, Option.some.injEq] at hd
        obtain ⟨rfl, rfl⟩ := hd
        obtain ⟨l, hl⟩ := List.getLast?_eq_some_iff.mp hc2
        have e2 : countIn a [if (!GetFaceUp c2) = true then FlipCard c2 else c2] =
            countIn a [c2] := by
          unfold FlipCard; split <;> [split <;> rfl; rfl]
        simp only [hl, List.dropLast_concat, countIn_append, e2] at this ⊢
        omega

/-- The first part of `DrawCards` only moves cards between deck and waste. -/
theorem prepare_ok (s : Klondike) :
    (Klondike.DrawCards.prepare s).2.stacks_ = s.stacks_ ∧
    (Klondike.DrawCards.prepare s).2.board = s.board ∧
      ∀ a, countIn a (Klondike.DrawCards.prepare s).2.deck +
          countIn a (Klondike.DrawCards.prepare s).2.free =
        countIn a s.deck + countIn a s.free := by
  unfold Klondike.DrawCards.prepare
  split
  · exact ⟨rfl, rfl, fun _ => rfl⟩
  · split
    · rename_i h0
      refine ⟨rfl, rfl, fun a => ?_⟩
      have := recycle_ok s.free.length s.free [] _ _ rfl a
      have hd : s.deck = [] := List.eq_nil_of_length_eq_zero h0
      simp only [hd, countIn_nil] at this ⊢
      omega
    · exact ⟨rfl, rfl, fun _ => rfl⟩

theorem Klondike_DrawCards_effect (s s' : Klondike) (draw_one_game : Bool)
    (h : Klondike.DrawCards draw_one_game s = .ok s') : Effect s s' := by
  obtain ⟨h1, h2, h3⟩ := prepare_ok s
  have hfin : s'.stacks_ = (Klondike.DrawCards.prepare s).2.stacks_ ∧
      s'.board = (Klondike.DrawCards.prepare s).2.board ∧
      ∀ a, countIn a s'.deck + countIn a s'.free =
        countIn a (Klondike.DrawCards.prepare s).2.deck +
          countIn a (Klondike.DrawCards.prepare s).2.free := by
    unfold Klondike.DrawCards at h
    simp only at h
    split at h
    · exact draw_ok _ _ _ h
    · cases h; exact ⟨rfl, rfl, fun _ => rfl⟩
  obtain ⟨h4, h5, h6⟩ := hfin
  refine ⟨Or.inl (by rw [h4, h1]), fun a => ?_, by rw [h5, h2]⟩
  have e1 := h3 a
  have e2 := h6 a
  simp only [countCards, h4, h1, h5, h2]
  omega

/-! ## Properties kept by every move -/

/-- The loop of `AutoMoveBoard` keeps every property kept by `MoveBoardToStack`. -/
theorem AutoMoveBoard_loop_preserves {T : Type} [PlayingCard T]
    (MBTS : Solitaire T → Nat → String → Bool → Except Fault (Solitaire T))
    (P : Solitaire T → Prop)
    (hP : ∀ s p stack aut s', MBTS s p stack aut = .ok s' → P s → P s')
    (fuel i : Nat) (out : Bool) (s : Solitaire T) (r : Bool × Solitaire T)
    (h : Solitaire.AutoMoveBoard.loop MBTS fuel i out s = .ok r) (hs : P s) : P r.2 := by
  induction fuel generalizing i out s with
  | zero => simp [Solitaire.AutoMoveBoard.loop] at h
  | succ fuel ih =>
    unfold Solitaire.AutoMoveBoard.loop at h
    split at h
    · split at h
      · cases h
      · split at h
        · split at h
          · cases h
          · split at h
            · cases h
            · rename_i s1 hs1
              split at h
              · cases h
              · exact ih _ _ _ h (hP _ _ _ _ _ hs1 hs)
        · exact ih _ _ _ h hs
    · cases h; exact hs

/-- The loop of `AutoMove` keeps every property kept by its two passes. -/
theorem AutoMove_preserves {T : Type} [PlayingCard T]
    (AMF AMB : Solitaire T → Except Fault (Bool × Solitaire T)) (P : Solitaire T → Prop)
    (hF : ∀ s r, AMF s = .ok r → P s → P r.2) (hB : ∀ s r, AMB s = .ok r → P s → P r.2)
    (fuel : Nat) (s s' : Solitaire T)
    (h : Solitaire.AutoMove AMF AMB fuel s = .ok s') (hs : P s) : P s' := by
  induction fuel generalizing s with
  | zero => simp [Solitaire.AutoMove] at h
  | succ fuel ih =>
    unfold Solitaire.AutoMove at h
    split at h
    · cases h
    · rename_i s1 h1
      exact ih _ h (hF _ _ h1 hs)
    · rename_i s1 h1
      have hs1 : P s1 := hF _ _ h1 hs
      split at h
      · cases h
      · rename_i s2 h2
        exact ih _ h (hB _ _ h2 hs1)
      · rename_i s2 h2
        cases h
        exact hB _ _ h2 hs1

theorem Freecell_AutoMove_preserves (P : Freecell → Prop) (hP : Stable P)
    (fuel : Nat) (s s' : Freecell) (h : Freecell.AutoMove fuel s = .ok s') (hs : P s) : P s' := by
  refine AutoMove_preserves _ _ P ?_ ?_ fuel s s' h hs
  · intro s r hr hs
    unfold Freecell.AutoMoveFree at hr
    simp only at hr
    split at hr
    · split at hr
      · cases hr
      · split at hr
        · cases hr
        · rename_i s1 h1
          cases hr
          exact hP _ _ (Freecell_MoveFreeToStack_effect _ _ _ _ _ h1) hs
    · cases hr; exact hs
  · intro s r hr hs
    exact AutoMoveBoard_loop_preserves _ P
      (fun s p stack aut s' h => hP _ _ (Freecell_MoveBoardToStack_effect s s' p stack aut h))
      _ _ _ _ _ hr hs

theorem Klondike_AutoMove_preserves (P : Klondike → Prop) (hP : Stable P)
    (fuel : Nat) (s s' : Klondike) (h : Klondike.AutoMove fuel s = .ok s') (hs : P s) : P s' := by
  refine AutoMove_preserves _ _ P ?_ ?_ fuel s s' h hs
  · intro s r hr hs
    unfold Klondike.AutoMoveFree at hr
    simp only at hr
    split at hr
    · split at hr
      · cases hr
      · split at hr
        · cases hr
        · rename_i s1 h1
          cases hr
          exact hP _ _ (Klondike_MoveFreeToStack_effect _ _ _ _ h1) hs
    · cases hr; exact hs
  · intro s r hr hs
    exact AutoMoveBoard_loop_preserves _ P
      (fun s p stack aut s' h => hP _ _ (Klondike_MoveBoardToStack_effect s s' p stack aut h))
      _ _ _ _ _ hr hs

/-- Every Freecell move keeps every stable property. -/
theorem Freecell_Move_preserves (P : Freecell → Prop) (hP : Stable P) (s s' : Freecell)
    (h : Freecell.Move s s') (hs : P s) : P s' := by
  cases h with
  | boardToBoard f t a h => exact hP _ _ (Freecell_MoveBoardToBoard_effect _ _ _ _ _ h) hs
  | boardToStack f u a h => exact hP _ _ (Freecell_MoveBoardToStack_effect _ _ _ _ _ h) hs
  | boardToFree f h => exact hP _ _ (Freecell_MoveBoardToFree_effect _ _ _ h) hs
  | freeToBoard t i h => exact hP _ _ (Freecell_MoveFreeToBoard_effect _ _ _ _ h) hs
  | freeToStack u i a h => exact hP _ _ (Freecell_MoveFreeToStack_effect _ _ _ _ _ h) hs
  | stackToBoard t u h => exact hP _ _ (Freecell_MoveStackToBoard_effect _ _ _ _ h) hs
  | stackToFree u h => exact hP _ _ (Freecell_MoveStackToFree_effect _ _ _ h) hs
  | autoMove fuel h => exact Freecell_AutoMove_preserves P hP fuel _ _ h hs

/-- Every Klondike move keeps every stable property. -/
theorem Klondike_Move_preserves (P : Klondike → Prop) (hP : Stable P) (d : Bool)
    (s s' : Klondike) (h : Klondike.Move d s s') (hs : P s) : P s' := by
  cases h with
  | boardToBoard f t a h => exact hP _ _ (Klondike_MoveBoardToBoard_effect _ _ _ _ _ h) hs
  | freeToBoard t h => exact hP _ _ (Klondike_MoveFreeToBoard_effect _ _ _ h) hs
  | freeToStack u a h => exact hP _ _ (Klondike_MoveFreeToStack_effect _ _ _ _ h) hs
  | boardToStack f u a h => exact hP _ _ (Klondike_MoveBoardToStack_effect _ _ _ _ _ h) hs
  | stackToBoard t u h => exact hP _ _ (Klondike_MoveStackToBoard_effect _ _ _ _ h) hs
  | drawCards h => exact hP _ _ (Klondike_DrawCards_effect _ _ _ h) hs
  | autoMove fuel h => exact Klondike_AutoMove_preserves P hP fuel _ _ h hs

/-! ## Foundation order -/

theorem suitOfStack_GetStackSuit (u : String) (h : Solitaire.GetStackSuit u < 4) :
    suitOfStack (Solitaire.GetStackSuit u) = u := by
  unfold Solitaire.GetStackSuit at h ⊢
  split_ifs at h ⊢ with h1 h2 h3 h4
  · exact h1.symm
  · exact h2.symm
  · exact h3.symm
  · exact h4.symm
  · rw [SIZE_MOD_eq] at h; omega

theorem OrderedFoundation_push {T : Type} [PlayingCard T] (u : String) (st : List T) (c : T)
    (h : OrderedFoundation u st) (hfit : FitsFoundation c u st) :
    OrderedFoundation u (st ++ [c]) := by
  intro j x hx
  by_cases hj : j < st.length
  · rw [List.getElem?_append_left hj] at hx
    exact h j x hx
  · rw [List.getElem?_append_right (by omega)] at hx
    have hj0 : j - st.length = 0 := by
      by_contra hne
      rw [List.getElem?_eq_none (by simp; omega)] at hx
      cases hx
    rw [hj0] at hx
    simp only [List.getElem?_cons_zero, Option.some.injEq] at hx
    subst hx
    have hjl : j = st.length := by omega
    subst hjl
    refine ⟨?_, hfit.1⟩
    rcases hfit.2 with ⟨h0, h1⟩ | h2
    · rw [h1, h0]; rfl
    · rcases List.eq_nil_or_concat st with hs | ⟨l, t, hs⟩
      · subst hs; simp at h2
      · rw [List.concat_eq_append] at hs
        subst hs
        rw [List.getLast?_concat] at h2
        simp only [Option.map_some', Option.some.injEq] at h2
        have ht := (h l.length t (by simp)).1
        rw [ht] at h2
        simp only [List.length_append, List.length_singleton, Nat.cast_add, Nat.cast_one]
        omega

theorem OrderedFoundation_dropLast {T : Type} [PlayingCard T] (u : String) (st : List T)
    (h : OrderedFoundation u st) : OrderedFoundation u st.dropLast := by
  intro j x hx
  rw [List.dropLast_eq_take] at hx
  rw [List.getElem?_take] at hx
  split at hx
  · exact h j x hx
  · cases hx

/-- Foundation monotonicity is kept by every effect of a move. -/
theorem FoundationsOrdered_stable {T : Type} [PlayingCard T] :
    Stable (fun s : Solitaire T => FoundationsOrdered s.stacks_) := by
  intro s s' heff hs
  obtain ⟨hstep, _, _⟩ := heff
  obtain ⟨hlen, hord⟩ := hs
  rcases hstep with h | ⟨stack, st, c, hst, hfit, h⟩ | ⟨k, st, hst, h⟩
  · show FoundationsOrdered s'.stacks_
    rw [h]; exact ⟨hlen, hord⟩
  · show FoundationsOrdered s'.stacks_
    rw [h]
    refine ⟨by simpa using hlen, fun i st' hi => ?_⟩
    have hk : Solitaire.GetStackSuit stack < 4 := by
      rw [← hlen]
      by_contra hge
      rw [List.getElem?_eq_none (by omega)] at hst
      cases hst
    rw [List.getElem?_set] at hi
    split at hi
    · rename_i hik
      split at hi
      · cases hi
        rw [← hik, suitOfStack_GetStackSuit stack hk]
        have := hord _ st hst
        rw [suitOfStack_GetStackSuit stack hk] at this
        exact OrderedFoundation_push stack st c this hfit
      · cases hi
    · exact hord i st' hi
  · show FoundationsOrdered s'.stacks_
    rw [h]
    refine ⟨by simpa using hlen, fun i st' hi => ?_⟩
    rw [List.getElem?_set] at hi
    split at hi
    · rename_i hik
      split at hi
      · cases hi
        rw [← hik]
        exact OrderedFoundation_dropLast _ st (hord _ st hst)
      · cases hi
    · exact hord i st' hi

/-! ## Dealing -/

theorem DrawOne_some {T : Type} (deck deck1 : List T) (c : T)
    (h : StandardDeck.DrawOne deck = (some c, deck1)) : deck = deck1 ++ [c] := by
  unfold StandardDeck.DrawOne at h
  split at h
  · cases h
  · rename_i c2 hc2
    simp only [Prod.mk.injEq, Option.some.injEq] at h
    obtain ⟨rfl, rfl⟩ := h
    obtain ⟨l, hl⟩ := List.getLast?_eq_some_iff.mp hc2
    rw [hl, List.dropLast_concat]

theorem pushAt_count {T : Type} [PlayingCard T] (board b : List (List T)) (i : Nat) (c : T)
    (h : pushAt board i c = .ok b) :
    ∀ a, countInPiles a b = countInPiles a board + countIn a [c] := by
  obtain ⟨p, hp, rfl⟩ := pushAt_ok_iff.mp h
  intro a
  have := countInPiles_set a board i p (p ++ [c]) hp
  simp only [countIn_append] at this
  omega

/-- The dealing loop of Freecell only moves cards from the deck to the board. -/
theorem Freecell_Deal_loop_ok (n i : Nat) (s s' : Freecell)
    (h : Freecell.Deal.loop n i s = .ok s') :
    s'.stacks_ = s.stacks_ ∧ s'.free = s.free ∧
      ∀ a, countIn a s'.deck + countInPiles a s'.board =
        countIn a s.deck + countInPiles a s.board := by
  induction n generalizing i s with
  | zero =>
    simp only [Freecell.Deal.loop, Except.ok.injEq] at h
    subst h
    exact ⟨rfl, rfl, fun _ => rfl⟩
  | succ n ih =>
    unfold Freecell.Deal.loop at h
    split at h
    · cases h
    · rename_i c deck1 hd
      have hdeck := DrawOne_some _ _ _ hd
      split at h
      · split at h
        · cases h
        · rename_i b hb
          obtain ⟨h1, h2, h3⟩ := ih _ _ h
          refine ⟨h1, h2, fun a => ?_⟩
          have e1 := h3 a
          have e2 := pushAt_count _ _ _ _ hb a
          simp only [hdeck, countIn_append, countInPiles_append] at e1 e2 ⊢
          simp only [countInPiles, List.map_cons, List.map_nil, List.sum_cons, List.sum_nil,
            countIn_nil] at e2
          simp only [countInPiles] at e1 ⊢
          omega
      · split at h
        · cases h
        · rename_i b hb
          obtain ⟨h1, h2, h3⟩ := ih _ _ h
          refine ⟨h1, h2, fun a => ?_⟩
          have e1 := h3 a
          have e2 := pushAt_count _ _ _ _ hb a
          simp only [hdeck, countIn_append] at e1 e2 ⊢
          omega

/-- Freecell `Deal` on a freshly constructed game: four empty foundations, and
every (rank, suit) pair as often as in the shuffled deck. -/
theorem Freecell_Deal_ok (shuffled : List StandardPlayingCard) (s : Freecell)
    (h : Freecell.Deal (Solitaire.fresh StandardPlayingCard) shuffled = .ok s) :
    s.stacks_ = [[], [], [], []] ∧ ∀ a, countCards a s = countIn a shuffled := by
  unfold Freecell.Deal at h
  obtain ⟨h1, h2, h3⟩ := Freecell_Deal_loop_ok _ _ _ _ h
  refine ⟨by rw [h1]; rfl, fun a => ?_⟩
  have := h3 a
  simp only [countCards, h1, h2]
  simp only [Solitaire.fresh, List.nil_append, countInPiles, List.map_nil, List.sum_nil,
    List.map_cons, List.sum_cons, countIn_nil] at this ⊢
  omega

/-- The inner dealing loop of Klondike only moves cards from the deck to
`temp`. -/
theorem Klondike_Deal_column_ok (i n j : Nat)
    (deck temp deck1 temp1 : List PolarStandardPlayingCard)
    (h : Klondike.Deal.column i n j deck temp = .ok (deck1, temp1)) :
    ∀ a, countIn a deck1 + countIn a temp1 = countIn a deck + countIn a temp := by
  induction n generalizing j deck temp with
  | zero =>
    simp only [Klondike.Deal.column, Except.ok.injEq, Prod.mk.injEq] at h
    obtain ⟨rfl, rfl⟩ := h
    exact fun _ => rfl
  | succ n ih =>
    unfold Klondike.Deal.column at h
    split at h
    · cases h
    · rename_i c deck2 hd
      have hdeck := DrawOne_some _ _ _ hd
      intro a
      have e2 : countIn a [FlipCard c] = countIn a [c] := by
        unfold FlipCard; split <;> rfl
      split at h
      · have := ih _ _ _ h a
        simp only [hdeck, countIn_append] at this ⊢
        omega
      · have := ih _ _ _ h a
        simp only [hdeck, countIn_append, e2] at this ⊢
        omega

/-- The outer dealing loop of Klondike only moves cards from the deck to the
board. -/
theorem Klondike_Deal_loop_ok (n i : Nat) (s s' : Klondike)
    (h : Klondike.Deal.loop n i s = .ok s') :
    s'.stacks_ = s.stacks_ ∧ s'.free = s.free ∧
      ∀ a, countIn a s'.deck + countInPiles a s'.board =
        countIn a s.deck + countInPiles a s.board := by
  induction n generalizing i s with
  | zero =>
    simp only [Klondike.Deal.loop, Except.ok.injEq] at h
    subst h
    exact ⟨rfl, rfl, fun _ => rfl⟩
  | succ n ih =>
    unfold Klondike.Deal.loop at h
    split at h
    · cases h
    · rename_i deck1 temp hc
      obtain ⟨h1, h2, h3⟩ := ih _ _ h
      refine ⟨h1, h2, fun a => ?_⟩
      have e1 := h3 a
      have e2 := Klondike_Deal_column_ok _ _ _ _ _ _ _ hc a
      simp only [countInPiles_append, countIn_nil] at e1 e2 ⊢
      simp only [countInPiles, List.map_cons, List.map_nil, List.sum_cons, List.sum_nil] at e1 ⊢
      omega

/-- Klondike `Deal` on a freshly constructed game: four empty foundations, and
every (rank, suit) pair as often as in the shuffled deck. -/
theorem Klondike_Deal_ok (shuffled : List PolarStandardPlayingCard) (s : Klondike)
    (h : Klondike.Deal (Solitaire.fresh PolarStandardPlayingCard) shuffled = .ok s) :
    s.stacks_ = [[], [], [], []] ∧ ∀ a, countCards a s = countIn a shuffled := by
  unfold Klondike.Deal at h
  obtain ⟨h1, h2, h3⟩ := Klondike_Deal_loop_ok _ _ _ _ h
  refine ⟨by rw [h1]; rfl, fun a => ?_⟩
  have := h3 a
  simp only [countCards, h1, h2]
  simp only [Solitaire.fresh, List.nil_append, countInPiles, List.map_nil, List.sum_nil,
    List.map_cons, List.sum_cons, countIn_nil] at this ⊢
  omega

theorem FoundationsOrdered_empty {T : Type} [PlayingCard T] :
    FoundationsOrdered ([[], [], [], []] : List (List T)) := by
  refine ⟨rfl, fun i st hi j c hc => ?_⟩
  have : st = [] := by
    match i, hi with
    | 0, hi => exact (Option.some.inj hi).symm
    | 1, hi => exact (Option.some.inj hi).symm
    | 2, hi => exact (Option.some.inj hi).symm
    | 3, hi => exact (Option.some.inj hi).symm
    | n + 4, hi => simp at hi
  subst this
  simp at hc

/-! ## Reachable positions -/

theorem allPairs_nodup : allPairs.Nodup := by decide

theorem fresh_ids_standard : (StandardDeck.fresh StandardPlayingCard).map cardId = allPairs := by
  decide

theorem fresh_ids_polar : (StandardDeck.fresh PolarStandardPlayingCard).map cardId = allPairs := by
  decide

theorem count_eq_one_of_nodup {α : Type} [BEq α] [LawfulBEq α] (l : List α) (h : l.Nodup)
    (a : α) (ha : a ∈ l) : l.count a = 1 := by
  induction l with
  | nil => simp at ha
  | cons x l ih =>
    rw [List.nodup_cons] at h
    rw [List.count_cons]
    by_cases hxa : x = a
    · subst hxa
      rw [List.count_eq_zero.mpr h.1]
      simp
    · have hne : (x == a) = false := by simpa using hxa
      have hal : a ∈ l := by
        rcases List.mem_cons.mp ha with e | e
        · exact absurd e.symm hxa
        · exact e
      rw [ih h.2 hal, hne]
      simp

theorem count_allPairs (a : Int × String) : allPairs.count a = if a ∈ allPairs then 1 else 0 := by
  split
  · rename_i h; exact count_eq_one_of_nodup allPairs allPairs_nodup a h
  · rename_i h; exact List.count_eq_zero.mpr h

theorem countIn_perm {T : Type} [PlayingCard T] (a : Int × String) (p q : List T)
    (h : p.Perm q) : countIn a p = countIn a q := by
  unfold countIn List.count
  exact (h.map cardId).countP_eq _

theorem dealtFreecell_reachable : Freecell.Reachable dealtFreecell :=
  Freecell.Reachable.deal (StandardDeck.fresh StandardPlayingCard) dealtFreecell
    (List.Perm.refl _) (by decide)

set_option maxRecDepth 100000 in
theorem wonFreecell_reachable : Freecell.Reachable wonFreecell :=
  Freecell.Reachable.move dealtFreecell wonFreecell dealtFreecell_reachable
    (Freecell.Move.autoMove dealtFreecell wonFreecell 60 (by decide))

theorem almostWonFreecell_reachable : Freecell.Reachable almostWonFreecell :=
  Freecell.Reachable.move kingFreeFreecell almostWonFreecell
    (Freecell.Reachable.move wonFreecell kingFreeFreecell wonFreecell_reachable
      (Freecell.Move.stackToFree wonFreecell kingFreeFreecell "diamond" (by decide)))
    (Freecell.Move.freeToBoard kingFreeFreecell almostWonFreecell 1 1 (by decide))

theorem dealtKlondike_reachable (d : Bool) : Klondike.Reachable d dealtKlondike :=
  Klondike.Reachable.deal (StandardDeck.fresh PolarStandardPlayingCard).reverse dealtKlondike
    (List.reverse_perm _) (by decide)

theorem aceKlondike_reachable (d : Bool) : Klondike.Reachable d aceKlondike :=
  Klondike.Reachable.move dealtKlondike aceKlondike (dealtKlondike_reachable d)
    (Klondike.Move.boardToStack dealtKlondike aceKlondike 1 "spade" false (by decide))

/-! ## The invariants of a game -/

/-- Every reachable Freecell state has every stable property that holds after
`Deal`. -/
theorem Freecell_Reachable_induction (P : Freecell → Prop) (hP : Stable P)
    (h0 : ∀ shuffled s, shuffled.Perm (StandardDeck.fresh StandardPlayingCard) →
      Freecell.Deal (Solitaire.fresh StandardPlayingCard) shuffled = .ok s → P s)
    (s : Freecell) (h : Freecell.Reachable s) : P s := by
  induction h with
  | deal shuffled s hperm hdeal => exact h0 shuffled s hperm hdeal
  | move s s' _ hmove ih => exact Freecell_Move_preserves P hP s s' hmove ih

/-- Every reachable Klondike state has every stable property that holds after
`Deal`. -/
theorem Klondike_Reachable_induction (P : Klondike → Prop) (hP : Stable P)
    (h0 : ∀ shuffled s, shuffled.Perm (StandardDeck.fresh PolarStandardPlayingCard) →
      Klondike.Deal (Solitaire.fresh PolarStandardPlayingCard) shuffled = .ok s → P s)
    (d : Bool) (s : Klondike) (h : Klondike.Reachable d s) : P s := by
  induction h with
  | deal shuffled s hperm hdeal => exact h0 shuffled s hperm hdeal
  | move s s' _ hmove ih => exact Klondike_Move_preserves P hP d s s' hmove ih

theorem Freecell_Reachable_ordered (s : Freecell) (h : Freecell.Reachable s) :
    FoundationsOrdered s.stacks_ :=
  Freecell_Reachable_induction (fun s => FoundationsOrdered s.stacks_) FoundationsOrdered_stable
    (fun shuffled s _ hd => by
      show FoundationsOrdered s.stacks_
      rw [(Freecell_Deal_ok shuffled s hd).1]; exact FoundationsOrdered_empty) s h

theorem Klondike_Reachable_ordered (d : Bool) (s : Klondike) (h : Klondike.Reachable d s) :
    FoundationsOrdered s.stacks_ :=
  Klondike_Reachable_induction (fun s => FoundationsOrdered s.stacks_) FoundationsOrdered_stable
    (fun shuffled s _ hd => by
      show FoundationsOrdered s.stacks_
      rw [(Klondike_Deal_ok shuffled s hd).1]; exact FoundationsOrdered_empty) d s h

theorem countCards_stable {T : Type} [PlayingCard T] (n : Int × String → Nat) :
    Stable (fun s : Solitaire T => ∀ a, countCards a s = n a) := by
  intro s s' heff hs a
  rw [heff.2.1 a]; exact hs a

theorem Freecell_Reachable_count (s : Freecell) (h : Freecell.Reachable s) :
    ∀ a, countCards a s = if a ∈ allPairs then 1 else 0 :=
  Freecell_Reachable_induction _ (countCards_stable _)
    (fun shuffled s hperm hd a => by
      rw [(Freecell_Deal_ok shuffled s hd).2 a, countIn_perm a _ _ hperm, countIn,
        fresh_ids_standard, count_allPairs]) s h

theorem Klondike_Reachable_count (d : Bool) (s : Klondike) (h : Klondike.Reachable d s) :
    ∀ a, countCards a s = if a ∈ allPairs then 1 else 0 :=
  Klondike_Reachable_induction _ (countCards_stable _)
    (fun shuffled s hperm hd a => by
      rw [(Klondike_Deal_ok shuffled s hd).2 a, countIn_perm a _ _ hperm, countIn,
        fresh_ids_polar, count_allPairs]) d s h

/-- C7: foundation monotonicity. In every state reachable from `Deal` through
any sequence of Freecell, respectively Klondike, operations (`AutoMove` and the
moves from a foundation back to the board or a free cell included) there are
four foundations and foundation `i` holds, bottom to top, exactly the ranks
1, 2, ..., n of the suit that `GetStackSuit` maps to `i`. -/
theorem foundation_monotonicity :
    (∀ s : Freecell, Freecell.Reachable s → FoundationsOrdered s.stacks_) ∧
    (∀ (d : Bool) (s : Klondike), Klondike.Reachable d s → FoundationsOrdered s.stacks_) :=
  ⟨Freecell_Reachable_ordered, Klondike_Reachable_ordered⟩

/-- C7 at reachable positions: the won Freecell position reached by `AutoMove`
from the deal of the unshuffled deck, and the Klondike position after the ace
of spades went to its foundation. -/
theorem foundation_monotonicity_witness :
    FoundationsOrdered wonFreecell.stacks_ ∧ FoundationsOrdered aceKlondike.stacks_ :=
  ⟨foundation_monotonicity.1 wonFreecell wonFreecell_reachable,
   foundation_monotonicity.2 true aceKlondike (aceKlondike_reachable true)⟩

/-- C8: card conservation. Freecell and Klondike `Deal` put every (rank, suit)
pair of the shuffled deck into the state as often as it occurs in the deck;
every Freecell and Klondike operation that returns (board, free-cell and
foundation moves, accepted or rejected, draws, and `AutoMove`) keeps the
number of occurrences of every pair across deck, board, free/waste pile and
foundations; hence in every reachable state each of the 52 pairs occurs
exactly once and no other pair occurs. -/
theorem card_conservation :
    (∀ (shuffled : List StandardPlayingCard) (s : Freecell),
      Freecell.Deal (Solitaire.fresh StandardPlayingCard) shuffled = .ok s →
      ∀ a, countCards a s = countIn a shuffled) ∧
    (∀ (shuffled : List PolarStandardPlayingCard) (s : Klondike),
      Klondike.Deal (Solitaire.fresh PolarStandardPlayingCard) shuffled = .ok s →
      ∀ a, countCards a s = countIn a shuffled) ∧
    (∀ s s' : Freecell, Freecell.Move s s' → ∀ a, countCards a s' = countCards a s) ∧
    (∀ (d : Bool) (s s' : Klondike), Klondike.Move d s s' →
      ∀ a, countCards a s' = countCards a s) ∧
    (∀ s : Freecell, Freecell.Reachable s →
      ∀ a, countCards a s = if a ∈ allPairs then 1 else 0) ∧
    (∀ (d : Bool) (s : Klondike), Klondike.Reachable d s →
      ∀ a, countCards a s = if a ∈ allPairs then 1 else 0) :=
  ⟨fun shuffled s h => (Freecell_Deal_ok shuffled s h).2,
   fun shuffled s h => (Klondike_Deal_ok shuffled s h).2,
   fun s s' h => Freecell_Move_preserves (fun t => ∀ a, countCards a t = countCards a s)
     (countCards_stable _) s s' h (fun _ => rfl),
   fun d s s' h => Klondike_Move_preserves (fun t => ∀ a, countCards a t = countCards a s)
     (countCards_stable _) d s s' h (fun _ => rfl),
   Freecell_Reachable_count, Klondike_Reachable_count⟩

/-- C8 at reachable positions: in the won Freecell position the king of
diamonds occurs once and a rank 14 does not occur; in the Klondike position
`aceKlondike` the ace of spades occurs once. -/
theorem card_conservation_witness :
    countCards (13, "diamond") wonFreecell = 1 ∧ countCards (14, "diamond") wonFreecell = 0 ∧
    countCards (1, "spade") aceKlondike = 1 :=
  ⟨(card_conservation.2.2.2.2.1 wonFreecell wonFreecell_reachable (13, "diamond")).trans
      (by decide),
   (card_conservation.2.2.2.2.1 wonFreecell wonFreecell_reachable (14, "diamond")).trans
      (by decide),
   (card_conservation.2.2.2.2.2 true aceKlondike (aceKlondike_reachable true) (1, "spade")).trans
      (by decide)⟩

/-! ## The win test -/

theorem WinCondition_loop_iff {T : Type} (fs : List (List T)) :
    Solitaire.WinCondition.loop fs = true ↔ ∀ st ∈ fs, 13 ≤ st.length := by
  induction fs with
  | nil => simp [Solitaire.WinCondition.loop]
  | cons p rest ih =>
    unfold Solitaire.WinCondition.loop
    by_cases hp : p.length < 13
    · simp only [hp, if_true, Bool.false_eq_true, List.mem_cons, forall_eq_or_imp, false_iff,
        not_and]
      intro h; omega
    · simp only [hp, if_false, ih, List.mem_cons, forall_eq_or_imp]
      constructor
      · intro h; exact ⟨by omega, h⟩
      · intro h; exact h.2

theorem countIn_pos {T : Type} [PlayingCard T] (st : List T) (c : T) (h : c ∈ st) :
    1 ≤ countIn (cardId c) st := by
  unfold countIn
  exact List.count_pos_iff.mpr (List.mem_map_of_mem cardId h)

theorem countIn_le_countInPiles {T : Type} [PlayingCard T] (a : Int × String)
    (ps : List (List T)) (st : List T) (h : st ∈ ps) : countIn a st ≤ countInPiles a ps := by
  induction ps with
  | nil => simp at h
  | cons p rest ih =>
    simp only [countInPiles, List.map_cons, List.sum_cons]
    rcases List.mem_cons.mp h with e | e
    · subst e; omega
    · have := ih e
      simp only [countInPiles] at this
      omega

theorem rank_le_of_mem_allPairs (a : Int × String) (h : a ∈ allPairs) : a.1 ≤ 13 := by
  simp only [allPairs, CardGraphicsAndInfo.suits, CardGraphicsAndInfo.ranks, List.mem_flatMap,
    List.mem_map] at h
  obtain ⟨u, _, r, hr, rfl⟩ := h
  simp only [List.mem_cons, List.mem_singleton, List.not_mem_nil, or_false] at hr
  omega

/-- In a state whose foundations are ordered and that holds only the 52 pairs,
no foundation has more than 13 cards. -/
theorem foundation_le_13 {T : Type} [PlayingCard T] (s : Solitaire T)
    (hord : FoundationsOrdered s.stacks_)
    (hcount : ∀ a, countCards a s = if a ∈ allPairs then 1 else 0) :
    ∀ st ∈ s.stacks_, st.length ≤ 13 := by
  intro st hst
  by_contra hlen
  obtain ⟨i, hi⟩ := List.mem_iff_getElem?.mp hst
  have h13 : 13 < st.length := by omega
  have hc := hord.2 i st hi 13 st[13] (List.getElem?_eq_getElem h13)
  have hmem : st[13] ∈ st := List.getElem_mem h13
  have h1 := countIn_pos st st[13] hmem
  have h2 := countIn_le_countInPiles (cardId st[13]) s.stacks_ st hst
  have h3 := hcount (cardId st[13])
  have hnot : cardId st[13] ∉ allPairs := by
    intro hin
    have := rank_le_of_mem_allPairs _ hin
    simp only [cardId, hc.1] at this
    omega
  rw [if_neg hnot] at h3
  simp only [countCards] at h3
  omega

/-- C9: `WinCondition()` returns true if and only if all 4 foundations have
size 13, in every state with four foundations of at most 13 cards each, and so
in every state of a Freecell or Klondike game (reachable from `Deal`). -/
theorem WinCondition_iff :
    (∀ (T : Type) [PlayingCard T] (s : Solitaire T), s.stacks_.length = 4 →
      (∀ st ∈ s.stacks_, st.length ≤ 13) →
      (s.WinCondition = true ↔ ∀ st ∈ s.stacks_, st.length = 13)) ∧
    (∀ s : Freecell, Freecell.Reachable s →
      s.stacks_.length = 4 ∧ (s.WinCondition = true ↔ ∀ st ∈ s.stacks_, st.length = 13)) ∧
    (∀ (d : Bool) (s : Klondike), Klondike.Reachable d s →
      s.stacks_.length = 4 ∧ (s.WinCondition = true ↔ ∀ st ∈ s.stacks_, st.length = 13)) := by
  have key : ∀ (T : Type) [PlayingCard T] (s : Solitaire T),
      (∀ st ∈ s.stacks_, st.length ≤ 13) →
      (s.WinCondition = true ↔ ∀ st ∈ s.stacks_, st.length = 13) := by
    intro T _ s h13
    unfold Solitaire.WinCondition
    rw [WinCondition_loop_iff]
    constructor
    · intro h st hst
      have := h st hst
      have := h13 st hst
      omega
    · intro h st hst
      rw [h st hst]
  refine ⟨fun T _ s _ h13 => key T s h13, fun s hs => ?_, fun d s hs => ?_⟩
  · have hord := Freecell_Reachable_ordered s hs
    exact ⟨hord.1, key _ s (foundation_le_13 s hord (Freecell_Reachable_count s hs))⟩
  · have hord := Klondike_Reachable_ordered d s hs
    exact ⟨hord.1, key _ s (foundation_le_13 s hord (Klondike_Reachable_count d s hs))⟩

/-- C9, the examples: with foundation sizes 13, 13, 13, 13 (`wonFreecell`) the
test is true, with sizes 13, 13, 13, 12 (`almostWonFreecell`) it is false; both
positions are reachable. -/
theorem WinCondition_iff_witness :
    wonFreecell.stacks_.map List.length = [13, 13, 13, 13] ∧
    Solitaire.WinCondition wonFreecell = true ∧
    almostWonFreecell.stacks_.map List.length = [13, 13, 13, 12] ∧
    Solitaire.WinCondition almostWonFreecell = false :=
  ⟨by decide,
   ((WinCondition_iff.2.1 wonFreecell wonFreecell_reachable).2).mpr (by decide),
   by decide,
   by
    have h := (WinCondition_iff.2.1 almostWonFreecell almostWonFreecell_reachable).2
    cases hw : Solitaire.WinCondition almostWonFreecell
    · rfl
    · exact absurd (h.mp hw) (by decide)⟩

/-! ## The automatic moves -/

/-- More fuel does not change the outcome of a run of `AutoMove` that
returned. -/
theorem AutoMove_fuel_mono {T : Type} [PlayingCard T]
    (AMF AMB : Solitaire T → Except Fault (Bool × Solitaire T)) (fuel k : Nat)
    (s s' : Solitaire T) (h : Solitaire.AutoMove AMF AMB fuel s = .ok s') :
    Solitaire.AutoMove AMF AMB (fuel + k) s = .ok s' := by
  induction fuel generalizing s with
  | zero => simp [Solitaire.AutoMove] at h
  | succ fuel ih =>
    have e : fuel + 1 + k = (fuel + k) + 1 := by omega
    rw [e]
    rw [Solitaire.AutoMove] at h ⊢
    split at h
    · cases h
    · exact ih _ h
    · split at h
      · cases h
      · exact ih _ h
      · exact h

theorem stuckFreecell_reachable : Freecell.Reachable stuckFreecell := by
  have h1 := Freecell.Reachable.move dealtFreecell
    { dealtFreecell with
      free := [⟨7, "spade"⟩],
      board := dealtFreecell.board.set 5
        [⟨8, "diamond"⟩, ⟨13, "club"⟩, ⟨5, "club"⟩, ⟨10, "heart"⟩, ⟨2, "heart"⟩] }
    dealtFreecell_reachable (Freecell.Move.boardToFree _ _ 6 (by decide))
  have h2 := Freecell.Reachable.move _
    { dealtFreecell with
      free := [⟨7, "spade"⟩, ⟨2, "heart"⟩],
      board := dealtFreecell.board.set 5
        [⟨8, "diamond"⟩, ⟨13, "club"⟩, ⟨5, "club"⟩, ⟨10, "heart"⟩] }
    h1 (Freecell.Move.boardToFree _ _ 6 (by decide))
  have h3 := Freecell.Reachable.move _
    { dealtFreecell with
      free := [⟨7, "spade"⟩, ⟨2, "heart"⟩, ⟨6, "spade"⟩],
      board := (dealtFreecell.board.set 5
        [⟨8, "diamond"⟩, ⟨13, "club"⟩, ⟨5, "club"⟩, ⟨10, "heart"⟩]).set 6
        [⟨7, "diamond"⟩, ⟨12, "club"⟩, ⟨4, "club"⟩, ⟨9, "heart"⟩, ⟨1, "heart"⟩] }
    h2 (Freecell.Move.boardToFree _ _ 7 (by decide))
  exact Freecell.Reachable.move _ stuckFreecell h3 (Freecell.Move.boardToFree _ _ 7 (by decide))

/-- C10 fails for Freecell: `stuckFreecell` is reachable, `AutoMove` returns on
it (with any fuel of at least 6 passes) and leaves the ace of hearts, the most
recently filled free cell, in its cell, although `MoveFreeToStack` accepts it
on the empty heart foundation: `AutoMoveFree` tries `free[0]` only. -/
theorem Freecell_AutoMove_leaves_legal_move :
    Freecell.Reachable stuckFreecell ∧
    (∀ k, Freecell.AutoMove (6 + k) stuckFreecell = .ok restFreecell) ∧
    restFreecell.free.getLast? = some ⟨1, "heart"⟩ ∧
    Freecell.MoveFreeToStack restFreecell "heart" 4 false = .ok
      { restFreecell with
        free := [⟨7, "spade"⟩, ⟨2, "heart"⟩, ⟨6, "spade"⟩],
        stacks_ := [[⟨1, "spade"⟩, ⟨2, "spade"⟩, ⟨3, "spade"⟩, ⟨4, "spade"⟩, ⟨5, "spade"⟩],
          [⟨1, "heart"⟩], [], []] } ∧
    Freecell.AutoMoveFree restFreecell = .ok (false, restFreecell) := by
  refine ⟨stuckFreecell_reachable, fun k => ?_, by decide, by decide, by decide⟩
  exact AutoMove_fuel_mono _ _ 6 k _ _ (by decide)

/-! ## Freecell: free cells and foundations to the board, board to the free cells -/

/-- The outcome of Freecell `MoveFreeToBoard` on a destination column of the
board, when the sum `rank + 1`, made for a chosen card and a destination top
card of different colours, does not overflow. -/
theorem Freecell_MoveFreeToBoard_cases (s : Freecell) (pile_to index : Nat)
    (dst : List StandardPlayingCard)
    (ht : 1 ≤ pile_to) (ht2 : pile_to < SIZE_MOD) (hdst : s.board[pile_to - 1]? = some dst)
    (hfree : s.free.length < SIZE_MOD)
    (hov : ∀ c d, s.free[index - 1]? = some c → dst.getLast? = some d →
      GetColor c ≠ GetColor d → IsInt32 (GetRank c + 1)) :
    (Freecell.LegalFreeToBoard s pile_to index →
      ∃ c, s.free[index - 1]? = some c ∧
        Freecell.MoveFreeToBoard s pile_to index = .ok
          { s with board := s.board.set (pile_to - 1) (dst ++ [c]),
                   free := s.free.eraseIdx (index - 1) } ∧
        ({ s with board := s.board.set (pile_to - 1) (dst ++ [c]),
                  free := s.free.eraseIdx (index - 1) } : Freecell) ≠ s) ∧
    (¬ Freecell.LegalFreeToBoard s pile_to index →
      Freecell.MoveFreeToBoard s pile_to index = .ok s) := by
  have hgetD : s.board.getD (pile_to - 1) [] = dst := by
    rw [List.getD_eq_getElem?_getD, hdst]; rfl
  have hidxt : szSub pile_to 1 = pile_to - 1 := szSub_of_le ht ht2
  by_cases hrange : 1 ≤ index ∧ index ≤ s.free.length
  swap
  · have hnl : ¬ Freecell.LegalFreeToBoard s pile_to index := fun h => hrange ⟨h.1, h.2.1⟩
    refine ⟨fun h => absurd h hnl, fun _ => ?_⟩
    have htest : Freecell.MoveFreeToBoard.test s pile_to index = .ok false := by
      unfold Freecell.MoveFreeToBoard.test
      by_cases h1 : 1 ≤ index
      · have h2 : ¬ index ≤ s.free.length := fun h => hrange ⟨h1, h⟩
        cases (!s.free.isEmpty) <;> simp [h1, h2]
      · cases (!s.free.isEmpty) <;> simp [h1]
    simp only [Freecell.MoveFreeToBoard, htest]
  obtain ⟨h1, h2⟩ := hrange
  have hidx : szSub index 1 = index - 1 := szSub_of_le h1 (by omega)
  obtain ⟨c, hc⟩ : ∃ c, s.free[index - 1]? = some c := by
    cases hc : s.free[index - 1]? with
    | none => rw [List.getElem?_eq_none_iff] at hc; omega
    | some c => exact ⟨c, rfl⟩
  have hne : (!s.free.isEmpty) = true := by
    cases hf : s.free with
    | nil => rw [hf] at h2; simp at h2; omega
    | cons a l => rfl
  have hmove : (do
      let c ← vecAt s.free (szSub index 1)
      let b ← pushAt s.board (szSub pile_to 1) c
      pure ({ s with board := b, free := s.free.eraseIdx (szSub index 1) } : Freecell)) =
      .ok { s with board := s.board.set (pile_to - 1) (dst ++ [c]),
                   free := s.free.eraseIdx (index - 1) } := by
    simp only [hidx, hidxt, vecAt_eq_ok hc, except_bind_ok, pushAt_eq_ok c hdst, except_pure]
  have hchg : ({ s with board := s.board.set (pile_to - 1) (dst ++ [c]),
                        free := s.free.eraseIdx (index - 1) } : Freecell) ≠ s := by
    intro h
    have h3 := congrArg (fun x : Freecell => x.free.length) h
    simp only [List.length_eraseIdx] at h3
    split at h3 <;> omega
  rcases List.eq_nil_or_concat dst with hd | ⟨l, d, hd⟩
  · subst hd
    have htest : Freecell.MoveFreeToBoard.test s pile_to index = .ok true := by
      simp [Freecell.MoveFreeToBoard.test, hne, h1, h2, hidxt, emptyAt_eq_ok hdst]
    have hl : Freecell.LegalFreeToBoard s pile_to index := by
      simp only [Freecell.LegalFreeToBoard, hgetD]
      exact ⟨h1, h2, Or.inl rfl⟩
    refine ⟨fun _ => ⟨c, hc, ?_, hchg⟩, fun h => absurd hl h⟩
    simp only [Freecell.MoveFreeToBoard, htest, hmove]
  · rw [List.concat_eq_append] at hd
    subst hd
    have he : (l ++ [d]).isEmpty = false :=
      isEmpty_eq_false_of_getLast? (List.getLast?_concat l)
    have hback : backAt s.board (pile_to - 1) = .ok d :=
      backAt_eq_ok hdst (List.getLast?_concat l)
    have htest : Freecell.MoveFreeToBoard.test s pile_to index =
        .ok (decide (GetColor c ≠ GetColor d) && decide (GetRank c + 1 = GetRank d)) := by
      by_cases h3 : GetColor c ≠ GetColor d
      · simp [Freecell.MoveFreeToBoard.test, hne, h1, h2, hidxt, hidx, emptyAt_eq_ok hdst, he,
          vecAt_eq_ok hc, hback, h3, intAdd_eq_ok (hov c d hc (List.getLast?_concat l) h3)]
      · have h4 : GetColor c = GetColor d := by simpa using h3
        simp [Freecell.MoveFreeToBoard.test, hne, h1, h2, hidxt, hidx, emptyAt_eq_ok hdst, he,
          vecAt_eq_ok hc, hback, h4]
    have hiff : Freecell.LegalFreeToBoard s pile_to index ↔
        (GetColor c ≠ GetColor d ∧ GetRank c + 1 = GetRank d) := by
      simp only [Freecell.LegalFreeToBoard, hgetD]
      simp [h1, h2, hc]
    by_cases hcd : GetColor c ≠ GetColor d ∧ GetRank c + 1 = GetRank d
    · have hb : (decide (GetColor c ≠ GetColor d) && decide (GetRank c + 1 = GetRank d)) = true := by
        simp [hcd.1, hcd.2]
      rw [hb] at htest
      refine ⟨fun _ => ⟨c, hc, ?_, hchg⟩, fun h => absurd (hiff.mpr hcd) h⟩
      simp only [Freecell.MoveFreeToBoard, htest, hmove]
    · have hb : (decide (GetColor c ≠ GetColor d) && decide (GetRank c + 1 = GetRank d)) = false := by
        rw [Bool.and_eq_false_iff]
        by_cases h3 : GetColor c ≠ GetColor d
        · right; simp; intro h4; exact hcd ⟨h3, h4⟩
        · left; simpa using h3
      rw [hb] at htest
      refine ⟨fun h => absurd (hiff.mp h) hcd, fun _ => ?_⟩
      simp only [Freecell.MoveFreeToBoard, htest]

/-- The outcome of Freecell `MoveStackToBoard` on a destination column of the
board and a foundation, when the sum `rank + 1`, made for the top card of the
foundation when neither pile is empty, does not overflow. -/
theorem Freecell_MoveStackToBoard_cases (s : Freecell) (pile_to : Nat) (stack : String)
    (st dst : List StandardPlayingCard)
    (ht : 1 ≤ pile_to ∧ pile_to ≤ 8) (hdst : s.board[pile_to - 1]? = some dst)
    (hst : s.stacks_[Solitaire.GetStackSuit stack]? = some st)
    (hov : ∀ t, st.getLast? = some t → dst ≠ [] → IsInt32 (GetRank t + 1)) :
    (Freecell.LegalStackToBoard st dst →
      ∃ t, st.getLast? = some t ∧
        Freecell.MoveStackToBoard s pile_to stack = .ok
          { s with board := s.board.set (pile_to - 1) (dst ++ [t]),
                   stacks_ := s.stacks_.set (Solitaire.GetStackSuit stack) st.dropLast } ∧
        ({ s with board := s.board.set (pile_to - 1) (dst ++ [t]),
                  stacks_ := s.stacks_.set (Solitaire.GetStackSuit stack) st.dropLast } :
          Freecell) ≠ s) ∧
    (¬ Freecell.LegalStackToBoard st dst →
      Freecell.MoveStackToBoard s pile_to stack = .ok s) := by
  have ht2 : pile_to < SIZE_MOD := by rw [SIZE_MOD_eq]; omega
  have hidxt : szSub pile_to 1 = pile_to - 1 := szSub_of_le ht.1 ht2
  have hb : Freecell.CheckPileBounds pile_to = true := by
    simp [Freecell.CheckPileBounds, ht.1, ht.2]
  rcases List.eq_nil_or_concat st with hs | ⟨ls, t, hs⟩
  · subst hs
    have hnl : ¬ Freecell.LegalStackToBoard [] dst := by
      rintro ⟨t, d, h, _⟩; simp at h
    refine ⟨fun h => absurd h hnl, fun _ => ?_⟩
    have htest : Freecell.MoveStackToBoard.test s pile_to stack = .ok false := by
      simp [Freecell.MoveStackToBoard.test, emptyAt_eq_ok hst]
    simp only [Freecell.MoveStackToBoard, htest]
  rw [List.concat_eq_append] at hs
  subst hs
  have hes : (ls ++ [t]).isEmpty = false :=
    isEmpty_eq_false_of_getLast? (List.getLast?_concat ls)
  have hbt : backAt s.stacks_ (Solitaire.GetStackSuit stack) = .ok t :=
    backAt_eq_ok hst (List.getLast?_concat ls)
  rcases List.eq_nil_or_concat dst with hd | ⟨l, d, hd⟩
  · subst hd
    have hnl : ¬ Freecell.LegalStackToBoard (ls ++ [t]) [] := by
      rintro ⟨t, d, _, h, _⟩; simp at h
    refine ⟨fun h => absurd h hnl, fun _ => ?_⟩
    have htest : Freecell.MoveStackToBoard.test s pile_to stack = .ok false := by
      simp [Freecell.MoveStackToBoard.test, emptyAt_eq_ok hst, hes, hidxt, emptyAt_eq_ok hdst]
    simp only [Freecell.MoveStackToBoard, htest]
  rw [List.concat_eq_append] at hd
  subst hd
  have hed : (l ++ [d]).isEmpty = false :=
    isEmpty_eq_false_of_getLast? (List.getLast?_concat l)
  have hbd : backAt s.board (pile_to - 1) = .ok d :=
    backAt_eq_ok hdst (List.getLast?_concat l)
  have hiff : Freecell.LegalStackToBoard (ls ++ [t]) (l ++ [d]) ↔
      (GetRank d = GetRank t + 1 ∧ GetColor d ≠ GetColor t) := by
    simp [Freecell.LegalStackToBoard]
  have htest : Freecell.MoveStackToBoard.test s pile_to stack =
      sAnd (.ok (decide (GetRank d = GetRank t + 1))) (.ok (decide (GetColor d ≠ GetColor t))) := by
    simp [Freecell.MoveStackToBoard.test, emptyAt_eq_ok hst, hes, hidxt, emptyAt_eq_ok hdst,
      hed, hb, hbd, hbt, intAdd_eq_ok (hov t (List.getLast?_concat ls) (by simp))]
  by_cases h1 : GetRank d = GetRank t + 1
  · by_cases h2 : GetColor d ≠ GetColor t
    · have htest2 : Freecell.MoveStackToBoard.test s pile_to stack = .ok true := by
        rw [htest]; simp [h1, h2]
      refine ⟨fun _ => ⟨t, List.getLast?_concat ls, ?_, ?_⟩,
        fun h => absurd (hiff.mpr ⟨h1, h2⟩) h⟩
      · simp only [Freecell.MoveStackToBoard, htest2, hbt, except_bind_ok, hidxt,
          pushAt_eq_ok t hdst, popAt_eq_ok hst (List.getLast?_concat ls), except_pure]
      · intro h
        have h3 := congrArg (fun x : Freecell => x.board[pile_to - 1]?) h
        simp only [hdst] at h3
        rw [List.getElem?_set_self (by
          by_contra hge
          rw [List.getElem?_eq_none (by omega)] at hdst
          cases hdst)] at h3
        have h4 := congrArg List.length (Option.some.inj h3)
        simp at h4
    · have htest2 : Freecell.MoveStackToBoard.test s pile_to stack = .ok false := by
        rw [htest]; simp [h1]; simpa using h2
      refine ⟨fun h => absurd (hiff.mp h).2 h2, fun _ => ?_⟩
      simp only [Freecell.MoveStackToBoard, htest2]
  · have htest2 : Freecell.MoveStackToBoard.test s pile_to stack = .ok false := by
      rw [htest]; simp [h1]
    refine ⟨fun h => absurd (hiff.mp h).1 h1, fun _ => ?_⟩
    simp only [Freecell.MoveStackToBoard, htest2]

/-- The outcome of Freecell `MoveBoardToFree` on a column of the board. -/
theorem Freecell_MoveBoardToFree_cases (s : Freecell) (pile_from : Nat)
    (col : List StandardPlayingCard)
    (hf : 1 ≤ pile_from) (hf2 : pile_from < SIZE_MOD)
    (hcol : s.board[pile_from - 1]? = some col) :
    (col ≠ [] ∧ s.free.length < 4 →
      ∃ c, col.getLast? = some c ∧
        Freecell.MoveBoardToFree s pile_from = .ok
          { s with free := s.free ++ [c],
                   board := s.board.set (pile_from - 1) col.dropLast } ∧
        ({ s with free := s.free ++ [c],
                  board := s.board.set (pile_from - 1) col.dropLast } : Freecell) ≠ s) ∧
    (¬ (col ≠ [] ∧ s.free.length < 4) → Freecell.MoveBoardToFree s pile_from = .ok s) := by
  have hidx : szSub pile_from 1 = pile_from - 1 := szSub_of_le hf hf2
  rcases List.eq_nil_or_concat col with hc | ⟨l, c, hc⟩
  · subst hc
    refine ⟨fun h => absurd rfl h.1, fun _ => ?_⟩
    have htest : Freecell.MoveBoardToFree.test s pile_from = .ok false := by
      simp [Freecell.MoveBoardToFree.test, hidx, emptyAt_eq_ok hcol]
    simp only [Freecell.MoveBoardToFree, htest]
  rw [List.concat_eq_append] at hc
  subst hc
  have he : (l ++ [c]).isEmpty = false :=
    isEmpty_eq_false_of_getLast? (List.getLast?_concat l)
  have htest : Freecell.MoveBoardToFree.test s pile_from = .ok (decide (s.free.length < 4)) := by
    simp [Freecell.MoveBoardToFree.test, hidx, emptyAt_eq_ok hcol, he]
  by_cases h4 : s.free.length < 4
  · refine ⟨fun _ => ⟨c, List.getLast?_concat l, ?_, ?_⟩, fun h => absurd ⟨by simp, h4⟩ h⟩
    · simp only [Freecell.MoveBoardToFree, htest, decide_eq_true h4, hidx,
        backAt_eq_ok hcol (List.getLast?_concat l), except_bind_ok,
        popAt_eq_ok hcol (List.getLast?_concat l), except_pure]
    · intro h
      have h3 := congrArg (fun x : Freecell => x.free.length) h
      simp at h3
  · refine ⟨fun h => absurd h.2 h4, fun _ => ?_⟩
    simp only [Freecell.MoveBoardToFree, htest, decide_eq_false h4]

/-! ## The free cells never hold more than four cards -/

theorem Freecell_MoveBoardToBoard_free (s s' : Freecell) (pile_from pile_to amount : Nat)
    (h : Freecell.MoveBoardToBoard s pile_from pile_to amount = .ok s') : s'.free = s.free := by
  unfold Freecell.MoveBoardToBoard at h
  split at h
  · cases h
  · cases h; rfl
  · split at h
    · cases h
    · cases h; rfl

theorem Freecell_MoveBoardToStack_free (s s' : Freecell) (p : Nat) (stack : String) (aut : Bool)
    (h : Freecell.MoveBoardToStack s p stack aut = .ok s') : s'.free = s.free := by
  unfold Freecell.MoveBoardToStack at h
  split at h
  · cases h
  · cases h; rfl
  · simp only [bind_eq_ok_iff, except_pure, Except.ok.injEq] at h
    obtain ⟨c, _, st, _, b, _, rfl⟩ := h
    rfl

theorem Freecell_MoveBoardToFree_free (s s' : Freecell) (p : Nat)
    (h : Freecell.MoveBoardToFree s p = .ok s') (hs : s.free.length ≤ 4) :
    s'.free.length ≤ 4 := by
  unfold Freecell.MoveBoardToFree at h
  split at h
  · cases h
  · cases h; exact hs
  · rename_i htest
    simp only [Freecell.MoveBoardToFree.test, sAnd_eq_true_iff, Except.ok.injEq,
      decide_eq_true_eq] at htest
    simp only [bind_eq_ok_iff, except_pure, Except.ok.injEq] at h
    obtain ⟨c, _, b, _, rfl⟩ := h
    simp only [List.length_append, List.length_singleton]
    omega

theorem Freecell_MoveFreeToBoard_free (s s' : Freecell) (p index : Nat)
    (h : Freecell.MoveFreeToBoard s p index = .ok s') : s'.free.length ≤ s.free.length := by
  unfold Freecell.MoveFreeToBoard at h
  split at h
  · cases h
  · cases h; exact le_refl _
  · simp only [bind_eq_ok_iff, except_pure, Except.ok.injEq] at h
    obtain ⟨c, _, b, _, rfl⟩ := h
    simp only [List.length_eraseIdx]
    split <;> omega

theorem Freecell_MoveFreeToStack_free (s s' : Freecell) (stack : String) (index : Nat)
    (aut : Bool) (h : Freecell.MoveFreeToStack s stack index aut = .ok s') :
    s'.free.length ≤ s.free.length := by
  unfold Freecell.MoveFreeToStack at h
  split at h
  · cases h
  · cases h; exact le_refl _
  · simp only [bind_eq_ok_iff, except_pure, Except.ok.injEq] at h
    obtain ⟨c, _, b, _, rfl⟩ := h
    simp only [List.length_eraseIdx]
    split <;> omega

theorem Freecell_MoveStackToBoard_free (s s' : Freecell) (p : Nat) (stack : String)
    (h : Freecell.MoveStackToBoard s p stack = .ok s') : s'.free = s.free := by
  unfold Freecell.MoveStackToBoard at h
  split at h
  · cases h
  · cases h; rfl
  · simp only [bind_eq_ok_iff, except_pure, Except.ok.injEq] at h
    obtain ⟨c, _, b, _, st, _, rfl⟩ := h
    rfl

theorem Freecell_MoveStackToFree_free (s s' : Freecell) (stack : String)
    (h : Freecell.MoveStackToFree s stack = .ok s') (hs : s.free.length ≤ 4) :
    s'.free.length ≤ 4 := by
  unfold Freecell.MoveStackToFree at h
  split at h
  · cases h
  · cases h; exact hs
  · rename_i htest
    simp only [Freecell.MoveStackToFree.test, sAnd_eq_true_iff, Except.ok.injEq,
      decide_eq_true_eq] at htest
    simp only [bind_eq_ok_iff, except_pure, Except.ok.injEq] at h
    obtain ⟨c, _, b, _, rfl⟩ := h
    simp only [List.length_append, List.length_singleton]
    omega

theorem Freecell_AutoMove_free (fuel : Nat) (s s' : Freecell)
    (h : Freecell.AutoMove fuel s = .ok s') (hs : s.free.length ≤ 4) : s'.free.length ≤ 4 := by
  refine AutoMove_preserves _ _ (fun x : Freecell => x.free.length ≤ 4) ?_ ?_ fuel s s' h hs
  · intro s r hr hs
    unfold Freecell.AutoMoveFree at hr
    simp only at hr
    split at hr
    · split at hr
      · cases hr
      · split at hr
        · cases hr
        · rename_i s1 h1
          cases hr
          exact le_trans (Freecell_MoveFreeToStack_free _ _ _ _ _ h1) hs
    · cases hr; exact hs
  · intro s r hr hs
    exact AutoMoveBoard_loop_preserves _ (fun x : Freecell => x.free.length ≤ 4)
      (fun s p stack aut s' h hs => by
        show s'.free.length ≤ 4
        rw [Freecell_MoveBoardToStack_free s s' p stack aut h]; exact hs)
      _ _ _ _ _ hr hs

/-- No Freecell operation lets the free pile grow beyond four cards. -/
theorem Freecell_Move_free (s s' : Freecell) (h : Freecell.Move s s')
    (hs : s.free.length ≤ 4) : s'.free.length ≤ 4 := by
  cases h with
  | boardToBoard f t a h => rw [Freecell_MoveBoardToBoard_free _ _ _ _ _ h]; exact hs
  | boardToStack f u a h => rw [Freecell_MoveBoardToStack_free _ _ _ _ _ h]; exact hs
  | boardToFree f h => exact Freecell_MoveBoardToFree_free _ _ _ h hs
  | freeToBoard t i h => exact le_trans (Freecell_MoveFreeToBoard_free _ _ _ _ h) hs
  | freeToStack u i a h => exact le_trans (Freecell_MoveFreeToStack_free _ _ _ _ _ h) hs
  | stackToBoard t u h => rw [Freecell_MoveStackToBoard_free _ _ _ _ h]; exact hs
  | stackToFree u h => exact Freecell_MoveStackToFree_free _ _ _ h hs
  | autoMove fuel h => exact Freecell_AutoMove_free fuel _ _ h hs

/-- In every Freecell state reachable from `Deal` the free pile holds at most
four cards. -/
theorem Freecell_Reachable_free (s : Freecell) (h : Freecell.Reachable s) :
    s.free.length ≤ 4 := by
  induction h with
  | deal shuffled s hperm hdeal =>
    unfold Freecell.Deal at hdeal
    obtain ⟨_, h2, _⟩ := Freecell_Deal_loop_ok _ _ _ _ hdeal
    rw [h2]; simp
  | move s s' _ hmove ih => exact Freecell_Move_free s s' hmove ih

/-- C19: for a column `pile_from` in [1,8] holding `col`, Freecell
`MoveBoardToFree(pile_from)` moves the top card of `col` to the end of the free
cells exactly when `col` is non-empty and fewer than four free cells are
occupied, and otherwise leaves the state unchanged; and in every state
reachable from `Deal` the free pile holds at most four cards. -/
theorem Freecell_MoveBoardToFree_iff :
    (∀ (s : Freecell) (pile_from : Nat) (col : List StandardPlayingCard),
      1 ≤ pile_from ∧ pile_from ≤ 8 → s.board[pile_from - 1]? = some col →
      (col ≠ [] ∧ s.free.length < 4 →
        ∃ c, col.getLast? = some c ∧
          Freecell.MoveBoardToFree s pile_from = .ok
            { s with free := s.free ++ [c],
                     board := s.board.set (pile_from - 1) col.dropLast } ∧
          ({ s with free := s.free ++ [c],
                    board := s.board.set (pile_from - 1) col.dropLast } : Freecell) ≠ s) ∧
      (¬ (col ≠ [] ∧ s.free.length < 4) → Freecell.MoveBoardToFree s pile_from = .ok s)) ∧
    (∀ s : Freecell, Freecell.Reachable s → s.free.length ≤ 4) :=
  ⟨fun s pile_from col hp hcol =>
      Freecell_MoveBoardToFree_cases s pile_from col hp.1 (by rw [SIZE_MOD_eq]; omega) hcol,
    Freecell_Reachable_free⟩

/-- C19 at concrete positions: in `capacityState`, with one free cell occupied,
the five of spades of column 1 goes to the free cells; in `blockedState`, with
four occupied, nothing moves; in `foundationState` nothing leaves the empty
column 3; and the reachable position `stuckFreecell` holds four free cards. -/
theorem Freecell_MoveBoardToFree_iff_witness :
    Freecell.MoveBoardToFree capacityState 1 = .ok
      { capacityState with
        free := [⟨1, "club"⟩, ⟨5, "spade"⟩],
        board := [[⟨9, "spade"⟩, ⟨8, "heart"⟩, ⟨7, "spade"⟩, ⟨6, "heart"⟩],
          [⟨10, "heart"⟩], [⟨9, "club"⟩], [⟨13, "diamond"⟩], [⟨13, "club"⟩], [⟨12, "diamond"⟩],
          [⟨3, "club"⟩], [⟨4, "diamond"⟩]] } ∧
    Freecell.MoveBoardToFree blockedState 1 = .ok blockedState ∧
    Freecell.MoveBoardToFree foundationState 3 = .ok foundationState ∧
    stuckFreecell.free.length ≤ 4 := by
  refine ⟨?_, ?_, ?_, ?_⟩
  · obtain ⟨c, hc, h, _⟩ := (Freecell_MoveBoardToFree_iff.1 capacityState 1
      [⟨9, "spade"⟩, ⟨8, "heart"⟩, ⟨7, "spade"⟩, ⟨6, "heart"⟩, ⟨5, "spade"⟩]
      (by decide) rfl).1 ⟨by simp, by decide⟩
    have h1 : c = ⟨5, "spade"⟩ := by
      have : (some (⟨5, "spade"⟩ : StandardPlayingCard)) = some c := hc
      exact (Option.some.inj this).symm
    subst h1
    exact h
  · exact (Freecell_MoveBoardToFree_iff.1 blockedState 1 [⟨8, "heart"⟩, ⟨7, "heart"⟩]
      (by decide) rfl).2 (fun h => absurd h.2 (by decide))
  · exact (Freecell_MoveBoardToFree_iff.1 foundationState 3 [] (by decide) rfl).2
      (fun h => h.1 rfl)
  · exact Freecell_MoveBoardToFree_iff.2 stuckFreecell stuckFreecell_reachable

/-! ## The layout dealt by Freecell -/

theorem DrawOne_concat {T : Type} (deck : List T) (c : T) :
    StandardDeck.DrawOne (deck ++ [c]) = (some c, deck) := by
  simp [StandardDeck.DrawOne]

/-- One iteration of the dealing loop of Freecell keeps the layout. -/
theorem DealtLayout_step {α : Type} (board : List (List α)) (drawn : List α) (c : α)
    (h : DealtLayout board drawn) :
    ∃ b, (if drawn.length < 8 then pushAt (board ++ [[]]) drawn.length c
          else pushAt board (drawn.length % 8) c) = .ok b ∧ DealtLayout b (drawn ++ [c]) := by
  obtain ⟨hlen, hcols, hent⟩ := h
  by_cases hi : drawn.length < 8
  · have hbl : board.length = drawn.length := by omega
    have hnew : (board ++ [[]])[drawn.length]? = some [] := by
      rw [← hbl]; simp
    refine ⟨(board ++ [[]]).set drawn.length ([] ++ [c]), ?_, ?_, ?_, ?_⟩
    · rw [if_pos hi]; exact pushAt_eq_ok c hnew
    · simp only [List.length_set, List.length_append, List.length_singleton]; omega
    · intro j col hj
      rw [List.getElem?_set] at hj
      split at hj
      · rename_i hji
        subst hji
        rw [if_pos (by simp; omega)] at hj
        cases hj
        simp only [List.nil_append, List.length_singleton, List.length_append]
        omega
      · rename_i hji
        have hjlt : j < board.length := by
          by_contra hge
          rw [List.getElem?_append_right (by omega)] at hj
          have : j - board.length ≠ 0 := by omega
          cases hk : j - board.length with
          | zero => exact this hk
          | succ m => rw [hk] at hj; simp at hj
        rw [List.getElem?_append_left hjlt] at hj
        have := hcols j col hj
        simp only [List.length_append, List.length_singleton]
        omega
    · intro k hk
      simp only [List.length_append, List.length_singleton] at hk
      by_cases hki : k = drawn.length
      · subst hki
        have e1 : drawn.length % 8 = drawn.length := Nat.mod_eq_of_lt hi
        have e2 : drawn.length / 8 = 0 := Nat.div_eq_of_lt hi
        simp only [dealtAt, e1, e2]
        rw [List.getElem?_set_self (by simp; omega)]
        simp
      · have hklt : k < drawn.length := by omega
        have e1 : k % 8 = k := Nat.mod_eq_of_lt (by omega)
        have h0 := hent k hklt
        simp only [dealtAt, e1] at h0 ⊢
        rw [List.getElem?_set_ne (by omega), List.getElem?_append_left (by omega), h0,
          List.getElem?_append_left hklt]
  · have hbl : board.length = 8 := by omega
    have hj0 : drawn.length % 8 < board.length := by omega
    obtain ⟨col0, hcol0⟩ : ∃ col0, board[drawn.length % 8]? = some col0 := by
      cases hc : board[drawn.length % 8]? with
      | none => rw [List.getElem?_eq_none_iff] at hc; omega
      | some c => exact ⟨c, rfl⟩
    have hl0 : col0.length = drawn.length / 8 := by
      have := hcols _ _ hcol0
      omega
    refine ⟨board.set (drawn.length % 8) (col0 ++ [c]), ?_, ?_, ?_, ?_⟩
    · rw [if_neg hi]; exact pushAt_eq_ok c hcol0
    · simp only [List.length_set, List.length_append, List.length_singleton]; omega
    · intro j col hj
      rw [List.getElem?_set] at hj
      split at hj
      · rename_i hji
        try rw [if_pos hj0] at hj
        cases hj
        simp only [List.length_append, List.length_singleton, hl0]
        omega
      · rename_i hji
        have := hcols j col hj
        have hjlt : j < board.length := by
          by_contra hge
          rw [List.getElem?_eq_none (by omega)] at hj
          cases hj
        simp only [List.length_append, List.length_singleton]
        omega
    · intro k hk
      simp only [List.length_append, List.length_singleton] at hk
      by_cases hki : k = drawn.length
      · subst hki
        simp only [dealtAt]
        rw [List.getElem?_set_self hj0]
        simp [← hl0]
      · have hklt : k < drawn.length := by omega
        have h0 := hent k hklt
        simp only [dealtAt] at h0 ⊢
        rw [List.getElem?_append_left hklt, ← h0]
        by_cases hkj : k % 8 = drawn.length % 8
        · rw [hkj, List.getElem?_set_self hj0, hcol0]
          simp only [Option.some_bind]
          rw [List.getElem?_append_left (by omega)]
        · rw [List.getElem?_set_ne (fun h => hkj h.symm)]

/-- The dealing loop of Freecell returns, and deals the top `n` cards of the
deck in the layout of the spec. -/
theorem Freecell_Deal_loop_layout (n : Nat) (s : Freecell) (drawn : List StandardPlayingCard)
    (hlay : DealtLayout s.board drawn) (hn : n ≤ s.deck.length)
    (hsz : drawn.length + n < SIZE_MOD) :
    ∃ s', Freecell.Deal.loop n drawn.length s = .ok s' ∧
      s'.deck = s.deck.take (s.deck.length - n) ∧ s'.free = s.free ∧
      s'.stacks_ = s.stacks_ ∧ DealtLayout s'.board (drawn ++ s.deck.reverse.take n) := by
  induction n generalizing s drawn with
  | zero =>
    refine ⟨s, rfl, by simp, rfl, rfl, by simpa using hlay⟩
  | succ n ih =>
    rcases List.eq_nil_or_concat s.deck with hd | ⟨deck1, c, hd⟩
    · rw [hd] at hn; simp at hn
    rw [List.concat_eq_append] at hd
    obtain ⟨b, hb, hlay1⟩ := DealtLayout_step s.board drawn c hlay
    have hnext : szAdd drawn.length 1 = (drawn ++ [c]).length := by
      rw [szAdd_of_lt (by omega)]; simp
    have hn1 : n ≤ deck1.length := by
      rw [hd] at hn; simp at hn; omega
    obtain ⟨s', h1, h2, h3, h4, h5⟩ :=
      ih { s with deck := deck1, board := b } (drawn ++ [c]) hlay1 hn1
        (by simp only [List.length_append, List.length_singleton]; omega)
    refine ⟨s', ?_, ?_, h3, h4, ?_⟩
    · unfold Freecell.Deal.loop
      rw [hd, DrawOne_concat]
      simp only
      by_cases hi : drawn.length < 8
      · rw [if_pos hi] at hb ⊢
        rw [hb]; simp only [hnext]; exact h1
      · rw [if_neg hi] at hb ⊢
        rw [hb]; simp only [hnext]; exact h1
    · rw [h2, hd]
      simp only [List.length_append, List.length_singleton]
      rw [show deck1.length + 1 - (n + 1) = deck1.length - n by omega]
      rw [List.take_append_of_le_length (by omega)]
    · rw [hd]
      simpa [List.take_succ_cons] using h5

/-- Freecell `Deal` on a freshly constructed game returns whatever deck it is
given, and deals the whole deck, from its top, in the layout of the spec. -/
theorem Freecell_Deal_layout (shuffled : List StandardPlayingCard)
    (hsz : shuffled.length < SIZE_MOD) :
    ∃ s, Freecell.Deal (Solitaire.fresh StandardPlayingCard) shuffled = .ok s ∧
      s.deck = [] ∧ s.free = [] ∧ s.stacks_ = [[], [], [], []] ∧
      DealtLayout s.board shuffled.reverse := by
  have h0 : DealtLayout ([] : List (List StandardPlayingCard)) [] :=
    ⟨rfl, fun j col h => by simp at h, fun k h => by simp at h⟩
  obtain ⟨s, h1, h2, h3, h4, h5⟩ := Freecell_Deal_loop_layout shuffled.length
    { Solitaire.fresh StandardPlayingCard with
      deck := shuffled, free := [],
      stacks_ := (Solitaire.fresh StandardPlayingCard).stacks_ ++ [[], [], [], []] } []
    h0 (le_refl _) (by simpa using hsz)
  refine ⟨s, h1, ?_, h3, ?_, ?_⟩
  · simpa using h2
  · rw [h4]; rfl
  · have h6 : List.take shuffled.length shuffled.reverse = shuffled.reverse :=
      List.take_of_length_le (by simp)
    simpa [h6] using h5

/-- Freecell `Deal` on a deck of 52 cards, with the column sizes spelt out. -/
theorem Freecell_Deal_52_layout (shuffled : List StandardPlayingCard)
    (h52 : shuffled.length = 52) :
    ∃ s, Freecell.Deal (Solitaire.fresh StandardPlayingCard) shuffled = .ok s ∧
      s.board.length = 8 ∧
      (∀ k, k < 52 → dealtAt s.board k = shuffled.reverse[k]?) ∧
      (∀ i m, i < 8 → (s.board[i]?.bind fun col => col[m]?) =
        if i + 8 * m < 52 then shuffled.reverse[i + 8 * m]? else none) ∧
      s.board.map List.length = [7, 7, 7, 7, 6, 6, 6, 6] ∧
      s.deck = [] ∧ s.free = [] ∧ s.stacks_ = [[], [], [], []] := by
  obtain ⟨s, h1, h2, h3, h4, hlen, hcols, hent⟩ :=
    Freecell_Deal_layout shuffled (by rw [SIZE_MOD_eq]; omega)
  have hrl : shuffled.reverse.length = 52 := by simp [h52]
  rw [hrl] at hlen hcols hent
  have hlen8 : s.board.length = 8 := by simpa using hlen
  refine ⟨s, h1, hlen8, hent, ?_, ?_, h2, h3, h4⟩
  · intro i m hi
    by_cases hk : i + 8 * m < 52
    · rw [if_pos hk, ← hent _ hk]
      have e1 : (i + 8 * m) % 8 = i := by omega
      have e2 : (i + 8 * m) / 8 = m := by omega
      simp only [dealtAt, e1, e2]
    · rw [if_neg hk]
      cases hc : s.board[i]? with
      | none => rfl
      | some col =>
        have := hcols i col hc
        simp only [Option.some_bind]
        rw [List.getElem?_eq_none_iff]
        omega
  · apply List.ext_getElem
    · simp [hlen8]
    · intro n hn1 hn2
      simp only [List.length_map] at hn1
      rw [List.getElem_map]
      have hc := hcols n s.board[n] (List.getElem?_eq_getElem hn1)
      rw [hc]
      have hn8 : n < 8 := by omega
      interval_cases n <;> rfl

/-- In every Freecell state reachable from `Deal` the board has eight
columns. -/
theorem Freecell_Reachable_board_length (s : Freecell) (h : Freecell.Reachable s) :
    s.board.length = 8 := by
  refine Freecell_Reachable_induction (fun x => x.board.length = 8) ?_ ?_ s h
  · intro s s' he hs
    show s'.board.length = 8
    rw [he.2.2]; exact hs
  · intro shuffled s hperm hdeal
    have h52 : shuffled.length = 52 := by rw [hperm.length_eq]; decide
    obtain ⟨s2, h1, h2, _⟩ := Freecell_Deal_52_layout shuffled h52
    rw [hdeal] at h1
    cases h1
    exact h2

/-- C20: Freecell `Deal` on a deck of 52 cards returns a board of eight columns
in which the `k`-th card drawn from the deck (`k` = 0..51, the deck being drawn
from its top) lies at depth `k / 8` of column `k % 8`, so that column `i` holds
the drawn cards `i`, `i + 8`, `i + 16`, ... and nothing else; the columns hold
7, 7, 7, 7, 6, 6, 6, 6 cards, and the deck, the free cells and the four
foundations are empty. -/
theorem Freecell_Deal_52 (shuffled : List StandardPlayingCard)
    (h52 : shuffled.length = 52) :
    ∃ s, Freecell.Deal (Solitaire.fresh StandardPlayingCard) shuffled = .ok s ∧
      s.board.length = 8 ∧
      (∀ k, k < 52 → dealtAt s.board k = shuffled.reverse[k]?) ∧
      (∀ i m, i < 8 → (s.board[i]?.bind fun col => col[m]?) =
        if i + 8 * m < 52 then shuffled.reverse[i + 8 * m]? else none) ∧
      s.board.map List.length = [7, 7, 7, 7, 6, 6, 6, 6] ∧
      s.deck = [] ∧ s.free = [] ∧ s.stacks_ = [[], [], [], []] :=
  Freecell_Deal_52_layout shuffled h52

/-- C20 on the deck as constructed: its 52 cards are dealt in the layout of the
claim. -/
theorem Freecell_Deal_52_witness :
    (StandardDeck.fresh StandardPlayingCard).length = 52 ∧
    ∃ s, Freecell.Deal (Solitaire.fresh StandardPlayingCard)
        (StandardDeck.fresh StandardPlayingCard) = .ok s ∧
      s.board.length = 8 ∧
      (∀ k, k < 52 → dealtAt s.board k = (StandardDeck.fresh StandardPlayingCard).reverse[k]?) ∧
      (∀ i m, i < 8 → (s.board[i]?.bind fun col => col[m]?) =
        if i + 8 * m < 52 then (StandardDeck.fresh StandardPlayingCard).reverse[i + 8 * m]?
        else none) ∧
      s.board.map List.length = [7, 7, 7, 7, 6, 6, 6, 6] ∧
      s.deck = [] ∧ s.free = [] ∧ s.stacks_ = [[], [], [], []] :=
  ⟨by decide, Freecell_Deal_52 (StandardDeck.fresh StandardPlayingCard) (by decide)⟩

/-! ## Klondike: moving a run between two columns -/

theorem sAnd_ok_ok (a b : Bool) : sAnd (.ok a) (.ok b) = .ok (a && b) := by
  cases a <;> rfl

theorem sOr_ok_ok (a b : Bool) : sOr (.ok a) (.ok b) = .ok (a || b) := by
  cases a <;> rfl

/-- Along a descending run the ranks do not increase: the last card is not
higher than the first. -/
theorem chain_rank_le {T : Type} [PlayingCard T] (l : List T) (c d : T)
    (h : List.Chain' StepsDown l) (hc : l.head? = some c) (hd : l.getLast? = some d) :
    GetRank d ≤ GetRank c := by
  induction l generalizing c with
  | nil => simp at hc
  | cons a l ih =>
    simp only [List.head?_cons, Option.some.injEq] at hc
    subst hc
    cases l with
    | nil =>
      simp only [List.getLast?_singleton, Option.some.injEq] at hd
      subst hd
      exact le_refl _
    | cons b l =>
      rw [List.chain'_cons] at h
      have h1 := ih b h.2 rfl (by simpa [List.getLast?_cons_cons] using hd)
      have h2 := h.1.2
      omega

/-- The top card of a column is not higher than the bottom card of a
descending run that ends in it. -/
theorem run_top_le_bottom {T : Type} [PlayingCard T] (src : List T) (k : Nat) (c d : T)
    (hk : 1 ≤ k) (hk2 : k ≤ src.length) (hrun : IsDescendingRun src k)
    (hc : src[src.length - k]? = some c) (hd : src.getLast? = some d) :
    GetRank d ≤ GetRank c := by
  refine chain_rank_le (src.drop (src.length - k)) c d hrun ?_ ?_
  · rw [List.head?_drop]; exact hc
  · rw [List.getLast?_drop, if_neg (by omega)]; exact hd

theorem Klondike_runBottom_eval (s : Klondike) (pile_from amount : Nat)
    (src : List PolarStandardPlayingCard) (c : PolarStandardPlayingCard)
    (hf : 1 ≤ pile_from) (hf2 : pile_from < SIZE_MOD)
    (hsrc : s.board[pile_from - 1]? = some src)
    (ha : amount ≤ src.length) (hlen : src.length < SIZE_MOD)
    (hc : src[src.length - amount]? = some c) :
    Klondike.runBottom s pile_from amount = .ok c := by
  simp only [Klondike.runBottom, szSub_of_le hf hf2, vecAt_eq_ok hsrc, except_bind_ok,
    szSub_of_le ha hlen, vecAt_eq_ok hc]

/-- The outcome of Klondike `MoveBoardToBoard` for indices in [1,7] and an
amount between 1 and the size of the source column: either the call returns,
having moved the run exactly when the move is legal, or the run descends, its
bottom card is face-up, the destination is not empty and the sum `rank + 1`
made for the bottom card of the run overflows. -/
theorem Klondike_MoveBoardToBoard_stages (s : Klondike) (pile_from pile_to amount : Nat)
    (hboard : s.board.length = 7)
    (hf : 1 ≤ pile_from ∧ pile_from ≤ 7) (ht : 1 ≤ pile_to ∧ pile_to ≤ 7)
    (ha : 1 ≤ amount ∧ amount ≤ (s.board.getD (pile_from - 1) []).length)
    (hlen : (s.board.getD (pile_from - 1) []).length < SIZE_MOD)
    (hint : ∀ c ∈ s.board.getD (pile_from - 1) [], IsInt32 (GetRank c)) :
    ((Klondike.LegalBoardToBoard s pile_from pile_to amount →
        pile_from ≠ pile_to ∧
        Klondike.MoveBoardToBoard s pile_from pile_to amount =
          .ok { s with board := Klondike.movedBoard s.board pile_from pile_to amount } ∧
        ({ s with board := Klondike.movedBoard s.board pile_from pile_to amount } : Klondike) ≠
          s) ∧
      (¬ Klondike.LegalBoardToBoard s pile_from pile_to amount →
        Klondike.MoveBoardToBoard s pile_from pile_to amount = .ok s)) ∨
    (Klondike.MoveBoardToBoard s pile_from pile_to amount = .error .intOverflow ∧
      ∃ c d, (s.board.getD (pile_from - 1) [])[(s.board.getD (pile_from - 1) []).length -
          amount]? = some c ∧
        (s.board.getD (pile_to - 1) []).getLast? = some d ∧ ¬ IsInt32 (GetRank c + 1)) := by
  have hf2 : pile_from < SIZE_MOD := by rw [SIZE_MOD_eq]; omega
  have ht2 : pile_to < SIZE_MOD := by rw [SIZE_MOD_eq]; omega
  have hidxf : szSub pile_from 1 = pile_from - 1 := szSub_of_le hf.1 hf2
  have hidxt : szSub pile_to 1 = pile_to - 1 := szSub_of_le ht.1 ht2
  obtain ⟨src, hsrc⟩ : ∃ src, s.board[pile_from - 1]? = some src := by
    cases hc : s.board[pile_from - 1]? with
    | none => rw [List.getElem?_eq_none_iff] at hc; omega
    | some c => exact ⟨c, rfl⟩
  obtain ⟨dst, hdst⟩ : ∃ dst, s.board[pile_to - 1]? = some dst := by
    cases hc : s.board[pile_to - 1]? with
    | none => rw [List.getElem?_eq_none_iff] at hc; omega
    | some c => exact ⟨c, rfl⟩
  have hgs : s.board.getD (pile_from - 1) [] = src := by
    rw [List.getD_eq_getElem?_getD, hsrc]; rfl
  have hgd : s.board.getD (pile_to - 1) [] = dst := by
    rw [List.getD_eq_getElem?_getD, hdst]; rfl
  rw [hgs] at ha hlen hint
  obtain ⟨c, hc⟩ : ∃ c, src[src.length - amount]? = some c := by
    cases hc : src[src.length - amount]? with
    | none => rw [List.getElem?_eq_none_iff] at hc; omega
    | some c => exact ⟨c, rfl⟩
  have hbf : Klondike.CheckPileBounds pile_from = true := by
    simp [Klondike.CheckPileBounds, hf.1, hf.2]
  have hbt : Klondike.CheckPileBounds pile_to = true := by
    simp [Klondike.CheckPileBounds, ht.1, ht.2]
  have hdesc := CheckDescendingPile_eq_decide s pile_from amount src hf.1 hf2 hsrc ha.1 ha.2
    hlen hint
  have hse : src.isEmpty = false := by
    cases hs : src with
    | nil => rw [hs] at ha; simp at ha; omega
    | cons a l => rfl
  have hrb := Klondike_runBottom_eval s pile_from amount src c hf.1 hf2 hsrc ha.2 hlen hc
  have ha1 : decide (1 ≤ amount) = true := decide_eq_true ha.1
  have hleg : Klondike.LegalBoardToBoard s pile_from pile_to amount ↔
      IsDescendingRun src amount ∧ c.face_up = true ∧
        ((∃ d, dst.getLast? = some d ∧ GetRank d = GetRank c + 1 ∧ GetColor c ≠ GetColor d) ∨
          (dst.length = 0 ∧ GetRank c = 13)) := by
    simp only [Klondike.LegalBoardToBoard, hgs, hgd, hc, Option.some.injEq, exists_eq_left']
  -- the test, evaluated
  have htest : (∃ B : Bool,
      Klondike.MoveBoardToBoard.test s pile_from pile_to amount = .ok B ∧
      (B = true ↔ Klondike.LegalBoardToBoard s pile_from pile_to amount)) ∨
      (Klondike.MoveBoardToBoard.test s pile_from pile_to amount = .error .intOverflow ∧
        ∃ d, dst.getLast? = some d ∧ ¬ IsInt32 (GetRank c + 1)) := by
    rcases List.eq_nil_or_concat dst with hd | ⟨l, d, hd⟩
    · subst hd
      refine Or.inl ⟨decide (IsDescendingRun src amount) && (c.face_up &&
        (c.face_up && decide (GetRank c = 13))), ?_, ?_⟩
      · simp only [Klondike.MoveBoardToBoard.test, hbf, hbt, hdesc, hidxf, hidxt,
          emptyAt_eq_ok hsrc, emptyAt_eq_ok hdst, hse, sNot_ok, ha1, hrb, except_bind_ok,
          except_pure, sAnd_true, sAnd_false, sOr_false, List.isEmpty_nil, Bool.not_true,
          Bool.not_false, GetFaceUp, sAnd_ok_ok, Bool.true_and]
      · rw [hleg]
        simp
    · rw [List.concat_eq_append] at hd
      subst hd
      have hde : (l ++ [d]).isEmpty = false :=
        isEmpty_eq_false_of_getLast? (List.getLast?_concat l)
      have hbd : backAt s.board (pile_to - 1) = .ok d :=
        backAt_eq_ok hdst (List.getLast?_concat l)
      by_cases hov : IsInt32 (GetRank c + 1)
      · refine Or.inl ⟨decide (IsDescendingRun src amount) && (c.face_up &&
          (decide (GetRank d = GetRank c + 1) && decide (GetColor c ≠ GetColor d))), ?_, ?_⟩
        · simp only [Klondike.MoveBoardToBoard.test, hbf, hbt, hdesc, hidxf, hidxt,
            emptyAt_eq_ok hsrc, emptyAt_eq_ok hdst, hse, hde, sNot_ok, ha1, hrb, hbd,
            except_bind_ok, except_pure, sAnd_true, sAnd_false, sOr_false, Bool.not_true,
            Bool.not_false, GetFaceUp, sAnd_ok_ok, sOr_ok_ok, Bool.or_false, Bool.true_and,
            Bool.false_and, intAdd_eq_ok hov]
        · rw [hleg]
          simp
      · by_cases hrun : IsDescendingRun src amount
        · cases hface : c.face_up with
          | true =>
            refine Or.inr ⟨?_, d, List.getLast?_concat l, hov⟩
            simp only [Klondike.MoveBoardToBoard.test, hbf, hbt, hdesc, hidxf, hidxt,
              emptyAt_eq_ok hsrc, emptyAt_eq_ok hdst, hse, hde, sNot_ok, ha1, hrb, hbd,
              except_bind_ok, except_pure, sAnd_true, sAnd_false, sOr_false, Bool.not_true,
              Bool.not_false, GetFaceUp, Bool.true_and, Bool.false_and,
              intAdd_eq_error hov, decide_eq_true hrun, hface, except_bind_error, sAnd_error,
              sOr_error]
          | false =>
            refine Or.inl ⟨false, ?_, ?_⟩
            · simp only [Klondike.MoveBoardToBoard.test, hbf, hbt, hdesc, hidxf, hidxt,
                emptyAt_eq_ok hsrc, hse, sNot_ok, ha1, hrb,
                except_bind_ok, except_pure, sAnd_true, sAnd_false, Bool.not_true,
                Bool.not_false, GetFaceUp, decide_eq_true hrun, hface]
            · rw [hleg]
              simp [hface]
        · refine Or.inl ⟨false, ?_, ?_⟩
          · simp only [Klondike.MoveBoardToBoard.test, hbf, hbt, hdesc, sAnd_true, sAnd_false,
              decide_eq_false hrun]
          · rw [hleg]
            simp [hrun]
  rcases htest with ⟨B, hB, hBiff⟩ | ⟨herr, d, hd, hov⟩
  swap
  · exact Or.inr ⟨by simp only [Klondike.MoveBoardToBoard, herr], c, d,
      by rw [hgs]; exact hc, by rw [hgd]; exact hd, hov⟩
  left
  constructor
  · intro hl
    have hl2 := hleg.mp hl
    have hne : pile_from ≠ pile_to := by
      intro heq
      subst heq
      rw [hsrc] at hdst
      cases hdst
      rcases hl2.2.2 with ⟨d, hd, hr, _⟩ | ⟨h0, _⟩
      · have := run_top_le_bottom src amount c d ha.1 ha.2 hl2.1 hc hd
        omega
      · omega
    have hBt : B = true := hBiff.mpr hl
    subst hBt
    clear hl2 hl hBiff hleg
    have hmove := MoveBoardToBoard_move_spec s.board pile_from pile_to amount src dst
      hf.1 hf2 ht.1 ht2 hne hsrc hdst ha.2
    have hflip : Klondike.flipBackAt (moveRun s.board pile_from pile_to amount)
        (pile_from - 1) = .ok (Klondike.movedBoard s.board pile_from pile_to amount) := by
      have e1 : moveRun s.board pile_from pile_to amount =
          (s.board.set (pile_to - 1) (dst ++ src.drop (src.length - amount))).set
            (pile_from - 1) (src.take (src.length - amount)) := by
        simp only [moveRun, hgs, hgd]
        exact List.set_comm _ _ _ (by omega)
      have e2 := flipBackAt_set
        (s.board.set (pile_to - 1) (dst ++ src.drop (src.length - amount))) (pile_from - 1)
        (src.take (src.length - amount)) (by simp; omega)
      rw [← e1] at e2
      rw [e2]
      simp only [Klondike.movedBoard, hgs]
      rw [e1, List.set_set]
    refine ⟨hne, ?_, ?_⟩
    · simp only [Klondike.MoveBoardToBoard, hB, hmove, except_bind_ok, hidxf, hflip, except_pure]
    · intro h
      have h3 := congrArg (fun x : Klondike => x.board[pile_to - 1]?) h
      simp only [hdst, Klondike.movedBoard, moveRun, hgs, hgd] at h3
      rw [List.getElem?_set_ne (by omega), List.getElem?_set_self (by simp; omega)] at h3
      have h4 := congrArg List.length (Option.some.inj h3)
      simp at h4
      omega
  · intro hl
    have hBf : B = false := by
      cases hb : B with
      | false => rfl
      | true => exact absurd (hBiff.mp hb) hl
    subst hBf
    simp only [Klondike.MoveBoardToBoard, hB]

/-- The outcome of Klondike `MoveBoardToBoard` for indices in [1,7] and an
amount between 1 and the size of the source column, when the sum `rank + 1`
made for a card of the source does not overflow. -/
theorem Klondike_MoveBoardToBoard_cases (s : Klondike) (pile_from pile_to amount : Nat)
    (hboard : s.board.length = 7)
    (hf : 1 ≤ pile_from ∧ pile_from ≤ 7) (ht : 1 ≤ pile_to ∧ pile_to ≤ 7)
    (ha : 1 ≤ amount ∧ amount ≤ (s.board.getD (pile_from - 1) []).length)
    (hlen : (s.board.getD (pile_from - 1) []).length < SIZE_MOD)
    (hint : ∀ c ∈ s.board.getD (pile_from - 1) [], IsInt32 (GetRank c))
    (hov : ∀ c ∈ s.board.getD (pile_from - 1) [], IsInt32 (GetRank c + 1)) :
    (Klondike.LegalBoardToBoard s pile_from pile_to amount →
      pile_from ≠ pile_to ∧
      Klondike.MoveBoardToBoard s pile_from pile_to amount =
        .ok { s with board := Klondike.movedBoard s.board pile_from pile_to amount } ∧
      ({ s with board := Klondike.movedBoard s.board pile_from pile_to amount } : Klondike) ≠ s) ∧
    (¬ Klondike.LegalBoardToBoard s pile_from pile_to amount →
      Klondike.MoveBoardToBoard s pile_from pile_to amount = .ok s) := by
  rcases Klondike_MoveBoardToBoard_stages s pile_from pile_to amount hboard hf ht ha hlen hint
    with h | ⟨_, c, _, hc, _, hnov⟩
  · exact h
  · exact absurd (hov c (List.getElem?_mem hc)) hnov

/-- A legal Klondike `MoveBoardToBoard` for indices in [1,7] and an amount
between 1 and the size of the source column, on source and destination columns
of `int` ranks: the run is moved. -/
theorem Klondike_MoveBoardToBoard_legal (s : Klondike) (pile_from pile_to amount : Nat)
    (hboard : s.board.length = 7)
    (hf : 1 ≤ pile_from ∧ pile_from ≤ 7) (ht : 1 ≤ pile_to ∧ pile_to ≤ 7)
    (ha : 1 ≤ amount ∧ amount ≤ (s.board.getD (pile_from - 1) []).length)
    (hlen : (s.board.getD (pile_from - 1) []).length < SIZE_MOD)
    (hint : ∀ c ∈ s.board.getD (pile_from - 1) [], IsInt32 (GetRank c))
    (hintd : ∀ c ∈ s.board.getD (pile_to - 1) [], IsInt32 (GetRank c))
    (hl : Klondike.LegalBoardToBoard s pile_from pile_to amount) :
    pile_from ≠ pile_to ∧
      Klondike.MoveBoardToBoard s pile_from pile_to amount =
        .ok { s with board := Klondike.movedBoard s.board pile_from pile_to amount } ∧
      ({ s with board := Klondike.movedBoard s.board pile_from pile_to amount } : Klondike) ≠
        s := by
  rcases Klondike_MoveBoardToBoard_stages s pile_from pile_to amount hboard hf ht ha hlen hint
    with h | ⟨_, c, d, hc, hd, hnov⟩
  · exact h.1 hl
  · exfalso
    obtain ⟨_, c', hc', _, hrest⟩ := hl
    rw [hc] at hc'
    cases hc'
    rcases hrest with ⟨d', hd', hr, _⟩ | ⟨h0, _⟩
    · rw [hd] at hd'
      cases hd'
      rw [← hr] at hnov
      exact hnov (hintd d (List.mem_of_mem_getLast? hd))
    · rw [List.length_eq_zero.mp h0] at hd
      cases hd

/-! ## Klondike: the auto-flip -/

/-- What the auto-flip does to a column: the result is empty or has a face-up
top card; below the top card nothing changes; the top card keeps its rank and
suit. -/
theorem flipTop_spec (col : List PolarStandardPlayingCard) :
    (flipTop col = [] ∨ ∃ c, (flipTop col).getLast? = some c ∧ c.face_up = true) ∧
    (flipTop col).length = col.length ∧
    (∀ i, i + 1 < col.length → (flipTop col)[i]? = col[i]?) ∧
    (∀ c, col.getLast? = some c → (flipTop col).getLast? = some { c with face_up := true }) := by
  rcases List.eq_nil_or_concat col with hc | ⟨l, d, hc⟩
  · subst hc
    exact ⟨Or.inl rfl, rfl, fun i h => by simp at h, fun c h => by simp at h⟩
  · rw [List.concat_eq_append] at hc
    subst hc
    cases hd : d.face_up with
    | true =>
      have e : flipTop (l ++ [d]) = l ++ [d] := by simp [flipTop, hd]
      rw [e]
      refine ⟨Or.inr ⟨d, by simp, hd⟩, rfl, fun _ _ => rfl, fun c h => ?_⟩
      simp only [List.getLast?_concat, Option.some.injEq] at h
      subst h
      simp only [List.getLast?_concat, Option.some.injEq]
      cases d; simp only at hd; subst hd; rfl
    | false =>
      have e : flipTop (l ++ [d]) = l ++ [{ d with face_up := true }] := by
        simp [flipTop, hd]
      rw [e]
      refine ⟨Or.inr ⟨{ d with face_up := true }, by simp, rfl⟩, by simp, fun i h => ?_,
        fun c h => ?_⟩
      · simp only [List.length_append, List.length_singleton] at h
        rw [List.getElem?_append_left (by omega), List.getElem?_append_left (by omega)]
      · simp only [List.getLast?_concat, Option.some.injEq] at h
        subst h
        simp

/-- The outcome of a legal Klondike `MoveBoardToStack` onto a foundation of
`int` ranks. -/
theorem Klondike_MoveBoardToStack_legal (s : Klondike) (p : Nat) (stack : String) (aut : Bool)
    (col : List PolarStandardPlayingCard) (c : PolarStandardPlayingCard)
    (st : List PolarStandardPlayingCard)
    (hp : 1 ≤ p) (hp2 : p < SIZE_MOD) (hcol : s.board[p - 1]? = some (col ++ [c]))
    (hst : s.stacks_[Solitaire.GetStackSuit stack]? = some st)
    (hint : ∀ t ∈ st, IsInt32 (GetRank t))
    (hfit : FitsFoundation c stack st) :
    Klondike.MoveBoardToStack s p stack aut = .ok
      { s with stacks_ := s.stacks_.set (Solitaire.GetStackSuit stack) (st ++ [c]),
               board := s.board.set (p - 1) (flipTop col) } :=
  (Klondike_MoveBoardToStack_cases s p stack aut col c st hp hp2 hcol hst
    (pred_int_of_fits c stack st hint hfit)).1 hfit

/-- C13: after a successful Klondike `MoveBoardToBoard` (a legal move with
indices in [1,7] and `1 ≤ amount ≤` size of the source) and after a successful
Klondike `MoveBoardToStack`, the source column is the auto-flipped rest of the
source, every other column is as the plain move leaves it, and deck, waste and
(for a board move) foundations are as before; an auto-flipped column is empty
or has a face-up top card, and differs from the column it was only in the face
of its top card. Ranks are C++ `int` values: those of the source and of the
destination column for a board move, those of the foundation for a move onto
it. -/
theorem Klondike_auto_flip :
    (∀ (s : Klondike) (pile_from pile_to amount : Nat),
      s.board.length = 7 → (1 ≤ pile_from ∧ pile_from ≤ 7) → (1 ≤ pile_to ∧ pile_to ≤ 7) →
      (1 ≤ amount ∧ amount ≤ (s.board.getD (pile_from - 1) []).length) →
      (s.board.getD (pile_from - 1) []).length < SIZE_MOD →
      (∀ c ∈ s.board.getD (pile_from - 1) [], IsInt32 (GetRank c)) →
      (∀ c ∈ s.board.getD (pile_to - 1) [], IsInt32 (GetRank c)) →
      Klondike.LegalBoardToBoard s pile_from pile_to amount →
      ∃ s', Klondike.MoveBoardToBoard s pile_from pile_to amount = .ok s' ∧
        s'.board[pile_from - 1]? = some (flipTop ((s.board.getD (pile_from - 1) []).take
          ((s.board.getD (pile_from - 1) []).length - amount))) ∧
        (∀ j, j ≠ pile_from - 1 →
          s'.board[j]? = (moveRun s.board pile_from pile_to amount)[j]?) ∧
        s'.deck = s.deck ∧ s'.free = s.free ∧ s'.stacks_ = s.stacks_) ∧
    (∀ (s : Klondike) (p : Nat) (stack : String) (aut : Bool)
        (col : List PolarStandardPlayingCard) (c : PolarStandardPlayingCard)
        (st : List PolarStandardPlayingCard),
      1 ≤ p → p < SIZE_MOD → s.board[p - 1]? = some (col ++ [c]) →
      s.stacks_[Solitaire.GetStackSuit stack]? = some st →
      (∀ t ∈ st, IsInt32 (GetRank t)) →
      FitsFoundation c stack st →
      ∃ s', Klondike.MoveBoardToStack s p stack aut = .ok s' ∧
        s'.board[p - 1]? = some (flipTop col) ∧
        (∀ j, j ≠ p - 1 → s'.board[j]? = s.board[j]?) ∧
        s'.deck = s.deck ∧ s'.free = s.free ∧
        s'.stacks_ = s.stacks_.set (Solitaire.GetStackSuit stack) (st ++ [c])) ∧
    (∀ col : List PolarStandardPlayingCard,
      (flipTop col = [] ∨ ∃ c, (flipTop col).getLast? = some c ∧ c.face_up = true) ∧
      (flipTop col).length = col.length ∧
      (∀ i, i + 1 < col.length → (flipTop col)[i]? = col[i]?) ∧
      (∀ c, col.getLast? = some c →
        (flipTop col).getLast? = some { c with face_up := true })) := by
  refine ⟨?_, ?_, flipTop_spec⟩
  · intro s pile_from pile_to amount hboard hf ht ha hlen hint hintd hl
    obtain ⟨hne, h, _⟩ :=
      Klondike_MoveBoardToBoard_legal s pile_from pile_to amount hboard hf ht ha hlen hint hintd hl
    refine ⟨_, h, ?_, ?_, rfl, rfl, rfl⟩
    · simp only [Klondike.movedBoard]
      rw [List.getElem?_set_self (by simp [moveRun]; omega)]
    · intro j hj
      simp only [Klondike.movedBoard]
      rw [List.getElem?_set_ne (fun h => hj h.symm)]
  · intro s p stack aut col c st hp hp2 hcol hst hint hfit
    refine ⟨_, Klondike_MoveBoardToStack_legal s p stack aut col c st hp hp2 hcol hst hint hfit,
      ?_, ?_, rfl, rfl, rfl⟩
    · have hlt : p - 1 < s.board.length := by
        by_contra hge
        rw [List.getElem?_eq_none (by omega)] at hcol
        cases hcol
      simp only
      rw [List.getElem?_set_self hlt]
    · intro j hj
      simp only
      rw [List.getElem?_set_ne (fun h => hj h.symm)]

/-- C13 at concrete positions: in `flipStateK` the king of hearts, the sole
face-up card of column 4, goes to the empty column 3 and the four of clubs
under it is face-up afterwards; in `aceStateK` the ace of hearts, the sole
face-up card of column 1, goes to its foundation and the nine of clubs under it
is face-up afterwards. -/
theorem Klondike_auto_flip_witness :
    (∃ s', Klondike.MoveBoardToBoard flipStateK 4 3 1 = .ok s' ∧
      s'.board[3]? = some [⟨⟨4, "club"⟩, true⟩]) ∧
    (∃ s', Klondike.MoveBoardToStack aceStateK 1 "heart" false = .ok s' ∧
      s'.board[0]? = some [⟨⟨9, "club"⟩, true⟩]) := by
  constructor
  · obtain ⟨s', h1, h2, _⟩ := Klondike_auto_flip.1 flipStateK 4 3 1 (by decide) (by decide)
      (by decide) (by decide) (by decide) (by decide) (by decide)
      ⟨by decide, ⟨⟨13, "heart"⟩, true⟩, rfl, rfl, Or.inr ⟨by decide, by decide⟩⟩
    exact ⟨s', h1, h2⟩
  · obtain ⟨s', h1, h2, _⟩ := Klondike_auto_flip.2.1 aceStateK 1 "heart" false
      [⟨⟨9, "club"⟩, false⟩] ⟨⟨1, "heart"⟩, true⟩ [] (by decide) (by decide) rfl rfl (by decide)
      (by decide)
    exact ⟨s', h1, h2⟩

/-! ## Klondike: drawing and recycling -/

theorem turn_up (c : PolarStandardPlayingCard) :
    (if (!GetFaceUp c) = true then FlipCard c else c) = { c with face_up := true } := by
  cases c with
  | mk b f => cases f <;> simp [GetFaceUp, FlipCard]

theorem turn_down (c : PolarStandardPlayingCard) :
    (if GetFaceUp c = true then FlipCard c else c) = { c with face_up := false } := by
  cases c with
  | mk b f => cases f <;> simp [GetFaceUp, FlipCard]

/-- The drawing loop of `DrawCards` on a deck of at least `k` cards: the top
`k` cards go to the waste pile, face-up, the first one drawn lowest. -/
theorem draw_spec (k : Nat) (s : Klondike) (hk : k ≤ s.deck.length) :
    Klondike.DrawCards.draw k s = .ok
      { s with deck := s.deck.take (s.deck.length - k),
               free := s.free ++ (s.deck.drop (s.deck.length - k)).reverse.map
                 fun c => { c with face_up := true } } := by
  induction k generalizing s with
  | zero =>
    simp [Klondike.DrawCards.draw]
  | succ k ih =>
    rcases List.eq_nil_or_concat s.deck with hd | ⟨deck1, c, hd⟩
    · rw [hd] at hk; simp at hk
    rw [List.concat_eq_append] at hd
    have hk1 : k ≤ deck1.length := by
      rw [hd] at hk; simp at hk; omega
    unfold Klondike.DrawCards.draw
    rw [hd, DrawOne_concat]
    simp only
    rw [ih _ hk1, turn_up]
    simp only [List.length_append, List.length_singleton]
    rw [show deck1.length + 1 - (k + 1) = deck1.length - k by omega,
      List.take_append_of_le_length (by omega), List.drop_append_of_le_length (by omega)]
    simp

/-- The recycling loop of `DrawCards` empties the waste pile onto `temp`, top
card first, every card face-down. -/
theorem recycle_spec (n : Nat) (free temp : List PolarStandardPlayingCard)
    (hn : free.length ≤ n) :
    Klondike.DrawCards.recycle n free temp =
      ([], temp ++ free.reverse.map fun c => { c with face_up := false }) := by
  induction n generalizing free temp with
  | zero =>
    have : free = [] := List.eq_nil_of_length_eq_zero (by omega)
    subst this
    simp [Klondike.DrawCards.recycle]
  | succ n ih =>
    rcases List.eq_nil_or_concat free with hf | ⟨l, c, hf⟩
    · subst hf
      simp [Klondike.DrawCards.recycle]
    · rw [List.concat_eq_append] at hf
      subst hf
      unfold Klondike.DrawCards.recycle
      simp only [List.getLast?_concat, List.dropLast_concat]
      rw [ih _ _ (by simp at hn; omega), turn_down]
      simp

/-- The first part of `DrawCards` on a non-empty deck changes nothing and sets
the number of cards to draw in draw-three mode. -/
theorem prepare_nonempty (s : Klondike) (hne : s.deck ≠ []) :
    Klondike.DrawCards.prepare s = (min 3 s.deck.length, s) := by
  have hpos : 0 < s.deck.length := List.length_pos.mpr hne
  unfold Klondike.DrawCards.prepare
  split
  · rename_i h; rw [min_eq_right (by omega)]
  · rename_i h
    rw [if_neg (by omega), min_eq_left (by omega)]

/-- The first part of `DrawCards` on an empty deck: the waste pile becomes the
deck, turned over. -/
theorem prepare_empty (s : Klondike) (hd : s.deck = []) :
    Klondike.DrawCards.prepare s =
      (3, { s with free := [],
                   deck := s.free.reverse.map fun c => { c with face_up := false } }) := by
  unfold Klondike.DrawCards.prepare
  rw [if_neg (by simp [hd]), if_pos (by simp [hd])]
  simp only [recycle_spec s.free.length s.free [] (le_refl _), List.nil_append]

/-- `DrawCards` on a non-empty deck. -/
theorem Klondike_DrawCards_nonempty (draw_one_game : Bool) (s : Klondike) (hne : s.deck ≠ []) :
    Klondike.DrawCards draw_one_game s = .ok
      { s with
        deck := s.deck.take (s.deck.length - Klondike.drawCount draw_one_game s.deck.length),
        free := s.free ++
          (s.deck.drop (s.deck.length - Klondike.drawCount draw_one_game s.deck.length)).reverse.map
            fun c => { c with face_up := true } } := by
  have hpos : 0 < s.deck.length := List.length_pos.mpr hne
  have hemp : s.deck.isEmpty = false := by
    cases hs : s.deck with
    | nil => exact absurd hs hne
    | cons a l => rfl
  have hk : Klondike.drawCount draw_one_game s.deck.length ≤ s.deck.length := by
    unfold Klondike.drawCount; split <;> omega
  unfold Klondike.DrawCards
  simp only [prepare_nonempty s hne, hemp, Bool.not_false, if_true]
  have e : (if draw_one_game = true then 1 else min 3 s.deck.length) =
      Klondike.drawCount draw_one_game s.deck.length := rfl
  rw [e]
  exact draw_spec _ s hk

/-- `DrawCards` on an empty deck and a waste pile of at least as many cards as
are drawn. -/
theorem Klondike_DrawCards_empty (draw_one_game : Bool) (s : Klondike) (hd : s.deck = [])
    (hk : (if draw_one_game then 1 else 3) ≤ s.free.length) :
    Klondike.DrawCards draw_one_game s = .ok
      { s with
        deck := (s.free.drop (if draw_one_game then 1 else 3)).reverse.map
          fun c => { c with face_up := false },
        free := (s.free.take (if draw_one_game then 1 else 3)).map
          fun c => { c with face_up := true } } := by
  have hpos : 0 < s.free.length := by
    split at hk <;> omega
  have hemp : (s.free.reverse.map fun c : PolarStandardPlayingCard =>
      ({ c with face_up := false } : PolarStandardPlayingCard)).isEmpty = false := by
    cases hs : s.free with
    | nil => rw [hs] at hpos; simp at hpos
    | cons a l => simp
  unfold Klondike.DrawCards
  simp only [prepare_empty s hd, hemp, Bool.not_false, if_true]
  rw [draw_spec _ _ (by simpa using hk)]
  simp only [List.length_map, List.length_reverse, List.nil_append]
  congr 1
  have e1 : List.take (s.free.length - if draw_one_game = true then 1 else 3)
      (List.map (fun c : PolarStandardPlayingCard =>
        ({ c with face_up := false } : PolarStandardPlayingCard)) s.free.reverse) =
      List.map (fun c => { c with face_up := false })
        (List.drop (if draw_one_game = true then 1 else 3) s.free).reverse := by
    rw [← List.map_take, List.reverse_drop]
  have e2 : List.map (fun c : PolarStandardPlayingCard =>
        ({ c with face_up := true } : PolarStandardPlayingCard))
      (List.drop (s.free.length - if draw_one_game = true then 1 else 3)
        (List.map (fun c : PolarStandardPlayingCard =>
          ({ c with face_up := false } : PolarStandardPlayingCard)) s.free.reverse)).reverse =
      List.map (fun c => { c with face_up := true })
        (List.take (if draw_one_game = true then 1 else 3) s.free) := by
    rw [← List.map_drop, ← List.map_reverse, List.map_map]
    have e3 : (List.drop (s.free.length - if draw_one_game = true then 1 else 3)
        s.free.reverse).reverse = List.take (if draw_one_game = true then 1 else 3) s.free := by
      rw [List.reverse_drop, List.reverse_reverse, List.length_reverse]
      congr 1
      omega
    rw [e3]
    apply List.map_congr_left
    intro c _
    rfl
  rw [e1, e2]

/-- C14: Klondike `DrawCards` with a non-empty deck of `n` cards moves the top
`k` cards of the deck onto the waste pile, where `k` is 1 in draw-one mode and
3 in draw-three mode (`n` when `n < 3`), in draw order: the top of the deck is
drawn first and the last card drawn is the waste top. Every card drawn is
face-up afterwards; the board and the foundations are unchanged. -/
theorem Klondike_DrawCards_draws (draw_one_game : Bool) (s : Klondike) (hne : s.deck ≠ []) :
    Klondike.DrawCards draw_one_game s = .ok
      { s with
        deck := s.deck.take (s.deck.length - Klondike.drawCount draw_one_game s.deck.length),
        free := s.free ++
          (s.deck.drop (s.deck.length - Klondike.drawCount draw_one_game s.deck.length)).reverse.map
            fun c => { c with face_up := true } } ∧
    (s.deck.drop (s.deck.length - Klondike.drawCount draw_one_game s.deck.length)).length =
      Klondike.drawCount draw_one_game s.deck.length ∧
    1 ≤ Klondike.drawCount draw_one_game s.deck.length ∧
    (s.deck.drop (s.deck.length - Klondike.drawCount draw_one_game s.deck.length)).reverse.head? =
      s.deck.getLast? ∧
    ∀ c ∈ (s.deck.drop (s.deck.length -
        Klondike.drawCount draw_one_game s.deck.length)).reverse.map
          (fun c : PolarStandardPlayingCard =>
            ({ c with face_up := true } : PolarStandardPlayingCard)),
      c.face_up = true := by
  have hpos : 0 < s.deck.length := List.length_pos.mpr hne
  have hk : Klondike.drawCount draw_one_game s.deck.length ≤ s.deck.length := by
    unfold Klondike.drawCount; split <;> omega
  have hk1 : 1 ≤ Klondike.drawCount draw_one_game s.deck.length := by
    unfold Klondike.drawCount; split <;> omega
  refine ⟨Klondike_DrawCards_nonempty draw_one_game s hne, ?_, hk1, ?_, ?_⟩
  · rw [List.length_drop]; omega
  · rw [List.head?_reverse, List.getLast?_drop, if_neg (by omega)]
  · intro c hc
    obtain ⟨x, _, rfl⟩ := List.mem_map.mp hc
    rfl

/-- C14 at a concrete position, `stockStateK`: in draw-three mode the two of
diamonds, the queen of hearts and the seven of clubs go to the waste pile in
that order, face-up; in draw-one mode only the two of diamonds does; from a
deck of two cards draw-three mode draws both. -/
theorem Klondike_DrawCards_draws_witness :
    Klondike.DrawCards false stockStateK = .ok
      { stockStateK with
        deck := [⟨⟨1, "spade"⟩, false⟩],
        free := [⟨⟨5, "spade"⟩, true⟩, ⟨⟨2, "diamond"⟩, true⟩, ⟨⟨12, "heart"⟩, true⟩,
          ⟨⟨7, "club"⟩, true⟩] } ∧
    Klondike.DrawCards true stockStateK = .ok
      { stockStateK with
        deck := [⟨⟨1, "spade"⟩, false⟩, ⟨⟨7, "club"⟩, false⟩, ⟨⟨12, "heart"⟩, false⟩],
        free := [⟨⟨5, "spade"⟩, true⟩, ⟨⟨2, "diamond"⟩, true⟩] } ∧
    Klondike.DrawCards false
        { stockStateK with deck := [⟨⟨1, "spade"⟩, false⟩, ⟨⟨7, "club"⟩, false⟩] } = .ok
      { stockStateK with
        deck := [],
        free := [⟨⟨5, "spade"⟩, true⟩, ⟨⟨7, "club"⟩, true⟩, ⟨⟨1, "spade"⟩, true⟩] } :=
  ⟨(Klondike_DrawCards_draws false stockStateK (by decide)).1.trans (by decide),
   (Klondike_DrawCards_draws true stockStateK (by decide)).1.trans (by decide),
   (Klondike_DrawCards_draws false
      { stockStateK with deck := [⟨⟨1, "spade"⟩, false⟩, ⟨⟨7, "club"⟩, false⟩] }
      (by decide)).1.trans (by decide)⟩

/-- A sequence of calls of `DrawCards` leads from reachable states to reachable
states. -/
theorem drawTimes_reachable (d : Bool) (n : Nat) (s s' : Klondike)
    (h : Klondike.drawTimes d n s = .ok s') (hs : Klondike.Reachable d s) :
    Klondike.Reachable d s' := by
  induction n generalizing s with
  | zero =>
    simp only [Klondike.drawTimes, Except.ok.injEq] at h
    subst h
    exact hs
  | succ n ih =>
    unfold Klondike.drawTimes at h
    split at h
    · cases h
    · rename_i s1 h1
      exact ih s1 h (Klondike.Reachable.move s s1 hs (Klondike.Move.drawCards s s1 h1))

set_option maxRecDepth 100000 in
theorem drawnOutKlondike_eq :
    Klondike.drawTimes true 24 dealtKlondike = .ok drawnOutKlondike := by decide

theorem drawnOutKlondike_reachable : Klondike.Reachable true drawnOutKlondike :=
  drawTimes_reachable true 24 dealtKlondike drawnOutKlondike drawnOutKlondike_eq
    (dealtKlondike_reachable true)

set_option maxRecDepth 100000 in
/-- C15 as stated fails. In `wasteStateK` the queen of hearts was drawn last,
and after the recycle the first card redrawn is the ace of spades, the card
that was drawn first. The same holds in the reachable position
`drawnOutKlondike`, whose deck is empty and whose waste pile holds 24 cards:
the card that `DrawCards` brings back is the bottom card of the waste pile, not
its top card. -/
theorem Klondike_recycle_redraws_first_drawn :
    (¬ Klondike.RedrawsLastDrawn wasteStateK ∧
      Klondike.DrawCards true wasteStateK = .ok
        { wasteStateK with
          deck := [⟨⟨12, "heart"⟩, false⟩, ⟨⟨7, "club"⟩, false⟩],
          free := [⟨⟨1, "spade"⟩, true⟩] }) ∧
    (Klondike.Reachable true drawnOutKlondike ∧ drawnOutKlondike.deck = [] ∧
      drawnOutKlondike.free.length = 24 ∧ ¬ Klondike.RedrawsLastDrawn drawnOutKlondike ∧
      (StandardDeck.DrawOne (Klondike.DrawCards.prepare drawnOutKlondike).2.deck).1 =
        drawnOutKlondike.free.head?.map (fun c => { c with face_up := false }) ∧
      drawnOutKlondike.free.head? ≠ drawnOutKlondike.free.getLast?) := by
  refine ⟨⟨?_, by decide⟩, drawnOutKlondike_reachable, by decide, by decide, ?_, by decide,
    by decide⟩
  · unfold Klondike.RedrawsLastDrawn
    decide
  · unfold Klondike.RedrawsLastDrawn
    decide

/-- C15, amended: when `DrawCards` is called with an empty deck and a waste
pile of at least as many cards as the mode draws (1 or 3), the whole waste pile
first becomes the deck, every card face-down and in inverted order, so that the
card that was drawn first (the bottom of the waste pile) is the top of the deck
and the first card to be redrawn; the same call then draws, so that on return
the waste pile holds the first 1 or 3 cards of the old waste pile, face-up and
in their old order, and the deck holds the others. -/
theorem Klondike_DrawCards_recycle (draw_one_game : Bool) (s : Klondike) (hd : s.deck = [])
    (hk : (if draw_one_game then 1 else 3) ≤ s.free.length) :
    (Klondike.DrawCards.prepare s).2 =
      { s with free := [],
               deck := s.free.reverse.map fun c => { c with face_up := false } } ∧
    (StandardDeck.DrawOne (Klondike.DrawCards.prepare s).2.deck).1 =
      s.free.head?.map (fun c => { c with face_up := false }) ∧
    Klondike.DrawCards draw_one_game s = .ok
      { s with
        deck := (s.free.drop (if draw_one_game then 1 else 3)).reverse.map
          fun c => { c with face_up := false },
        free := (s.free.take (if draw_one_game then 1 else 3)).map
          fun c => { c with face_up := true } } := by
  refine ⟨by rw [prepare_empty s hd], ?_, Klondike_DrawCards_empty draw_one_game s hd hk⟩
  rw [prepare_empty s hd]
  simp only
  cases hf : s.free with
  | nil => simp [StandardDeck.DrawOne]
  | cons a l => simp [StandardDeck.DrawOne]

/-- C15, amended, at a concrete position: in `wasteStateK` the ace of spades
was drawn first; after the recycle it is the first card redrawn, alone in
draw-one mode and followed by the seven of clubs and the queen of hearts in
draw-three mode. -/
theorem Klondike_DrawCards_recycle_witness :
    Klondike.DrawCards true wasteStateK = .ok
      { wasteStateK with
        deck := [⟨⟨12, "heart"⟩, false⟩, ⟨⟨7, "club"⟩, false⟩],
        free := [⟨⟨1, "spade"⟩, true⟩] } ∧
    Klondike.DrawCards false wasteStateK = .ok
      { wasteStateK with
        deck := [],
        free := [⟨⟨1, "spade"⟩, true⟩, ⟨⟨7, "club"⟩, true⟩, ⟨⟨12, "heart"⟩, true⟩] } ∧
    (StandardDeck.DrawOne (Klondike.DrawCards.prepare wasteStateK).2.deck).1 =
      some ⟨⟨1, "spade"⟩, false⟩ :=
  ⟨(Klondike_DrawCards_recycle true wasteStateK rfl (by decide)).2.2.trans (by decide),
   (Klondike_DrawCards_recycle false wasteStateK rfl (by decide)).2.2.trans (by decide),
   (Klondike_DrawCards_recycle true wasteStateK rfl (by decide)).2.1.trans (by decide)⟩

/-! ## Freecell: executing an input -/

theorem CStrToInt_examples :
    Util.CStrToInt "1" = 1 ∧ Util.CStrToInt "2" = 2 ∧ Util.CStrToInt "8" = 8 ∧
    Util.CStrToInt "52" = 52 ∧ Util.CStrToInt "" = SIZE_MOD - 1 ∧
    Util.CStrToInt "stack" = SIZE_MOD - 1 ∧ Util.CStrToInt " 12x" = 12 := by
  decide

theorem mixedFreecell_reachable : Freecell.Reachable mixedFreecell := by
  have h1 := Freecell.Reachable.move dealtFreecell
    { dealtFreecell with
      free := [⟨6, "spade"⟩],
      board := dealtFreecell.board.set 6
        [⟨7, "diamond"⟩, ⟨12, "club"⟩, ⟨4, "club"⟩, ⟨9, "heart"⟩, ⟨1, "heart"⟩] }
    dealtFreecell_reachable (Freecell.Move.boardToFree _ _ 7 (by decide))
  have h2 := Freecell.Reachable.move _
    { dealtFreecell with
      free := [⟨6, "spade"⟩, ⟨1, "heart"⟩],
      board := dealtFreecell.board.set 6
        [⟨7, "diamond"⟩, ⟨12, "club"⟩, ⟨4, "club"⟩, ⟨9, "heart"⟩] }
    h1 (Freecell.Move.boardToFree _ _ 7 (by decide))
  exact Freecell.Reachable.move _ mixedFreecell h2 (Freecell.Move.boardToFree _ _ 6 (by decide))

/-- In the branch `free` ... `stack`, `ExecuteAction` calls `MoveFreeToStack`
with the suit of the last free card, whatever the index. -/
theorem Freecell_ExecuteAction_free_stack (s : Freecell) (input2 : String)
    (l : List StandardPlayingCard) (c : StandardPlayingCard) (hfree : s.free = l ++ [c]) :
    Freecell.ExecuteAction s ["free", input2, "stack"] =
      Freecell.MoveFreeToStack s (GetSuit c) (Util.CStrToInt input2) false := by
  have he : s.free.isEmpty = false := by rw [hfree]; simp
  have hb : vecBack s.free = .ok c := by rw [hfree]; exact vecBack_concat l c
  simp [Freecell.ExecuteAction, vecAt, he, hb]

/-- C17 fails on the code: in the reachable position `mixedFreecell` the free
cells hold the six of spades, the ace of hearts and the seven of spades, and
the heart foundation is empty, so the ace of hearts of free cell 2 fits its
foundation; yet `ExecuteAction({"free", "2", "stack"})` leaves the state
unchanged, because it passes the suit of the last free card (spade) to
`MoveFreeToStack`, whose suit test then fails on the chosen card. Called with
the suit of the chosen card, `MoveFreeToStack` moves the ace. -/
theorem Freecell_ExecuteAction_free_stack_wrong_suit :
    Freecell.Reachable mixedFreecell ∧
    mixedFreecell.free[2 - 1]? = some ⟨1, "heart"⟩ ∧
    mixedFreecell.stacks_[Solitaire.GetStackSuit "heart"]? = some [] ∧
    FitsFoundation (⟨1, "heart"⟩ : StandardPlayingCard) "heart" [] ∧
    Freecell.ExecuteAction mixedFreecell ["free", "2", "stack"] = .ok mixedFreecell ∧
    Freecell.ExecuteAction mixedFreecell ["free", "2", "stack"] =
      Freecell.MoveFreeToStack mixedFreecell "spade" 2 false ∧
    Freecell.MoveFreeToStack mixedFreecell "heart" 2 false = .ok
      { mixedFreecell with
        free := [⟨6, "spade"⟩, ⟨7, "spade"⟩],
        stacks_ := [[], [⟨1, "heart"⟩], [], []] } :=
  ⟨mixedFreecell_reachable, by decide, by decide, by decide, by decide,
    Freecell_ExecuteAction_free_stack mixedFreecell "2" [⟨6, "spade"⟩, ⟨1, "heart"⟩]
      ⟨7, "spade"⟩ rfl,
    by decide⟩

/-! ## Termination of the automatic moves -/

theorem sum_length_set {α : Type} (ps : List (List α)) (i : Nat) (p q : List α)
    (h : ps[i]? = some p) :
    ((ps.set i q).map List.length).sum + p.length = (ps.map List.length).sum + q.length := by
  induction ps generalizing i with
  | nil => simp at h
  | cons x l ih =>
    cases i with
    | zero =>
      simp only [List.getElem?_cons_zero, Option.some.injEq] at h
      subst h
      simp only [List.set_cons_zero, List.map_cons, List.sum_cons]
      omega
    | succ i =>
      simp only [List.getElem?_cons_succ] at h
      have := ih i h
      simp only [List.set_cons_succ, List.map_cons, List.sum_cons] at this ⊢
      omega

theorem getElem?_of_lt {α : Type} (l : List α) (i : Nat) (h : i < l.length) :
    ∃ x, l[i]? = some x := by
  cases hc : l[i]? with
  | none => rw [List.getElem?_eq_none_iff] at hc; omega
  | some c => exact ⟨c, rfl⟩

theorem lt_of_getElem? {α : Type} {l : List α} {i : Nat} {x : α} (h : l[i]? = some x) :
    i < l.length := by
  by_contra hge
  rw [List.getElem?_eq_none (by omega)] at h
  cases h

/-- In a ready state the foundation of the suit of a card exists. -/
theorem AutoReady_stack {T : Type} [PlayingCard T] (s : Solitaire T) (hr : AutoReady s)
    (u : String) (hu : ValidSuit u) : ∃ st, s.stacks_[Solitaire.GetStackSuit u]? = some st :=
  getElem?_of_lt _ _ (by rw [hr.1]; exact GetStackSuit_lt hu)

/-- A card that leaves a column for a foundation: the state gains a card. -/
theorem CardGained_of_board {T : Type} [PlayingCard T] (s : Solitaire T) (i k : Nat)
    (col col1 st : List T) (c : T) (hr : AutoReady s)
    (hcol : s.board[i]? = some (col ++ [c])) (hst : s.stacks_[k]? = some st)
    (hlen : col1.length = col.length) (hsuit : ∀ x ∈ col1, ValidSuit (GetSuit x))
    (hrank : ∀ x ∈ col1, IsInt32 (GetRank x - 1)) :
    CardGained s { s with stacks_ := s.stacks_.set k (st ++ [c]), board := s.board.set i col1 } := by
  obtain ⟨h1, h2, h3, h4, h5, h6⟩ := hr
  refine ⟨⟨by simpa using h1, by simpa using h2, h3, ?_, h5, ?_⟩, by simp, ?_, ?_⟩
  · intro col' hcol' x hx
    rcases List.mem_or_eq_of_mem_set hcol' with hm | he
    · exact h4 col' hm x hx
    · subst he; exact hsuit x hx
  · intro col' hcol' x hx
    rcases List.mem_or_eq_of_mem_set hcol' with hm | he
    · exact h6 col' hm x hx
    · subst he; exact hrank x hx
  · have e := sum_length_set s.board i (col ++ [c]) col1 hcol
    simp only [looseCards, List.length_append, List.length_singleton] at e ⊢
    omega
  · have e := sum_length_set s.stacks_ k st (st ++ [c]) hst
    simp only [stackCards, List.length_append, List.length_singleton] at e ⊢
    omega

/-- A card that leaves the free pile for a foundation: the state gains a
card. -/
theorem CardGained_of_free {T : Type} [PlayingCard T] (s : Solitaire T) (k : Nat)
    (free1 st : List T) (c : T) (hr : AutoReady s) (hst : s.stacks_[k]? = some st)
    (hlen : free1.length + 1 = s.free.length) (hsub : ∀ x ∈ free1, x ∈ s.free) :
    CardGained s { s with stacks_ := s.stacks_.set k (st ++ [c]), free := free1 } := by
  obtain ⟨h1, h2, h3, h4, h5, h6⟩ := hr
  refine ⟨⟨by simpa using h1, h2, fun x hx => h3 x (hsub x hx), h4,
    fun x hx => h5 x (hsub x hx), h6⟩, rfl, ?_, ?_⟩
  · simp only [looseCards]
    omega
  · have e := sum_length_set s.stacks_ k st (st ++ [c]) hst
    simp only [stackCards, List.length_append, List.length_singleton] at e ⊢
    omega

theorem flipTop_suit (col : List PolarStandardPlayingCard) :
    ∀ x ∈ flipTop col, ∃ y ∈ col, GetSuit x = GetSuit y := by
  intro x hx
  rcases List.eq_nil_or_concat col with hc | ⟨l, d, hc⟩
  · subst hc; simp [flipTop] at hx
  · rw [List.concat_eq_append] at hc
    subst hc
    cases hd : d.face_up with
    | true =>
      have e : flipTop (l ++ [d]) = l ++ [d] := by simp [flipTop, hd]
      rw [e] at hx
      exact ⟨x, hx, rfl⟩
    | false =>
      have e : flipTop (l ++ [d]) = l ++ [{ d with face_up := true }] := by
        simp [flipTop, hd]
      rw [e] at hx
      rcases List.mem_append.mp hx with h | h
      · exact ⟨x, List.mem_append_left _ h, rfl⟩
      · simp only [List.mem_singleton] at h
        subst h
        exact ⟨d, by simp, rfl⟩

theorem flipTop_rank (col : List PolarStandardPlayingCard) :
    ∀ x ∈ flipTop col, ∃ y ∈ col, GetRank x = GetRank y := by
  intro x hx
  rcases List.eq_nil_or_concat col with hc | ⟨l, d, hc⟩
  · subst hc; simp [flipTop] at hx
  · rw [List.concat_eq_append] at hc
    subst hc
    cases hd : d.face_up with
    | true =>
      have e : flipTop (l ++ [d]) = l ++ [d] := by simp [flipTop, hd]
      rw [e] at hx
      exact ⟨x, hx, rfl⟩
    | false =>
      have e : flipTop (l ++ [d]) = l ++ [{ d with face_up := true }] := by
        simp [flipTop, hd]
      rw [e] at hx
      rcases List.mem_append.mp hx with h | h
      · exact ⟨x, List.mem_append_left _ h, rfl⟩
      · simp only [List.mem_singleton] at h
        subst h
        exact ⟨d, by simp, rfl⟩

/-- Freecell `MoveBoardToStack`, called by `AutoMoveBoard` on column `i` with
the suit of its top card: it returns, and either nothing changed or the card
went onto its foundation. -/
theorem Freecell_MoveBoardToStack_step (s : Freecell) (i : Nat)
    (col : List StandardPlayingCard) (c : StandardPlayingCard) (hr : AutoReady s)
    (hcol : s.board[i]? = some (col ++ [c])) :
    ∃ s1, Freecell.MoveBoardToStack s (szAdd i 1) (GetSuit c) true = .ok s1 ∧
      (s1 = s ∨ (CardGained s s1 ∧ ∃ col1, s1.board[i]? = some col1 ∧
        col1.length + 1 = (col ++ [c]).length)) := by
  have hi : i < s.board.length := lt_of_getElem? hcol
  have hp : szAdd i 1 = i + 1 := szAdd_of_lt (by have := hr.2.1; omega)
  have hidx : szSub (i + 1) 1 = i := by
    rw [szSub_of_le (by omega) (by have := hr.2.1; omega)]; rfl
  have hv : ValidSuit (GetSuit c) :=
    hr.2.2.2.1 _ (List.getElem?_mem hcol) c (by simp)
  obtain ⟨st, hst⟩ := AutoReady_stack s hr _ hv
  have hcol2 : s.board[szSub (i + 1) 1]? = some (col ++ [c]) := by rw [hidx]; exact hcol
  have htest := Freecell_MoveBoardToStack_test_eval s (i + 1) (GetSuit c) col st c hcol2 hst
    (fun _ _ => hr.2.2.2.2.2 _ (List.getElem?_mem hcol) c (by simp))
  have hback : backAt s.board i = .ok c := backAt_eq_ok hcol (List.getLast?_concat col)
  rw [hp]
  by_cases hfit : FitsFoundation c (GetSuit c) st
  · refine ⟨{ s with stacks_ := s.stacks_.set (Solitaire.GetStackSuit (GetSuit c)) (st ++ [c]),
                     board := s.board.set i col }, ?_, Or.inr ⟨?_, col, ?_, by simp⟩⟩
    · simp only [Freecell.MoveBoardToStack, htest, decide_eq_true hfit, hidx, hback,
        except_bind_ok, pushAt_eq_ok c hst, popAt_eq_ok hcol (List.getLast?_concat col),
        List.dropLast_concat, except_pure]
    · exact CardGained_of_board s i _ col col st c hr hcol hst rfl
        (fun x hx => hr.2.2.2.1 _ (List.getElem?_mem hcol) x (List.mem_append_left _ hx))
        (fun x hx => hr.2.2.2.2.2 _ (List.getElem?_mem hcol) x (List.mem_append_left _ hx))
    · simp only
      rw [List.getElem?_set_self hi]
  · refine ⟨s, ?_, Or.inl rfl⟩
    simp only [Freecell.MoveBoardToStack, htest, decide_eq_false hfit]

/-- Klondike `MoveBoardToStack`, called by `AutoMoveBoard` on column `i` with
the suit of its top card: it returns, and either nothing changed or the card
went onto its foundation. -/
theorem Klondike_MoveBoardToStack_step (s : Klondike) (i : Nat)
    (col : List PolarStandardPlayingCard) (c : PolarStandardPlayingCard) (hr : AutoReady s)
    (hcol : s.board[i]? = some (col ++ [c])) :
    ∃ s1, Klondike.MoveBoardToStack s (szAdd i 1) (GetSuit c) true = .ok s1 ∧
      (s1 = s ∨ (CardGained s s1 ∧ ∃ col1, s1.board[i]? = some col1 ∧
        col1.length + 1 = (col ++ [c]).length)) := by
  have hi : i < s.board.length := lt_of_getElem? hcol
  have hp : szAdd i 1 = i + 1 := szAdd_of_lt (by have := hr.2.1; omega)
  have hp2 : i + 1 < SIZE_MOD := by have := hr.2.1; omega
  have hv : ValidSuit (GetSuit c) :=
    hr.2.2.2.1 _ (List.getElem?_mem hcol) c (by simp)
  obtain ⟨st, hst⟩ := AutoReady_stack s hr _ hv
  have hidx : szSub (i + 1) 1 = i := by
    rw [szSub_of_le (by omega) hp2]; rfl
  have hcol2 : s.board[szSub (i + 1) 1]? = some (col ++ [c]) := by rw [hidx]; exact hcol
  have hov : GetSuit c = GetSuit c → st ≠ [] → IsInt32 (GetRank c - 1) :=
    fun _ _ => hr.2.2.2.2.2 _ (List.getElem?_mem hcol) c (by simp)
  have htest := Klondike_MoveBoardToStack_test_eval s (i + 1) (GetSuit c) col st c hcol2 hst hov
  rw [hp]
  by_cases hfit : FitsFoundation c (GetSuit c) st
  · refine ⟨{ s with stacks_ := s.stacks_.set (Solitaire.GetStackSuit (GetSuit c)) (st ++ [c]),
                     board := s.board.set i (flipTop col) }, ?_, Or.inr ⟨?_, flipTop col, ?_, ?_⟩⟩
    · exact (Klondike_MoveBoardToStack_cases s (i + 1) (GetSuit c) true col c st (by omega) hp2
        hcol hst hov).1 hfit
    · refine CardGained_of_board s i _ col (flipTop col) st c hr hcol hst
        (flipTop_spec col).2.1 (fun x hx => ?_) (fun x hx => ?_)
      · obtain ⟨y, hy, hxy⟩ := flipTop_suit col x hx
        rw [hxy]
        exact hr.2.2.2.1 _ (List.getElem?_mem hcol) y (List.mem_append_left _ hy)
      · obtain ⟨y, hy, hxy⟩ := flipTop_rank col x hx
        rw [hxy]
        exact hr.2.2.2.2.2 _ (List.getElem?_mem hcol) y (List.mem_append_left _ hy)
    · simp only
      rw [List.getElem?_set_self hi]
    · rw [(flipTop_spec col).2.1]; simp
  · refine ⟨s, ?_, Or.inl rfl⟩
    simp only [Klondike.MoveBoardToStack, htest, decide_eq_false hfit]

/-- The loop of `AutoMoveBoard` returns when it has one unit of fuel for every
column left and one more, and what it returns is the outcome of a pass. -/
theorem AutoMoveBoard_loop_terminates {T : Type} [PlayingCard T]
    (MBTS : Solitaire T → Nat → String → Bool → Except Fault (Solitaire T))
    (hstep : ∀ (s : Solitaire T) (i : Nat) (col : List T) (c : T), AutoReady s →
      s.board[i]? = some (col ++ [c]) →
      ∃ s1, MBTS s (szAdd i 1) (GetSuit c) true = .ok s1 ∧
        (s1 = s ∨ (CardGained s s1 ∧ ∃ col1, s1.board[i]? = some col1 ∧
          col1.length + 1 = (col ++ [c]).length)))
    (fuel i : Nat) (out : Bool) (s : Solitaire T) (hr : AutoReady s)
    (hi : i ≤ s.board.length) (hfuel : s.board.length < fuel + i) :
    ∃ out' s', Solitaire.AutoMoveBoard.loop MBTS fuel i out s = .ok (out', s') ∧
      AutoReady s' ∧ s'.board.length = s.board.length ∧
      looseCards s' + stackCards s' = looseCards s + stackCards s ∧
      looseCards s' ≤ looseCards s ∧
      (out' = false → out = false ∧ s' = s) ∧
      (out' = true → out = true ∨ looseCards s' < looseCards s) := by
  induction fuel generalizing i out s with
  | zero => omega
  | succ fuel ih =>
    unfold Solitaire.AutoMoveBoard.loop
    by_cases hlt : i < s.board.length
    · rw [if_pos hlt]
      have hnext : szAdd i 1 = i + 1 := szAdd_of_lt (by have := hr.2.1; omega)
      obtain ⟨col, hcol⟩ := getElem?_of_lt s.board i hlt
      rw [vecAt_eq_ok hcol]
      simp only
      rcases List.eq_nil_or_concat col with hc | ⟨l, c, hc⟩
      · subst hc
        simp only [List.isEmpty_nil, Bool.not_true, Bool.false_eq_true, if_false]
        rw [hnext]
        exact ih (i + 1) out s hr (by omega) (by omega)
      · rw [List.concat_eq_append] at hc
        subst hc
        have he : (l ++ [c]).isEmpty = false :=
          isEmpty_eq_false_of_getLast? (List.getLast?_concat l)
        simp only [he, Bool.not_false, if_true, vecBack_concat]
        obtain ⟨s1, h1, hcase⟩ := hstep s i l c hr hcol
        rw [h1]
        simp only
        rcases hcase with heq | ⟨hg, col1, hcol1, hlen1⟩
        · subst heq
          rw [vecAt_eq_ok hcol]
          simp only [ne_eq, not_true_eq_false, decide_False, Bool.false_or]
          rw [hnext]
          exact ih (i + 1) out s1 hr (by omega) (by omega)
        · rw [vecAt_eq_ok hcol1]
          simp only
          have hflag : (decide (col1.length ≠ (l ++ [c]).length) || out) = true := by
            have : col1.length ≠ (l ++ [c]).length := by omega
            simp only [decide_eq_true this, Bool.true_or]
          rw [hflag, hnext]
          obtain ⟨hr1, hb1, hl1, hs1⟩ := hg
          obtain ⟨out', s', h2, hr2, hb2, hsum2, hle2, hf2, _⟩ :=
            ih (i + 1) true s1 hr1 (by omega) (by omega)
          refine ⟨out', s', h2, hr2, by omega, by omega, by omega, fun h => ?_, fun _ => ?_⟩
          · exact absurd (hf2 h).1 (by decide)
          · right; omega
    · rw [if_neg hlt]
      exact ⟨out, s, rfl, hr, rfl, rfl, le_refl _, fun h => ⟨h, rfl⟩, fun h => Or.inl h⟩

/-- The member `AutoMoveBoard` returns on every ready state, with the outcome
of a pass. -/
theorem AutoMoveBoard_pass {T : Type} [PlayingCard T]
    (MBTS : Solitaire T → Nat → String → Bool → Except Fault (Solitaire T))
    (hstep : ∀ (s : Solitaire T) (i : Nat) (col : List T) (c : T), AutoReady s →
      s.board[i]? = some (col ++ [c]) →
      ∃ s1, MBTS s (szAdd i 1) (GetSuit c) true = .ok s1 ∧
        (s1 = s ∨ (CardGained s s1 ∧ ∃ col1, s1.board[i]? = some col1 ∧
          col1.length + 1 = (col ++ [c]).length)))
    (s : Solitaire T) (hr : AutoReady s) :
    ∃ r, Solitaire.AutoMoveBoard MBTS s = .ok r ∧ PassOutcome s r := by
  obtain ⟨out', s', h, hr', _, hsum, _, hf, ht⟩ :=
    AutoMoveBoard_loop_terminates MBTS hstep (s.board.length + 1) 0 false s hr (by omega)
      (by omega)
  refine ⟨(out', s'), h, hr', hsum, fun h1 => (hf h1).2, fun h1 => ?_⟩
  rcases ht h1 with h2 | h2
  · cases h2
  · exact h2

/-- The loop `do { } while (AutoMoveFree() || AutoMoveBoard())` returns within
as many passes as there are cards on the free pile and the board, plus one. -/
theorem AutoMove_terminates_of {T : Type} [PlayingCard T]
    (AMF AMB : Solitaire T → Except Fault (Bool × Solitaire T))
    (hF : ∀ s, AutoReady s → ∃ r, AMF s = .ok r ∧ PassOutcome s r)
    (hB : ∀ s, AutoReady s → ∃ r, AMB s = .ok r ∧ PassOutcome s r)
    (fuel : Nat) (s : Solitaire T) (hr : AutoReady s) (hfuel : looseCards s < fuel) :
    ∃ s', Solitaire.AutoMove AMF AMB fuel s = .ok s' ∧ AutoReady s' ∧
      looseCards s' ≤ looseCards s ∧
      looseCards s' + stackCards s' = looseCards s + stackCards s := by
  induction fuel generalizing s with
  | zero => omega
  | succ fuel ih =>
    unfold Solitaire.AutoMove
    obtain ⟨⟨f1, s1⟩, h1, hr1, hsum1, hf1, ht1⟩ := hF s hr
    rw [h1]
    cases f1 with
    | true =>
      simp only
      have hlt := ht1 rfl
      simp only at hlt hsum1 hr1
      obtain ⟨s', h, hr', hle, hsum⟩ := ih s1 hr1 (by omega)
      exact ⟨s', h, hr', by omega, by omega⟩
    | false =>
      simp only
      have heq : s1 = s := hf1 rfl
      subst heq
      obtain ⟨⟨f2, s2⟩, h2, hr2, hsum2, hf2, ht2⟩ := hB s1 hr
      rw [h2]
      cases f2 with
      | true =>
        simp only
        have hlt := ht2 rfl
        simp only at hlt hsum2 hr2
        obtain ⟨s', h, hr', hle, hsum⟩ := ih s2 hr2 (by omega)
        exact ⟨s', h, hr', by omega, by omega⟩
      | false =>
        simp only
        have heq : s2 = s1 := hf2 rfl
        subst heq
        exact ⟨s2, rfl, hr, le_refl _, rfl⟩

/-- Freecell `MoveFreeToStack`, called by `AutoMoveFree` on the first free card
with its suit: it returns, and either nothing changed or the card went onto its
foundation. -/
theorem Freecell_MoveFreeToStack_step (s : Freecell) (c : StandardPlayingCard)
    (l : List StandardPlayingCard) (hr : AutoReady s) (hfree : s.free = c :: l) :
    ∃ s1, Freecell.MoveFreeToStack s (GetSuit c) (szAdd 0 1) true = .ok s1 ∧
      (s1 = s ∨ (CardGained s s1 ∧ s1.free.length + 1 = s.free.length)) := by
  have hp : szAdd 0 1 = 1 := by decide
  have hidx : szSub 1 1 = 0 := by decide
  have hc0 : s.free[0]? = some c := by rw [hfree]; simp
  have hc : s.free[szSub 1 1]? = some c := by rw [hidx]; exact hc0
  have hv : ValidSuit (GetSuit c) := hr.2.2.1 c (by rw [hfree]; simp)
  obtain ⟨st, hst⟩ := AutoReady_stack s hr _ hv
  have hne : (!s.free.isEmpty) = true := by rw [hfree]; rfl
  have hlen : decide (1 ≤ s.free.length) = true := by rw [hfree]; simp
  have htest : Freecell.MoveFreeToStack.test s (GetSuit c) 1 =
      .ok (decide ((st.length = 0 ∧ GetRank c = 1) ∨
        st.getLast?.map GetRank = some (GetRank c - 1))) := by
    simp only [Freecell.MoveFreeToStack.test, hne, hlen, vecAt_eq_ok hc, except_bind_ok,
      except_pure, decide_True, sAnd_true, le_refl,
      Freecell_CheckCardToStack_eval s _ 1 st c hc hst
        (fun _ => hr.2.2.2.2.1 c (by rw [hfree]; simp))]
  rw [hp]
  by_cases hfit : (st.length = 0 ∧ GetRank c = 1) ∨
      st.getLast?.map GetRank = some (GetRank c - 1)
  · refine ⟨{ s with stacks_ := s.stacks_.set (Solitaire.GetStackSuit (GetSuit c)) (st ++ [c]),
                     free := s.free.eraseIdx 0 }, ?_, Or.inr ⟨?_, ?_⟩⟩
    · simp only [Freecell.MoveFreeToStack, htest, decide_eq_true hfit, hidx, vecAt_eq_ok hc0,
        except_bind_ok, pushAt_eq_ok c hst, except_pure]
    · refine CardGained_of_free s _ _ st c hr hst ?_ ?_
      · rw [hfree]; simp
      · intro x hx
        rw [hfree] at hx ⊢
        simp only [List.eraseIdx_cons_zero] at hx
        exact List.mem_cons_of_mem _ hx
    · simp only
      rw [hfree]; simp
  · refine ⟨s, ?_, Or.inl rfl⟩
    simp only [Freecell.MoveFreeToStack, htest, decide_eq_false hfit]

/-- Freecell `AutoMoveFree` returns on every ready state, with the outcome of a
pass. -/
theorem Freecell_AutoMoveFree_pass (s : Freecell) (hr : AutoReady s) :
    ∃ r, Freecell.AutoMoveFree s = .ok r ∧ PassOutcome s r := by
  unfold Freecell.AutoMoveFree
  simp only
  by_cases hcond : 0 < szAdd s.free.length 1 ∧ (!s.free.isEmpty) = true
  · rw [if_pos hcond]
    cases hfree : s.free with
    | nil => rw [hfree] at hcond; simp at hcond
    | cons c l =>
      have hc : s.free[0]? = some c := by rw [hfree]; simp
      rw [← hfree, vecAt_eq_ok hc]
      simp only
      obtain ⟨s1, h1, hcase⟩ := Freecell_MoveFreeToStack_step s c l hr hfree
      rw [h1]
      simp only
      rcases hcase with heq | ⟨hg, hlen⟩
      · subst heq
        refine ⟨(false, s1), by simp, hr, rfl, fun _ => rfl, fun h => by cases h⟩
      · refine ⟨(true, s1), ?_, hg.1, ?_, (fun h => by cases h), fun _ => ?_⟩
        · have : s1.free.length ≠ s.free.length := by omega
          simp [this]
        · have := hg.2.2; show looseCards s1 + stackCards s1 = _; omega
        · have := hg.2.2; show looseCards s1 < _; omega
  · rw [if_neg hcond]
    exact ⟨(false, s), rfl, hr, rfl, fun _ => rfl, fun h => by cases h⟩

/-- Klondike `MoveFreeToStack`, called by `AutoMoveFree` with the suit of the top
card of the waste pile: it returns, and either nothing changed or the card went
onto its foundation. -/
theorem Klondike_MoveFreeToStack_step (s : Klondike) (c : PolarStandardPlayingCard)
    (l : List PolarStandardPlayingCard) (hr : AutoReady s) (hfree : s.free = l ++ [c]) :
    ∃ s1, Klondike.MoveFreeToStack s (GetSuit c) true = .ok s1 ∧
      (s1 = s ∨ (CardGained s s1 ∧ s1.free.length + 1 = s.free.length)) := by
  have hv : ValidSuit (GetSuit c) := hr.2.2.1 c (by rw [hfree]; simp)
  obtain ⟨st, hst⟩ := AutoReady_stack s hr _ hv
  have hb : vecBack s.free = .ok c := by rw [hfree]; exact vecBack_concat l c
  have htest : Klondike.MoveFreeToStack.test s (GetSuit c) =
      .ok (GetFaceUp c && decide ((st.length = 0 ∧ GetRank c = 1) ∨
        st.getLast?.map GetRank = some (GetRank c - 1))) := by
    simp only [Klondike.MoveFreeToStack.test, hb, except_bind_ok, except_pure, decide_True,
      sAnd_true, Klondike_CheckCardToStack_eval s _ l st c hfree hst
        (fun _ => hr.2.2.2.2.1 c (by rw [hfree]; simp)), sAnd_ok_ok,
      Bool.true_and]
  cases hB : (GetFaceUp c && decide ((st.length = 0 ∧ GetRank c = 1) ∨
      st.getLast?.map GetRank = some (GetRank c - 1))) with
  | true =>
    rw [hB] at htest
    refine ⟨{ s with stacks_ := s.stacks_.set (Solitaire.GetStackSuit (GetSuit c)) (st ++ [c]),
                     free := s.free.dropLast }, ?_, Or.inr ⟨?_, ?_⟩⟩
    · simp only [Klondike.MoveFreeToStack, htest, hb, except_bind_ok, pushAt_eq_ok c hst,
        except_pure]
    · refine CardGained_of_free s _ _ st c hr hst ?_ ?_
      · rw [hfree]; simp
      · intro x hx
        exact List.mem_of_mem_dropLast hx
    · simp only
      rw [hfree]; simp
  | false =>
    rw [hB] at htest
    refine ⟨s, ?_, Or.inl rfl⟩
    simp only [Klondike.MoveFreeToStack, htest]

/-- Klondike `AutoMoveFree` returns on every ready state, with the outcome of a
pass. -/
theorem Klondike_AutoMoveFree_pass (s : Klondike) (hr : AutoReady s) :
    ∃ r, Klondike.AutoMoveFree s = .ok r ∧ PassOutcome s r := by
  unfold Klondike.AutoMoveFree
  simp only
  rcases List.eq_nil_or_concat s.free with hfree | ⟨l, c, hfree⟩
  · rw [hfree]
    exact ⟨(false, s), by simp, hr, rfl, fun _ => rfl, fun h => by cases h⟩
  · rw [List.concat_eq_append] at hfree
    have he : s.free.isEmpty = false := by rw [hfree]; simp
    have hb : vecBack s.free = .ok c := by rw [hfree]; exact vecBack_concat l c
    rw [he, hb]
    simp only [Bool.not_false, if_true]
    obtain ⟨s1, h1, hcase⟩ := Klondike_MoveFreeToStack_step s c l hr hfree
    rw [h1]
    simp only
    rcases hcase with heq | ⟨hg, hlen⟩
    · subst heq
      refine ⟨(false, s1), by simp, hr, rfl, fun _ => rfl, fun h => by cases h⟩
    · refine ⟨(true, s1), ?_, hg.1, ?_, (fun h => by cases h), fun _ => ?_⟩
      · have : s1.free.length ≠ s.free.length := by omega
        simp [this]
      · have := hg.2.2; show looseCards s1 + stackCards s1 = _; omega
      · have := hg.2.2; show looseCards s1 < _; omega

theorem suit_of_mem_allPairs (a : Int × String) (h : a ∈ allPairs) : ValidSuit a.2 := by
  simp only [allPairs, CardGraphicsAndInfo.suits, CardGraphicsAndInfo.ranks, List.mem_flatMap,
    List.mem_map] at h
  obtain ⟨u, hu, r, _, rfl⟩ := h
  simp only [List.mem_cons, List.mem_singleton, List.not_mem_nil, or_false] at hu
  exact hu

theorem rank_of_mem_allPairs (a : Int × String) (h : a ∈ allPairs) : 1 ≤ a.1 ∧ a.1 ≤ 13 := by
  simp only [allPairs, CardGraphicsAndInfo.suits, CardGraphicsAndInfo.ranks, List.mem_flatMap,
    List.mem_map] at h
  obtain ⟨u, _, r, hr, rfl⟩ := h
  simp only [List.mem_cons, List.mem_singleton, List.not_mem_nil, or_false] at hr
  rcases hr with h | h | h | h | h | h | h | h | h | h | h | h | h <;> subst h <;>
    simp only <;> omega

/-- A state with four foundations, an indexable board and exactly the 52 cards
is ready for the automatic moves. -/
theorem AutoReady_of_count {T : Type} [PlayingCard T] (s : Solitaire T)
    (hst : s.stacks_.length = 4) (hb : s.board.length < SIZE_MOD)
    (hcount : ∀ a, countCards a s = if a ∈ allPairs then 1 else 0) : AutoReady s := by
  have key : ∀ c : T, 1 ≤ countCards (cardId c) s →
      ValidSuit (GetSuit c) ∧ IsInt32 (GetRank c - 1) := by
    intro c hc
    rw [hcount] at hc
    by_cases hm : cardId c ∈ allPairs
    · have hrk := rank_of_mem_allPairs _ hm
      refine ⟨suit_of_mem_allPairs _ hm, ?_⟩
      simp only [cardId] at hrk
      unfold IsInt32
      constructor <;> omega
    · rw [if_neg hm] at hc; omega
  have hf : ∀ c ∈ s.free, 1 ≤ countCards (cardId c) s := by
    intro c hc
    have := countIn_pos s.free c hc
    simp only [countCards]
    omega
  have hbd : ∀ col ∈ s.board, ∀ c ∈ col, 1 ≤ countCards (cardId c) s := by
    intro col hcol c hc
    have h1 := countIn_pos col c hc
    have h2 := countIn_le_countInPiles (cardId c) s.board col hcol
    simp only [countCards]
    omega
  exact ⟨hst, hb, fun c hc => (key c (hf c hc)).1, fun col hcol c hc => (key c (hbd col hcol c hc)).1,
    fun c hc => (key c (hf c hc)).2, fun col hcol c hc => (key c (hbd col hcol c hc)).2⟩

theorem Freecell_Reachable_ready (s : Freecell) (h : Freecell.Reachable s) : AutoReady s :=
  AutoReady_of_count s (Freecell_Reachable_ordered s h).1
    (by rw [Freecell_Reachable_board_length s h, SIZE_MOD_eq]; omega)
    (Freecell_Reachable_count s h)

/-- The outer dealing loop of Klondike adds one column per iteration. -/
theorem Klondike_Deal_loop_length (n i : Nat) (s s' : Klondike)
    (h : Klondike.Deal.loop n i s = .ok s') : s'.board.length = s.board.length + n := by
  induction n generalizing i s with
  | zero =>
    simp only [Klondike.Deal.loop, Except.ok.injEq] at h
    subst h
    rfl
  | succ n ih =>
    unfold Klondike.Deal.loop at h
    split at h
    · cases h
    · have := ih _ _ h
      simp only [List.length_append, List.length_singleton] at this
      omega

/-- In every Klondike state reachable from `Deal` the board has seven
columns. -/
theorem Klondike_Reachable_board_length (d : Bool) (s : Klondike)
    (h : Klondike.Reachable d s) : s.board.length = 7 := by
  refine Klondike_Reachable_induction (fun x => x.board.length = 7) ?_ ?_ d s h
  · intro s s' he hs
    show s'.board.length = 7
    rw [he.2.2]; exact hs
  · intro shuffled s _ hdeal
    unfold Klondike.Deal at hdeal
    have := Klondike_Deal_loop_length _ _ _ _ hdeal
    simpa [Solitaire.fresh] using this

theorem Klondike_Reachable_ready (d : Bool) (s : Klondike) (h : Klondike.Reachable d s) :
    AutoReady s :=
  AutoReady_of_count s (Klondike_Reachable_ordered d s h).1
    (by rw [Klondike_Reachable_board_length d s h, SIZE_MOD_eq]; omega)
    (Klondike_Reachable_count d s h)

theorem Gained_of_pass {T : Type} [PlayingCard T] (s : Solitaire T) (r : Bool × Solitaire T)
    (h : PassOutcome s r) (ht : r.1 = true) : Gained s r.2 := by
  have h1 := h.2.2.2 ht
  have h2 := h.2.1
  exact ⟨by omega, h1⟩

/-- C11: `AutoMove` returns on every state of a game. Every state reachable from
`Deal`, in Freecell and in Klondike, is ready for the automatic moves; on a
ready state `AutoMoveFree` and `AutoMoveBoard` return, a `true` result comes
with strictly more foundation cards and strictly fewer free and board cards, a
`false` result with an unchanged state; and the loop of `AutoMove` returns
within (number of free and board cards) + 1 passes. -/
theorem AutoMove_terminates :
    (∀ s : Freecell, Freecell.Reachable s → AutoReady s) ∧
    (∀ (d : Bool) (s : Klondike), Klondike.Reachable d s → AutoReady s) ∧
    (∀ s : Freecell, AutoReady s →
      (∃ r, Freecell.AutoMoveFree s = .ok r ∧ (r.1 = true → Gained s r.2) ∧
        (r.1 = false → r.2 = s)) ∧
      (∃ r, Freecell.AutoMoveBoard s = .ok r ∧ (r.1 = true → Gained s r.2) ∧
        (r.1 = false → r.2 = s)) ∧
      ∀ k, ∃ s', Freecell.AutoMove (looseCards s + 1 + k) s = .ok s') ∧
    (∀ s : Klondike, AutoReady s →
      (∃ r, Klondike.AutoMoveFree s = .ok r ∧ (r.1 = true → Gained s r.2) ∧
        (r.1 = false → r.2 = s)) ∧
      (∃ r, Klondike.AutoMoveBoard s = .ok r ∧ (r.1 = true → Gained s r.2) ∧
        (r.1 = false → r.2 = s)) ∧
      ∀ k, ∃ s', Klondike.AutoMove (looseCards s + 1 + k) s = .ok s') := by
  refine ⟨Freecell_Reachable_ready, Klondike_Reachable_ready, fun s hr => ⟨?_, ?_, ?_⟩,
    fun s hr => ⟨?_, ?_, ?_⟩⟩
  · obtain ⟨r, h, hp⟩ := Freecell_AutoMoveFree_pass s hr
    exact ⟨r, h, Gained_of_pass s r hp, hp.2.2.1⟩
  · obtain ⟨r, h, hp⟩ := AutoMoveBoard_pass Freecell.MoveBoardToStack
      Freecell_MoveBoardToStack_step s hr
    exact ⟨r, h, Gained_of_pass s r hp, hp.2.2.1⟩
  · intro k
    obtain ⟨s', h, _⟩ := AutoMove_terminates_of Freecell.AutoMoveFree Freecell.AutoMoveBoard
      Freecell_AutoMoveFree_pass
      (AutoMoveBoard_pass Freecell.MoveBoardToStack Freecell_MoveBoardToStack_step)
      (looseCards s + 1 + k) s hr (by omega)
    exact ⟨s', h⟩
  · obtain ⟨r, h, hp⟩ := Klondike_AutoMoveFree_pass s hr
    exact ⟨r, h, Gained_of_pass s r hp, hp.2.2.1⟩
  · obtain ⟨r, h, hp⟩ := AutoMoveBoard_pass Klondike.MoveBoardToStack
      Klondike_MoveBoardToStack_step s hr
    exact ⟨r, h, Gained_of_pass s r hp, hp.2.2.1⟩
  · intro k
    obtain ⟨s', h, _⟩ := AutoMove_terminates_of Klondike.AutoMoveFree Klondike.AutoMoveBoard
      Klondike_AutoMoveFree_pass
      (AutoMoveBoard_pass Klondike.MoveBoardToStack Klondike_MoveBoardToStack_step)
      (looseCards s + 1 + k) s hr (by omega)
    exact ⟨s', h⟩

/-- C11 at concrete positions: `AutoMove` returns within 53 passes on the
Freecell position dealt from the unshuffled deck, which has 52 cards on its
board, and within 29 passes on the Klondike position `dealtKlondike`, which has
28; `dealtFreecell` is ready for the automatic moves. -/
theorem AutoMove_terminates_witness :
    AutoReady dealtFreecell ∧
    (∃ s', Freecell.AutoMove (looseCards dealtFreecell + 1 + 0) dealtFreecell = .ok s') ∧
    (∃ s', Klondike.AutoMove (looseCards dealtKlondike + 1 + 0) dealtKlondike = .ok s') ∧
    looseCards dealtFreecell = 52 ∧ looseCards dealtKlondike = 28 :=
  ⟨AutoMove_terminates.1 dealtFreecell dealtFreecell_reachable,
   (AutoMove_terminates.2.2.1 dealtFreecell
      (AutoMove_terminates.1 dealtFreecell dealtFreecell_reachable)).2.2 0,
   (AutoMove_terminates.2.2.2 dealtKlondike
      (AutoMove_terminates.2.1 true dealtKlondike (dealtKlondike_reachable true))).2.2 0,
   by decide, by decide⟩

/-! ## The index of a foundation -/

/-- C24: `GetStackSuit` maps "spade" to 0, "heart" to 1, "club" to 2 and
"diamond" to 3, and every other string to `(size_t)-1` = 2^64 - 1; the result
is an index in 0..3 exactly for the four suit names. -/
theorem GetStackSuit_spec :
    Solitaire.GetStackSuit "spade" = 0 ∧ Solitaire.GetStackSuit "heart" = 1 ∧
    Solitaire.GetStackSuit "club" = 2 ∧ Solitaire.GetStackSuit "diamond" = 3 ∧
    (∀ u, ¬ ValidSuit u → Solitaire.GetStackSuit u = 2 ^ 64 - 1) ∧
    (∀ u, Solitaire.GetStackSuit u < 4 ↔ ValidSuit u) := by
  refine ⟨rfl, rfl, rfl, rfl, fun u hu => ?_, fun u => ⟨fun h => ?_, GetStackSuit_lt⟩⟩
  · simp only [ValidSuit, not_or] at hu
    simp [Solitaire.GetStackSuit, hu.1, hu.2.1, hu.2.2.1, hu.2.2.2, SIZE_MOD]
  · by_contra hu
    simp only [ValidSuit, not_or] at hu
    simp [Solitaire.GetStackSuit, hu.1, hu.2.1, hu.2.2.1, hu.2.2.2, SIZE_MOD] at h

/-- C24 at concrete strings: "hearts" and the empty string are no suit names
and get the sentinel, which is no index of one of the four foundations;
"club" gets 2. -/
theorem GetStackSuit_spec_witness :
    Solitaire.GetStackSuit "hearts" = 2 ^ 64 - 1 ∧ Solitaire.GetStackSuit "" = 2 ^ 64 - 1 ∧
    ¬ Solitaire.GetStackSuit "hearts" < 4 ∧ Solitaire.GetStackSuit "club" < 4 :=
  ⟨GetStackSuit_spec.2.2.2.2.1 "hearts" (by decide),
   GetStackSuit_spec.2.2.2.2.1 "" (by decide),
   fun h => absurd ((GetStackSuit_spec.2.2.2.2.2 "hearts").mp h) (by decide),
   (GetStackSuit_spec.2.2.2.2.2 "club").mpr (by decide)⟩

/-! ## Deck integrity -/

theorem Split_ok {T : Type} (deck : List T) (mid : Nat) (h : mid ≤ deck.length) :
    StandardDeck.Split deck mid = .ok (deck.take mid, deck.drop mid) := by
  unfold StandardDeck.Split
  rw [if_neg (by omega)]

theorem Split_error {T : Type} (deck : List T) (mid : Nat) (h : deck.length < mid) :
    StandardDeck.Split deck mid = .error .lengthError := by
  unfold StandardDeck.Split
  rw [if_pos h]

/-- The loop of `PutHalvesTogether`, given an iteration for every card, moves
every card of the two halves to the output, whatever the policy and the random
numbers. -/
theorem PutHalvesTogether_loop_perm {T : Type} (type_input down_first_input : String)
    (rng : Nat → Nat) (n i k : Nat) (first second out : List T)
    (hn : first.length + second.length ≤ n) :
    (StandardDeck.PutHalvesTogether.loop type_input down_first_input rng n i k
      first second out).Perm (out ++ first ++ second) := by
  induction n generalizing i k first second out with
  | zero =>
    have h1 : first = [] := List.eq_nil_of_length_eq_zero (by omega)
    have h2 : second = [] := List.eq_nil_of_length_eq_zero (by omega)
    subst h1 h2
    simp [StandardDeck.PutHalvesTogether.loop]
  | succ n ih =>
    unfold StandardDeck.PutHalvesTogether.loop
    simp only
    split
    · rename_i hc
      cases first with
      | nil => simp at hc
      | cons x rest =>
        simp only
        refine (ih _ _ rest second (out ++ [x]) (by simp at hn; omega)).trans ?_
        simp
    · split
      · rename_i hs
        cases second with
        | nil => simp at hs
        | cons x rest =>
          simp only
          refine (ih _ _ first rest (out ++ [x]) (by simp at hn ⊢; omega)).trans ?_
          simp only [List.append_assoc, List.singleton_append]
          exact List.Perm.append_left out List.perm_middle.symm
      · rename_i hc hs
        have h2 : second = [] := List.eq_nil_of_length_eq_zero (by omega)
        subst h2
        have h1 : first = [] := by
          cases first with
          | nil => rfl
          | cons x rest => simp at hc
        subst h1
        exact ih _ _ [] [] out (by simp)

/-- The pile `PutHalvesTogether` returns is a rearrangement of the two
halves. -/
theorem PutHalvesTogether_perm {T : Type} (halves : List T × List T)
    (type_input down_first_input : String) (rng : Nat → Nat)
    (hsz : halves.1.length + halves.2.length + 1 < SIZE_MOD) :
    (StandardDeck.PutHalvesTogether halves type_input down_first_input rng).Perm
      (halves.1 ++ halves.2) := by
  unfold StandardDeck.PutHalvesTogether
  simp only
  split
  · exact List.perm_append_comm
  · have htot : szAdd halves.1.length halves.2.length = halves.1.length + halves.2.length :=
      szAdd_of_lt (by omega)
    rw [htot]
    have hadd : ∀ add : Nat, add ≤ 1 →
        szAdd (halves.1.length + halves.2.length) add - add =
          halves.1.length + halves.2.length := by
      intro add ha
      rw [szAdd_of_lt (by omega)]
      omega
    split
    · rw [hadd 1 (le_refl _)]
      simpa using PutHalvesTogether_loop_perm type_input down_first_input rng _ 1 _
        halves.1 halves.2 [] (le_refl _)
    · rw [hadd 0 (by omega)]
      simpa using PutHalvesTogether_loop_perm type_input down_first_input rng _ 0 _
        halves.1 halves.2 [] (le_refl _)

/-- The deck after `Cut`: the cards from the cut point up, then the cards below
it. -/
theorem Cut_eq {T : Type} (deck : List T) (mid : Nat) :
    StandardDeck.Cut deck mid = .ok
      (deck.drop (if mid ≥ deck.length then deck.length / 2 else mid) ++
        deck.take (if mid ≥ deck.length then deck.length / 2 else mid)) := by
  have hm : (if mid ≥ deck.length then deck.length / 2 else mid) ≤ deck.length := by
    split <;> omega
  unfold StandardDeck.Cut
  simp only [Split_ok deck _ hm, StandardDeck.PutHalvesTogether, if_true]

/-- Splitting at an index within the deck and putting the halves together
rearranges the deck. -/
theorem Split_PutHalvesTogether_perm {T : Type} (deck : List T) (mid : Nat)
    (type_input down_first_input : String) (rng : Nat → Nat)
    (hmid : mid ≤ deck.length) (hsz : deck.length + 1 < SIZE_MOD) :
    ∃ halves, StandardDeck.Split deck mid = .ok halves ∧
      (StandardDeck.PutHalvesTogether halves type_input down_first_input rng).Perm deck := by
  refine ⟨_, Split_ok deck mid hmid, ?_⟩
  have h := PutHalvesTogether_perm (deck.take mid, deck.drop mid) type_input down_first_input
    rng (by simp only [List.length_take, List.length_drop]; omega)
  simpa using h

/-- The deck after `Riffle` at an index within the deck is a rearrangement of
the deck. -/
theorem Riffle_perm {T : Type} (deck : List T) (mid : Nat)
    (down_first_input type_input : String) (rngR rngP : Nat → Nat)
    (hmid : mid ≤ deck.length) (hsz : deck.length + 1 < SIZE_MOD) :
    ∃ deck1, StandardDeck.Riffle deck mid down_first_input type_input rngR rngP = .ok deck1 ∧
      deck1.Perm deck := by
  unfold StandardDeck.Riffle
  split
  · obtain ⟨halves, h1, h2⟩ := Split_PutHalvesTogether_perm deck mid type_input "bottom" rngP
      hmid hsz
    rw [h1]
    exact ⟨_, rfl, h2⟩
  · obtain ⟨halves, h1, h2⟩ := Split_PutHalvesTogether_perm deck mid type_input "top" rngP
      hmid hsz
    rw [h1]
    exact ⟨_, rfl, h2⟩

/-- `Riffle` at an index beyond the deck ends with `std::length_error`. -/
theorem Riffle_error {T : Type} (deck : List T) (mid : Nat)
    (down_first_input type_input : String) (rngR rngP : Nat → Nat)
    (hmid : deck.length < mid) :
    StandardDeck.Riffle deck mid down_first_input type_input rngR rngP =
      .error .lengthError := by
  unfold StandardDeck.Riffle
  split <;> rw [Split_error deck mid hmid]

theorem Cut_perm {T : Type} (deck : List T) (mid : Nat) :
    ∃ deck1, StandardDeck.Cut deck mid = .ok deck1 ∧ deck1.Perm deck := by
  refine ⟨_, Cut_eq deck mid, ?_⟩
  exact List.perm_append_comm.trans (by rw [List.take_append_drop])

/-- A rearrangement of a pile holds every (rank, suit) pair as often as the
pile. -/
theorem pairs_of_perm {T : Type} [PlayingCard T] (p q : List T) (h : p.Perm q)
    (hq : (q.map cardId).Perm allPairs) : (p.map cardId).Perm allPairs :=
  (h.map cardId).trans hq

/-- The deck after `Split`: empty when the call returns, unchanged when it
throws. -/
theorem Split_deck {T : Type} (deck : List T) (mid : Nat) :
    (mid ≤ deck.length → StandardDeck.Split.deck deck mid = []) ∧
    (deck.length < mid → StandardDeck.Split.deck deck mid = deck) := by
  unfold StandardDeck.Split.deck
  constructor
  · intro h; rw [if_neg (by omega)]
  · intro h; rw [if_pos h]

/-- The deck after `Riffle`: the pile that the call installs when it returns, the
deck as it was when `Split` throws. -/
theorem Riffle_deck {T : Type} (deck : List T) (mid : Nat)
    (down_first_input type_input : String) (rngR rngP : Nat → Nat)
    (hsz : deck.length + 1 < SIZE_MOD) :
    (mid ≤ deck.length →
      StandardDeck.Riffle deck mid down_first_input type_input rngR rngP =
        .ok (StandardDeck.Riffle.deck deck mid down_first_input type_input rngR rngP)) ∧
    (deck.length < mid →
      StandardDeck.Riffle deck mid down_first_input type_input rngR rngP =
        .error .lengthError ∧
      StandardDeck.Riffle.deck deck mid down_first_input type_input rngR rngP = deck) ∧
    (StandardDeck.Riffle.deck deck mid down_first_input type_input rngR rngP).Perm deck := by
  by_cases hmid : mid ≤ deck.length
  · obtain ⟨deck1, h1, h2⟩ :=
      Riffle_perm deck mid down_first_input type_input rngR rngP hmid hsz
    have hd : StandardDeck.Riffle.deck deck mid down_first_input type_input rngR rngP =
        deck1 := by
      unfold StandardDeck.Riffle.deck
      rw [h1]
    rw [hd]
    exact ⟨fun _ => h1, fun h => absurd hmid (by omega), h2⟩
  · have hlt : deck.length < mid := by omega
    have h1 := Riffle_error deck mid down_first_input type_input rngR rngP hlt
    have hd : StandardDeck.Riffle.deck deck mid down_first_input type_input rngR rngP =
        deck := by
      unfold StandardDeck.Riffle.deck
      rw [h1]
      exact (Split_deck deck mid).2 hlt
    rw [hd]
    exact ⟨fun h => absurd h hmid, fun _ => ⟨h1, rfl⟩, List.Perm.refl deck⟩

/-- C29: deck integrity. For every deck, every index `mid`, every riffle policy,
every down-first choice and every outcome of the random source: `Cut(mid)`
returns and leaves a rearrangement of the deck; the deck after `Riffle(mid, ...)`
is a rearrangement of the deck, the call returning for `mid` up to the size of
the deck and ending beyond it with the exception of `Split`, the deck being
then as it was; `Split(mid)` returns for `mid` up to the size of the deck, and
the pile that `PutHalvesTogether` makes of the two halves is a rearrangement of
the deck, and beyond the size `Split` throws before it moves a card, the deck
being as it was; the deck after `RandomizeDeck` is a rearrangement of the deck;
and a rearrangement of a deck that holds each of the 52 (rank, suit) pairs once
holds each of them once. The size of a deck is that of a vector, below
`2 ^ 64 - 1`. -/
theorem Deck_integrity {T : Type} [PlayingCard T] (deck : List T) (mid : Nat)
    (type_input down_first_input : String) (rngR rngP : Nat → Nat)
    (hsz : deck.length + 1 < SIZE_MOD) :
    (∃ deck1, StandardDeck.Cut deck mid = .ok deck1 ∧ deck1.Perm deck) ∧
    (StandardDeck.Riffle.deck deck mid down_first_input type_input rngR rngP).Perm deck ∧
    (mid ≤ deck.length →
      StandardDeck.Riffle deck mid down_first_input type_input rngR rngP =
        .ok (StandardDeck.Riffle.deck deck mid down_first_input type_input rngR rngP) ∧
      ∃ halves, StandardDeck.Split deck mid = .ok halves ∧
        (StandardDeck.PutHalvesTogether halves type_input down_first_input rngP).Perm deck) ∧
    (deck.length < mid →
      StandardDeck.Riffle deck mid down_first_input type_input rngR rngP =
        .error .lengthError ∧
      StandardDeck.Riffle.deck deck mid down_first_input type_input rngR rngP = deck ∧
      StandardDeck.Split deck mid = .error .lengthError ∧
      StandardDeck.Split.deck deck mid = deck) ∧
    (∀ shuffle : List T → List T, (∀ l, (shuffle l).Perm l) →
      (StandardDeck.RandomizeDeck deck shuffle).Perm deck) ∧
    (∀ deck1 : List T, deck1.Perm deck → (deck.map cardId).Perm allPairs →
      (deck1.map cardId).Perm allPairs ∧ (deck1.map cardId).Nodup ∧ deck1.length = 52) := by
  have hr := Riffle_deck deck mid down_first_input type_input rngR rngP hsz
  refine ⟨Cut_perm deck mid, hr.2.2, fun hmid => ⟨hr.1 hmid, ?_⟩, fun hlt => ?_,
    fun shuffle h => h deck, ?_⟩
  · exact Split_PutHalvesTogether_perm deck mid type_input down_first_input rngP hmid hsz
  · exact ⟨(hr.2.1 hlt).1, (hr.2.1 hlt).2, Split_error deck mid hlt, (Split_deck deck mid).2 hlt⟩
  · intro deck1 h1 h2
    have h3 := pairs_of_perm deck1 deck h1 h2
    refine ⟨h3, h3.nodup_iff.mpr allPairs_nodup, ?_⟩
    have := h3.length_eq
    simpa [allPairs, CardGraphicsAndInfo.suits, CardGraphicsAndInfo.ranks] using this

/-- C29 on the fresh deck. After `Riffle(34, "top", "random")`, the call of the
test program, with the random source that alternates between 1 and 0, the deck
holds each of the 52 pairs once; `Riffle(53, ...)` ends with the exception of
`Split` and leaves the fresh deck as it was, with each of the 52 pairs once. -/
theorem Deck_integrity_witness :
    (∃ deck1, StandardDeck.Riffle (StandardDeck.fresh PolarStandardPlayingCard) 34 "top"
        "random" (fun _ => 0) (fun k => (k + 1) % 2) = .ok deck1 ∧
      (deck1.map cardId).Perm allPairs ∧ (deck1.map cardId).Nodup ∧ deck1.length = 52) ∧
    StandardDeck.Riffle (StandardDeck.fresh PolarStandardPlayingCard) 53 "bottom" "perfect"
      (fun _ => 0) (fun _ => 0) = .error .lengthError ∧
    StandardDeck.Riffle.deck (StandardDeck.fresh PolarStandardPlayingCard) 53 "bottom" "perfect"
      (fun _ => 0) (fun _ => 0) = StandardDeck.fresh PolarStandardPlayingCard ∧
    ((StandardDeck.Riffle.deck (StandardDeck.fresh PolarStandardPlayingCard) 53 "bottom"
      "perfect" (fun _ => 0) (fun _ => 0)).map cardId).Perm allPairs := by
  have h := Deck_integrity (StandardDeck.fresh PolarStandardPlayingCard) 34 "random" "top"
    (fun _ => 0) (fun k => (k + 1) % 2) (by decide)
  have h53 := Deck_integrity (StandardDeck.fresh PolarStandardPlayingCard) 53 "perfect" "bottom"
    (fun _ => 0) (fun _ => 0) (by decide)
  refine ⟨⟨_, (h.2.2.1 (by decide)).1, h.2.2.2.2.2 _ h.2.1 (by rw [fresh_ids_polar])⟩,
    (h53.2.2.2.1 (by decide)).1, (h53.2.2.2.1 (by decide)).2.1, ?_⟩
  exact (h53.2.2.2.2.2 _ h53.2.1 (by rw [fresh_ids_polar])).1

/-! ## The cut -/

/-- C30: `Cut(mid)` rotates the deck. For `mid` below the size `n` of the deck
the deck afterwards is `d[mid..n)` followed by `d[0..mid)`: the `mid` cards
that were at the bottom are the top `mid` cards, in their order. For
`mid ≥ n` the cut is made at `n / 2`. -/
theorem Cut_rotates {T : Type} (deck : List T) (mid : Nat) :
    (mid < deck.length →
      StandardDeck.Cut deck mid = .ok (deck.drop mid ++ deck.take mid) ∧
      (deck.drop mid ++ deck.take mid).take (deck.length - mid) = deck.drop mid ∧
      (deck.drop mid ++ deck.take mid).drop (deck.length - mid) = deck.take mid) ∧
    (deck.length ≤ mid →
      StandardDeck.Cut deck mid =
        .ok (deck.drop (deck.length / 2) ++ deck.take (deck.length / 2))) := by
  constructor
  · intro h
    refine ⟨?_, ?_, ?_⟩
    · rw [Cut_eq, if_neg (by omega)]
    · rw [List.take_append_of_le_length (by simp), List.take_of_length_le (by simp)]
    · rw [List.drop_append_of_le_length (by simp), List.drop_of_length_le (by simp),
        List.nil_append]
  · intro h
    rw [Cut_eq, if_pos h]

/-- C30 on the fresh deck of the test program: after `Cut(21)` the nine of
hearts, which lay above the 21 bottom cards, is the bottom card, and the eight
of hearts, the topmost of the 21, is the top card; `Cut(60)` cuts at 26. -/
theorem Cut_rotates_witness :
    StandardDeck.Cut (StandardDeck.fresh PolarStandardPlayingCard) 21 = .ok
      ((StandardDeck.fresh PolarStandardPlayingCard).drop 21 ++
        (StandardDeck.fresh PolarStandardPlayingCard).take 21) ∧
    ((StandardDeck.fresh PolarStandardPlayingCard).drop 21 ++
        (StandardDeck.fresh PolarStandardPlayingCard).take 21).head? =
      some ⟨⟨9, "heart"⟩, false⟩ ∧
    ((StandardDeck.fresh PolarStandardPlayingCard).drop 21 ++
        (StandardDeck.fresh PolarStandardPlayingCard).take 21).getLast? =
      some ⟨⟨8, "heart"⟩, false⟩ ∧
    StandardDeck.Cut (StandardDeck.fresh PolarStandardPlayingCard) 60 = .ok
      ((StandardDeck.fresh PolarStandardPlayingCard).drop 26 ++
        (StandardDeck.fresh PolarStandardPlayingCard).take 26) :=
  ⟨((Cut_rotates (StandardDeck.fresh PolarStandardPlayingCard) 21).1 (by decide)).1,
   by decide, by decide,
   (Cut_rotates (StandardDeck.fresh PolarStandardPlayingCard) 60).2 (by decide)⟩

/-! ## The layout dealt by Klondike -/

theorem lastFlipped_cons (c : PolarStandardPlayingCard) (seg : List PolarStandardPlayingCard)
    (h : seg ≠ []) : lastFlipped (c :: seg) = c :: lastFlipped seg := by
  cases seg with
  | nil => exact absurd rfl h
  | cons d l => simp [lastFlipped, List.getLast?_cons_cons]

/-- The inner dealing loop of Klondike, started so that its last card is the
one to turn over: it draws `n` cards from the top of the deck onto `temp` and
turns the last one over. -/
theorem Klondike_Deal_column_spec (i n j : Nat) (deck temp : List PolarStandardPlayingCard)
    (hj : j + n = i + 1) (hn : n ≤ deck.length) (hsz : i + 1 < SIZE_MOD) :
    Klondike.Deal.column i n j deck temp = .ok
      (deck.take (deck.length - n),
        temp ++ lastFlipped ((deck.drop (deck.length - n)).reverse)) := by
  induction n generalizing j deck temp with
  | zero => simp [Klondike.Deal.column, lastFlipped]
  | succ n ih =>
    rcases List.eq_nil_or_concat deck with hd | ⟨d, c, hd⟩
    · rw [hd] at hn; simp at hn
    rw [List.concat_eq_append] at hd
    subst hd
    have hn1 : n ≤ d.length := by simp at hn; omega
    have hnext : szAdd j 1 = j + 1 := szAdd_of_lt (by omega)
    have htake : (d ++ [c]).take ((d ++ [c]).length - (n + 1)) = d.take (d.length - n) := by
      simp only [List.length_append, List.length_singleton]
      rw [show d.length + 1 - (n + 1) = d.length - n by omega,
        List.take_append_of_le_length (by omega)]
    have hdrop : ((d ++ [c]).drop ((d ++ [c]).length - (n + 1))).reverse =
        c :: (d.drop (d.length - n)).reverse := by
      simp only [List.length_append, List.length_singleton]
      rw [show d.length + 1 - (n + 1) = d.length - n by omega,
        List.drop_append_of_le_length (by omega)]
      simp
    unfold Klondike.Deal.column
    rw [DrawOne_concat, htake, hdrop]
    simp only
    by_cases hij : i = j
    · have hn0 : n = 0 := by omega
      subst hn0
      rw [if_neg (by simp [hij]), hnext]
      simp [Klondike.Deal.column, lastFlipped]
    · rw [if_pos hij, hnext, ih (j + 1) d (temp ++ [c]) (by omega) hn1]
      have hne : (d.drop (d.length - n)).reverse ≠ [] := by
        intro h
        have := congrArg List.length h
        simp at this
        omega
      rw [lastFlipped_cons c _ hne]
      simp

theorem drawn_segment {α : Type} (l : List α) (a b : Nat) (ha : a ≤ l.length) (hb : b ≤ a) :
    ((l.take a).drop (a - b)).reverse = (l.reverse.drop (l.length - a)).take b := by
  rw [List.reverse_drop, List.reverse_take, List.length_take, min_eq_left ha]
  congr 1
  omega

/-- The outer dealing loop of Klondike continues the triangle of the spec. -/
theorem Klondike_Deal_loop_spec (shuffled : List PolarStandardPlayingCard) (n i : Nat)
    (s : Klondike)
    (hdeck : s.deck = shuffled.take (shuffled.length - tri i))
    (hboard : s.board = (List.range i).map (Klondike.dealtColumn shuffled.reverse))
    (hcards : tri (i + n) ≤ shuffled.length) (hsz : i + n < SIZE_MOD) :
    ∃ s', Klondike.Deal.loop n i s = .ok s' ∧
      s'.deck = shuffled.take (shuffled.length - tri (i + n)) ∧
      s'.board = (List.range (i + n)).map (Klondike.dealtColumn shuffled.reverse) ∧
      s'.free = s.free ∧ s'.stacks_ = s.stacks_ := by
  induction n generalizing i s with
  | zero => exact ⟨s, rfl, hdeck, hboard, rfl, rfl⟩
  | succ n ih =>
    have htri : tri (i + (n + 1)) = tri (i + 1 + n) := by rw [Nat.add_right_comm, Nat.add_assoc]
    have hmono : tri (i + 1) ≤ tri (i + 1 + n) := by
      clear ih hcards hsz htri
      induction n with
      | zero => exact le_refl _
      | succ n ihn =>
        have : tri (i + 1 + (n + 1)) = tri (i + 1 + n) + (i + 1 + n + 1) := rfl
        omega
    have hi1 : tri (i + 1) = tri i + (i + 1) := rfl
    have hnext : szAdd i 1 = i + 1 := szAdd_of_lt (by omega)
    have hlen : s.deck.length = shuffled.length - tri i := by
      rw [hdeck, List.length_take]; omega
    have hcol := Klondike_Deal_column_spec i (i + 1) 0 s.deck [] (by omega)
      (by rw [hlen]; omega) (by omega)
    unfold Klondike.Deal.loop
    rw [hnext, hcol]
    simp only [List.nil_append]
    have hd1 : s.deck.take (s.deck.length - (i + 1)) =
        shuffled.take (shuffled.length - tri (i + 1)) := by
      rw [hlen, hdeck, List.take_take, hi1]
      congr 1
      omega
    have hc1 : lastFlipped ((s.deck.drop (s.deck.length - (i + 1))).reverse) =
        Klondike.dealtColumn shuffled.reverse i := by
      unfold Klondike.dealtColumn
      rw [hlen, hdeck]
      have h := drawn_segment shuffled (shuffled.length - tri i) (i + 1) (by omega) (by omega)
      rw [h]
      congr 3
      omega
    have hb1 : s.board ++ [lastFlipped ((s.deck.drop (s.deck.length - (i + 1))).reverse)] =
        (List.range (i + 1)).map (Klondike.dealtColumn shuffled.reverse) := by
      rw [hc1, hboard, List.range_succ, List.map_append]
      rfl
    obtain ⟨s', h1, h2, h3, h4, h5⟩ := ih (i + 1)
      { s with deck := s.deck.take (s.deck.length - (i + 1)),
               board := s.board ++ [lastFlipped ((s.deck.drop (s.deck.length - (i + 1))).reverse)] }
      hd1 hb1 (by rw [← htri]; exact hcards) (by omega)
    exact ⟨s', h1, by rw [htri]; exact h2, by rw [show i + (n + 1) = i + 1 + n by omega]; exact h3,
      h4, h5⟩

/-- Klondike `Deal` on a freshly constructed game and a deck of at least 28
cards returns the triangle of the spec. -/
theorem Klondike_Deal_layout (shuffled : List PolarStandardPlayingCard)
    (h28 : 28 ≤ shuffled.length) :
    ∃ s, Klondike.Deal (Solitaire.fresh PolarStandardPlayingCard) shuffled = .ok s ∧
      s.deck = shuffled.take (shuffled.length - 28) ∧
      s.board = (List.range 7).map (Klondike.dealtColumn shuffled.reverse) ∧
      s.free = [] ∧ s.stacks_ = [[], [], [], []] := by
  obtain ⟨s, h1, h2, h3, h4, h5⟩ := Klondike_Deal_loop_spec shuffled 7 0
    { Solitaire.fresh PolarStandardPlayingCard with
      deck := shuffled,
      stacks_ := (Solitaire.fresh PolarStandardPlayingCard).stacks_ ++ [[], [], [], []] }
    (by simp [tri]) rfl (by simpa [tri] using h28) (by decide)
  exact ⟨s, h1, h2, h3, h4, h5⟩

/-- A run of face-down cards whose last card was turned over: the last card
alone is face-up. -/
theorem lastFlipped_face (seg : List PolarStandardPlayingCard)
    (hdown : ∀ c ∈ seg, c.face_up = false) :
    (lastFlipped seg).length = seg.length ∧
    ∀ j c, (lastFlipped seg)[j]? = some c → (c.face_up = true ↔ j + 1 = seg.length) := by
  rcases List.eq_nil_or_concat seg with hs | ⟨l, d, hs⟩
  · subst hs
    exact ⟨rfl, fun j c h => by simp [lastFlipped] at h⟩
  · rw [List.concat_eq_append] at hs
    subst hs
    have e : lastFlipped (l ++ [d]) = l ++ [FlipCard d] := by simp [lastFlipped]
    rw [e]
    refine ⟨by simp, fun j c h => ?_⟩
    have hd : d.face_up = false := hdown d (by simp)
    by_cases hj : j < l.length
    · rw [List.getElem?_append_left hj] at h
      have hc : c.face_up = false := hdown c (List.mem_append_left _ (List.getElem?_mem h))
      simp only [hc, List.length_append, List.length_singleton]
      constructor
      · intro h0; cases h0
      · intro h0; omega
    · rw [List.getElem?_append_right (by omega)] at h
      have hj0 : j - l.length = 0 := by
        by_contra hne
        cases hk : j - l.length with
        | zero => exact hne hk
        | succ m => rw [hk] at h; simp at h
      rw [hj0] at h
      simp only [List.getElem?_cons_zero, Option.some.injEq] at h
      subst h
      simp only [FlipCard, hd, List.length_append, List.length_singleton]
      constructor
      · intro _; omega
      · intro _; rfl

/-- Klondike `Deal` on 52 face-down cards, with sizes and faces spelt out. -/
theorem Klondike_Deal_52_layout (shuffled : List PolarStandardPlayingCard)
    (h52 : shuffled.length = 52) (hdown : ∀ c ∈ shuffled, c.face_up = false) :
    ∃ s, Klondike.Deal (Solitaire.fresh PolarStandardPlayingCard) shuffled = .ok s ∧
      s.board = (List.range 7).map (Klondike.dealtColumn shuffled.reverse) ∧
      s.board.length = 7 ∧
      (∀ i col, s.board[i]? = some col → col.length = i + 1 ∧
        ∀ j c, col[j]? = some c → (c.face_up = true ↔ j = i)) ∧
      s.deck = shuffled.take 24 ∧ s.deck.length = 24 ∧ (∀ c ∈ s.deck, c.face_up = false) ∧
      s.free = [] ∧ s.stacks_ = [[], [], [], []] := by
  obtain ⟨s, h1, h2, h3, h4, h5⟩ := Klondike_Deal_layout shuffled (by omega)
  rw [h52] at h2
  refine ⟨s, h1, h3, by rw [h3]; simp, ?_, h2, by rw [h2]; simp; omega, ?_, h4, h5⟩
  · intro i col hcol
    have hi : i < 7 := by
      have := lt_of_getElem? hcol
      rw [h3] at this
      simpa using this
    rw [h3, List.getElem?_map, List.getElem?_range hi] at hcol
    simp only [Option.map_some', Option.some.injEq] at hcol
    subst hcol
    have hseg : ((shuffled.reverse.drop (tri i)).take (i + 1)).length = i + 1 := by
      rw [List.length_take, List.length_drop, List.length_reverse, h52]
      interval_cases i <;> simp [tri]
    have hsd : ∀ c ∈ (shuffled.reverse.drop (tri i)).take (i + 1), c.face_up = false := by
      intro c hc
      exact hdown c (List.mem_reverse.mp (List.mem_of_mem_drop (List.mem_of_mem_take hc)))
    obtain ⟨hl, hf⟩ := lastFlipped_face _ hsd
    refine ⟨by unfold Klondike.dealtColumn; rw [hl, hseg], fun j c hc => ?_⟩
    have := hf j c hc
    rw [hseg] at this
    rw [this]
    omega
  · intro c hc
    rw [h2] at hc
    exact hdown c (List.mem_of_mem_take hc)

/-- C21: Klondike `Deal` on a deck of 52 face-down cards returns seven board
columns: column `i` (from 0) holds `i + 1` cards, the cards drawn after the
first 0 + 1 + ... + `i`, of which the last dealt, the top card, is face-up and
all others are face-down. The 24 cards left in the deck are face-down, the
waste pile is empty and there are four empty foundations. -/
theorem Klondike_Deal_52 (shuffled : List PolarStandardPlayingCard)
    (h52 : shuffled.length = 52) (hdown : ∀ c ∈ shuffled, c.face_up = false) :
    ∃ s, Klondike.Deal (Solitaire.fresh PolarStandardPlayingCard) shuffled = .ok s ∧
      s.board = (List.range 7).map (Klondike.dealtColumn shuffled.reverse) ∧
      s.board.length = 7 ∧
      (∀ i col, s.board[i]? = some col → col.length = i + 1 ∧
        ∀ j c, col[j]? = some c → (c.face_up = true ↔ j = i)) ∧
      s.deck = shuffled.take 24 ∧ s.deck.length = 24 ∧ (∀ c ∈ s.deck, c.face_up = false) ∧
      s.free = [] ∧ s.stacks_ = [[], [], [], []] :=
  Klondike_Deal_52_layout shuffled h52 hdown

/-- C21 on the deck as constructed, turned upside down so that the ace of
spades is drawn first: the position dealt is `dealtKlondike`, whose third column
is the four and the five of spades face-down under the six of spades
face-up. -/
theorem Klondike_Deal_52_witness :
    (∃ s, Klondike.Deal (Solitaire.fresh PolarStandardPlayingCard)
        (StandardDeck.fresh PolarStandardPlayingCard).reverse = .ok s ∧
      s.board = (List.range 7).map
        (Klondike.dealtColumn (StandardDeck.fresh PolarStandardPlayingCard).reverse.reverse) ∧
      s.board.length = 7 ∧
      (∀ i col, s.board[i]? = some col → col.length = i + 1 ∧
        ∀ j c, col[j]? = some c → (c.face_up = true ↔ j = i)) ∧
      s.deck = (StandardDeck.fresh PolarStandardPlayingCard).reverse.take 24 ∧
      s.deck.length = 24 ∧ (∀ c ∈ s.deck, c.face_up = false) ∧
      s.free = [] ∧ s.stacks_ = [[], [], [], []]) ∧
    dealtKlondike.board[2]? = some
      [⟨⟨4, "spade"⟩, false⟩, ⟨⟨5, "spade"⟩, false⟩, ⟨⟨6, "spade"⟩, true⟩] :=
  ⟨Klondike_Deal_52 (StandardDeck.fresh PolarStandardPlayingCard).reverse (by decide)
    (by decide), by decide⟩

/-! ## The size of the waste pile of Klondike -/

theorem Klondike_MoveBoardToBoard_stock (s s' : Klondike) (pile_from pile_to amount : Nat)
    (h : Klondike.MoveBoardToBoard s pile_from pile_to amount = .ok s') :
    stockCards s' ≤ stockCards s := by
  unfold Klondike.MoveBoardToBoard at h
  split at h
  · cases h
  · cases h; exact le_refl _
  · simp only [bind_eq_ok_iff, except_pure, Except.ok.injEq] at h
    obtain ⟨b, _, b1, _, rfl⟩ := h
    exact le_refl _

theorem Klondike_MoveFreeToBoard_move_stock (s s' : Klondike) (p : Nat)
    (h : Klondike.MoveFreeToBoard.move s p = .ok s') : stockCards s' ≤ stockCards s := by
  simp only [Klondike.MoveFreeToBoard.move, bind_eq_ok_iff, except_pure, Except.ok.injEq] at h
  obtain ⟨c, _, b, _, rfl⟩ := h
  simp only [stockCards, List.length_dropLast]
  omega

theorem Klondike_MoveFreeToBoard_stock (s s' : Klondike) (p : Nat)
    (h : Klondike.MoveFreeToBoard s p = .ok s') : stockCards s' ≤ stockCards s := by
  unfold Klondike.MoveFreeToBoard at h
  split at h
  · cases h
  · exact Klondike_MoveFreeToBoard_move_stock _ _ _ h
  · split at h
    · cases h
    · exact Klondike_MoveFreeToBoard_move_stock _ _ _ h
    · cases h; exact le_refl _

theorem Klondike_MoveFreeToStack_stock (s s' : Klondike) (stack : String) (aut : Bool)
    (h : Klondike.MoveFreeToStack s stack aut = .ok s') : stockCards s' ≤ stockCards s := by
  unfold Klondike.MoveFreeToStack at h
  split at h
  · cases h
  · cases h; exact le_refl _
  · simp only [bind_eq_ok_iff, except_pure, Except.ok.injEq] at h
    obtain ⟨c, _, st, _, rfl⟩ := h
    simp only [stockCards, List.length_dropLast]
    omega

theorem Klondike_MoveBoardToStack_stock (s s' : Klondike) (p : Nat) (stack : String)
    (aut : Bool) (h : Klondike.MoveBoardToStack s p stack aut = .ok s') :
    stockCards s' ≤ stockCards s := by
  unfold Klondike.MoveBoardToStack at h
  split at h
  · cases h
  · cases h; exact le_refl _
  · simp only [bind_eq_ok_iff, except_pure, Except.ok.injEq] at h
    obtain ⟨c, _, st, _, b, _, b1, _, rfl⟩ := h
    exact le_refl _

theorem Klondike_MoveStackToBoard_stock (s s' : Klondike) (p : Nat) (stack : String)
    (h : Klondike.MoveStackToBoard s p stack = .ok s') : stockCards s' ≤ stockCards s := by
  unfold Klondike.MoveStackToBoard at h
  split at h
  · cases h
  · cases h; exact le_refl _
  · simp only [bind_eq_ok_iff, except_pure, Except.ok.injEq] at h
    obtain ⟨c, _, b, _, st, _, rfl⟩ := h
    exact le_refl _

/-- The drawing loop of `DrawCards` keeps the number of cards of deck and waste
pile together. -/
theorem draw_stock (n : Nat) (s s' : Klondike) (h : Klondike.DrawCards.draw n s = .ok s') :
    stockCards s' = stockCards s := by
  induction n generalizing s with
  | zero =>
    simp only [Klondike.DrawCards.draw, Except.ok.injEq] at h
    subst h
    rfl
  | succ n ih =>
    unfold Klondike.DrawCards.draw at h
    split at h
    · cases h
    · rename_i c deck1 hd
      have hdeck := DrawOne_some _ _ _ hd
      have := ih _ h
      simp only [stockCards, List.length_append, List.length_singleton] at this ⊢
      rw [hdeck]
      simp only [List.length_append, List.length_singleton]
      omega

theorem prepare_stock (s : Klondike) :
    stockCards (Klondike.DrawCards.prepare s).2 = stockCards s := by
  unfold Klondike.DrawCards.prepare
  split
  · rfl
  · split
    · rename_i h0
      simp only [recycle_spec s.free.length s.free [] (le_refl _), stockCards, List.nil_append,
        List.length_map, List.length_reverse, List.length_nil]
      omega
    · rfl

theorem Klondike_DrawCards_stock (d : Bool) (s s' : Klondike)
    (h : Klondike.DrawCards d s = .ok s') : stockCards s' = stockCards s := by
  unfold Klondike.DrawCards at h
  simp only at h
  split at h
  · rw [draw_stock _ _ _ h, prepare_stock]
  · cases h; exact prepare_stock s

theorem Klondike_AutoMove_stock (n : Nat) (fuel : Nat) (s s' : Klondike)
    (h : Klondike.AutoMove fuel s = .ok s') (hs : stockCards s ≤ n) : stockCards s' ≤ n := by
  refine AutoMove_preserves _ _ (fun x : Klondike => stockCards x ≤ n) ?_ ?_ fuel s s' h hs
  · intro s r hr hs
    unfold Klondike.AutoMoveFree at hr
    simp only at hr
    split at hr
    · split at hr
      · cases hr
      · split at hr
        · cases hr
        · rename_i s1 h1
          cases hr
          exact le_trans (Klondike_MoveFreeToStack_stock _ _ _ _ h1) hs
    · cases hr; exact hs
  · intro s r hr hs
    exact AutoMoveBoard_loop_preserves _ (fun x : Klondike => stockCards x ≤ n)
      (fun s p stack aut s' h hs =>
        le_trans (Klondike_MoveBoardToStack_stock s s' p stack aut h) hs)
      _ _ _ _ _ hr hs

/-- No Klondike operation adds a card to deck and waste pile together. -/
theorem Klondike_Move_stock (d : Bool) (n : Nat) (s s' : Klondike) (h : Klondike.Move d s s')
    (hs : stockCards s ≤ n) : stockCards s' ≤ n := by
  cases h with
  | boardToBoard f t a h => exact le_trans (Klondike_MoveBoardToBoard_stock _ _ _ _ _ h) hs
  | freeToBoard t h => exact le_trans (Klondike_MoveFreeToBoard_stock _ _ _ h) hs
  | freeToStack u a h => exact le_trans (Klondike_MoveFreeToStack_stock _ _ _ _ h) hs
  | boardToStack f u a h => exact le_trans (Klondike_MoveBoardToStack_stock _ _ _ _ _ h) hs
  | stackToBoard t u h => exact le_trans (Klondike_MoveStackToBoard_stock _ _ _ _ h) hs
  | drawCards h => rw [Klondike_DrawCards_stock _ _ _ h]; exact hs
  | autoMove fuel h => exact Klondike_AutoMove_stock n fuel _ _ h hs

/-- In every Klondike state reachable from `Deal`, deck and waste pile together
hold at most 24 cards. -/
theorem Klondike_Reachable_stock (d : Bool) (s : Klondike) (h : Klondike.Reachable d s) :
    stockCards s ≤ 24 := by
  induction h with
  | deal shuffled s hperm hdeal =>
    have h52 : shuffled.length = 52 := by rw [hperm.length_eq]; decide
    obtain ⟨s2, h1, h2, _, h4, _⟩ := Klondike_Deal_layout shuffled (by omega)
    rw [hdeal] at h1
    cases h1
    simp only [stockCards, h2, h4, List.length_take, List.length_nil]
    omega
  | move s s' _ hmove ih => exact Klondike_Move_stock d 24 s s' hmove ih

theorem drawnTwiceKlondike_eq :
    Klondike.drawTimes false 2 dealtKlondike = .ok drawnTwiceKlondike := by decide

theorem drawnTwiceKlondike_reachable : Klondike.Reachable false drawnTwiceKlondike :=
  drawTimes_reachable false 2 dealtKlondike drawnTwiceKlondike drawnTwiceKlondike_eq
    (dealtKlondike_reachable false)

set_option maxRecDepth 100000 in
/-- C22 as stated fails: the waste pile is not limited to the cards of one
draw. In draw-three mode two calls of `DrawCards` from the dealt position leave
six cards on the waste pile, and in draw-one mode 24 calls leave 24. -/
theorem Klondike_waste_exceeds_one_draw :
    (Klondike.Reachable false drawnTwiceKlondike ∧ drawnTwiceKlondike.free.length = 6 ∧
      ¬ drawnTwiceKlondike.free.length ≤ 3) ∧
    (Klondike.Reachable true drawnOutKlondike ∧ drawnOutKlondike.free.length = 24 ∧
      ¬ drawnOutKlondike.free.length ≤ 1) :=
  ⟨⟨drawnTwiceKlondike_reachable, by decide, by decide⟩,
   ⟨drawnOutKlondike_reachable, by decide, by decide⟩⟩

/-- C22, amended: in every Klondike state reachable from `Deal` through draws
and moves, in either mode, the deck and the waste pile together hold at most 24
cards, so the waste pile holds at most 24; and a call of `DrawCards` on a
non-empty deck of `n` cards puts 1 card (draw-one mode) or min(3, `n`) cards
(draw-three mode) on top of the cards already on the waste pile. -/
theorem Klondike_waste_bound (d : Bool) (s : Klondike) (h : Klondike.Reachable d s) :
    s.deck.length + s.free.length ≤ 24 ∧ s.free.length ≤ 24 ∧
    (s.deck ≠ [] → ∃ s', Klondike.DrawCards d s = .ok s' ∧
      s'.free.length = s.free.length + Klondike.drawCount d s.deck.length ∧
      Klondike.drawCount d s.deck.length ≤ (if d then 1 else 3) ∧
      Klondike.Reachable d s') := by
  have h1 : s.deck.length + s.free.length ≤ 24 := Klondike_Reachable_stock d s h
  refine ⟨h1, by omega, fun hne => ?_⟩
  have h2 := Klondike_DrawCards_nonempty d s hne
  have hpos : 0 < s.deck.length := List.length_pos.mpr hne
  have hk : Klondike.drawCount d s.deck.length ≤ s.deck.length := by
    unfold Klondike.drawCount; split <;> omega
  refine ⟨_, h2, ?_, ?_, Klondike.Reachable.move s _ h (Klondike.Move.drawCards s _ h2)⟩
  · simp only [List.length_append, List.length_map, List.length_reverse, List.length_drop]
    omega
  · unfold Klondike.drawCount
    cases d <;> simp

/-- C22, amended, at reachable positions: the waste pile of `drawnOutKlondike`
holds 24 cards, the bound; a draw in draw-three mode from `dealtKlondike`,
whose deck holds 24 cards, puts three cards on the empty waste pile. -/
theorem Klondike_waste_bound_witness :
    drawnOutKlondike.free.length ≤ 24 ∧ drawnOutKlondike.free.length = 24 ∧
    ∃ s', Klondike.DrawCards false dealtKlondike = .ok s' ∧
      s'.free.length = dealtKlondike.free.length +
        Klondike.drawCount false dealtKlondike.deck.length ∧
      Klondike.drawCount false dealtKlondike.deck.length ≤ (if false then 1 else 3) ∧
      Klondike.Reachable false s' :=
  ⟨(Klondike_waste_bound true drawnOutKlondike drawnOutKlondike_reachable).2.1, by decide,
   (Klondike_waste_bound false dealtKlondike (dealtKlondike_reachable false)).2.2 (by decide)⟩

/-! ## The command "auto" -/

theorem CStrToInt_auto :
    Util.CStrToInt "auto" = SIZE_MOD - 1 ∧ Util.CStrToInt "a" = SIZE_MOD - 1 := by decide

/-- Handed the inputs of the command "auto", `ExecuteAction` reads the board
at the index `(size_t)-1 - 1`. -/
theorem Freecell_ExecuteAction_auto (s : Freecell) (input1 : String)
    (hin : input1 = "auto" ∨ input1 = "a") (hb : s.board.length + 2 ≤ SIZE_MOD) :
    Freecell.ExecuteAction s [input1, "", ""] = .error .outOfRange := by
  have hidx : szSub (Util.CStrToInt input1) 1 = SIZE_MOD - 2 := by
    rcases hin with h | h <;> subst h <;> decide
  have hread : emptyAt s.board (SIZE_MOD - 2) = .error .outOfRange := by
    unfold emptyAt
    rw [vecAt_eq_error (by omega)]
  have h1 : input1 ≠ "free" := by rcases hin with h | h <;> subst h <;> decide
  have h2 : input1 ≠ "stack" := by rcases hin with h | h <;> subst h <;> decide
  simp [Freecell.ExecuteAction, vecAt, h1, h2, hidx, hread]

/-- The command "auto": `GetInput` runs `AutoMove` and hands the inputs
"auto", "", "" on. -/
theorem Freecell_GetInput_auto (fuel : Nat) (s s1 : Freecell) (input1 : String)
    (rest : List String) (hin : input1 = "auto" ∨ input1 = "a")
    (h : Freecell.AutoMove fuel s = .ok s1) :
    Freecell.GetInput fuel s (input1 :: rest) = .ok (s1, [input1, "", ""], rest) := by
  rcases hin with h0 | h0 <;> subst h0 <;>
    simp [Freecell.GetInput, Freecell.GetInput.read, h]

/-- In every state of a game the command "auto" ends in a read of the board
outside its bounds. -/
theorem Freecell_auto_command (s : Freecell) (hs : Freecell.Reachable s) (input1 : String)
    (rest : List String) (hin : input1 = "auto" ∨ input1 = "a") (k : Nat) :
    Freecell.GetInputAndExecuteAction (looseCards s + 1 + k) s (input1 :: rest) =
      .error .outOfRange := by
  obtain ⟨s1, h1, _⟩ := AutoMove_terminates_of Freecell.AutoMoveFree Freecell.AutoMoveBoard
    Freecell_AutoMoveFree_pass
    (AutoMoveBoard_pass Freecell.MoveBoardToStack Freecell_MoveBoardToStack_step)
    (looseCards s + 1 + k) s (Freecell_Reachable_ready s hs) (by omega)
  have h1' : Freecell.AutoMove (looseCards s + 1 + k) s = .ok s1 := h1
  have hr1 : Freecell.Reachable s1 :=
    Freecell.Reachable.move s s1 hs (Freecell.Move.autoMove s s1 _ h1')
  have hb : s1.board.length + 2 ≤ SIZE_MOD := by
    rw [Freecell_Reachable_board_length s1 hr1, SIZE_MOD_eq]; omega
  have hex := Freecell_ExecuteAction_auto s1 input1 hin hb
  have hget := Freecell_GetInput_auto _ s s1 input1 rest hin h1'
  have hne : ¬ ("e" ∈ [input1, "", ""] ∨ "exit" ∈ [input1, "", ""]) := by
    rcases hin with h | h <;> subst h <;> decide
  have hns : ¬ ("s" ∈ [input1, "", ""] ∨ "stop" ∈ [input1, "", ""]) := by
    rcases hin with h | h <;> subst h <;> decide
  unfold Freecell.GetInputAndExecuteAction
  rw [hget]
  simp only [except_bind_ok]
  rw [if_neg hne, if_neg hns, hex]
  rfl

/-- C23 (code bug): the command "auto" (or "a") makes `GetInput` hand the
inputs "auto", "", "" to `ExecuteAction`, which converts the first of them with
`CStrToInt`, gets the value `(size_t)-1` of a failed conversion, and reads the
board at the index derived from it: in every state of a game, and with fuel
enough for `AutoMove` to finish, `GetInputAndExecuteAction` ends in a read of
the board outside its bounds. -/
theorem Freecell_auto_command_indexes_with_sentinel (s : Freecell)
    (hs : Freecell.Reachable s) (input1 : String) (rest : List String)
    (hin : input1 = "auto" ∨ input1 = "a") (k : Nat) :
    Util.CStrToInt input1 = SIZE_MOD - 1 ∧
      szSub (Util.CStrToInt input1) 1 = SIZE_MOD - 2 ∧
      Freecell.GetInputAndExecuteAction (looseCards s + 1 + k) s (input1 :: rest) =
        .error .outOfRange :=
  ⟨by rcases hin with h | h <;> subst h <;> decide,
    by rcases hin with h | h <;> subst h <;> decide,
    Freecell_auto_command s hs input1 rest hin k⟩

theorem Freecell_auto_command_indexes_with_sentinel_witness :
    Freecell.Reachable dealtFreecell ∧
      Util.CStrToInt "auto" = SIZE_MOD - 1 ∧
      Freecell.GetInputAndExecuteAction (looseCards dealtFreecell + 1 + 0) dealtFreecell
        ["auto"] = .error .outOfRange :=
  ⟨dealtFreecell_reachable,
    (Freecell_auto_command_indexes_with_sentinel dealtFreecell dealtFreecell_reachable "auto"
      [] (Or.inl rfl) 0).1,
    (Freecell_auto_command_indexes_with_sentinel dealtFreecell dealtFreecell_reachable "auto"
      [] (Or.inl rfl) 0).2.2⟩

/-! ## War: the parts of a round -/

theorem War_MoveCards_loop_eq (l winner : List StandardPlayingCard) :
    War.MoveCards.loop l winner = l.reverse ++ winner := by
  induction l generalizing winner with
  | nil => rfl
  | cons c rest ih =>
    simp only [War.MoveCards.loop, ih, List.reverse_cons, List.append_assoc,
      List.singleton_append]

/-- The cards won are put in front of the hand of the winner, in the order the
shuffle gave them. -/
theorem War_MoveCards_eq (shuffle : List StandardPlayingCard → List StandardPlayingCard)
    (cards winner : List StandardPlayingCard) :
    War.MoveCards shuffle cards winner = shuffle cards ++ winner := by
  unfold War.MoveCards
  rw [War_MoveCards_loop_eq, List.reverse_reverse]

/-- The loop of `GoToWar` always returns: it takes the same number of cards,
`min n (min n1 n2 - 1)`, from the top of each hand. -/
theorem War_GoToWar_loop_spec (n : Nat) (prev : List StandardPlayingCard) (w : War) :
    ∃ r1 b1 r2 b2 burned, w.first = r1 ++ b1 ∧ w.second = r2 ++ b2 ∧
      b1.length = min n (min w.first.length w.second.length - 1) ∧
      b2.length = min n (min w.first.length w.second.length - 1) ∧
      burned.Perm (b1 ++ b2) ∧
      War.GoToWar.loop n prev w = .ok (prev ++ burned, { first := r1, second := r2 }) := by
  induction n generalizing prev w with
  | zero =>
    exact ⟨w.first, [], w.second, [], [], by simp, by simp, by simp, by simp, by simp,
      by simp [War.GoToWar.loop]⟩
  | succ n ih =>
    by_cases hc : 1 < w.first.length ∧ 1 < w.second.length
    · obtain ⟨f, a, hf⟩ : ∃ f a, w.first = f ++ [a] := by
        rcases List.eq_nil_or_concat w.first with h | ⟨f, a, h⟩
        · rw [h] at hc; simp at hc
        · exact ⟨f, a, by rw [h, List.concat_eq_append]⟩
      obtain ⟨s, b, hs⟩ : ∃ s b, w.second = s ++ [b] := by
        rcases List.eq_nil_or_concat w.second with h | ⟨s, b, h⟩
        · rw [h] at hc; simp at hc
        · exact ⟨s, b, by rw [h, List.concat_eq_append]⟩
      obtain ⟨r1, b1, r2, b2, burned, h1, h2, hl1, hl2, hp, hrun⟩ :=
        ih (prev ++ [a, b]) { first := f, second := s }
      simp only at h1 h2 hl1 hl2
      have hlen1 : w.first.length = f.length + 1 := by rw [hf]; simp
      have hlen2 : w.second.length = s.length + 1 := by rw [hs]; simp
      refine ⟨r1, b1 ++ [a], r2, b2 ++ [b], [a, b] ++ burned, ?_, ?_, ?_, ?_, ?_, ?_⟩
      · rw [hf, h1, List.append_assoc]
      · rw [hs, h2, List.append_assoc]
      · rw [List.length_append, hl1, hlen1, hlen2]; simp only [List.length_singleton]
        rw [hlen1, hlen2] at hc; omega
      · rw [List.length_append, hl2, hlen1, hlen2]; simp only [List.length_singleton]
        rw [hlen1, hlen2] at hc; omega
      · have e1 : b1 ++ [a] ++ (b2 ++ [b]) = b1 ++ ([a] ++ (b2 ++ [b])) := by simp
        rw [e1]
        have p1 : ([a, b] ++ burned).Perm ([a, b] ++ (b1 ++ b2)) := hp.append_left _
        refine p1.trans ?_
        have p2 : ([a, b] ++ (b1 ++ b2)).Perm (b1 ++ ([a, b] ++ b2)) := by
          rw [← List.append_assoc, ← List.append_assoc]
          exact List.Perm.append_right _ List.perm_append_comm
        refine p2.trans (List.Perm.append_left _ ?_)
        have p3 : ([a, b] ++ b2).Perm ([a] ++ (b2 ++ [b])) := by
          change (a :: ([b] ++ b2)).Perm (a :: (b2 ++ [b]))
          exact List.Perm.cons _ List.perm_append_comm
        exact p3
      · unfold War.GoToWar.loop
        rw [if_pos hc, hf, hs, vecBack_concat, vecBack_concat]
        simp only [except_bind_ok, List.dropLast_concat]
        rw [hrun]
        simp
    · obtain ⟨r1, b1, r2, b2, burned, h1, h2, hl1, hl2, hp, hrun⟩ := ih prev w
      refine ⟨r1, b1, r2, b2, burned, h1, h2, ?_, ?_, hp, ?_⟩
      · rw [hl1]; omega
      · rw [hl2]; omega
      · unfold War.GoToWar.loop
        rw [if_neg hc, hrun]

/-- One pass of the loop of `PlayARound` on hands with top cards `a` and `b`. -/
theorem War_PlayARound_loop_step
    (shuffle : List StandardPlayingCard → List StandardPlayingCard) (fuel : Nat) (tie : Bool)
    (stack f s : List StandardPlayingCard) (a b : StandardPlayingCard) :
    War.PlayARound.loop shuffle (fuel + 1) tie stack { first := f ++ [a], second := s ++ [b] } =
      match War.PlayARound.branch a b with
      | .playerWon => .ok { first := f, second := shuffle (stack ++ [a, b]) ++ s }
      | .opponentWon => .ok { first := shuffle (stack ++ [a, b]) ++ f, second := s }
      | .tie =>
        War.GoToWar (stack ++ [a, b]) { first := f, second := s } >>= fun p =>
          War.PlayARound.loop shuffle fuel true p.1 p.2 := by
  rw [War.PlayARound.loop]
  simp only [War.OutputGraphics, vecBack_concat, except_bind_ok, List.dropLast_concat,
    War_MoveCards_eq, pure, Except.pure, bind, Except.bind]
  cases War.PlayARound.branch a b with
  | playerWon => rfl
  | opponentWon => rfl
  | tie =>
    simp only [List.length_append, List.length_singleton, Nat.add_one_ne_zero, or_self,
      if_false]

/-- With an empty hand the loop of `PlayARound` calls `back()` on it. -/
theorem War_PlayARound_loop_empty
    (shuffle : List StandardPlayingCard → List StandardPlayingCard) (fuel : Nat) (tie : Bool)
    (stack : List StandardPlayingCard) (w : War) (h : w.first = [] ∨ w.second = []) :
    War.PlayARound.loop shuffle (fuel + 1) tie stack w = .error .emptyBack := by
  unfold War.PlayARound.loop
  rcases List.eq_nil_or_concat w.first with h1 | ⟨f, a, h1⟩
  · simp [War.OutputGraphics, h1, vecBack]
  · rcases h with h | h
    · rw [h] at h1; simp at h1
    · rw [List.concat_eq_append] at h1
      simp [War.OutputGraphics, h1, h, vecBack_concat, vecBack]

theorem War_branch_key (a b : StandardPlayingCard)
    (ha : 1 ≤ GetRank a ∧ GetRank a ≤ 13) (hb : 1 ≤ GetRank b ∧ GetRank b ≤ 13) :
    (War.PlayARound.branch a b = .playerWon ↔
        War.aceHighKey (GetRank b) > War.aceHighKey (GetRank a)) ∧
      (War.PlayARound.branch a b = .opponentWon ↔
        War.aceHighKey (GetRank a) > War.aceHighKey (GetRank b)) ∧
      (War.PlayARound.branch a b = .tie ↔ GetRank a = GetRank b) := by
  unfold War.PlayARound.branch War.aceHighKey
  obtain ⟨ha1, ha2⟩ := ha
  obtain ⟨hb1, hb2⟩ := hb
  generalize GetRank a = x at *
  generalize GetRank b = y at *
  by_cases hx : x = 1 <;> by_cases hy : y = 1 <;> split_ifs <;>
    simp only [reduceCtorEq, false_iff, true_iff, gt_iff_lt] <;> omega

theorem War_branch_tie_of_eq (a b : StandardPlayingCard) (h : GetRank a = GetRank b) :
    War.PlayARound.branch a b = .tie := by
  unfold War.PlayARound.branch
  rw [h]
  simp

/-- What a round that is decided does to the hands, for any stack of cards
played before. -/
theorem War_PlayARound_loop_spec
    (shuffle : List StandardPlayingCard → List StandardPlayingCard)
    (hsh : ∀ l, (shuffle l).Perm l) (fuel : Nat) :
    ∀ (tie : Bool) (stack : List StandardPlayingCard) (w w' : War),
      War.PlayARound.loop shuffle fuel tie stack w = .ok w' →
      ∃ r1 p1 r2 p2 won, w.first = r1 ++ p1 ∧ w.second = r2 ++ p2 ∧
        p1.length = p2.length ∧ 0 < p1.length ∧ won.Perm (stack ++ (p1 ++ p2)) ∧
        ((w'.first = r1 ∧ w'.second = won ++ r2) ∨
          (w'.first = won ++ r1 ∧ w'.second = r2)) := by
  induction fuel with
  | zero =>
    intro tie stack w w' h
    simp [War.PlayARound.loop] at h
  | succ fuel ih =>
    intro tie stack w w' h
    rcases List.eq_nil_or_concat w.first with h1 | ⟨f, a, h1⟩
    · rw [War_PlayARound_loop_empty shuffle fuel tie stack w (Or.inl h1)] at h
      cases h
    rcases List.eq_nil_or_concat w.second with h2 | ⟨s, b, h2⟩
    · rw [War_PlayARound_loop_empty shuffle fuel tie stack w (Or.inr h2)] at h
      cases h
    rw [List.concat_eq_append] at h1 h2
    have hw : w = { first := f ++ [a], second := s ++ [b] } := by
      cases w; simp only at h1 h2; rw [h1, h2]
    rw [hw, War_PlayARound_loop_step] at h
    cases hbr : War.PlayARound.branch a b with
    | playerWon =>
      rw [hbr] at h
      simp only [Except.ok.injEq] at h
      subst h
      refine ⟨f, [a], s, [b], shuffle (stack ++ [a, b]), h1, h2, rfl, by simp, hsh _,
        Or.inl ⟨rfl, rfl⟩⟩
    | opponentWon =>
      rw [hbr] at h
      simp only [Except.ok.injEq] at h
      subst h
      refine ⟨f, [a], s, [b], shuffle (stack ++ [a, b]), h1, h2, rfl, by simp, hsh _,
        Or.inr ⟨rfl, rfl⟩⟩
    | tie =>
      rw [hbr] at h
      obtain ⟨r1, b1, r2, b2, burned, hf, hs, hl1, hl2, hp, hrun⟩ :=
        War_GoToWar_loop_spec 3 (stack ++ [a, b]) { first := f, second := s }
      simp only at hf hs
      unfold War.GoToWar at h
      rw [hrun] at h
      simp only [except_bind_ok] at h
      obtain ⟨r1', p1', r2', p2', won, e1, e2, el, epos, ep, eres⟩ := ih _ _ _ _ h
      simp only at e1 e2
      refine ⟨r1', p1' ++ b1 ++ [a], r2', p2' ++ b2 ++ [b], won, ?_, ?_, ?_, ?_, ?_, eres⟩
      · rw [h1, hf, e1]; simp
      · rw [h2, hs, e2]; simp
      · simp only [List.length_append, List.length_singleton]; omega
      · simp only [List.length_append, List.length_singleton]; omega
      · refine ep.trans ?_
        rw [← Multiset.coe_eq_coe] at hp ⊢
        have e0 : stack ++ [a, b] ++ burned ++ (p1' ++ p2') =
            stack ++ ([a] ++ ([b] ++ (burned ++ (p1' ++ p2')))) := by simp
        rw [e0]
        simp only [← Multiset.coe_add] at hp ⊢
        rw [hp]
        simp only [add_comm, add_left_comm, add_assoc]

/-- A round returns when the fuel exceeds the size of a hand, as every war takes
a card from each hand: it is decided, or it ends in a call of `back()` on an
empty hand. -/
theorem War_PlayARound_loop_total
    (shuffle : List StandardPlayingCard → List StandardPlayingCard) (fuel : Nat) :
    ∀ (tie : Bool) (stack : List StandardPlayingCard) (w : War),
      w.first.length < fuel →
      War.PlayARound.loop shuffle fuel tie stack w = .error .emptyBack ∨
        ∃ w', War.PlayARound.loop shuffle fuel tie stack w = .ok w' := by
  induction fuel with
  | zero => intro tie stack w h; omega
  | succ fuel ih =>
    intro tie stack w hlt
    rcases List.eq_nil_or_concat w.first with h1 | ⟨f, a, h1⟩
    · exact Or.inl (War_PlayARound_loop_empty shuffle fuel tie stack w (Or.inl h1))
    rcases List.eq_nil_or_concat w.second with h2 | ⟨s, b, h2⟩
    · exact Or.inl (War_PlayARound_loop_empty shuffle fuel tie stack w (Or.inr h2))
    rw [List.concat_eq_append] at h1 h2
    have hw : w = { first := f ++ [a], second := s ++ [b] } := by
      cases w; simp only at h1 h2; rw [h1, h2]
    rw [hw, War_PlayARound_loop_step]
    cases hbr : War.PlayARound.branch a b with
    | playerWon => exact Or.inr ⟨_, rfl⟩
    | opponentWon => exact Or.inr ⟨_, rfl⟩
    | tie =>
      obtain ⟨r1, b1, r2, b2, burned, hf, hs, hl1, hl2, hp, hrun⟩ :=
        War_GoToWar_loop_spec 3 (stack ++ [a, b]) { first := f, second := s }
      simp only at hf
      unfold War.GoToWar
      rw [hrun]
      simp only [except_bind_ok]
      apply ih
      simp only
      have : f.length = r1.length + b1.length := by rw [hf]; simp
      rw [h1] at hlt
      simp only [List.length_append, List.length_singleton] at hlt
      omega

/-- A tie on the last card of a hand: both cards are set aside, `GoToWar` takes
no card, and the next pass calls `back()` on the empty hand. -/
theorem War_tie_on_last_card_faults
    (shuffle : List StandardPlayingCard → List StandardPlayingCard) (fuel : Nat) (tie : Bool)
    (stack f s : List StandardPlayingCard) (a b : StandardPlayingCard)
    (hab : War.PlayARound.branch a b = .tie) (hlast : f = [] ∨ s = []) :
    War.PlayARound.loop shuffle (fuel + 2) tie stack { first := f ++ [a], second := s ++ [b] } =
      .error .emptyBack := by
  rw [War_PlayARound_loop_step, hab]
  obtain ⟨r1, b1, r2, b2, burned, hf, hs, hl1, hl2, hp, hrun⟩ :=
    War_GoToWar_loop_spec 3 (stack ++ [a, b]) { first := f, second := s }
  simp only at hf hs hl1 hl2
  have hz : min 3 (min f.length s.length - 1) = 0 := by
    rcases hlast with h | h <;> rw [h] <;> simp
  rw [hz] at hl1 hl2
  have hb1 : b1 = [] := List.length_eq_zero.mp hl1
  have hb2 : b2 = [] := List.length_eq_zero.mp hl2
  rw [hb1, List.append_nil] at hf
  rw [hb2, List.append_nil] at hs
  unfold War.GoToWar
  rw [hrun]
  simp only [except_bind_ok]
  apply War_PlayARound_loop_empty
  simp only
  rw [← hf, ← hs]
  exact hlast

/-! ## War: the outcome of a round -/

/-- C25: for top cards `a` of the opponent and `b` of the player with ranks from
1 to 13, the pass of `PlayARound` takes the branch of the player iff the
ace-high key of `b` exceeds that of `a`, the branch of the opponent iff the key
of `a` exceeds that of `b`, and the war branch iff the ranks are equal; exactly
one of the three conditions holds; and the branch of the player gives the stack
with both cards to the player, that of the opponent to the opponent, and the
war branch goes on after `GoToWar`. -/
theorem War_round_outcome (a b : StandardPlayingCard)
    (ha : 1 ≤ GetRank a ∧ GetRank a ≤ 13) (hb : 1 ≤ GetRank b ∧ GetRank b ≤ 13) :
    (War.PlayARound.branch a b = .playerWon ↔
        War.aceHighKey (GetRank b) > War.aceHighKey (GetRank a)) ∧
      (War.PlayARound.branch a b = .opponentWon ↔
        War.aceHighKey (GetRank a) > War.aceHighKey (GetRank b)) ∧
      (War.PlayARound.branch a b = .tie ↔ GetRank a = GetRank b) ∧
      ((War.aceHighKey (GetRank b) > War.aceHighKey (GetRank a) ∧
          ¬ War.aceHighKey (GetRank a) > War.aceHighKey (GetRank b) ∧
          GetRank a ≠ GetRank b) ∨
        (¬ War.aceHighKey (GetRank b) > War.aceHighKey (GetRank a) ∧
          War.aceHighKey (GetRank a) > War.aceHighKey (GetRank b) ∧
          GetRank a ≠ GetRank b) ∨
        (¬ War.aceHighKey (GetRank b) > War.aceHighKey (GetRank a) ∧
          ¬ War.aceHighKey (GetRank a) > War.aceHighKey (GetRank b) ∧
          GetRank a = GetRank b)) ∧
      ∀ (shuffle : List StandardPlayingCard → List StandardPlayingCard) (fuel : Nat)
        (tie : Bool) (stack f s : List StandardPlayingCard),
        War.PlayARound.loop shuffle (fuel + 1) tie stack
            { first := f ++ [a], second := s ++ [b] } =
          match War.PlayARound.branch a b with
          | .playerWon => .ok { first := f, second := shuffle (stack ++ [a, b]) ++ s }
          | .opponentWon => .ok { first := shuffle (stack ++ [a, b]) ++ f, second := s }
          | .tie =>
            War.GoToWar (stack ++ [a, b]) { first := f, second := s } >>= fun p =>
              War.PlayARound.loop shuffle fuel true p.1 p.2 := by
  refine ⟨(War_branch_key a b ha hb).1, (War_branch_key a b ha hb).2.1,
    (War_branch_key a b ha hb).2.2, ?_,
    fun shuffle fuel tie stack f s => War_PlayARound_loop_step shuffle fuel tie stack f s a b⟩
  obtain ⟨ha1, ha2⟩ := ha
  obtain ⟨hb1, hb2⟩ := hb
  unfold War.aceHighKey
  generalize GetRank a = x at *
  generalize GetRank b = y at *
  by_cases hx : x = 1 <;> by_cases hy : y = 1 <;> simp only [hx, hy, if_true, if_false] <;>
    first | omega | (simp; try omega)

theorem War_round_outcome_witness :
    War.PlayARound.branch ⟨1, "spade"⟩ ⟨13, "heart"⟩ = .opponentWon ∧
      War.PlayARound.branch ⟨13, "heart"⟩ ⟨1, "spade"⟩ = .playerWon ∧
      War.PlayARound.branch ⟨1, "heart"⟩ ⟨1, "spade"⟩ = .tie :=
  ⟨(War_round_outcome ⟨1, "spade"⟩ ⟨13, "heart"⟩ (by decide) (by decide)).2.1.mpr (by decide),
    (War_round_outcome ⟨13, "heart"⟩ ⟨1, "spade"⟩ (by decide) (by decide)).1.mpr (by decide),
    (War_round_outcome ⟨1, "heart"⟩ ⟨1, "spade"⟩ (by decide) (by decide)).2.2.1.mpr
      (by decide)⟩

/-- C26: a call of `PlayARound` with fuel above the size of the hand of the
opponent returns, decided or with a call of `back()` on an empty hand; when it
is decided, each hand was its rest followed by the cards it played, as many for
one side as for the other and at least one, the new hand of the winner is a
permutation of all cards played followed by its rest in the old order, the new
hand of the loser is its rest, and the number of cards in the two hands is the
same as before. -/
theorem War_card_transfer (shuffle : List StandardPlayingCard → List StandardPlayingCard)
    (hsh : ∀ l, (shuffle l).Perm l) (fuel : Nat) (w : War) (hfuel : w.first.length < fuel) :
    (War.PlayARound shuffle fuel w = .error .emptyBack ∨
        ∃ w', War.PlayARound shuffle fuel w = .ok w') ∧
      ∀ w', War.PlayARound shuffle fuel w = .ok w' →
        ∃ r1 p1 r2 p2 won, w.first = r1 ++ p1 ∧ w.second = r2 ++ p2 ∧
          p1.length = p2.length ∧ 0 < p1.length ∧ won.Perm (p1 ++ p2) ∧
          ((w'.first = r1 ∧ w'.second = won ++ r2) ∨
            (w'.first = won ++ r1 ∧ w'.second = r2)) ∧
          w'.first.length + w'.second.length = w.first.length + w.second.length := by
  refine ⟨War_PlayARound_loop_total shuffle fuel false [] w hfuel, ?_⟩
  intro w' h
  obtain ⟨r1, p1, r2, p2, won, e1, e2, el, epos, ep, eres⟩ :=
    War_PlayARound_loop_spec shuffle hsh fuel false [] w w' h
  rw [List.nil_append] at ep
  refine ⟨r1, p1, r2, p2, won, e1, e2, el, epos, ep, eres, ?_⟩
  have hlen := ep.length_eq
  rw [List.length_append] at hlen
  rcases eres with ⟨h1, h2⟩ | ⟨h1, h2⟩
  · rw [h1, h2, e1, e2]; simp only [List.length_append]; omega
  · rw [h1, h2, e1, e2]; simp only [List.length_append]; omega

theorem War_card_transfer_witness :
    War.PlayARound List.reverse 7 War.warHands =
        .ok { first := [⟨3, "spade"⟩],
              second := [⟨8, "heart"⟩, ⟨4, "spade"⟩, ⟨10, "heart"⟩, ⟨5, "spade"⟩,
                ⟨11, "heart"⟩, ⟨6, "spade"⟩, ⟨12, "heart"⟩, ⟨7, "spade"⟩, ⟨9, "heart"⟩,
                ⟨9, "spade"⟩, ⟨2, "heart"⟩] } ∧
      ∃ r1 p1 r2 p2 won : List StandardPlayingCard,
        War.warHands.first = r1 ++ p1 ∧ War.warHands.second = r2 ++ p2 ∧
        p1.length = p2.length ∧ 0 < p1.length ∧ won.Perm (p1 ++ p2) :=
  ⟨by decide,
    match (War_card_transfer List.reverse List.reverse_perm 7 War.warHands (by decide)).2
      { first := [⟨3, "spade"⟩],
        second := [⟨8, "heart"⟩, ⟨4, "spade"⟩, ⟨10, "heart"⟩, ⟨5, "spade"⟩,
          ⟨11, "heart"⟩, ⟨6, "spade"⟩, ⟨12, "heart"⟩, ⟨7, "spade"⟩, ⟨9, "heart"⟩,
          ⟨9, "spade"⟩, ⟨2, "heart"⟩] } (by decide) with
    | ⟨r1, p1, r2, p2, won, e1, e2, el, epos, ep, _⟩ =>
      ⟨r1, p1, r2, p2, won, e1, e2, el, epos, ep⟩⟩

/-! ## War: the cards taken by a war -/

/-- With three cards left in each hand after the tied cards were set aside,
`GoToWar` takes two cards from each hand, not three: the stack of the two tied
cards grows to six cards and each hand keeps one card. -/
theorem War_three_cards_burn_two :
    War.shortWarHands.first.dropLast.length = 3 ∧
      War.shortWarHands.second.dropLast.length = 3 ∧
      War.GoToWar [⟨9, "spade"⟩, ⟨9, "heart"⟩]
          { first := War.shortWarHands.first.dropLast,
            second := War.shortWarHands.second.dropLast } =
        .ok ([⟨9, "spade"⟩, ⟨9, "heart"⟩, ⟨5, "spade"⟩, ⟨11, "heart"⟩, ⟨4, "spade"⟩,
            ⟨10, "heart"⟩],
          { first := [⟨3, "spade"⟩], second := [⟨8, "heart"⟩] }) ∧
      War.PlayARound List.reverse 5 War.shortWarHands =
        .ok { first := [],
              second := [⟨8, "heart"⟩, ⟨3, "spade"⟩, ⟨10, "heart"⟩, ⟨4, "spade"⟩,
                ⟨11, "heart"⟩, ⟨5, "spade"⟩, ⟨9, "heart"⟩, ⟨9, "spade"⟩] } := by
  decide

/-- C27 (amended): when the top cards `a` and `b` have equal rank, they are set
aside and `GoToWar` takes the same number `k` of cards from the top of each of
the hands `f` and `s` that remain, where `k` is the smaller of 3 and one less
than the smaller hand, so that `k` is 3 exactly when both hands hold at least 4
cards; the round goes on with the stack grown by the two tied cards and the
`2 * k` cards taken, and the winner of the following comparison gets that whole
stack and the two cards compared. -/
theorem War_tie_chain (shuffle : List StandardPlayingCard → List StandardPlayingCard)
    (fuel : Nat) (tie : Bool) (stack f s : List StandardPlayingCard)
    (a b : StandardPlayingCard) (hab : GetRank a = GetRank b) :
    ∃ r1 b1 r2 b2 burned, f = r1 ++ b1 ∧ s = r2 ++ b2 ∧
      b1.length = min 3 (min f.length s.length - 1) ∧ b2.length = b1.length ∧
      (b1.length = 3 ↔ 4 ≤ f.length ∧ 4 ≤ s.length) ∧
      burned.Perm (b1 ++ b2) ∧
      War.GoToWar (stack ++ [a, b]) { first := f, second := s } =
        .ok (stack ++ [a, b] ++ burned, { first := r1, second := r2 }) ∧
      War.PlayARound.loop shuffle (fuel + 1) tie stack
          { first := f ++ [a], second := s ++ [b] } =
        War.PlayARound.loop shuffle fuel true (stack ++ [a, b] ++ burned)
          { first := r1, second := r2 } ∧
      ∀ r1' a' r2' b', r1 = r1' ++ [a'] → r2 = r2' ++ [b'] →
        (War.PlayARound.branch a' b' = .playerWon →
          War.PlayARound.loop shuffle (fuel + 2) tie stack
              { first := f ++ [a], second := s ++ [b] } =
            .ok { first := r1',
                  second := shuffle (stack ++ [a, b] ++ burned ++ [a', b']) ++ r2' }) ∧
        (War.PlayARound.branch a' b' = .opponentWon →
          War.PlayARound.loop shuffle (fuel + 2) tie stack
              { first := f ++ [a], second := s ++ [b] } =
            .ok { first := shuffle (stack ++ [a, b] ++ burned ++ [a', b']) ++ r1',
                  second := r2' }) := by
  obtain ⟨r1, b1, r2, b2, burned, hf, hs, hl1, hl2, hp, hrun⟩ :=
    War_GoToWar_loop_spec 3 (stack ++ [a, b]) { first := f, second := s }
  simp only at hf hs hl1 hl2
  have hbr := War_branch_tie_of_eq a b hab
  have hstep : ∀ fuel', War.PlayARound.loop shuffle (fuel' + 1) tie stack
      { first := f ++ [a], second := s ++ [b] } =
      War.PlayARound.loop shuffle fuel' true (stack ++ [a, b] ++ burned)
        { first := r1, second := r2 } := by
    intro fuel'
    rw [War_PlayARound_loop_step, hbr]
    unfold War.GoToWar
    rw [hrun]
    rfl
  refine ⟨r1, b1, r2, b2, burned, hf, hs, hl1, by rw [hl1, hl2], ?_, hp, hrun, hstep fuel, ?_⟩
  · rw [hl1]; omega
  · intro r1' a' r2' b' e1 e2
    rw [hstep (fuel + 1), e1, e2, War_PlayARound_loop_step]
    constructor
    · intro h; rw [h]
    · intro h; rw [h]

theorem War_tie_chain_witness :
    ∃ r1 b1 r2 b2 burned : List StandardPlayingCard,
      ([⟨3, "spade"⟩, ⟨4, "spade"⟩, ⟨5, "spade"⟩, ⟨6, "spade"⟩, ⟨7, "spade"⟩] :
          List StandardPlayingCard) = r1 ++ b1 ∧
      ([⟨2, "heart"⟩, ⟨8, "heart"⟩, ⟨10, "heart"⟩, ⟨11, "heart"⟩, ⟨12, "heart"⟩] :
          List StandardPlayingCard) = r2 ++ b2 ∧
      b1.length = 3 ∧ b2.length = 3 ∧ burned.Perm (b1 ++ b2) ∧
      War.PlayARound.loop List.reverse (0 + 1) false []
          { first := [⟨3, "spade"⟩, ⟨4, "spade"⟩, ⟨5, "spade"⟩, ⟨6, "spade"⟩,
              ⟨7, "spade"⟩] ++ [⟨9, "spade"⟩],
            second := [⟨2, "heart"⟩, ⟨8, "heart"⟩, ⟨10, "heart"⟩, ⟨11, "heart"⟩,
              ⟨12, "heart"⟩] ++ [⟨9, "heart"⟩] } =
        War.PlayARound.loop List.reverse 0 true ([] ++ [⟨9, "spade"⟩, ⟨9, "heart"⟩] ++ burned)
          { first := r1, second := r2 } :=
  match War_tie_chain List.reverse 0 false []
      [⟨3, "spade"⟩, ⟨4, "spade"⟩, ⟨5, "spade"⟩, ⟨6, "spade"⟩, ⟨7, "spade"⟩]
      [⟨2, "heart"⟩, ⟨8, "heart"⟩, ⟨10, "heart"⟩, ⟨11, "heart"⟩, ⟨12, "heart"⟩]
      ⟨9, "spade"⟩ ⟨9, "heart"⟩ (by decide) with
  | ⟨r1, b1, r2, b2, burned, hf, hs, _, hl2, hk, hp, _, hloop, _⟩ =>
    ⟨r1, b1, r2, b2, burned, hf, hs, hk.mpr (by decide), hl2.trans (hk.mpr (by decide)), hp,
      hloop⟩

/-! ## War: a tie on the last card of a hand -/

/-- A streak of rounds the player wins: the cards `fsr` of the opponent and
`ssr` of the player are listed in the order in which they are played. The
cards won go in front of the hand of the player, below the card `p0`. -/
theorem War_auto_streak
    (shuffles : Nat → List StandardPlayingCard → List StandardPlayingCard) (fuel : Nat)
    (o0 p0 : StandardPlayingCard) :
    ∀ (fsr ssr : List StandardPlayingCard), fsr.length = ssr.length →
      (∀ q ∈ fsr.zip ssr, War.PlayARound.branch q.1 q.2 = .playerWon) →
      ∀ (junk : List StandardPlayingCard) (n count : Nat), ∃ junk',
        War.PlayAAutoGame.loop shuffles (fuel + 1) (n + fsr.length) count
            { first := o0 :: fsr.reverse, second := junk ++ p0 :: ssr.reverse } =
          War.PlayAAutoGame.loop shuffles (fuel + 1) n (count + fsr.length)
            { first := [o0], second := junk' ++ [p0] } := by
  intro fsr
  induction fsr with
  | nil =>
    intro ssr hl _ junk n count
    have : ssr = [] := List.length_eq_zero.mp hl.symm
    subst this
    exact ⟨junk, rfl⟩
  | cons x fsr ih =>
    intro ssr hl hwin junk n count
    cases ssr with
    | nil => simp at hl
    | cons y ssr =>
      have hxy : War.PlayARound.branch x y = .playerWon :=
        hwin (x, y) (by simp)
      have hrest : ∀ q ∈ fsr.zip ssr, War.PlayARound.branch q.1 q.2 = .playerWon :=
        fun q hq => hwin q (by simp [hq])
      have hl' : fsr.length = ssr.length := by simpa using hl
      obtain ⟨junk', hj⟩ := ih ssr hl' hrest (shuffles count ([] ++ [x, y]) ++ junk) n
        (count + 1)
      refine ⟨junk', ?_⟩
      have e1 : o0 :: (x :: fsr).reverse = (o0 :: fsr.reverse) ++ [x] := by simp
      have e2 : junk ++ p0 :: (y :: ssr).reverse = (junk ++ p0 :: ssr.reverse) ++ [y] := by
        simp
      have e3 : n + (x :: fsr).length = (n + fsr.length) + 1 := by simp; omega
      have e4 : count + (x :: fsr).length = count + 1 + fsr.length := by simp; omega
      rw [e1, e2, e3, e4, War.PlayAAutoGame.loop]
      rw [if_pos (by simp)]
      unfold War.PlayARound
      rw [War_PlayARound_loop_step, hxy]
      simp only [except_bind_ok]
      rw [← List.append_assoc]
      exact hj

theorem War_streakDeck_perm :
    War.streakDeck.Perm (StandardDeck.fresh StandardPlayingCard) := by
  decide

theorem War_Deal_streakDeck :
    War.Deal (fun _ => War.streakDeck) =
      .ok { first := War.streakFirst, second := War.streakSecond } := by
  decide

/-- The automatic game on the hands dealt from `War.streakDeck` ends in a call of
`back()` on the empty hand of the opponent, however the cards won are
shuffled. -/
theorem War_streak_game
    (shuffles : Nat → List StandardPlayingCard → List StandardPlayingCard) (fuel : Nat) :
    War.PlayGame.auto (fun _ => War.streakDeck) shuffles (fuel + 2) = .error .emptyBack := by
  unfold War.PlayGame.auto
  rw [War_Deal_streakDeck]
  simp only
  unfold War.PlayAAutoGame
  have hf : War.streakFirst =
      (⟨8, "spade"⟩ : StandardPlayingCard) :: (War.streakFirst.tail.reverse).reverse := by
    rw [List.reverse_reverse]; rfl
  have hs : War.streakSecond =
      [] ++ (⟨8, "diamond"⟩ : StandardPlayingCard) ::
        (War.streakSecond.tail.reverse).reverse := by
    rw [List.reverse_reverse]; rfl
  obtain ⟨junk', hj⟩ := War_auto_streak shuffles (fuel + 1) ⟨8, "spade"⟩ ⟨8, "diamond"⟩
    War.streakFirst.tail.reverse War.streakSecond.tail.reverse (by decide) (by decide)
    [] 975 0
  have h25 : War.streakFirst.tail.reverse.length = 25 := by decide
  rw [h25] at hj
  rw [hf, hs]
  have e : (1000 : Nat) = 975 + 25 := rfl
  rw [e, hj, War.PlayAAutoGame.loop, if_pos (by simp)]
  unfold War.PlayARound
  have ht := War_tie_on_last_card_faults (shuffles (0 + 25)) fuel false [] [] junk'
    ⟨8, "spade"⟩ ⟨8, "diamond"⟩ (by decide) (Or.inl rfl)
  rw [List.nil_append] at ht
  rw [ht]
  rfl

/-- C28 (code bug): a tie on the last card of a hand does not end the round. On
the deal `War.streakDeck`, a permutation of the 52 cards, the player wins 25
rounds of the automatic game, the last card of the opponent then ties with the
top card of the player, both are set aside, `GoToWar` takes no card, and the
next pass of `PlayARound` calls `back()` on the empty hand of the opponent:
the game ends in undefined behaviour however the cards won are shuffled and
whatever the fuel. -/
theorem War_tie_on_last_card_reads_empty_hand
    (shuffles : Nat → List StandardPlayingCard → List StandardPlayingCard) (fuel : Nat) :
    War.streakDeck.Perm (StandardDeck.fresh StandardPlayingCard) ∧
      War.Deal (fun _ => War.streakDeck) =
        .ok { first := War.streakFirst, second := War.streakSecond } ∧
      War.PlayARound.loop (shuffles 0) (fuel + 2) false []
          { first := [⟨8, "spade"⟩], second := [⟨2, "heart"⟩, ⟨8, "diamond"⟩] } =
        .error .emptyBack ∧
      War.PlayGame.auto (fun _ => War.streakDeck) shuffles (fuel + 2) = .error .emptyBack :=
  ⟨War_streakDeck_perm, War_Deal_streakDeck,
    War_tie_on_last_card_faults (shuffles 0) fuel false [] [] [⟨2, "heart"⟩]
      ⟨8, "spade"⟩ ⟨8, "diamond"⟩ (by decide) (Or.inl rfl),
    War_streak_game shuffles fuel⟩

/-! ## Polar cards: the flip -/

/-- A string that is not a suit name differs from every valid suit. -/
theorem ne_of_invalid_suit {u stack : String} (hu : ValidSuit u) (h : ¬ ValidSuit stack) :
    u ≠ stack := fun e => h (e ▸ hu)

theorem Freecell_MoveBoardToStack_invalid (s : Freecell) (p : Nat) (stack : String)
    (aut : Bool) (c : StandardPlayingCard) (h : ¬ ValidSuit stack)
    (hc : backAt s.board (szSub p 1) = .ok c) (hu : ValidSuit (GetSuit c)) :
    Freecell.MoveBoardToStack.test s p stack = .ok false ∧
      Freecell.MoveBoardToStack s p stack aut = .ok s := by
  have ht : Freecell.MoveBoardToStack.test s p stack = .ok false := by
    simp only [Freecell.MoveBoardToStack.test, hc, except_bind_ok,
      decide_eq_false (ne_of_invalid_suit hu h), sAnd_false]
  exact ⟨ht, by simp only [Freecell.MoveBoardToStack, ht]⟩

theorem Freecell_MoveFreeToStack_invalid (s : Freecell) (stack : String) (index : Nat)
    (aut : Bool) (h : ¬ ValidSuit stack) (hu : ∀ c ∈ s.free, ValidSuit (GetSuit c)) :
    Freecell.MoveFreeToStack.test s stack index = .ok false ∧
      Freecell.MoveFreeToStack s stack index aut = .ok s := by
  have ht : Freecell.MoveFreeToStack.test s stack index = .ok false := by
    unfold Freecell.MoveFreeToStack.test
    cases h1 : !s.free.isEmpty
    · rfl
    · rw [sAnd_true]
      by_cases h2 : 1 ≤ index
      · rw [decide_eq_true h2, sAnd_true]
        by_cases h3 : index ≤ s.free.length
        · rw [decide_eq_true h3, sAnd_true]
          cases hv : vecAt s.free (szSub index 1) with
          | error e =>
            exfalso
            have hlt : szSub index 1 < s.free.length := by
              unfold szSub
              rw [SIZE_MOD_eq]
              omega
            unfold vecAt at hv
            rw [List.getElem?_eq_getElem hlt] at hv
            cases hv
          | ok c =>
            have hmem : c ∈ s.free := List.getElem?_mem (vecAt_ok_iff.mp hv)
            simp only [except_bind_ok, except_pure,
              decide_eq_false (ne_of_invalid_suit (hu c hmem) h), sAnd_false]
        · rw [decide_eq_false h3, sAnd_false]
      · rw [decide_eq_false h2, sAnd_false]
  exact ⟨ht, by simp only [Freecell.MoveFreeToStack, ht]⟩

theorem Klondike_MoveFreeToStack_invalid (s : Klondike) (stack : String) (aut : Bool)
    (c : PolarStandardPlayingCard) (h : ¬ ValidSuit stack)
    (hc : s.free.getLast? = some c) (hu : ValidSuit (GetSuit c)) :
    Klondike.MoveFreeToStack.test s stack = .ok false ∧
      Klondike.MoveFreeToStack s stack aut = .ok s := by
  have ht : Klondike.MoveFreeToStack.test s stack = .ok false := by
    simp only [Klondike.MoveFreeToStack.test, vecBack_eq_ok hc, except_bind_ok, except_pure,
      decide_eq_false (ne_of_invalid_suit hu h), sAnd_false]
    cases GetFaceUp c <;> rfl
  exact ⟨ht, by simp only [Klondike.MoveFreeToStack, ht]⟩

/-- C40: for a string `stack` that is not one of the four suit names,
`GetStackSuit` gives the sentinel `(size_t)-1`, and Freecell `MoveBoardToStack`
on a column with a top card of a valid suit, Freecell `MoveFreeToStack` on free
cells that hold cards of valid suits, and Klondike `MoveFreeToStack` on a waste
pile with a top card of a valid suit find their test false at the comparison of
the suits and leave the state unchanged, whatever the foundations are: they
are not indexed. -/
theorem invalid_suit_rejected (stack : String) (h : ¬ ValidSuit stack) :
    Solitaire.GetStackSuit stack = SIZE_MOD - 1 ∧
    (∀ (s : Freecell) (p : Nat) (aut : Bool) (c : StandardPlayingCard),
      backAt s.board (szSub p 1) = .ok c → ValidSuit (GetSuit c) →
      Freecell.MoveBoardToStack.test s p stack = .ok false ∧
        Freecell.MoveBoardToStack s p stack aut = .ok s) ∧
    (∀ (s : Freecell) (index : Nat) (aut : Bool), (∀ c ∈ s.free, ValidSuit (GetSuit c)) →
      Freecell.MoveFreeToStack.test s stack index = .ok false ∧
        Freecell.MoveFreeToStack s stack index aut = .ok s) ∧
    (∀ (s : Klondike) (aut : Bool) (c : PolarStandardPlayingCard),
      s.free.getLast? = some c → ValidSuit (GetSuit c) →
      Klondike.MoveFreeToStack.test s stack = .ok false ∧
        Klondike.MoveFreeToStack s stack aut = .ok s) := by
  refine ⟨?_, fun s p aut c hc hu => Freecell_MoveBoardToStack_invalid s p stack aut c h hc hu,
    fun s index aut hu => Freecell_MoveFreeToStack_invalid s stack index aut h hu,
    fun s aut c hc hu => Klondike_MoveFreeToStack_invalid s stack aut c h hc hu⟩
  simp only [ValidSuit, not_or] at h
  simp [Solitaire.GetStackSuit, h.1, h.2.1, h.2.2.1, h.2.2.2]

/-- C40 at concrete positions, with the string "hearts": the two of hearts on
column 1 of `foundationState`, the free cells of `mixedFreecell`, whose second
card is the ace of hearts, and the queen of hearts on the waste pile of
`wasteStateK` stay where they are, although the foundations of these positions
have no index `(size_t)-1`. -/
theorem invalid_suit_rejected_witness :
    Solitaire.GetStackSuit "hearts" = SIZE_MOD - 1 ∧
    foundationState.stacks_.length = 4 ∧
    Freecell.MoveBoardToStack foundationState 1 "hearts" false = .ok foundationState ∧
    Freecell.MoveFreeToStack mixedFreecell "hearts" 2 false = .ok mixedFreecell ∧
    Klondike.MoveFreeToStack wasteStateK "hearts" false = .ok wasteStateK :=
  ⟨(invalid_suit_rejected "hearts" (by decide)).1, by decide,
    ((invalid_suit_rejected "hearts" (by decide)).2.1 foundationState 1 false ⟨2, "heart"⟩
      (by decide) (by decide)).2,
    ((invalid_suit_rejected "hearts" (by decide)).2.2.1 mixedFreecell 2 false
      (by decide)).2,
    ((invalid_suit_rejected "hearts" (by decide)).2.2.2 wasteStateK false
      ⟨⟨12, "heart"⟩, true⟩ (by decide) (by decide)).2⟩

/-! ## Freecell: a foundation card to a column out of bounds -/

/-- The test of Freecell `MoveStackToBoard` for a destination outside [1,8]: false
without a look at the board when the foundation is empty; otherwise the column
`board[pile_to - 1]` is read first. -/
theorem Freecell_MoveStackToBoard_test_out (s : Freecell) (pile_to : Nat) (stack : String)
    (st : List StandardPlayingCard) (hout : ¬ (1 ≤ pile_to ∧ pile_to ≤ 8))
    (hst : s.stacks_[Solitaire.GetStackSuit stack]? = some st) :
    Freecell.MoveStackToBoard.test s pile_to stack =
      if st = [] then .ok false
      else if szSub pile_to 1 < s.board.length then .ok false else .error .outOfRange := by
  have hb : Freecell.CheckPileBounds pile_to = false := by
    unfold Freecell.CheckPileBounds
    by_cases h1 : 1 ≤ pile_to
    · have h8 : ¬ pile_to ≤ 8 := fun h => hout ⟨h1, h⟩
      simp [h8]
    · simp [h1]
  unfold Freecell.MoveStackToBoard.test
  simp only [emptyAt_eq_ok hst, sNot_ok, hb]
  by_cases he : st = []
  · subst he
    simp
  · have hne : st.isEmpty = false := by
      cases st with
      | nil => exact absurd rfl he
      | cons a l => rfl
    rw [if_neg he, hne]
    simp only [Bool.not_false, sAnd_true]
    by_cases hlt : szSub pile_to 1 < s.board.length
    · rw [if_pos hlt, emptyAt_eq_ok (List.getElem?_eq_getElem hlt)]
      cases (s.board[szSub pile_to 1]).isEmpty <;> rfl
    · rw [if_neg hlt]
      unfold emptyAt
      rw [vecAt_eq_error (by omega)]
      rfl

/-- C34, a defect of the code: the bounds check of `MoveStackToBoard` stands after
the first access to `board[pile_to - 1]` and so does not guard it. In the won
position, which a game reaches, the foundations are not empty, the
destinations 0 and 9 fail `CheckPileBounds`, and `MoveStackToBoard` with these
destinations reads the board of eight columns outside its bounds instead of
rejecting the move. -/
theorem Freecell_MoveStackToBoard_reads_before_bounds :
    Freecell.Reachable wonFreecell ∧ wonFreecell.board.length = 8 ∧
    Freecell.CheckPileBounds 0 = false ∧ Freecell.CheckPileBounds 9 = false ∧
    Freecell.MoveStackToBoard wonFreecell 0 "spade" = .error .outOfRange ∧
    Freecell.MoveStackToBoard wonFreecell 9 "spade" = .error .outOfRange :=
  ⟨wonFreecell_reachable, by decide, by decide, by decide, by decide, by decide⟩

/-- The outcomes of Freecell `MoveStackToBoard` for a destination index outside
[1,8]: the state is returned unchanged when the foundation is empty, or when
the board has a column `pile_to - 1`; on a board of eight columns with a
foundation that is not empty the call reads outside the board. -/
theorem Freecell_MoveStackToBoard_out_of_bounds (s : Freecell) (pile_to : Nat)
    (stack : String) (st : List StandardPlayingCard)
    (hout : ¬ (1 ≤ pile_to ∧ pile_to ≤ 8))
    (hst : s.stacks_[Solitaire.GetStackSuit stack]? = some st) :
    (st = [] → Freecell.MoveStackToBoard s pile_to stack = .ok s) ∧
    (st ≠ [] → szSub pile_to 1 < s.board.length →
      Freecell.MoveStackToBoard s pile_to stack = .ok s) ∧
    (st ≠ [] → s.board.length ≤ szSub pile_to 1 →
      Freecell.MoveStackToBoard s pile_to stack = .error .outOfRange) ∧
    (pile_to < SIZE_MOD → s.board.length = 8 → s.board.length ≤ szSub pile_to 1) ∧
    ∀ s', Freecell.MoveStackToBoard s pile_to stack = .ok s' → s' = s := by
  have ht := Freecell_MoveStackToBoard_test_out s pile_to stack st hout hst
  refine ⟨fun he => ?_, fun he hlt => ?_, fun he hge => ?_, fun hsz h8 => ?_, fun s' h => ?_⟩
  · rw [if_pos he] at ht
    simp only [Freecell.MoveStackToBoard, ht]
  · rw [if_neg he, if_pos hlt] at ht
    simp only [Freecell.MoveStackToBoard, ht]
  · rw [if_neg he, if_neg (by omega)] at ht
    simp only [Freecell.MoveStackToBoard, ht]
  · rw [h8]
    unfold szSub
    rw [SIZE_MOD_eq] at hsz ⊢
    omega
  · unfold Freecell.MoveStackToBoard at h
    rw [ht] at h
    by_cases he : st = []
    · rw [if_pos he] at h
      simp only [Except.ok.injEq] at h
      exact h.symm
    · rw [if_neg he] at h
      by_cases hlt : szSub pile_to 1 < s.board.length
      · rw [if_pos hlt] at h
        simp only [Except.ok.injEq] at h
        exact h.symm
      · rw [if_neg hlt] at h
        cases h

/-! ## The cards of a game -/

/-- A list in which no value occurs twice has no duplicates. -/
theorem nodup_of_count_le_one {α : Type} [BEq α] [LawfulBEq α] (l : List α)
    (h : ∀ a, l.count a ≤ 1) : l.Nodup := by
  induction l with
  | nil => exact List.nodup_nil
  | cons x l ih =>
    rw [List.nodup_cons]
    constructor
    · intro hx
      have h1 := h x
      rw [List.count_cons_self] at h1
      have h2 : 0 < l.count x := List.count_pos_iff.mpr hx
      omega
    · apply ih
      intro a
      have h1 := h a
      rw [List.count_cons] at h1
      omega

/-- A pile that holds each of the 52 pairs at most once, and nothing else, has at
most 52 cards. -/
theorem pile_length_le_52 {T : Type} [PlayingCard T] (p : List T)
    (h : ∀ a, countIn a p ≤ if a ∈ allPairs then 1 else 0) : p.length ≤ 52 := by
  have hnd : (p.map cardId).Nodup := by
    apply nodup_of_count_le_one
    intro a
    have := h a
    unfold countIn at this
    split at this <;> omega
  have hsub : p.map cardId ⊆ allPairs := by
    intro a ha
    by_contra hn
    have h1 := h a
    rw [if_neg hn] at h1
    have h2 : 0 < (p.map cardId).count a := List.count_pos_iff.mpr ha
    unfold countIn at h1
    omega
  have hlen := (List.Nodup.subperm hnd hsub).length_le
  have h52 : allPairs.length = 52 := by decide
  rw [List.length_map, h52] at hlen
  exact hlen

/-- The ranks of a card of the standard deck, its predecessor and its successor
are `int` values. -/
theorem DeckCard_int {T : Type} [PlayingCard T] (c : T) (h : DeckCard c) :
    IsInt32 (GetRank c) ∧ IsInt32 (GetRank c - 1) ∧ IsInt32 (GetRank c + 1) :=
  IsInt32_of_rank h.1.1 h.1.2

/-- A state that holds each of the 52 pairs once, and nothing else, holds only
cards of the standard deck, and none of its columns has more than 52 cards. -/
theorem cards_of_count {T : Type} [PlayingCard T] (s : Solitaire T)
    (hcount : ∀ a, countCards a s = if a ∈ allPairs then 1 else 0) :
    (∀ col ∈ s.board, col.length ≤ 52) ∧
    (∀ c ∈ s.free, DeckCard c) ∧ (∀ col ∈ s.board, ∀ c ∈ col, DeckCard c) ∧
    ∀ st ∈ s.stacks_, ∀ c ∈ st, DeckCard c := by
  have key : ∀ c : T, 1 ≤ countCards (cardId c) s → DeckCard c := by
    intro c hc
    rw [hcount] at hc
    by_cases hm : cardId c ∈ allPairs
    · exact ⟨rank_of_mem_allPairs _ hm, suit_of_mem_allPairs _ hm⟩
    · rw [if_neg hm] at hc; omega
  refine ⟨?_, ?_, ?_, ?_⟩
  · intro col hcol
    apply pile_length_le_52
    intro a
    have h1 := countIn_le_countInPiles a s.board col hcol
    have h2 := hcount a
    simp only [countCards] at h2
    omega
  · intro c hc
    apply key
    have := countIn_pos s.free c hc
    simp only [countCards]
    omega
  · intro col hcol c hc
    apply key
    have h1 := countIn_pos col c hc
    have h2 := countIn_le_countInPiles (cardId c) s.board col hcol
    simp only [countCards]
    omega
  · intro st hst c hc
    apply key
    have h1 := countIn_pos st c hc
    have h2 := countIn_le_countInPiles (cardId c) s.stacks_ st hst
    simp only [countCards]
    omega

/-! ## The rules of the moves, and the states of a game -/

/-- C2, amended: on a board of eight columns of at most 52 cards each, with at
most four occupied free cells, for arguments such that an index is outside
[1,8], or `amount = 1`, or `1 ≤ amount ≤` size of the source column (the range
the input loop enforces), Freecell `MoveBoardToBoard` moves the run if the move
is legal (indices in [1,8], `from ≠ to`, at least `amount ≥ 1` source cards, a
descending alternating run, an amount within the capacity
`(free_cells_available + 1) × (empties + 1)`, and an empty or fitting
destination), the state then differs from the old one, and in every other case
the state is unchanged. Ranks are `int` values whose successor is an `int`
value, so that the sum `rank + 1` of the source does not overflow. Every state
that a game reaches has such a board, such free cells and such ranks. -/
theorem Freecell_MoveBoardToBoard_iff :
    (∀ (s : Freecell) (pile_from pile_to amount : Nat),
      s.board.length = 8 → s.free.length ≤ 4 → (∀ col ∈ s.board, col.length ≤ 52) →
      (∀ col ∈ s.board, ∀ c ∈ col, IsInt32 (GetRank c) ∧ IsInt32 (GetRank c + 1)) →
      (¬ (1 ≤ pile_from ∧ pile_from ≤ 8) ∨ ¬ (1 ≤ pile_to ∧ pile_to ≤ 8) ∨ amount = 1 ∨
        (1 ≤ amount ∧ amount ≤ (s.board.getD (pile_from - 1) []).length)) →
      (Freecell.LegalBoardToBoard s pile_from pile_to amount →
        Freecell.MoveBoardToBoard s pile_from pile_to amount =
          .ok { s with board := moveRun s.board pile_from pile_to amount } ∧
        ({ s with board := moveRun s.board pile_from pile_to amount } : Freecell) ≠ s) ∧
      (¬ Freecell.LegalBoardToBoard s pile_from pile_to amount →
        Freecell.MoveBoardToBoard s pile_from pile_to amount = .ok s)) ∧
    (∀ s : Freecell, Freecell.Reachable s →
      s.board.length = 8 ∧ s.free.length ≤ 4 ∧ (∀ col ∈ s.board, col.length ≤ 52) ∧
        ∀ col ∈ s.board, ∀ c ∈ col, IsInt32 (GetRank c) ∧ IsInt32 (GetRank c + 1)) :=
  ⟨Freecell_MoveBoardToBoard_cases,
    fun s h => ⟨Freecell_Reachable_board_length s h, Freecell_Reachable_free s h,
      (cards_of_count s (Freecell_Reachable_count s h)).1, fun col hcol c hc =>
        ⟨(DeckCard_int c
            ((cards_of_count s (Freecell_Reachable_count s h)).2.2.1 col hcol c hc)).1,
          (DeckCard_int c
            ((cards_of_count s (Freecell_Reachable_count s h)).2.2.1 col hcol c hc)).2.2⟩⟩⟩

/-- C2 at concrete positions: from `twoEmptyState` the nine of clubs of column 1
may go to the empty column 3, and may not go onto the two of spades of
column 2; in `fullCellsState`, where the capacity is 3, the run of three of
column 1 is not legal on the nine of clubs (its bottom card is a seven, not an
eight) and the run of four is beyond the capacity, so neither is moved. -/
theorem Freecell_MoveBoardToBoard_iff_witness :
    Freecell.MoveBoardToBoard twoEmptyState 1 3 1 =
      .ok { twoEmptyState with board := moveRun twoEmptyState.board 1 3 1 } ∧
    Freecell.MoveBoardToBoard twoEmptyState 1 2 1 = .ok twoEmptyState ∧
    Freecell.MoveBoardToBoard fullCellsState 1 2 4 = .ok fullCellsState :=
  ⟨((Freecell_MoveBoardToBoard_iff.1 twoEmptyState 1 3 1 (by decide) (by decide) (by decide)
      (by decide) (by decide)).1 (by
        refine ⟨by decide, by decide, by decide, by decide, by decide, by decide, by decide, ?_⟩
        exact Or.inl (by decide))).1,
   (Freecell_MoveBoardToBoard_iff.1 twoEmptyState 1 2 1 (by decide) (by decide) (by decide)
      (by decide) (by decide)).2 (by
        intro h
        rcases h.2.2.2.2.2.2.2 with h0 | ⟨c, d, hc, hd, hcd⟩
        · revert h0; decide
        · have h1 : c = ⟨9, "club"⟩ := by
            have : (some (⟨9, "club"⟩ : StandardPlayingCard)) = some c := hc
            exact (Option.some.inj this).symm
          have h2 : d = ⟨2, "spade"⟩ := by
            have : (some (⟨2, "spade"⟩ : StandardPlayingCard)) = some d := hd
            exact (Option.some.inj this).symm
          subst h1 h2
          revert hcd; decide),
   (Freecell_MoveBoardToBoard_iff.1 fullCellsState 1 2 4 (by decide) (by decide) (by decide)
      (by decide) (by decide)).2 (by
        intro h
        have h7 := h.2.2.2.2.2.2.1
        revert h7
        decide)⟩

/-- C5: for a non-empty board column `p` with top card `c` and a suit name
`stack` whose foundation (the pile at index `GetStackSuit(stack)`) is `st`,
`MoveBoardToStack(p, stack)` of Freecell and of Klondike moves `c` onto that
foundation exactly when `c` has suit `stack` and either `st` is empty and `c`
is an ace, or the top rank of `st` is the rank of `c` minus one. On success `c`
leaves the column and becomes the top of the foundation (in Klondike the card
uncovered is turned face-up), and otherwise the state is unchanged. The
source computes `rank - 1` as an `int` when the suit matches and the foundation
is not empty: the rank of `c` is then such that this difference is an `int`
value, which excludes only the least `int`. In every state that a game of
Freecell or of Klondike reaches there are four foundations and the difference
is an `int` value for every card of the board. -/
theorem MoveBoardToStack_iff :
    (∀ (s : Freecell) (p : Nat) (stack : String) (aut : Bool)
        (col : List StandardPlayingCard) (c : StandardPlayingCard)
        (st : List StandardPlayingCard),
      1 ≤ p → p < SIZE_MOD → s.board[p - 1]? = some (col ++ [c]) →
      s.stacks_[Solitaire.GetStackSuit stack]? = some st →
      (GetSuit c = stack → st ≠ [] → IsInt32 (GetRank c - 1)) →
      (FitsFoundation c stack st →
        Freecell.MoveBoardToStack s p stack aut = .ok
          { s with stacks_ := s.stacks_.set (Solitaire.GetStackSuit stack) (st ++ [c]),
                   board := s.board.set (p - 1) col }) ∧
      (¬ FitsFoundation c stack st → Freecell.MoveBoardToStack s p stack aut = .ok s)) ∧
    (∀ (s : Klondike) (p : Nat) (stack : String) (aut : Bool)
        (col : List PolarStandardPlayingCard) (c : PolarStandardPlayingCard)
        (st : List PolarStandardPlayingCard),
      1 ≤ p → p < SIZE_MOD → s.board[p - 1]? = some (col ++ [c]) →
      s.stacks_[Solitaire.GetStackSuit stack]? = some st →
      (GetSuit c = stack → st ≠ [] → IsInt32 (GetRank c - 1)) →
      (FitsFoundation c stack st →
        Klondike.MoveBoardToStack s p stack aut = .ok
          { s with stacks_ := s.stacks_.set (Solitaire.GetStackSuit stack) (st ++ [c]),
                   board := s.board.set (p - 1) (flipTop col) }) ∧
      (¬ FitsFoundation c stack st → Klondike.MoveBoardToStack s p stack aut = .ok s)) ∧
    (∀ s : Freecell, Freecell.Reachable s →
      s.stacks_.length = 4 ∧ ∀ col ∈ s.board, ∀ c ∈ col, IsInt32 (GetRank c - 1)) ∧
    (∀ (d : Bool) (s : Klondike), Klondike.Reachable d s →
      s.stacks_.length = 4 ∧ ∀ col ∈ s.board, ∀ c ∈ col, IsInt32 (GetRank c - 1)) :=
  ⟨Freecell_MoveBoardToStack_cases, Klondike_MoveBoardToStack_cases,
    fun s h => ⟨(Freecell_Reachable_ordered s h).1, fun col hcol c hc =>
      (DeckCard_int c ((cards_of_count s (Freecell_Reachable_count s h)).2.2.1 col hcol c hc)).2.1⟩,
    fun d s h => ⟨(Klondike_Reachable_ordered d s h).1, fun col hcol c hc =>
      (DeckCard_int c
        ((cards_of_count s (Klondike_Reachable_count d s h)).2.2.1 col hcol c hc)).2.1⟩⟩

/-- C5 at concrete positions: from `aceState` the ace of hearts goes to the
empty heart foundation and is not accepted by the spade foundation; from
`aceStateK` the same move also turns the uncovered nine face-up. -/
theorem MoveBoardToStack_iff_witness :
    Freecell.MoveBoardToStack aceState 1 "heart" false = .ok
      { aceState with stacks_ := [[⟨1, "spade"⟩], [⟨1, "heart"⟩], [], []],
                      board := [[⟨9, "club"⟩], [⟨2, "spade"⟩], [], [], [], [], [], []] } ∧
    Freecell.MoveBoardToStack aceState 1 "spade" false = .ok aceState ∧
    Klondike.MoveBoardToStack aceStateK 1 "heart" false = .ok
      { aceStateK with stacks_ := [[], [⟨⟨1, "heart"⟩, true⟩], [], []],
                       board := [[⟨⟨9, "club"⟩, true⟩], [], [], [], [], [], []] } :=
  ⟨(MoveBoardToStack_iff.1 aceState 1 "heart" false [⟨9, "club"⟩] ⟨1, "heart"⟩ []
      (by decide) (by decide) rfl rfl (fun _ _ => by decide)).1 (by decide),
   (MoveBoardToStack_iff.1 aceState 1 "spade" false [⟨9, "club"⟩] ⟨1, "heart"⟩ [⟨1, "spade"⟩]
      (by decide) (by decide) rfl rfl (fun _ _ => by decide)).2 (by decide),
   (MoveBoardToStack_iff.2.1 aceStateK 1 "heart" false [⟨⟨9, "club"⟩, false⟩]
      ⟨⟨1, "heart"⟩, true⟩ [] (by decide) (by decide) rfl rfl (fun _ _ => by decide)).1
      (by decide)⟩

/-- C12: for indices in [1,7] of a board of seven columns and
`1 ≤ amount ≤` size of the source column, Klondike `MoveBoardToBoard` moves
cards exactly when the top `amount` cards of the source form a descending
alternating run, the bottom card of the run is face-up, and either the
destination is non-empty with a top card one rank higher than and of opposite
colour to that bottom card, or the destination is empty and that bottom card is
a king. No capacity test takes part. On success the two columns differ, the run
is moved in its order and the card uncovered is turned face-up; otherwise the
state is unchanged. The ranks of the cards of the source column are `int`
values such that the sum `rank + 1` of the source is an `int` value, which
excludes only the greatest `int`. In every state that a game reaches, in both
draw modes, the board has seven columns of at most 52 cards and the ranks of
their cards are such. -/
theorem Klondike_MoveBoardToBoard_iff :
    (∀ (s : Klondike) (pile_from pile_to amount : Nat),
      s.board.length = 7 → 1 ≤ pile_from ∧ pile_from ≤ 7 → 1 ≤ pile_to ∧ pile_to ≤ 7 →
      1 ≤ amount ∧ amount ≤ (s.board.getD (pile_from - 1) []).length →
      (s.board.getD (pile_from - 1) []).length < SIZE_MOD →
      (∀ c ∈ s.board.getD (pile_from - 1) [], IsInt32 (GetRank c)) →
      (∀ c ∈ s.board.getD (pile_from - 1) [], IsInt32 (GetRank c + 1)) →
      (Klondike.LegalBoardToBoard s pile_from pile_to amount →
        pile_from ≠ pile_to ∧
        Klondike.MoveBoardToBoard s pile_from pile_to amount =
          .ok { s with board := Klondike.movedBoard s.board pile_from pile_to amount } ∧
        ({ s with board := Klondike.movedBoard s.board pile_from pile_to amount } : Klondike) ≠
          s) ∧
      (¬ Klondike.LegalBoardToBoard s pile_from pile_to amount →
        Klondike.MoveBoardToBoard s pile_from pile_to amount = .ok s)) ∧
    (∀ (d : Bool) (s : Klondike), Klondike.Reachable d s →
      s.board.length = 7 ∧ ∀ col ∈ s.board, col.length ≤ 52 ∧
        ∀ c ∈ col, IsInt32 (GetRank c) ∧ IsInt32 (GetRank c + 1)) :=
  ⟨Klondike_MoveBoardToBoard_cases,
    fun d s h => ⟨Klondike_Reachable_board_length d s h, fun col hcol =>
      ⟨(cards_of_count s (Klondike_Reachable_count d s h)).1 col hcol, fun c hc =>
        ⟨(DeckCard_int c
            ((cards_of_count s (Klondike_Reachable_count d s h)).2.2.1 col hcol c hc)).1,
          (DeckCard_int c
            ((cards_of_count s (Klondike_Reachable_count d s h)).2.2.1 col hcol c hc)).2.2⟩⟩⟩⟩

/-- C12 at a concrete position, `flipStateK`: the run of three cards of column 1
goes onto the eight of hearts of column 2; the king of hearts of column 4 goes
to the empty column 3; the four cards of column 1, whose bottom card is
face-down, do not go onto the nine of spades of column 5; the five of clubs
goes neither to the empty column 3 nor onto its own column. -/
theorem Klondike_MoveBoardToBoard_iff_witness :
    Klondike.MoveBoardToBoard flipStateK 1 2 3 = .ok
      { flipStateK with
        board := [[⟨⟨8, "diamond"⟩, true⟩],
          [⟨⟨8, "heart"⟩, true⟩, ⟨⟨7, "spade"⟩, true⟩, ⟨⟨6, "heart"⟩, true⟩,
            ⟨⟨5, "club"⟩, true⟩],
          [], [⟨⟨4, "club"⟩, false⟩, ⟨⟨13, "heart"⟩, true⟩],
          [⟨⟨9, "spade"⟩, true⟩], [⟨⟨2, "diamond"⟩, true⟩], [⟨⟨3, "club"⟩, true⟩]] } ∧
    Klondike.MoveBoardToBoard flipStateK 4 3 1 = .ok
      { flipStateK with
        board := [[⟨⟨8, "diamond"⟩, false⟩, ⟨⟨7, "spade"⟩, true⟩, ⟨⟨6, "heart"⟩, true⟩,
            ⟨⟨5, "club"⟩, true⟩],
          [⟨⟨8, "heart"⟩, true⟩], [⟨⟨13, "heart"⟩, true⟩], [⟨⟨4, "club"⟩, true⟩],
          [⟨⟨9, "spade"⟩, true⟩], [⟨⟨2, "diamond"⟩, true⟩], [⟨⟨3, "club"⟩, true⟩]] } ∧
    Klondike.MoveBoardToBoard flipStateK 1 5 4 = .ok flipStateK ∧
    Klondike.MoveBoardToBoard flipStateK 1 3 1 = .ok flipStateK ∧
    Klondike.MoveBoardToBoard flipStateK 1 1 1 = .ok flipStateK := by
  refine ⟨?_, ?_, ?_, ?_, ?_⟩
  · exact ((Klondike_MoveBoardToBoard_iff.1 flipStateK 1 2 3 (by decide) (by decide) (by decide)
      (by decide) (by decide) (by decide) (by decide)).1
      ⟨by decide, ⟨⟨7, "spade"⟩, true⟩, rfl, rfl,
        Or.inl ⟨⟨⟨8, "heart"⟩, true⟩, rfl, by decide, by decide⟩⟩).2.1.trans (by decide)
  · exact ((Klondike_MoveBoardToBoard_iff.1 flipStateK 4 3 1 (by decide) (by decide) (by decide)
      (by decide) (by decide) (by decide) (by decide)).1
      ⟨by decide, ⟨⟨13, "heart"⟩, true⟩, rfl, rfl, Or.inr ⟨by decide, by decide⟩⟩).2.1.trans
      (by decide)
  · refine (Klondike_MoveBoardToBoard_iff.1 flipStateK 1 5 4 (by decide) (by decide) (by decide)
      (by decide) (by decide) (by decide) (by decide)).2 ?_
    rintro ⟨_, c, hc, hface, _⟩
    have h1 : c = ⟨⟨8, "diamond"⟩, false⟩ := by
      have : (some (⟨⟨8, "diamond"⟩, false⟩ : PolarStandardPlayingCard)) = some c := hc
      exact (Option.some.inj this).symm
    subst h1
    cases hface
  · refine (Klondike_MoveBoardToBoard_iff.1 flipStateK 1 3 1 (by decide) (by decide) (by decide)
      (by decide) (by decide) (by decide) (by decide)).2 ?_
    rintro ⟨_, c, hc, _, ⟨d, hd, _⟩ | ⟨_, hr⟩⟩
    · cases hd
    · have h1 : c = ⟨⟨5, "club"⟩, true⟩ := by
        have : (some (⟨⟨5, "club"⟩, true⟩ : PolarStandardPlayingCard)) = some c := hc
        exact (Option.some.inj this).symm
      subst h1
      revert hr; decide
  · refine (Klondike_MoveBoardToBoard_iff.1 flipStateK 1 1 1 (by decide) (by decide) (by decide)
      (by decide) (by decide) (by decide) (by decide)).2 ?_
    rintro ⟨_, c, hc, _, ⟨d, hd, hr, _⟩ | ⟨h0, _⟩⟩
    · have h1 : c = ⟨⟨5, "club"⟩, true⟩ := by
        have : (some (⟨⟨5, "club"⟩, true⟩ : PolarStandardPlayingCard)) = some c := hc
        exact (Option.some.inj this).symm
      have h2 : d = ⟨⟨5, "club"⟩, true⟩ := by
        have : (some (⟨⟨5, "club"⟩, true⟩ : PolarStandardPlayingCard)) = some d := hd
        exact (Option.some.inj this).symm
      subst h1 h2
      revert hr; decide
    · revert h0; decide

/-- C16: for a destination `pile_to` in [1,8] whose column is `dst`, Freecell
`MoveFreeToBoard(pile_to, index)` moves a card exactly when
`1 ≤ index ≤ free.size()` and either `dst` is empty or the chosen free card has
the opposite colour to, and a rank one less than, the top card of `dst`. On
success the chosen card alone leaves the free cells, the others keeping their
order, and becomes the top of `dst`; otherwise the state is unchanged. The
ranks of the free cards are such that the sum `rank + 1` of the source is an
`int` value, which excludes only the greatest `int`. In every state that a game
reaches the board has eight columns, at most four free cells are occupied and
the ranks of the free cards are such. -/
theorem Freecell_MoveFreeToBoard_iff :
    (∀ (s : Freecell) (pile_to index : Nat) (dst : List StandardPlayingCard),
      1 ≤ pile_to ∧ pile_to ≤ 8 → s.board[pile_to - 1]? = some dst →
      s.free.length < SIZE_MOD →
      (∀ c ∈ s.free, IsInt32 (GetRank c + 1)) →
      (Freecell.LegalFreeToBoard s pile_to index →
        ∃ c, s.free[index - 1]? = some c ∧
          Freecell.MoveFreeToBoard s pile_to index = .ok
            { s with board := s.board.set (pile_to - 1) (dst ++ [c]),
                     free := s.free.eraseIdx (index - 1) } ∧
          ({ s with board := s.board.set (pile_to - 1) (dst ++ [c]),
                    free := s.free.eraseIdx (index - 1) } : Freecell) ≠ s) ∧
      (¬ Freecell.LegalFreeToBoard s pile_to index →
        Freecell.MoveFreeToBoard s pile_to index = .ok s)) ∧
    (∀ s : Freecell, Freecell.Reachable s →
      s.board.length = 8 ∧ s.free.length ≤ 4 ∧ ∀ c ∈ s.free, IsInt32 (GetRank c + 1)) :=
  ⟨fun s pile_to index dst ht hdst hfree hov =>
      Freecell_MoveFreeToBoard_cases s pile_to index dst ht.1 (by rw [SIZE_MOD_eq]; omega) hdst
        hfree (fun c _ hc _ _ => hov c (List.getElem?_mem hc)),
    fun s h => ⟨Freecell_Reachable_board_length s h, Freecell_Reachable_free s h,
      fun c hc =>
        (DeckCard_int c ((cards_of_count s (Freecell_Reachable_count s h)).2.1 c hc)).2.2⟩⟩

/-- C16 at a concrete position: in `blockedState` the queen of spades of free
cell 4 goes onto the king of hearts of column 4, the free cells keeping the
five of clubs, the two of clubs and the three of hearts in that order, and the
two of clubs of free cell 2 does not go onto the nine of clubs of column 2. -/
theorem Freecell_MoveFreeToBoard_iff_witness :
    Freecell.MoveFreeToBoard blockedState 4 4 = .ok
      { blockedState with
        board := [[⟨8, "heart"⟩, ⟨7, "heart"⟩], [⟨9, "club"⟩], [⟨6, "diamond"⟩],
          [⟨13, "heart"⟩, ⟨12, "spade"⟩], [⟨13, "club"⟩], [⟨12, "diamond"⟩], [⟨3, "club"⟩],
          [⟨4, "diamond"⟩]],
        free := [⟨5, "club"⟩, ⟨2, "club"⟩, ⟨3, "heart"⟩] } ∧
    Freecell.MoveFreeToBoard blockedState 2 2 = .ok blockedState := by
  constructor
  · obtain ⟨c, hc, h, _⟩ := (Freecell_MoveFreeToBoard_iff.1 blockedState 4 4 [⟨13, "heart"⟩]
      (by decide) rfl (by decide) (by decide)).1
      ⟨by decide, by decide, Or.inr ⟨⟨12, "spade"⟩, ⟨13, "heart"⟩, rfl, rfl, by decide,
        by decide⟩⟩
    have h1 : c = ⟨12, "spade"⟩ := by
      have : (some (⟨12, "spade"⟩ : StandardPlayingCard)) = some c := hc
      exact (Option.some.inj this).symm
    subst h1
    exact h
  · refine (Freecell_MoveFreeToBoard_iff.1 blockedState 2 2 [⟨9, "club"⟩]
      (by decide) rfl (by decide) (by decide)).2 ?_
    intro h
    rcases h.2.2 with h0 | ⟨c, d, hc, hd, hcd, _⟩
    · revert h0; decide
    · have h1 : c = ⟨2, "club"⟩ := by
        have : (some (⟨2, "club"⟩ : StandardPlayingCard)) = some c := hc
        exact (Option.some.inj this).symm
      have h2 : d = ⟨9, "club"⟩ := by
        have : (some (⟨9, "club"⟩ : StandardPlayingCard)) = some d := hd
        exact (Option.some.inj this).symm
      subst h1 h2
      revert hcd; decide

/-- C18: for a destination `pile_to` in [1,8] whose column is `dst` and a suit
name whose foundation is `st`, Freecell `MoveStackToBoard(pile_to, suit)` moves
the top card of `st` onto `dst` exactly when both piles are non-empty, the top
rank of `dst` is the top rank of `st` plus one, and the two top cards have
opposite colours; otherwise the state is unchanged. The ranks of the cards of
the foundation are such that the sum `rank + 1` of the source is an `int`
value, which excludes only the greatest `int`. In every state that a game
reaches the board has eight columns, there are four foundations and the ranks
of their cards are such. -/
theorem Freecell_MoveStackToBoard_iff :
    (∀ (s : Freecell) (pile_to : Nat) (stack : String) (st dst : List StandardPlayingCard),
      1 ≤ pile_to ∧ pile_to ≤ 8 → s.board[pile_to - 1]? = some dst →
      s.stacks_[Solitaire.GetStackSuit stack]? = some st →
      (∀ t ∈ st, IsInt32 (GetRank t + 1)) →
      (Freecell.LegalStackToBoard st dst →
        ∃ t, st.getLast? = some t ∧
          Freecell.MoveStackToBoard s pile_to stack = .ok
            { s with board := s.board.set (pile_to - 1) (dst ++ [t]),
                     stacks_ := s.stacks_.set (Solitaire.GetStackSuit stack) st.dropLast } ∧
          ({ s with board := s.board.set (pile_to - 1) (dst ++ [t]),
                    stacks_ := s.stacks_.set (Solitaire.GetStackSuit stack) st.dropLast } :
            Freecell) ≠ s) ∧
      (¬ Freecell.LegalStackToBoard st dst →
        Freecell.MoveStackToBoard s pile_to stack = .ok s)) ∧
    (∀ s : Freecell, Freecell.Reachable s →
      s.board.length = 8 ∧ s.stacks_.length = 4 ∧
        ∀ st ∈ s.stacks_, ∀ t ∈ st, IsInt32 (GetRank t + 1)) :=
  ⟨fun s pile_to stack st dst ht hdst hst hov =>
      Freecell_MoveStackToBoard_cases s pile_to stack st dst ht hdst hst
        (fun t ht _ => hov t (List.mem_of_mem_getLast? ht)),
    fun s h => ⟨Freecell_Reachable_board_length s h, (Freecell_Reachable_ordered s h).1,
      fun st hst t ht =>
        (DeckCard_int t
          ((cards_of_count s (Freecell_Reachable_count s h)).2.2.2 st hst t ht)).2.2⟩⟩

/-- C18 at a concrete position: in `foundationState` the ace of spades goes
from its foundation onto the two of hearts of column 1; it goes neither onto
the two of clubs of column 2 (same colour), nor onto the empty column 3, nor
onto the king of hearts of column 4 (rank), and nothing leaves the empty heart
foundation. -/
theorem Freecell_MoveStackToBoard_iff_witness :
    Freecell.MoveStackToBoard foundationState 1 "spade" = .ok
      { foundationState with
        board := [[⟨9, "club"⟩, ⟨2, "heart"⟩, ⟨1, "spade"⟩], [⟨2, "club"⟩], [],
          [⟨13, "heart"⟩], [⟨13, "club"⟩], [⟨12, "diamond"⟩], [⟨3, "club"⟩], [⟨4, "diamond"⟩]],
        stacks_ := [[], [], [], []] } ∧
    Freecell.MoveStackToBoard foundationState 2 "spade" = .ok foundationState ∧
    Freecell.MoveStackToBoard foundationState 3 "spade" = .ok foundationState ∧
    Freecell.MoveStackToBoard foundationState 4 "spade" = .ok foundationState ∧
    Freecell.MoveStackToBoard foundationState 1 "heart" = .ok foundationState := by
  refine ⟨?_, ?_, ?_, ?_, ?_⟩
  · obtain ⟨t, ht, h, _⟩ := (Freecell_MoveStackToBoard_iff.1 foundationState 1 "spade"
      [⟨1, "spade"⟩] [⟨9, "club"⟩, ⟨2, "heart"⟩] (by decide) rfl rfl (by decide)).1
      ⟨⟨1, "spade"⟩, ⟨2, "heart"⟩, rfl, rfl, by decide, by decide⟩
    have h1 : t = ⟨1, "spade"⟩ := by
      have : (some (⟨1, "spade"⟩ : StandardPlayingCard)) = some t := ht
      exact (Option.some.inj this).symm
    subst h1
    exact h
  · refine (Freecell_MoveStackToBoard_iff.1 foundationState 2 "spade"
      [⟨1, "spade"⟩] [⟨2, "club"⟩] (by decide) rfl rfl (by decide)).2 ?_
    rintro ⟨t, d, ht, hd, _, hcd⟩
    have h1 : t = ⟨1, "spade"⟩ := by
      have : (some (⟨1, "spade"⟩ : StandardPlayingCard)) = some t := ht
      exact (Option.some.inj this).symm
    have h2 : d = ⟨2, "club"⟩ := by
      have : (some (⟨2, "club"⟩ : StandardPlayingCard)) = some d := hd
      exact (Option.some.inj this).symm
    subst h1 h2
    revert hcd; decide
  · refine (Freecell_MoveStackToBoard_iff.1 foundationState 3 "spade"
      [⟨1, "spade"⟩] [] (by decide) rfl rfl (by decide)).2 ?_
    rintro ⟨t, d, _, hd, _⟩
    cases hd
  · refine (Freecell_MoveStackToBoard_iff.1 foundationState 4 "spade"
      [⟨1, "spade"⟩] [⟨13, "heart"⟩] (by decide) rfl rfl (by decide)).2 ?_
    rintro ⟨t, d, ht, hd, hr, _⟩
    have h1 : t = ⟨1, "spade"⟩ := by
      have : (some (⟨1, "spade"⟩ : StandardPlayingCard)) = some t := ht
      exact (Option.some.inj this).symm
    have h2 : d = ⟨13, "heart"⟩ := by
      have : (some (⟨13, "heart"⟩ : StandardPlayingCard)) = some d := hd
      exact (Option.some.inj this).symm
    subst h1 h2
    revert hr; decide
  · refine (Freecell_MoveStackToBoard_iff.1 foundationState 1 "heart"
      [] [⟨9, "club"⟩, ⟨2, "heart"⟩] (by decide) rfl rfl (by decide)).2 ?_
    rintro ⟨t, d, ht, _⟩
    cases ht

/-! ## Klondike: a move of a column onto itself -/

/-- A move of a column of Klondike onto itself, when the sums `rank + 1` of the
cards of the column do not overflow. -/
theorem Klondike_self_move_cases (s : Klondike) (p amount : Nat)
    (hboard : s.board.length = 7) (hp : 1 ≤ p ∧ p ≤ 7)
    (ha : 1 ≤ amount ∧ amount ≤ (s.board.getD (p - 1) []).length)
    (hlen : (s.board.getD (p - 1) []).length < SIZE_MOD)
    (hint : ∀ c ∈ s.board.getD (p - 1) [], IsInt32 (GetRank c))
    (hov : ∀ c ∈ s.board.getD (p - 1) [], IsInt32 (GetRank c + 1)) :
    ¬ Klondike.LegalBoardToBoard s p p amount ∧
      Klondike.MoveBoardToBoard s p p amount = .ok s := by
  have h := Klondike_MoveBoardToBoard_cases s p p amount hboard hp hp ha hlen hint hov
  have hn : ¬ Klondike.LegalBoardToBoard s p p amount := fun hl => (h.1 hl).1 rfl
  exact ⟨hn, h.2 hn⟩

/-- A move of a column onto itself in a state that a game of Klondike reaches. -/
theorem Klondike_self_move_reachable (d : Bool) (s : Klondike) (h : Klondike.Reachable d s)
    (p amount : Nat) (hp : 1 ≤ p ∧ p ≤ 7)
    (ha : 1 ≤ amount ∧ amount ≤ (s.board.getD (p - 1) []).length) :
    ¬ Klondike.LegalBoardToBoard s p p amount ∧
      Klondike.MoveBoardToBoard s p p amount = .ok s := by
  have hboard := Klondike_Reachable_board_length d s h
  obtain ⟨hlen, _, hbc, _⟩ := cards_of_count s (Klondike_Reachable_count d s h)
  have hlt : p - 1 < s.board.length := by omega
  have hmem : s.board.getD (p - 1) [] ∈ s.board := by
    rw [List.getD_eq_getElem?_getD, List.getElem?_eq_getElem hlt]
    exact List.getElem_mem hlt
  refine Klondike_self_move_cases s p amount hboard hp ha ?_ ?_ ?_
  · have := hlen _ hmem
    rw [SIZE_MOD_eq]; omega
  · intro c hc
    exact (DeckCard_int c (hbc _ hmem c hc)).1
  · intro c hc
    exact (DeckCard_int c (hbc _ hmem c hc)).2.2

/-- C37: Klondike `MoveBoardToBoard` does not compare the two indices, yet for
every column `p` in [1,7] and every amount from 1 to the size of that column,
`MoveBoardToBoard(p, p, amount)` returns the state unchanged: the top card of
the column would have to be one rank above the bottom card of the run that
ends in it. This holds in every state that a game reaches, in both draw modes,
and on every board of seven columns whatever the colours and the faces of the
cards, and whatever their ranks among the `int` values for which the sum
`rank + 1` of the source is an `int` value, that is all of them but the
greatest. -/
theorem Klondike_self_move_rejected :
    (∀ (d : Bool) (s : Klondike), Klondike.Reachable d s →
      ∀ p amount : Nat, 1 ≤ p ∧ p ≤ 7 →
        1 ≤ amount ∧ amount ≤ (s.board.getD (p - 1) []).length →
        ¬ Klondike.LegalBoardToBoard s p p amount ∧
          Klondike.MoveBoardToBoard s p p amount = .ok s) ∧
    (∀ (s : Klondike) (p amount : Nat),
      s.board.length = 7 → 1 ≤ p ∧ p ≤ 7 →
      1 ≤ amount ∧ amount ≤ (s.board.getD (p - 1) []).length →
      (s.board.getD (p - 1) []).length < SIZE_MOD →
      (∀ c ∈ s.board.getD (p - 1) [], IsInt32 (GetRank c)) →
      (∀ c ∈ s.board.getD (p - 1) [], IsInt32 (GetRank c + 1)) →
      ¬ Klondike.LegalBoardToBoard s p p amount ∧
        Klondike.MoveBoardToBoard s p p amount = .ok s) :=
  ⟨Klondike_self_move_reachable, Klondike_self_move_cases⟩

/-- C37 at concrete positions: the run seven of spades, six of hearts, five of
clubs of column 1 of `flipStateK`, and its top card alone, stay where they are
when moved onto column 1; and so does the top card of column 1 of the position
dealt from the fresh deck turned upside down, which a game reaches. -/
theorem Klondike_self_move_rejected_witness :
    Klondike.MoveBoardToBoard flipStateK 1 1 3 = .ok flipStateK ∧
    Klondike.MoveBoardToBoard flipStateK 1 1 1 = .ok flipStateK ∧
    Klondike.MoveBoardToBoard dealtKlondike 1 1 1 = .ok dealtKlondike :=
  ⟨(Klondike_self_move_rejected.2 flipStateK 1 3 (by decide) (by decide) (by decide)
      (by decide) (by decide) (by decide)).2,
    (Klondike_self_move_rejected.2 flipStateK 1 1 (by decide) (by decide) (by decide)
      (by decide) (by decide) (by decide)).2,
    (Klondike_self_move_rejected.1 true dealtKlondike (dealtKlondike_reachable true) 1 1
      (by decide) (by decide)).2⟩

/-! ## The perfect riffle -/

theorem alternate_nil_right {T : Type} (a : List T) : alternate a [] = a := by
  cases a <;> rfl

theorem alternate_cons {T : Type} (a b : List T) (x : T) :
    alternate (x :: a) b = x :: alternate b a := by
  induction a generalizing b x with
  | nil => cases b <;> simp [alternate]
  | cons z a ih =>
    cases b with
    | nil => simp [alternate]
    | cons y b => simp only [alternate, ih]

/-- The alternation pairs the two piles card by card as long as both have
cards, then appends what is left of the longer one. -/
theorem alternate_eq_zip {T : Type} (a b : List T) :
    alternate a b =
      ((a.zip b).flatMap fun p => [p.1, p.2]) ++ (a.drop b.length ++ b.drop a.length) := by
  induction a generalizing b with
  | nil => simp [alternate]
  | cons x a ih =>
    cases b with
    | nil => simp [alternate]
    | cons y b => simp [alternate, ih]

/-- The loop of `PutHalvesTogether` appends to its output. -/
theorem PutHalvesTogether_loop_out {T : Type} (type_input down_first_input : String)
    (rng : Nat → Nat) (n i k : Nat) (first second out : List T) :
    StandardDeck.PutHalvesTogether.loop type_input down_first_input rng n i k first second out =
      out ++ StandardDeck.PutHalvesTogether.loop type_input down_first_input rng n i k
        first second [] := by
  induction n generalizing i k first second out with
  | zero => simp [StandardDeck.PutHalvesTogether.loop]
  | succ n ih =>
    unfold StandardDeck.PutHalvesTogether.loop
    simp only
    split
    · cases first with
      | nil => exact ih _ _ _ _ _
      | cons x rest =>
        simp only
        rw [ih _ _ _ _ (out ++ [x]), ih _ _ _ _ ([] ++ [x])]
        simp
    · split
      · cases second with
        | nil => exact ih _ _ _ _ _
        | cons x rest =>
          simp only
          rw [ih _ _ _ _ (out ++ [x]), ih _ _ _ _ ([] ++ [x])]
          simp
      · exact ih _ _ _ _ _

/-- The loop of `PutHalvesTogether` in the mode "perfect": at an even index the
next card comes from the first half, at an odd index from the second one. -/
theorem PutHalvesTogether_loop_perfect {T : Type} (down_first_input : String)
    (rng : Nat → Nat) (n : Nat) :
    ∀ (i k : Nat) (first second out : List T), first.length + second.length = n →
      i + n < SIZE_MOD →
      StandardDeck.PutHalvesTogether.loop "perfect" down_first_input rng n i k
          first second out =
        out ++ (if i % 2 = 0 then alternate first second else alternate second first) := by
  induction n with
  | zero =>
    intro i k first second out hn _
    have h1 : first = [] := List.eq_nil_of_length_eq_zero (by omega)
    have h2 : second = [] := List.eq_nil_of_length_eq_zero (by omega)
    subst h1 h2
    simp [StandardDeck.PutHalvesTogether.loop, alternate]
  | succ n ih =>
    intro i k first second out hn hi
    have hsz : szAdd i 1 = i + 1 := szAdd_of_lt (by omega)
    unfold StandardDeck.PutHalvesTogether.loop
    simp only [hsz]
    have hnr : decide (("perfect" : String) = "random") = false := by decide
    simp only [hnr, Bool.and_false, Bool.false_and, Bool.or_false, if_false,
      Bool.false_eq_true, decide_True, Bool.true_and]
    by_cases he : i % 2 = 0
    · have ho : ¬ (i + 1) % 2 = 0 := by omega
      simp only [he, decide_True, Bool.true_or, Bool.true_and, if_true]
      cases first with
      | nil =>
        cases second with
        | nil => simp at hn
        | cons y rest =>
          simp only [List.length_nil, gt_iff_lt, Nat.lt_irrefl, decide_False,
            Bool.false_eq_true, if_false, List.length_cons, Nat.zero_lt_succ, if_true]
          rw [ih _ _ _ _ _ (by simp at hn ⊢; omega) (by omega), if_neg ho]
          simp [alternate, alternate_nil_right]
      | cons x rest =>
        simp only [List.length_cons, gt_iff_lt, Nat.zero_lt_succ, decide_True, if_true]
        rw [ih _ _ _ _ _ (by simp at hn ⊢; omega) (by omega), if_neg ho, alternate_cons]
        simp
    · have ho : (i + 1) % 2 = 0 := by omega
      have hi0 : ¬ i = 0 := by omega
      simp only [he, hi0, decide_False, Bool.and_false, Bool.false_or, if_false]
      cases second with
      | nil =>
        cases first with
        | nil => simp at hn
        | cons x rest =>
          simp only [List.length_nil, decide_True, List.length_cons, gt_iff_lt,
            Nat.zero_lt_succ, Bool.and_self, if_true]
          rw [ih _ _ _ _ _ (by simp at hn ⊢; omega) (by omega), if_pos ho]
          simp [alternate, alternate_nil_right]
      | cons y rest =>
        simp only [List.length_cons, Nat.add_one_ne_zero, decide_False, Bool.false_and,
          Bool.false_eq_true, if_false, gt_iff_lt, Nat.zero_lt_succ, if_true]
        rw [ih _ _ _ _ _ (by simp at hn ⊢; omega) (by omega), if_pos ho, alternate_cons]
        simp

/-- The pile `PutHalvesTogether` returns in the mode "perfect". -/
theorem PutHalvesTogether_perfect {T : Type} (first second : List T)
    (down_first_input : String) (rng : Nat → Nat)
    (hsz : first.length + second.length + 1 < SIZE_MOD) :
    StandardDeck.PutHalvesTogether (first, second) "perfect" down_first_input rng =
      if down_first_input = "top" ∨ (down_first_input = "random" ∧ rng 0 = 1) then
        alternate second first
      else alternate first second := by
  unfold StandardDeck.PutHalvesTogether
  have hnc : ¬ ("perfect" : String) = "cut" := by decide
  simp only [hnc, if_false]
  have htot : szAdd first.length second.length = first.length + second.length :=
    szAdd_of_lt (by omega)
  rw [htot]
  by_cases hc : down_first_input = "top" ∨ (down_first_input = "random" ∧ rng 0 = 1)
  · rw [if_pos hc, if_pos hc, szAdd_of_lt (by omega), Nat.add_sub_cancel,
      PutHalvesTogether_loop_perfect _ _ _ _ _ _ _ _ rfl (by omega)]
    simp
  · rw [if_neg hc, if_neg hc, szAdd_of_lt (by omega), Nat.add_zero, Nat.sub_zero,
      PutHalvesTogether_loop_perfect _ _ _ _ _ _ _ _ rfl (by omega)]
    simp

/-- C32: in the mode "perfect" `PutHalvesTogether` alternates strictly. When the
bottom half `first` goes down first the pile returned is f0, s0, f1, s1, ...,
when the top half `second` goes down first it is s0, f0, s1, f1, ...; the
cards are paired as long as both halves have cards, and then the rest of the
longer half follows in its order. `Riffle` in the mode "perfect" does this to
the two parts of the deck. -/
theorem perfect_riffle_alternates {T : Type} (first second : List T) (rng : Nat → Nat)
    (hsz : first.length + second.length + 1 < SIZE_MOD) :
    StandardDeck.PutHalvesTogether (first, second) "perfect" "bottom" rng =
        alternate first second ∧
    StandardDeck.PutHalvesTogether (first, second) "perfect" "top" rng =
        alternate second first ∧
    alternate first second =
      ((first.zip second).flatMap fun p => [p.1, p.2]) ++
        (first.drop second.length ++ second.drop first.length) ∧
    alternate second first =
      ((second.zip first).flatMap fun p => [p.1, p.2]) ++
        (second.drop first.length ++ first.drop second.length) ∧
    (first.length = second.length →
      alternate first second = ((first.zip second).flatMap fun p => [p.1, p.2]) ∧
      alternate second first = ((second.zip first).flatMap fun p => [p.1, p.2])) ∧
    (∀ (mid : Nat) (rngR : Nat → Nat), mid ≤ (first ++ second).length →
      StandardDeck.Riffle (first ++ second) mid "bottom" "perfect" rngR rng =
          .ok (alternate ((first ++ second).take mid) ((first ++ second).drop mid)) ∧
      StandardDeck.Riffle (first ++ second) mid "top" "perfect" rngR rng =
          .ok (alternate ((first ++ second).drop mid) ((first ++ second).take mid))) := by
  have hb := PutHalvesTogether_perfect first second "bottom" rng hsz
  have ht := PutHalvesTogether_perfect first second "top" rng hsz
  rw [if_neg (fun h => by rcases h with h | ⟨h, _⟩ <;> revert h <;> decide)] at hb
  rw [if_pos (Or.inl rfl)] at ht
  refine ⟨hb, ht, alternate_eq_zip first second, alternate_eq_zip second first, ?_, ?_⟩
  · intro hl
    constructor
    · rw [alternate_eq_zip, hl]; simp [← hl]
    · rw [alternate_eq_zip, hl]; simp [← hl]
  · intro mid rngR hmid
    have hlen : ((first ++ second).take mid).length + ((first ++ second).drop mid).length + 1 <
        SIZE_MOD := by
      simp only [List.length_take, List.length_drop, List.length_append] at hmid ⊢
      omega
    have h1 := PutHalvesTogether_perfect ((first ++ second).take mid)
      ((first ++ second).drop mid) "bottom" rng hlen
    have h2 := PutHalvesTogether_perfect ((first ++ second).take mid)
      ((first ++ second).drop mid) "top" rng hlen
    rw [if_neg (fun h => by rcases h with h | ⟨h, _⟩ <;> revert h <;> decide)] at h1
    rw [if_pos (Or.inl rfl)] at h2
    constructor
    · unfold StandardDeck.Riffle
      rw [if_pos (Or.inl rfl), Split_ok _ _ hmid]
      simp only [h1]
    · unfold StandardDeck.Riffle
      rw [if_neg (fun h => by rcases h with h | ⟨h, _⟩ <;> revert h <;> decide),
        Split_ok _ _ hmid]
      simp only [h2]

/-- C32 on small piles: halves of equal length, a longer first half, and the
deck 1, ..., 5 riffled at 2. -/
theorem perfect_riffle_alternates_witness :
    StandardDeck.PutHalvesTogether ([1, 2, 3], [11, 12, 13]) "perfect" "bottom" (fun _ => 0) =
        [1, 11, 2, 12, 3, 13] ∧
    StandardDeck.PutHalvesTogether ([1, 2, 3], [11, 12, 13]) "perfect" "top" (fun _ => 0) =
        [11, 1, 12, 2, 13, 3] ∧
    StandardDeck.PutHalvesTogether ([1, 2, 3, 4], [11]) "perfect" "top" (fun _ => 0) =
        [11, 1, 2, 3, 4] ∧
    StandardDeck.Riffle ([1, 2] ++ [3, 4, 5]) 2 "bottom" "perfect" (fun _ => 0) (fun _ => 0) =
        .ok [1, 3, 2, 4, 5] :=
  ⟨(perfect_riffle_alternates [1, 2, 3] [11, 12, 13] (fun _ => 0) (by decide)).1,
    (perfect_riffle_alternates [1, 2, 3] [11, 12, 13] (fun _ => 0) (by decide)).2.1,
    (perfect_riffle_alternates [1, 2, 3, 4] [11] (fun _ => 0) (by decide)).2.1,
    ((perfect_riffle_alternates [1, 2] [3, 4, 5] (fun _ => 0) (by decide)).2.2.2.2.2 2
      (fun _ => 0) (by decide)).1⟩

/-! ## Which half lands first -/

/-- The first card of the pile `PutHalvesTogether` returns, for two halves that
are not empty and a policy other than "cut": the bottom card of the first half
when "bottom" is to go down first; for "top", the bottom card of the second
half in the mode "perfect", and in the mode "random" the bottom card of the
half the first random number picks. -/
theorem PutHalvesTogether_head {T : Type} (x y : T) (first second : List T)
    (type_input : String) (rng : Nat → Nat)
    (hsz : (x :: first).length + (y :: second).length + 1 < SIZE_MOD)
    (htype : type_input = "perfect" ∨ type_input = "random") :
    (StandardDeck.PutHalvesTogether (x :: first, y :: second) type_input "bottom" rng)[0]? =
        some x ∧
    (StandardDeck.PutHalvesTogether (x :: first, y :: second) "perfect" "top" rng)[0]? =
        some y ∧
    (StandardDeck.PutHalvesTogether (x :: first, y :: second) "random" "top" rng)[0]? =
        some (if rng 0 = 0 then x else y) := by
  have htot : szAdd (x :: first).length (y :: second).length =
      first.length + second.length + 1 + 1 := by
    rw [szAdd_of_lt (by omega)]; simp only [List.length_cons]; omega
  have hlen : (x :: first).length + (y :: second).length =
      first.length + second.length + 1 + 1 := by
    simp only [List.length_cons]; omega
  rw [hlen] at hsz
  have h1 : szAdd (first.length + second.length + 1 + 1) 1 - 1 =
      first.length + second.length + 1 + 1 := by
    rw [szAdd_of_lt (by omega)]; omega
  have h0 : szAdd (first.length + second.length + 1 + 1) 0 - 0 =
      first.length + second.length + 1 + 1 := by
    rw [szAdd_of_lt (by omega)]; omega
  refine ⟨?_, ?_, ?_⟩
  · have hnc : ¬ type_input = "cut" := by
      rcases htype with h | h <;> subst h <;> decide
    unfold StandardDeck.PutHalvesTogether
    simp only [hnc, if_false, htot]
    have hadd : ¬ (("bottom" : String) = "top" ∨
        (("bottom" : String) = "random" ∧ rng 0 = 1)) :=
      fun h => by rcases h with h | ⟨h, _⟩ <;> revert h <;> decide
    rw [if_neg hadd, h0]
    unfold StandardDeck.PutHalvesTogether.loop
    simp only [decide_True, Bool.and_self, Bool.or_true, Bool.true_or, List.length_cons,
      gt_iff_lt, Nat.zero_lt_succ, Bool.true_and, if_true]
    rw [PutHalvesTogether_loop_out]
    simp
  · unfold StandardDeck.PutHalvesTogether
    have hnc : ¬ ("perfect" : String) = "cut" := by decide
    simp only [hnc, if_false, htot, true_or, if_true, h1]
    unfold StandardDeck.PutHalvesTogether.loop
    have e1 : decide (("perfect" : String) = "random") = false := by decide
    have e2 : decide (("top" : String) = "bottom") = false := by decide
    simp only [e1, e2, Nat.one_mod, Nat.one_ne_zero, decide_False, Bool.and_false,
      Bool.false_and, Bool.or_false, List.length_cons, Nat.add_one_ne_zero, Bool.false_eq_true,
      if_false, gt_iff_lt, Nat.zero_lt_succ, if_true]
    rw [PutHalvesTogether_loop_out]
    simp
  · unfold StandardDeck.PutHalvesTogether
    have hnc : ¬ ("random" : String) = "cut" := by decide
    simp only [hnc, if_false, htot, true_or, if_true, h1]
    have e0 : (decide (("top" : String) ≠ "top") && decide (("top" : String) = "random")) =
        false := by decide
    simp only [e0, Bool.false_eq_true, if_false]
    unfold StandardDeck.PutHalvesTogether.loop
    have e1 : decide (("random" : String) = "perfect") = false := by decide
    have e2 : decide (("top" : String) = "bottom") = false := by decide
    simp only [e1, e2, decide_True, Bool.false_and, Bool.not_false, Bool.true_and,
      Bool.and_false, Bool.or_false, Bool.false_or, List.length_cons, Nat.add_one_ne_zero,
      decide_False, gt_iff_lt, Nat.zero_lt_succ, Bool.and_true, if_true]
    by_cases hr : rng 0 = 0
    · simp only [hr, decide_True, if_true]
      rw [PutHalvesTogether_loop_out]
      simp
    · simp only [hr, decide_False, Bool.false_eq_true, if_false]
      rw [PutHalvesTogether_loop_out]
      simp

/-- A deck cut at `mid`, with cards on both sides: the bottom cards of the two
parts are the cards at the positions 0 and `mid`. -/
theorem take_drop_heads {T : Type} (deck : List T) (mid : Nat) (h0 : 0 < mid)
    (hmid : mid < deck.length) :
    ∃ x first y second, deck.take mid = x :: first ∧ deck.drop mid = y :: second ∧
      deck[0]? = some x ∧ deck[mid]? = some y := by
  cases hf : deck.take mid with
  | nil =>
    have := congrArg List.length hf
    simp only [List.length_take, List.length_nil] at this
    omega
  | cons x first =>
    cases hs : deck.drop mid with
    | nil =>
      have := congrArg List.length hs
      simp only [List.length_drop, List.length_nil] at this
      omega
    | cons y second =>
      refine ⟨x, first, y, second, rfl, rfl, ?_, ?_⟩
      · have := congrArg (fun l => l[0]?) hf
        simp only [List.getElem?_take, List.getElem?_cons_zero] at this
        rw [if_pos h0] at this
        exact this
      · have := congrArg (fun l => l[0]?) hs
        simp only [List.getElem?_drop, List.getElem?_cons_zero, Nat.add_zero] at this
        exact this

/-- C33 (code bug): the first card to fall in `Riffle(mid, down_first, type)`, for
`0 < mid <` size of the deck. With "bottom" it is the bottom card of the bottom
half, in both modes, and with "top" in the mode "perfect" it is the bottom card
of the top half, the card at position `mid`. With "top" in the mode "random",
the call of the test program, it is the card the first random number picks:
when `dist1(rng)` gives 0 the bottom card of the bottom half falls first,
although the top half was to land first. -/
theorem Riffle_first_card {T : Type} (deck : List T) (mid : Nat) (rngR rngP : Nat → Nat)
    (h0 : 0 < mid) (hmid : mid < deck.length) (hsz : deck.length + 1 < SIZE_MOD) :
    (∃ deck1, StandardDeck.Riffle deck mid "top" "random" rngR rngP = .ok deck1 ∧
      deck1[0]? = (if rngP 0 = 0 then deck[0]? else deck[mid]?) ∧ deck1.Perm deck) ∧
    (∃ deck1, StandardDeck.Riffle deck mid "top" "perfect" rngR rngP = .ok deck1 ∧
      deck1[0]? = deck[mid]?) ∧
    (∃ deck1, StandardDeck.Riffle deck mid "bottom" "random" rngR rngP = .ok deck1 ∧
      deck1[0]? = deck[0]?) ∧
    (∃ deck1, StandardDeck.Riffle deck mid "bottom" "perfect" rngR rngP = .ok deck1 ∧
      deck1[0]? = deck[0]?) := by
  obtain ⟨x, first, y, second, hf, hs, hx, hy⟩ := take_drop_heads deck mid h0 hmid
  have hlen : (x :: first).length + (y :: second).length + 1 < SIZE_MOD := by
    rw [← hf, ← hs]
    simp only [List.length_take, List.length_drop]
    omega
  have htop : ¬ (("top" : String) = "bottom" ∨ (("top" : String) = "random" ∧ rngR 0 = 0)) :=
    fun h => by rcases h with h | ⟨h, _⟩ <;> revert h <;> decide
  have hP := PutHalvesTogether_head x y first second "perfect" rngP hlen (Or.inl rfl)
  have hR := PutHalvesTogether_head x y first second "random" rngP hlen (Or.inr rfl)
  refine ⟨?_, ?_, ?_, ?_⟩
  · obtain ⟨deck1, h1, h2⟩ := Riffle_perm deck mid "top" "random" rngR rngP (by omega) hsz
    refine ⟨deck1, h1, ?_, h2⟩
    unfold StandardDeck.Riffle at h1
    rw [if_neg htop, Split_ok _ _ (by omega), hf, hs] at h1
    simp only [Except.ok.injEq] at h1
    rw [← h1, hR.2.2, hx, hy]
    split <;> rfl
  · unfold StandardDeck.Riffle
    rw [if_neg htop, Split_ok _ _ (by omega), hf, hs]
    exact ⟨_, rfl, by rw [hP.2.1, hy]⟩
  · unfold StandardDeck.Riffle
    rw [if_pos (Or.inl rfl), Split_ok _ _ (by omega), hf, hs]
    exact ⟨_, rfl, by rw [hR.1, hx]⟩
  · unfold StandardDeck.Riffle
    rw [if_pos (Or.inl rfl), Split_ok _ _ (by omega), hf, hs]
    exact ⟨_, rfl, by rw [hP.1, hx]⟩

/-- C33 on the call of the test program, `Riffle(34, "top", "random")` on the
fresh deck, when the first random number is 0: the first card to fall is the ace
of spades, the bottom card of the bottom half of 34 cards, and no card of the
top half. -/
theorem Riffle_first_card_witness :
    ∃ deck1, StandardDeck.Riffle (StandardDeck.fresh StandardPlayingCard) 34 "top" "random"
        (fun _ => 0) (fun _ => 0) = .ok deck1 ∧
      deck1[0]? = some ⟨1, "spade"⟩ ∧
      (⟨1, "spade"⟩ : StandardPlayingCard) ∈ (StandardDeck.fresh StandardPlayingCard).take 34 ∧
      (⟨1, "spade"⟩ : StandardPlayingCard) ∉ (StandardDeck.fresh StandardPlayingCard).drop 34 :=
  match (Riffle_first_card (StandardDeck.fresh StandardPlayingCard) 34 (fun _ => 0)
      (fun _ => 0) (by decide) (by decide) (by decide)).1 with
  | ⟨deck1, h1, h2, _⟩ => ⟨deck1, h1, h2.trans (by decide), by decide, by decide⟩

/-! ## A run moved as one unit -/

/-- For an amount other than 1 that is 0 or exceeds the size of the column,
`CheckDescendingPile` reads the column outside its bounds. -/
theorem CheckDescendingPile_out_of_domain {T : Type} [PlayingCard T] (s : Solitaire T)
    (p amount : Nat) (col : List T) (hp : 1 ≤ p) (hp2 : p < SIZE_MOD)
    (hcol : s.board[p - 1]? = some col) (h1 : amount ≠ 1)
    (hd : ¬ (1 ≤ amount ∧ amount ≤ col.length)) (ha : amount < SIZE_MOD)
    (hlen : col.length < SIZE_MOD) :
    s.CheckDescendingPile p amount = .error .outOfRange := by
  unfold Solitaire.CheckDescendingPile
  rw [if_neg h1, szSub_of_le hp hp2, vecAt_eq_ok hcol]
  simp only
  have hidx : col.length ≤ szSub col.length amount := by
    unfold szSub
    rw [SIZE_MOD_eq] at ha hlen ⊢
    omega
  rw [vecAt_eq_error hidx]

/-- What the board looks like after the run was moved. -/
theorem moveRun_frame {α : Type} (board : List (List α)) (f t a : Nat) (src dst : List α)
    (hne : f - 1 ≠ t - 1) (hsrc : board[f - 1]? = some src) (hdst : board[t - 1]? = some dst) :
    (moveRun board f t a)[t - 1]? = some (dst ++ src.drop (src.length - a)) ∧
    (moveRun board f t a)[f - 1]? = some (src.take (src.length - a)) ∧
    (∀ i, i ≠ f - 1 → i ≠ t - 1 → (moveRun board f t a)[i]? = board[i]?) ∧
    (moveRun board f t a).length = board.length := by
  have hf : f - 1 < board.length := lt_of_getElem? hsrc
  have ht : t - 1 < board.length := lt_of_getElem? hdst
  have hgs : board.getD (f - 1) [] = src := by
    rw [List.getD_eq_getElem?_getD, hsrc]; rfl
  have hgd : board.getD (t - 1) [] = dst := by
    rw [List.getD_eq_getElem?_getD, hdst]; rfl
  simp only [moveRun, hgs, hgd]
  refine ⟨?_, ?_, ?_, by simp⟩
  · rw [List.getElem?_set_self (by simpa using ht)]
  · rw [List.getElem?_set_ne (fun h => hne h.symm), List.getElem?_set_self hf]
  · intro i h1 h2
    rw [List.getElem?_set_ne (fun h => h2 h.symm), List.getElem?_set_ne (fun h => h1 h.symm)]

/-- A call of Freecell `MoveBoardToBoard` that returns a state other than the old
one has moved the run. -/
theorem Freecell_MoveBoardToBoard_frame (s s' : Freecell) (pile_from pile_to amount : Nat)
    (hboard : s.board.length = 8)
    (hlen : ∀ col ∈ s.board, col.length < SIZE_MOD)
    (hint : ∀ col ∈ s.board, ∀ c ∈ col, IsInt32 (GetRank c))
    (hamt : amount < SIZE_MOD)
    (h : Freecell.MoveBoardToBoard s pile_from pile_to amount = .ok s') (hne : s' ≠ s) :
    ∃ src dst, s.board[pile_from - 1]? = some src ∧ s.board[pile_to - 1]? = some dst ∧
      pile_from ≠ pile_to ∧ 1 ≤ amount ∧ amount ≤ src.length ∧
      s'.board[pile_to - 1]? = some (dst ++ src.drop (src.length - amount)) ∧
      s'.board[pile_from - 1]? = some (src.take (src.length - amount)) ∧
      (∀ i, i ≠ pile_from - 1 → i ≠ pile_to - 1 → s'.board[i]? = s.board[i]?) ∧
      s'.board.length = s.board.length ∧
      s'.free = s.free ∧ s'.deck = s.deck ∧ s'.stacks_ = s.stacks_ := by
  by_cases hdom : ¬ (1 ≤ pile_from ∧ pile_from ≤ 8) ∨ ¬ (1 ≤ pile_to ∧ pile_to ≤ 8) ∨
      amount = 1 ∨ (1 ≤ amount ∧ amount ≤ (s.board.getD (pile_from - 1) []).length)
  · rcases Freecell_MoveBoardToBoard_outcome s pile_from pile_to amount hboard hlen hint hdom
      with h1 | ⟨h1, hf, ht, hft, ha1, ha2, _⟩ | ⟨h1, _⟩
    · rw [h1] at h
      cases h
      exact absurd rfl hne
    · rw [h1] at h
      cases h
      obtain ⟨src, hsrc⟩ : ∃ src, s.board[pile_from - 1]? = some src :=
        ⟨s.board[pile_from - 1], List.getElem?_eq_getElem (by omega)⟩
      obtain ⟨dst, hdst⟩ : ∃ dst, s.board[pile_to - 1]? = some dst :=
        ⟨s.board[pile_to - 1], List.getElem?_eq_getElem (by omega)⟩
      have hgs : s.board.getD (pile_from - 1) [] = src := by
        rw [List.getD_eq_getElem?_getD, hsrc]; rfl
      rw [hgs] at ha2
      obtain ⟨m1, m2, m3, m4⟩ := moveRun_frame s.board pile_from pile_to amount src dst
        (by omega) hsrc hdst
      exact ⟨src, dst, hsrc, hdst, hft, ha1, ha2, m1, m2, m3, m4, rfl, rfl, rfl⟩
    · rw [h1] at h
      cases h
  · exfalso
    have hf : 1 ≤ pile_from ∧ pile_from ≤ 8 := by
      by_contra hf; exact hdom (Or.inl hf)
    have ht : 1 ≤ pile_to ∧ pile_to ≤ 8 := by
      by_contra ht; exact hdom (Or.inr (Or.inl ht))
    obtain ⟨src, hsrc⟩ : ∃ src, s.board[pile_from - 1]? = some src :=
      ⟨s.board[pile_from - 1], List.getElem?_eq_getElem (by omega)⟩
    have hgs : s.board.getD (pile_from - 1) [] = src := by
      rw [List.getD_eq_getElem?_getD, hsrc]; rfl
    have h1 : amount ≠ 1 := fun e => hdom (Or.inr (Or.inr (Or.inl e)))
    have h2 : ¬ (1 ≤ amount ∧ amount ≤ src.length) :=
      fun e => hdom (Or.inr (Or.inr (Or.inr (by rw [hgs]; exact e))))
    have hdesc := CheckDescendingPile_out_of_domain s pile_from amount src hf.1
      (by rw [SIZE_MOD_eq]; omega) hsrc h1 h2 hamt
      (hlen src (List.getElem?_mem hsrc))
    have hbf : Freecell.CheckPileBounds pile_from = true := by
      simp [Freecell.CheckPileBounds, hf.1, hf.2]
    have hbt : Freecell.CheckPileBounds pile_to = true := by
      simp [Freecell.CheckPileBounds, ht.1, ht.2]
    unfold Freecell.MoveBoardToBoard at h
    simp only [Freecell.MoveBoardToBoard.test, hbf, hbt, hdesc, sAnd_true, sAnd_error] at h
    cases h

/-- A call of Klondike `MoveBoardToBoard` that returns a state other than the old
one has moved the run and turned the card it uncovered face-up. -/
theorem Klondike_MoveBoardToBoard_frame (s s' : Klondike) (pile_from pile_to amount : Nat)
    (hboard : s.board.length = 7)
    (hlen : ∀ col ∈ s.board, col.length < SIZE_MOD)
    (hint : ∀ col ∈ s.board, ∀ c ∈ col, IsInt32 (GetRank c))
    (hamt : amount < SIZE_MOD)
    (h : Klondike.MoveBoardToBoard s pile_from pile_to amount = .ok s') (hne : s' ≠ s) :
    ∃ src dst, s.board[pile_from - 1]? = some src ∧ s.board[pile_to - 1]? = some dst ∧
      pile_from ≠ pile_to ∧ 1 ≤ amount ∧ amount ≤ src.length ∧
      s'.board[pile_to - 1]? = some (dst ++ src.drop (src.length - amount)) ∧
      s'.board[pile_from - 1]? = some (flipTop (src.take (src.length - amount))) ∧
      (∀ i, i ≠ pile_from - 1 → i ≠ pile_to - 1 → s'.board[i]? = s.board[i]?) ∧
      s'.board.length = s.board.length ∧
      s'.free = s.free ∧ s'.deck = s.deck ∧ s'.stacks_ = s.stacks_ := by
  by_cases hb : (1 ≤ pile_from ∧ pile_from ≤ 7) ∧ (1 ≤ pile_to ∧ pile_to ≤ 7)
  swap
  · exfalso
    have ht : Klondike.MoveBoardToBoard.test s pile_from pile_to amount = .ok false := by
      unfold Klondike.MoveBoardToBoard.test
      by_cases hf : 1 ≤ pile_from ∧ pile_from ≤ 7
      · have hbf : Klondike.CheckPileBounds pile_from = true := by
          simp [Klondike.CheckPileBounds, hf.1, hf.2]
        have hbt : Klondike.CheckPileBounds pile_to = false := by
          unfold Klondike.CheckPileBounds
          by_cases h1 : 1 ≤ pile_to
          · have h7 : ¬ pile_to ≤ 7 := fun h => hb ⟨hf, h1, h⟩
            simp [h7]
          · simp [h1]
        simp only [hbf, hbt, sAnd_true, sAnd_false]
      · have hbf : Klondike.CheckPileBounds pile_from = false := by
          unfold Klondike.CheckPileBounds
          by_cases h1 : 1 ≤ pile_from
          · have h7 : ¬ pile_from ≤ 7 := fun h => hf ⟨h1, h⟩
            simp [h7]
          · simp [h1]
        simp only [hbf, sAnd_false]
    unfold Klondike.MoveBoardToBoard at h
    rw [ht] at h
    cases h
    exact hne rfl
  obtain ⟨hf, ht⟩ := hb
  obtain ⟨src, hsrc⟩ : ∃ src, s.board[pile_from - 1]? = some src :=
    ⟨s.board[pile_from - 1], List.getElem?_eq_getElem (by omega)⟩
  obtain ⟨dst, hdst⟩ : ∃ dst, s.board[pile_to - 1]? = some dst :=
    ⟨s.board[pile_to - 1], List.getElem?_eq_getElem (by omega)⟩
  have hgs : s.board.getD (pile_from - 1) [] = src := by
    rw [List.getD_eq_getElem?_getD, hsrc]; rfl
  have hf2 : pile_from < SIZE_MOD := by rw [SIZE_MOD_eq]; omega
  have hbf : Klondike.CheckPileBounds pile_from = true := by
    simp [Klondike.CheckPileBounds, hf.1, hf.2]
  have hbt : Klondike.CheckPileBounds pile_to = true := by
    simp [Klondike.CheckPileBounds, ht.1, ht.2]
  have hsl := hlen src (List.getElem?_mem hsrc)
  by_cases hd : 1 ≤ amount ∧ amount ≤ src.length
  · rcases Klondike_MoveBoardToBoard_stages s pile_from pile_to amount hboard hf ht
      (by rw [hgs]; exact hd) (by rw [hgs]; exact hsl)
      (by rw [hgs]; exact hint src (List.getElem?_mem hsrc)) with hc | ⟨herr, _⟩
    swap
    · rw [herr] at h
      cases h
    by_cases hl : Klondike.LegalBoardToBoard s pile_from pile_to amount
    · obtain ⟨hft, hres, _⟩ := hc.1 hl
      rw [hres] at h
      cases h
      obtain ⟨m1, m2, m3, m4⟩ := moveRun_frame s.board pile_from pile_to amount src dst
        (by omega) hsrc hdst
      have hfl : pile_from - 1 < (moveRun s.board pile_from pile_to amount).length := by
        rw [m4]; omega
      refine ⟨src, dst, hsrc, hdst, hft, hd.1, hd.2, ?_, ?_, ?_, ?_, rfl, rfl, rfl⟩
      · simp only [Klondike.movedBoard]
        rw [List.getElem?_set_ne (by omega)]
        exact m1
      · simp only [Klondike.movedBoard, hgs]
        rw [List.getElem?_set_self hfl]
      · intro i h1 h2
        simp only [Klondike.movedBoard]
        rw [List.getElem?_set_ne (fun e => h1 e.symm)]
        exact m3 i h1 h2
      · simp only [Klondike.movedBoard, List.length_set]
        exact m4
    · rw [hc.2 hl] at h
      cases h
      exact absurd rfl hne
  · exfalso
    by_cases h1 : amount = 1
    · subst h1
      have hs0 : src = [] := by
        cases src with
        | nil => rfl
        | cons a l => simp at hd
      have ht0 : Klondike.MoveBoardToBoard.test s pile_from pile_to 1 = .ok false := by
        unfold Klondike.MoveBoardToBoard.test
        simp only [hbf, hbt, sAnd_true, Solitaire.CheckDescendingPile, if_true,
          szSub_of_le hf.1 hf2, emptyAt_eq_ok hsrc, hs0, List.isEmpty_nil, sNot_ok,
          Bool.not_true, sAnd_false]
      unfold Klondike.MoveBoardToBoard at h
      rw [ht0] at h
      cases h
      exact hne rfl
    · have hdesc := CheckDescendingPile_out_of_domain s pile_from amount src hf.1 hf2 hsrc h1 hd
        hamt hsl
      unfold Klondike.MoveBoardToBoard at h
      simp only [Klondike.MoveBoardToBoard.test, hbf, hbt, hdesc, sAnd_true, sAnd_error] at h
      cases h

/-- C35: a call of `MoveBoardToBoard(from, to, amount)` of Freecell (on a board
of eight columns) or of Klondike (on a board of seven) that moves cards, that
is, returns a state other than the old one, leaves the destination column as
the old one followed by the last `amount` cards of the old source column in
their order, the source column as the old one without these cards (in
Klondike with its new top card turned face-up), and every other column, the
free or waste pile, the deck and the foundations as they were. The two columns
are different ones and `amount` is between 1 and the size of the source. -/
theorem MoveBoardToBoard_moves_run_as_unit :
    (∀ (s s' : Freecell) (pile_from pile_to amount : Nat), s.board.length = 8 →
      (∀ col ∈ s.board, col.length < SIZE_MOD) →
      (∀ col ∈ s.board, ∀ c ∈ col, IsInt32 (GetRank c)) → amount < SIZE_MOD →
      Freecell.MoveBoardToBoard s pile_from pile_to amount = .ok s' → s' ≠ s →
      ∃ src dst, s.board[pile_from - 1]? = some src ∧ s.board[pile_to - 1]? = some dst ∧
        pile_from ≠ pile_to ∧ 1 ≤ amount ∧ amount ≤ src.length ∧
        s'.board[pile_to - 1]? = some (dst ++ src.drop (src.length - amount)) ∧
        s'.board[pile_from - 1]? = some (src.take (src.length - amount)) ∧
        (∀ i, i ≠ pile_from - 1 → i ≠ pile_to - 1 → s'.board[i]? = s.board[i]?) ∧
        s'.board.length = s.board.length ∧
        s'.free = s.free ∧ s'.deck = s.deck ∧ s'.stacks_ = s.stacks_) ∧
    (∀ (s s' : Klondike) (pile_from pile_to amount : Nat), s.board.length = 7 →
      (∀ col ∈ s.board, col.length < SIZE_MOD) →
      (∀ col ∈ s.board, ∀ c ∈ col, IsInt32 (GetRank c)) → amount < SIZE_MOD →
      Klondike.MoveBoardToBoard s pile_from pile_to amount = .ok s' → s' ≠ s →
      ∃ src dst, s.board[pile_from - 1]? = some src ∧ s.board[pile_to - 1]? = some dst ∧
        pile_from ≠ pile_to ∧ 1 ≤ amount ∧ amount ≤ src.length ∧
        s'.board[pile_to - 1]? = some (dst ++ src.drop (src.length - amount)) ∧
        s'.board[pile_from - 1]? = some (flipTop (src.take (src.length - amount))) ∧
        (∀ i, i ≠ pile_from - 1 → i ≠ pile_to - 1 → s'.board[i]? = s.board[i]?) ∧
        s'.board.length = s.board.length ∧
        s'.free = s.free ∧ s'.deck = s.deck ∧ s'.stacks_ = s.stacks_) :=
  ⟨fun s s' f t a hb hl hi ha h hne => Freecell_MoveBoardToBoard_frame s s' f t a hb hl hi ha h hne,
    fun s s' f t a hb hl hi ha h hne =>
      Klondike_MoveBoardToBoard_frame s s' f t a hb hl hi ha h hne⟩

/-- C35 at concrete positions: the run of three cards of `runState` goes from
column 1 to the empty column 2, and the run of three cards of `flipStateK` from
column 1 onto the eight of hearts of column 2. -/
theorem MoveBoardToBoard_moves_run_as_unit_witness :
    (Freecell.MoveBoardToBoard runState 1 2 3 = .ok runMovedState ∧
      ∃ src dst, runState.board[0]? = some src ∧ runState.board[1]? = some dst ∧
        runMovedState.board[1]? = some (dst ++ src.drop (src.length - 3)) ∧
        runMovedState.board[0]? = some (src.take (src.length - 3)) ∧
        runMovedState.free = runState.free ∧ runMovedState.stacks_ = runState.stacks_) ∧
    (Klondike.MoveBoardToBoard flipStateK 1 2 3 = .ok flipMovedStateK ∧
      ∃ src dst, flipStateK.board[0]? = some src ∧ flipStateK.board[1]? = some dst ∧
        flipMovedStateK.board[1]? = some (dst ++ src.drop (src.length - 3)) ∧
        flipMovedStateK.board[0]? = some (flipTop (src.take (src.length - 3))) ∧
        flipMovedStateK.free = flipStateK.free ∧
        flipMovedStateK.stacks_ = flipStateK.stacks_) :=
  ⟨⟨by decide,
      match MoveBoardToBoard_moves_run_as_unit.1 runState runMovedState 1 2 3 (by decide)
        (by decide) (by decide) (by decide) (by decide) (by decide) with
      | ⟨src, dst, h1, h2, _, _, _, h3, h4, _, _, h5, _, h6⟩ =>
        ⟨src, dst, h1, h2, h3, h4, h5, h6⟩⟩,
    ⟨by decide,
      match MoveBoardToBoard_moves_run_as_unit.2 flipStateK flipMovedStateK 1 2 3 (by decide)
        (by decide) (by decide) (by decide) (by decide) (by decide) with
      | ⟨src, dst, h1, h2, _, _, _, h3, h4, _, _, h5, _, h6⟩ =>
        ⟨src, dst, h1, h2, h3, h4, h5, h6⟩⟩⟩

/-! ## Freecell: the deck stays empty -/

theorem Freecell_MoveBoardToBoard_deck (s s' : Freecell) (pile_from pile_to amount : Nat)
    (h : Freecell.MoveBoardToBoard s pile_from pile_to amount = .ok s') : s'.deck = s.deck := by
  unfold Freecell.MoveBoardToBoard at h
  split at h
  · cases h
  · cases h; rfl
  · split at h
    · cases h
    · cases h; rfl

theorem Freecell_MoveBoardToStack_deck (s s' : Freecell) (p : Nat) (stack : String) (aut : Bool)
    (h : Freecell.MoveBoardToStack s p stack aut = .ok s') : s'.deck = s.deck := by
  unfold Freecell.MoveBoardToStack at h
  split at h
  · cases h
  · cases h; rfl
  · simp only [bind_eq_ok_iff, except_pure, Except.ok.injEq] at h
    obtain ⟨c, _, st, _, b, _, rfl⟩ := h
    rfl

theorem Freecell_MoveBoardToFree_deck (s s' : Freecell) (p : Nat)
    (h : Freecell.MoveBoardToFree s p = .ok s') : s'.deck = s.deck := by
  unfold Freecell.MoveBoardToFree at h
  split at h
  · cases h
  · cases h; rfl
  · simp only [bind_eq_ok_iff, except_pure, Except.ok.injEq] at h
    obtain ⟨c, _, b, _, rfl⟩ := h
    rfl

theorem Freecell_MoveFreeToBoard_deck (s s' : Freecell) (p index : Nat)
    (h : Freecell.MoveFreeToBoard s p index = .ok s') : s'.deck = s.deck := by
  unfold Freecell.MoveFreeToBoard at h
  split at h
  · cases h
  · cases h; rfl
  · simp only [bind_eq_ok_iff, except_pure, Except.ok.injEq] at h
    obtain ⟨c, _, b, _, rfl⟩ := h
    rfl

theorem Freecell_MoveFreeToStack_deck (s s' : Freecell) (stack : String) (index : Nat)
    (aut : Bool) (h : Freecell.MoveFreeToStack s stack index aut = .ok s') :
    s'.deck = s.deck := by
  unfold Freecell.MoveFreeToStack at h
  split at h
  · cases h
  · cases h; rfl
  · simp only [bind_eq_ok_iff, except_pure, Except.ok.injEq] at h
    obtain ⟨c, _, b, _, rfl⟩ := h
    rfl

theorem Freecell_MoveStackToBoard_deck (s s' : Freecell) (p : Nat) (stack : String)
    (h : Freecell.MoveStackToBoard s p stack = .ok s') : s'.deck = s.deck := by
  unfold Freecell.MoveStackToBoard at h
  split at h
  · cases h
  · cases h; rfl
  · simp only [bind_eq_ok_iff, except_pure, Except.ok.injEq] at h
    obtain ⟨c, _, b, _, st, _, rfl⟩ := h
    rfl

theorem Freecell_MoveStackToFree_deck (s s' : Freecell) (stack : String)
    (h : Freecell.MoveStackToFree s stack = .ok s') : s'.deck = s.deck := by
  unfold Freecell.MoveStackToFree at h
  split at h
  · cases h
  · cases h; rfl
  · simp only [bind_eq_ok_iff, except_pure, Except.ok.injEq] at h
    obtain ⟨c, _, b, _, rfl⟩ := h
    rfl

theorem Freecell_AutoMove_deck (fuel : Nat) (s s' : Freecell)
    (h : Freecell.AutoMove fuel s = .ok s') (hs : s.deck = []) : s'.deck = [] := by
  refine AutoMove_preserves _ _ (fun x : Freecell => x.deck = []) ?_ ?_ fuel s s' h hs
  · intro s r hr hs
    unfold Freecell.AutoMoveFree at hr
    simp only at hr
    split at hr
    · split at hr
      · cases hr
      · split at hr
        · cases hr
        · rename_i s1 h1
          cases hr
          show s1.deck = []
          rw [Freecell_MoveFreeToStack_deck _ _ _ _ _ h1]; exact hs
    · cases hr; exact hs
  · intro s r hr hs
    exact AutoMoveBoard_loop_preserves _ (fun x : Freecell => x.deck = [])
      (fun s p stack aut s' h hs => by
        show s'.deck = []
        rw [Freecell_MoveBoardToStack_deck s s' p stack aut h]; exact hs)
      _ _ _ _ _ hr hs

/-- In every Freecell state reachable from `Deal` the deck is empty: `Deal` puts
all cards on the board and no operation touches the deck. -/
theorem Freecell_Reachable_deck (s : Freecell) (h : Freecell.Reachable s) : s.deck = [] := by
  induction h with
  | deal shuffled s hperm hdeal =>
    have h52 : shuffled.length = 52 := by rw [hperm.length_eq]; decide
    obtain ⟨s2, h1, h2, _⟩ := Freecell_Deal_layout shuffled (by rw [SIZE_MOD_eq]; omega)
    rw [hdeal] at h1
    cases h1
    exact h2
  | move s s' _ hmove ih =>
    cases hmove with
    | boardToBoard f t a h => rw [Freecell_MoveBoardToBoard_deck _ _ _ _ _ h]; exact ih
    | boardToStack f u a h => rw [Freecell_MoveBoardToStack_deck _ _ _ _ _ h]; exact ih
    | boardToFree f h => rw [Freecell_MoveBoardToFree_deck _ _ _ h]; exact ih
    | freeToBoard t i h => rw [Freecell_MoveFreeToBoard_deck _ _ _ _ h]; exact ih
    | freeToStack u i a h => rw [Freecell_MoveFreeToStack_deck _ _ _ _ _ h]; exact ih
    | stackToBoard t u h => rw [Freecell_MoveStackToBoard_deck _ _ _ _ h]; exact ih
    | stackToFree u h => rw [Freecell_MoveStackToFree_deck _ _ _ h]; exact ih
    | autoMove fuel h => exact Freecell_AutoMove_deck fuel _ _ h ih

/-! ## Freecell: the game is won when board and free cells are empty -/

theorem rank_ge_of_mem_allPairs (a : Int × String) (h : a ∈ allPairs) : 1 ≤ a.1 := by
  simp only [allPairs, CardGraphicsAndInfo.suits, CardGraphicsAndInfo.ranks, List.mem_flatMap,
    List.mem_map] at h
  obtain ⟨u, _, r, hr, rfl⟩ := h
  simp only [List.mem_cons, List.mem_singleton, List.not_mem_nil, or_false] at hr
  omega

theorem king_mem_allPairs (i : Nat) : ((13 : Int), suitOfStack i) ∈ allPairs := by
  unfold suitOfStack
  split <;> decide

/-- A pair that occurs in a vector of piles occurs in one of them. -/
theorem exists_pile_of_countInPiles {T : Type} [PlayingCard T] (a : Int × String)
    (ps : List (List T)) (h : 1 ≤ countInPiles a ps) : ∃ p ∈ ps, 1 ≤ countIn a p := by
  induction ps with
  | nil => simp [countInPiles] at h
  | cons p rest ih =>
    simp only [countInPiles, List.map_cons, List.sum_cons] at h
    by_cases hp : 1 ≤ countIn a p
    · exact ⟨p, List.mem_cons_self _ _, hp⟩
    · have : 1 ≤ countInPiles a rest := by simp only [countInPiles]; omega
      obtain ⟨q, hq, hq1⟩ := ih this
      exact ⟨q, List.mem_cons_of_mem _ hq, hq1⟩

/-- A pair that occurs in a pile is the identity of one of its cards. -/
theorem exists_card_of_countIn {T : Type} [PlayingCard T] (a : Int × String) (p : List T)
    (h : 1 ≤ countIn a p) : ∃ (k : Nat) (c : T), p[k]? = some c ∧ cardId c = a := by
  unfold countIn at h
  have hm : a ∈ p.map cardId := List.count_pos_iff.mp h
  obtain ⟨c, hc, hca⟩ := List.mem_map.mp hm
  obtain ⟨k, hk⟩ := List.mem_iff_getElem?.mp hc
  exact ⟨k, c, hk, hca⟩

theorem suitOfStack_inj (i j : Nat) (hi : i < 4) (hj : j < 4)
    (h : suitOfStack i = suitOfStack j) : i = j := by
  interval_cases i <;> interval_cases j <;> first | rfl | (revert h; decide)

/-- In a state with ordered foundations that holds each of the 52 pairs once and
has an empty deck, all foundations hold 13 cards exactly when the board and the
free pile are empty. -/
theorem full_foundations_iff {T : Type} [PlayingCard T] (s : Solitaire T)
    (hord : FoundationsOrdered s.stacks_)
    (hcount : ∀ a, countCards a s = if a ∈ allPairs then 1 else 0) (hdeck : s.deck = []) :
    (∀ st ∈ s.stacks_, 13 ≤ st.length) ↔ (∀ col ∈ s.board, col = []) ∧ s.free = [] := by
  constructor
  · intro hfull
    -- no card can lie outside the foundations
    have key : ∀ c : T, 1 ≤ countIn (cardId c) s.free + countInPiles (cardId c) s.board →
        False := by
      intro c hc
      have hcc := hcount (cardId c)
      have hm : cardId c ∈ allPairs := by
        by_contra hm
        rw [if_neg hm] at hcc
        simp only [countCards] at hcc
        omega
      rw [if_pos hm] at hcc
      have hv := suit_of_mem_allPairs _ hm
      have hr1 := rank_ge_of_mem_allPairs _ hm
      have hr2 := rank_le_of_mem_allPairs _ hm
      have hi := GetStackSuit_lt hv
      simp only [cardId] at hv hr1 hr2 hi
      obtain ⟨st, hst⟩ : ∃ st, s.stacks_[Solitaire.GetStackSuit (GetSuit c)]? = some st := by
        cases hq : s.stacks_[Solitaire.GetStackSuit (GetSuit c)]? with
        | none =>
          rw [List.getElem?_eq_none_iff, hord.1] at hq
          omega
        | some st => exact ⟨st, rfl⟩
      have hlen := hfull st (List.getElem?_mem hst)
      have hk : (GetRank c - 1).toNat < st.length := by omega
      have ht := hord.2 _ st hst (GetRank c - 1).toNat st[(GetRank c - 1).toNat]
        (List.getElem?_eq_getElem hk)
      rw [suitOfStack_GetStackSuit _ hi] at ht
      have hid : cardId st[(GetRank c - 1).toNat] = cardId c := by
        simp only [cardId, ht.2, Prod.mk.injEq, and_true]
        rw [ht.1]
        omega
      have h1 := countIn_pos st _ (List.getElem_mem hk)
      rw [hid] at h1
      have h2 := countIn_le_countInPiles (cardId c) s.stacks_ st (List.getElem?_mem hst)
      simp only [countCards] at hcc
      omega
    constructor
    · intro col hcol
      cases hc : col with
      | nil => rfl
      | cons c l =>
        exfalso
        subst hc
        have h1 := countIn_pos (c :: l) c (List.mem_cons_self _ _)
        have h2 := countIn_le_countInPiles (cardId c) s.board _ hcol
        exact key c (by omega)
    · cases hf : s.free with
      | nil => rfl
      | cons c l =>
        exfalso
        have h1 := countIn_pos s.free c (by rw [hf]; exact List.mem_cons_self _ _)
        exact key c (by omega)
  · rintro ⟨hb, hf⟩ st hst
    obtain ⟨i, hi⟩ := List.mem_iff_getElem?.mp hst
    have hi4 : i < 4 := by
      have := lt_of_getElem? hi
      rw [hord.1] at this
      exact this
    have hcc := hcount (13, suitOfStack i)
    rw [if_pos (king_mem_allPairs i)] at hcc
    have hb0 : countInPiles ((13 : Int), suitOfStack i) s.board = 0 := by
      by_contra h0
      obtain ⟨p, hp, hp1⟩ := exists_pile_of_countInPiles ((13 : Int), suitOfStack i) s.board
        (by omega)
      rw [hb p hp] at hp1
      simp [countIn] at hp1
    simp only [countCards, hdeck, hf, countIn_nil, hb0] at hcc
    obtain ⟨p, hp, hp1⟩ := exists_pile_of_countInPiles ((13 : Int), suitOfStack i) s.stacks_
      (by omega)
    obtain ⟨k, c, hk, hck⟩ := exists_card_of_countIn _ p hp1
    obtain ⟨j, hj⟩ := List.mem_iff_getElem?.mp hp
    have hj4 : j < 4 := by
      have := lt_of_getElem? hj
      rw [hord.1] at this
      exact this
    have ht := hord.2 j p hj k c hk
    simp only [cardId, Prod.mk.injEq] at hck
    have hji : j = i := suitOfStack_inj j i hj4 hi4 (by rw [← ht.2, hck.2])
    subst hji
    rw [hi] at hj
    cases hj
    have := lt_of_getElem? hk
    have hr : GetRank c = (k : Int) + 1 := ht.1
    omega

/-- C38: in every Freecell state reachable from `Deal` of a deck of the 52 cards
through the move operations and `AutoMove`, there are eight board columns and
four foundations, every foundation holds at most 13 cards, the deck is empty,
and `WinCondition()` is true if and only if all board columns and the free
cells are empty. -/
theorem Freecell_win_iff_cleared (s : Freecell) (h : Freecell.Reachable s) :
    s.board.length = 8 ∧ s.stacks_.length = 4 ∧ (∀ st ∈ s.stacks_, st.length ≤ 13) ∧
      s.deck = [] ∧
      (s.WinCondition = true ↔ (∀ col ∈ s.board, col = []) ∧ s.free = []) := by
  have hord := Freecell_Reachable_ordered s h
  have hcount := Freecell_Reachable_count s h
  refine ⟨Freecell_Reachable_board_length s h, hord.1, foundation_le_13 s hord hcount,
    Freecell_Reachable_deck s h, ?_⟩
  unfold Solitaire.WinCondition
  rw [WinCondition_loop_iff]
  exact full_foundations_iff s hord hcount (Freecell_Reachable_deck s h)

/-- C38 at reachable positions: the game is won in `wonFreecell`, where board and
free cells are empty, and not won in `almostWonFreecell`, where the king of
diamonds lies on column 1. -/
theorem Freecell_win_iff_cleared_witness :
    wonFreecell.WinCondition = true ∧ almostWonFreecell.WinCondition = false ∧
      (∀ st ∈ almostWonFreecell.stacks_, st.length ≤ 13) :=
  ⟨(Freecell_win_iff_cleared wonFreecell wonFreecell_reachable).2.2.2.2.mpr
      ⟨by decide, rfl⟩,
    by
      cases hw : almostWonFreecell.WinCondition with
      | false => rfl
      | true =>
        exact absurd
          (((Freecell_win_iff_cleared almostWonFreecell almostWonFreecell_reachable).2.2.2.2.mp
            hw).1 _ (List.mem_cons_self _ _)) (by decide),
    (Freecell_win_iff_cleared almostWonFreecell almostWonFreecell_reachable).2.2.1⟩

/-! ## Klondike: drawing after a recycle of a short waste pile -/

/-- The drawing loop of `DrawCards` asked for more cards than the deck holds
pushes the absent card that `DrawOne` returns on the empty deck. -/
theorem draw_short (k : Nat) (s : Klondike) (hk : s.deck.length < k) :
    Klondike.DrawCards.draw k s = .error .nullCard := by
  induction k generalizing s with
  | zero => omega
  | succ k ih =>
    unfold Klondike.DrawCards.draw
    rcases List.eq_nil_or_concat s.deck with hd | ⟨deck1, c, hd⟩
    · rw [hd]
      rfl
    · rw [List.concat_eq_append] at hd
      rw [hd, DrawOne_concat]
      simp only
      apply ih
      simp only
      rw [hd] at hk
      simp only [List.length_append, List.length_singleton] at hk
      omega

/-- In draw-three mode `DrawCards` on an empty deck and a waste pile of one or
two cards recycles the waste pile and then draws three cards from a deck of one
or two. -/
theorem Klondike_DrawCards_short_waste (s : Klondike) (hd : s.deck = [])
    (h1 : 0 < s.free.length) (h3 : s.free.length < 3) :
    Klondike.DrawCards false s = .error .nullCard := by
  have hemp : (s.free.reverse.map fun c : PolarStandardPlayingCard =>
      ({ c with face_up := false } : PolarStandardPlayingCard)).isEmpty = false := by
    cases hs : s.free with
    | nil => rw [hs] at h1; simp at h1
    | cons a l => simp
  unfold Klondike.DrawCards
  simp only [prepare_empty s hd, hemp, Bool.not_false, if_true, Bool.false_eq_true, if_false]
  apply draw_short
  simp only [List.length_map, List.length_reverse]
  exact h3

/-- Rounds of `DrawCards` and `AutoMove` lead from reachable states to reachable
states. -/
theorem drawAndAuto_reachable (n : Nat) (s s' : Klondike)
    (h : Klondike.drawAndAuto n s = .ok s') (hs : Klondike.Reachable false s) :
    Klondike.Reachable false s' := by
  induction n generalizing s with
  | zero =>
    simp only [Klondike.drawAndAuto, Except.ok.injEq] at h
    subst h
    exact hs
  | succ n ih =>
    unfold Klondike.drawAndAuto at h
    split at h
    · cases h
    · rename_i s1 h1
      split at h
      · cases h
      · rename_i s2 h2
        exact ih s2 h
          (Klondike.Reachable.move s1 s2
            (Klondike.Reachable.move s s1 hs (Klondike.Move.drawCards s s1 h1))
            (Klondike.Move.autoMove s1 s2 60 h2))

theorem shortWasteDeck_perm :
    Klondike.shortWasteDeck.Perm (StandardDeck.fresh PolarStandardPlayingCard) := by
  decide

set_option maxRecDepth 100000 in
theorem shortWasteGame_eq : Klondike.shortWasteGame = .ok shortWasteKlondike := by
  decide

theorem shortWasteKlondike_reachable : Klondike.Reachable false shortWasteKlondike := by
  have h := shortWasteGame_eq
  unfold Klondike.shortWasteGame at h
  split at h
  · cases h
  · rename_i s hs
    exact drawAndAuto_reachable 8 s _ h
      (Klondike.Reachable.deal Klondike.shortWasteDeck s shortWasteDeck_perm hs)

set_option maxRecDepth 100000 in
/-- C39 (code bug): in a draw-three game `DrawCards` can draw from an empty deck.
The position `shortWasteKlondike` is reached from `Deal` by eight rounds of
`DrawCards` and `AutoMove`; its deck is empty and its waste pile holds two
cards, the ten and the jack of hearts. `DrawCards` recycles the two cards into
the deck and then draws three: the third call of `DrawOne` finds no card, and
the absent card is pushed onto the waste pile and dereferenced. In draw-one
mode the same call draws one card. -/
theorem Klondike_DrawCards_draws_from_empty_deck :
    Klondike.Reachable false shortWasteKlondike ∧
    shortWasteKlondike.deck = [] ∧
    shortWasteKlondike.free = [⟨⟨10, "heart"⟩, true⟩, ⟨⟨11, "heart"⟩, true⟩] ∧
    (Klondike.DrawCards.prepare shortWasteKlondike).1 = 3 ∧
    (Klondike.DrawCards.prepare shortWasteKlondike).2.deck.length = 2 ∧
    Klondike.DrawCards false shortWasteKlondike = .error .nullCard ∧
    (∃ s', Klondike.DrawCards true shortWasteKlondike = .ok s' ∧
      s'.deck.length + s'.free.length = 2) :=
  ⟨shortWasteKlondike_reachable, by decide, by decide, by decide, by decide,
    Klondike_DrawCards_short_waste shortWasteKlondike (by decide) (by decide) (by decide),
    ⟨_, Klondike_DrawCards_empty true shortWasteKlondike (by decide) (by decide), by decide⟩⟩

/-! ## Klondike: the faces of the cards -/

theorem FaceSorted_of_append (l r : List PolarStandardPlayingCard) (h : FaceSorted (l ++ r)) :
    FaceSorted l :=
  (List.pairwise_append.mp h).1

theorem FaceSorted_take (col : List PolarStandardPlayingCard) (k : Nat) (h : FaceSorted col) :
    FaceSorted (col.take k) :=
  List.Pairwise.sublist (List.take_sublist k col) h

/-- Face-up cards put on a column. -/
theorem FaceOrdered_append (col run : List PolarStandardPlayingCard) (h : FaceSorted col)
    (hrun : ∀ c ∈ run, c.face_up = true) (hne : run ≠ []) : FaceOrdered (col ++ run) := by
  constructor
  · unfold FaceSorted
    rw [List.pairwise_append]
    refine ⟨h, ?_, fun a _ b hb _ => hrun b hb⟩
    exact List.pairwise_of_forall_mem_list fun a _ b hb _ => hrun b hb
  · intro c hc
    rw [List.getLast?_append_of_ne_nil _ hne] at hc
    obtain ⟨l, hl⟩ := List.getLast?_eq_some_iff.mp hc
    exact hrun c (by rw [hl]; simp)

theorem FaceOrdered_push (col : List PolarStandardPlayingCard) (c : PolarStandardPlayingCard)
    (h : FaceSorted col) (hc : c.face_up = true) : FaceOrdered (col ++ [c]) :=
  FaceOrdered_append col [c] h (fun x hx => by
    rw [List.mem_singleton] at hx; rw [hx]; exact hc) (by simp)

/-- The auto-flip makes a column without face-down cards above face-up cards a
column with a face-up top card. -/
theorem FaceOrdered_flipTop (col : List PolarStandardPlayingCard) (h : FaceSorted col) :
    FaceOrdered (flipTop col) := by
  unfold flipTop
  rcases List.eq_nil_or_concat col with hc | ⟨l, d, hc⟩
  · subst hc
    exact ⟨List.Pairwise.nil, fun c hc => by simp at hc⟩
  · rw [List.concat_eq_append] at hc
    subst hc
    simp only [List.getLast?_concat, List.dropLast_concat]
    split
    · rename_i hd
      refine ⟨h, fun c hc => ?_⟩
      rw [List.getLast?_concat] at hc
      cases hc
      exact hd
    · exact FaceOrdered_push l _ (FaceSorted_of_append l [d] h) rfl

/-- Above a face-up card of the column every card is face-up. -/
theorem run_face_up (col : List PolarStandardPlayingCard) (idx k : Nat)
    (c : PolarStandardPlayingCard) (h : FaceSorted col) (hc : col[idx]? = some c)
    (hup : c.face_up = true) (hk : idx ≤ k) : ∀ x ∈ col.drop k, x.face_up = true := by
  intro x hx
  obtain ⟨j, hj⟩ := List.mem_iff_getElem?.mp hx
  rw [List.getElem?_drop] at hj
  have hjl : k + j < col.length := lt_of_getElem? hj
  have hil : idx < col.length := lt_of_getElem? hc
  rw [List.getElem?_eq_getElem hjl] at hj
  rw [List.getElem?_eq_getElem hil] at hc
  cases hj
  cases hc
  by_cases he : idx = k + j
  · subst he
    exact hup
  · exact (List.pairwise_iff_getElem.mp h) idx (k + j) hil hjl (by omega) hup

theorem mem_set_cases {α : Type} (l : List α) (i : Nat) (a x : α) (h : x ∈ l.set i a) :
    x ∈ l ∨ x = a := by
  rcases List.mem_or_eq_of_mem_set h with h | h
  · exact Or.inl h
  · exact Or.inr h

theorem set_self_of_getElem? {α : Type} (l : List α) (i : Nat) (a : α) (h : l[i]? = some a) :
    l.set i a = l := by
  apply List.ext_getElem?
  intro j
  by_cases hj : i = j
  · subst hj
    rw [List.getElem?_set_self (lt_of_getElem? h)]
    exact h.symm
  · rw [List.getElem?_set_ne hj]

/-- The auto-flip, read backwards. -/
theorem flipBackAt_inv (board b : List (List PolarStandardPlayingCard)) (i : Nat)
    (h : Klondike.flipBackAt board i = .ok b) :
    ∃ col, board[i]? = some col ∧ b = board.set i (flipTop col) := by
  unfold Klondike.flipBackAt at h
  split at h
  · cases h
  · rename_i col hcol
    rw [vecAt_ok_iff] at hcol
    refine ⟨col, hcol, ?_⟩
    cases hl : col.getLast? with
    | none =>
      rw [hl] at h
      simp only [Except.ok.injEq] at h
      rw [← h]
      simp only [flipTop, hl]
      exact (set_self_of_getElem? board i col hcol).symm
    | some c =>
      rw [hl] at h
      simp only at h
      simp only [flipTop, hl]
      cases hf : c.face_up with
      | false =>
        simp only [GetFaceUp, hf, Bool.not_false, if_true, Except.ok.injEq] at h
        rw [← h]
        simp [FlipCard, hf]
      | true =>
        simp only [GetFaceUp, hf, Bool.not_true, Bool.false_eq_true, if_false,
          Except.ok.injEq] at h
        rw [← h]
        simp only [if_true]
        exact (set_self_of_getElem? board i col hcol).symm

/-- The two loops of `MoveBoardToBoard`, read backwards. -/
theorem MoveBoardToBoard_move_inv (board b : List (List PolarStandardPlayingCard))
    (pile_from pile_to amount : Nat)
    (h : Freecell.MoveBoardToBoard.move board pile_from pile_to amount = .ok b) :
    ∃ src dst, board[szSub pile_from 1]? = some src ∧ amount ≤ src.length ∧
      (board.set (szSub pile_from 1) (src.take (src.length - amount)))[szSub pile_to 1]? =
        some dst ∧
      b = (board.set (szSub pile_from 1) (src.take (src.length - amount))).set
        (szSub pile_to 1) (dst ++ src.drop (src.length - amount)) := by
  simp only [Freecell.MoveBoardToBoard.move, bind_eq_ok_iff, vecAt_ok_iff, except_pure,
    Except.ok.injEq] at h
  obtain ⟨src, hsrc, ⟨src1, temp⟩, h1, dst, hdst, ⟨temp1, dst1⟩, h2, rfl⟩ := h
  dsimp only at hdst h2 ⊢
  obtain ⟨hl1, _, _⟩ := moveBack_ok _ _ _ _ _ h1
  have ha : amount ≤ src.length := by omega
  rw [moveBack_spec amount src [] ha] at h1
  simp only [Except.ok.injEq, Prod.mk.injEq, List.nil_append] at h1
  obtain ⟨rfl, rfl⟩ := h1
  have ht : amount ≤ ((src.drop (src.length - amount)).reverse).length := by
    simp only [List.length_reverse, List.length_drop]; omega
  rw [moveBack_spec amount _ dst ht] at h2
  simp only [Except.ok.injEq, Prod.mk.injEq] at h2
  obtain ⟨_, rfl⟩ := h2
  refine ⟨src, dst, hsrc, ha, hdst, ?_⟩
  have e : (src.drop (src.length - amount)).reverse.length - amount = 0 := by
    simp only [List.length_reverse, List.length_drop]; omega
  rw [e, List.drop_zero, List.reverse_reverse]

theorem forall_mem_set {α : Type} (P : α → Prop) (l : List α) (i : Nat) (a : α)
    (hl : ∀ x ∈ l, P x) (ha : P a) : ∀ x ∈ l.set i a, P x := by
  intro x hx
  rcases mem_set_cases l i a x hx with h | h
  · exact hl x h
  · rw [h]; exact ha

theorem Klondike_MoveFreeToBoard_move_faces (s s' : Klondike) (p : Nat)
    (h : Klondike.MoveFreeToBoard.move s p = .ok s') (hs : FacesOk s) : FacesOk s' := by
  simp only [Klondike.MoveFreeToBoard.move, bind_eq_ok_iff, vecBack_ok_iff, pushAt_ok_iff,
    except_pure, Except.ok.injEq] at h
  obtain ⟨c, ⟨l, hl⟩, b, ⟨col, hcol, rfl⟩, rfl⟩ := h
  obtain ⟨h1, h2, h3, h4⟩ := hs
  have hc : c.face_up = true := h2 c (by rw [hl]; simp)
  refine ⟨h1, ?_, h3, ?_⟩
  · intro x hx
    simp only [hl, List.dropLast_concat] at hx
    exact h2 x (by rw [hl]; exact List.mem_append_left _ hx)
  · exact forall_mem_set FaceOrdered s.board _ _ h4
      (FaceOrdered_push col c (h4 col (List.getElem?_mem hcol)).1 hc)

theorem Klondike_MoveFreeToBoard_faces (s s' : Klondike) (p : Nat)
    (h : Klondike.MoveFreeToBoard s p = .ok s') (hs : FacesOk s) : FacesOk s' := by
  unfold Klondike.MoveFreeToBoard at h
  split at h
  · cases h
  · exact Klondike_MoveFreeToBoard_move_faces _ _ _ h hs
  · split at h
    · cases h
    · exact Klondike_MoveFreeToBoard_move_faces _ _ _ h hs
    · cases h; exact hs

theorem Klondike_MoveFreeToStack_faces (s s' : Klondike) (stack : String) (aut : Bool)
    (h : Klondike.MoveFreeToStack s stack aut = .ok s') (hs : FacesOk s) : FacesOk s' := by
  unfold Klondike.MoveFreeToStack at h
  split at h
  · cases h
  · cases h; exact hs
  · simp only [bind_eq_ok_iff, vecBack_ok_iff, pushAt_ok_iff, except_pure,
      Except.ok.injEq] at h
    obtain ⟨c, ⟨l, hl⟩, st, ⟨st0, hst0, rfl⟩, rfl⟩ := h
    obtain ⟨h1, h2, h3, h4⟩ := hs
    have hc : c.face_up = true := h2 c (by rw [hl]; simp)
    refine ⟨h1, ?_, ?_, h4⟩
    · intro x hx
      simp only [hl, List.dropLast_concat] at hx
      exact h2 x (by rw [hl]; exact List.mem_append_left _ hx)
    · refine forall_mem_set (fun st => ∀ c ∈ st, c.face_up = true) s.stacks_ _ _ h3 ?_
      intro x hx
      rcases List.mem_append.mp hx with hx | hx
      · exact h3 st0 (List.getElem?_mem hst0) x hx
      · rw [List.mem_singleton] at hx; rw [hx]; exact hc

theorem Klondike_MoveBoardToStack_faces (s s' : Klondike) (p : Nat) (stack : String)
    (aut : Bool) (h : Klondike.MoveBoardToStack s p stack aut = .ok s') (hs : FacesOk s) :
    FacesOk s' := by
  unfold Klondike.MoveBoardToStack at h
  split at h
  · cases h
  · cases h; exact hs
  · simp only [bind_eq_ok_iff, backAt_ok_iff, pushAt_ok_iff, popAt_ok_iff, except_pure,
      Except.ok.injEq] at h
    obtain ⟨c, ⟨l, hl⟩, st, ⟨st0, hst0, rfl⟩, b, ⟨l2, x, hl2, rfl⟩, b1, hb1, rfl⟩ := h
    obtain ⟨h1, h2, h3, h4⟩ := hs
    rw [hl] at hl2
    simp only [Option.some.injEq] at hl2
    obtain ⟨rfl, hx⟩ := List.append_inj' hl2 rfl
    simp only [List.cons.injEq, and_true] at hx
    subst hx
    have hcol := h4 _ (List.getElem?_mem hl)
    have hc : c.face_up = true := hcol.2 c (List.getLast?_concat l)
    obtain ⟨col, hcol2, rfl⟩ := flipBackAt_inv _ _ _ hb1
    have hidx : szSub p 1 < s.board.length := lt_of_getElem? hl
    rw [List.getElem?_set_self hidx] at hcol2
    cases hcol2
    rw [List.set_set]
    refine ⟨h1, h2, ?_, ?_⟩
    · refine forall_mem_set (fun st => ∀ c ∈ st, c.face_up = true) s.stacks_ _ _ h3 ?_
      intro x hx
      rcases List.mem_append.mp hx with hx | hx
      · exact h3 st0 (List.getElem?_mem hst0) x hx
      · rw [List.mem_singleton] at hx; rw [hx]; exact hc
    · exact forall_mem_set FaceOrdered s.board _ _ h4
        (FaceOrdered_flipTop l (FaceSorted_of_append l [c] hcol.1))

theorem Klondike_MoveStackToBoard_faces (s s' : Klondike) (p : Nat) (stack : String)
    (h : Klondike.MoveStackToBoard s p stack = .ok s') (hs : FacesOk s) : FacesOk s' := by
  unfold Klondike.MoveStackToBoard at h
  split at h
  · cases h
  · cases h; exact hs
  · simp only [bind_eq_ok_iff, backAt_ok_iff, pushAt_ok_iff, popAt_ok_iff, except_pure,
      Except.ok.injEq] at h
    obtain ⟨t, ⟨l, hl⟩, b, ⟨col, hcol, rfl⟩, st, ⟨l2, x, hl2, rfl⟩, rfl⟩ := h
    obtain ⟨h1, h2, h3, h4⟩ := hs
    rw [hl] at hl2
    simp only [Option.some.injEq] at hl2
    obtain ⟨rfl, hx⟩ := List.append_inj' hl2 rfl
    simp only [List.cons.injEq, and_true] at hx
    subst hx
    have hst := h3 _ (List.getElem?_mem hl)
    have ht : t.face_up = true := hst t (by simp)
    refine ⟨h1, h2, ?_, ?_⟩
    · exact forall_mem_set (fun st => ∀ c ∈ st, c.face_up = true) s.stacks_ _ _ h3
        (fun x hx => hst x (List.mem_append_left _ hx))
    · exact forall_mem_set FaceOrdered s.board _ _ h4
        (FaceOrdered_push col t (h4 col (List.getElem?_mem hcol)).1 ht)

/-- A passed test of Klondike `MoveBoardToBoard` followed by the move: the cards
moved are the top `amount` cards of the source column, and they are face-up. -/
theorem Klondike_moved_run_face_up (s : Klondike) (b : List (List PolarStandardPlayingCard))
    (pile_from pile_to amount : Nat) (hs : FacesOk s)
    (htest : Klondike.MoveBoardToBoard.test s pile_from pile_to amount = .ok true)
    (hmove : Freecell.MoveBoardToBoard.move s.board pile_from pile_to amount = .ok b) :
    ∃ src dst, s.board[szSub pile_from 1]? = some src ∧ 1 ≤ amount ∧ amount ≤ src.length ∧
      (∀ c ∈ src.drop (src.length - amount), c.face_up = true) ∧
      (s.board.set (szSub pile_from 1) (src.take (src.length - amount)))[szSub pile_to 1]? =
        some dst ∧
      b = (s.board.set (szSub pile_from 1) (src.take (src.length - amount))).set
        (szSub pile_to 1) (dst ++ src.drop (src.length - amount)) := by
  obtain ⟨src, dst, hsrc, ha, hdst, hb⟩ := MoveBoardToBoard_move_inv _ _ _ _ _ hmove
  simp only [Klondike.MoveBoardToBoard.test, sAnd_eq_true_iff, Except.ok.injEq,
    decide_eq_true_eq] at htest
  obtain ⟨_, _, _, _, ha1, hrun, _⟩ := htest
  simp only [bind_eq_ok_iff, except_pure, Except.ok.injEq] at hrun
  obtain ⟨c, hc, hup⟩ := hrun
  simp only [Klondike.runBottom, bind_eq_ok_iff, vecAt_ok_iff] at hc
  obtain ⟨src2, hsrc2, hc2⟩ := hc
  rw [hsrc] at hsrc2
  cases hsrc2
  have hidx : szSub src.length amount ≤ src.length - amount := by
    unfold szSub
    rw [SIZE_MOD_eq]
    omega
  exact ⟨src, dst, hsrc, ha1, ha,
    run_face_up src _ _ c (hs.2.2.2 src (List.getElem?_mem hsrc)).1 hc2 hup hidx, hdst, hb⟩

theorem Klondike_MoveBoardToBoard_faces (s s' : Klondike) (pile_from pile_to amount : Nat)
    (h : Klondike.MoveBoardToBoard s pile_from pile_to amount = .ok s') (hs : FacesOk s) :
    FacesOk s' := by
  unfold Klondike.MoveBoardToBoard at h
  split at h
  · cases h
  · cases h; exact hs
  · rename_i htest
    simp only [bind_eq_ok_iff, except_pure, Except.ok.injEq] at h
    obtain ⟨b, hb, b1, hb1, rfl⟩ := h
    obtain ⟨src, dst, hsrc, ha1, ha, hrun, hdst, rfl⟩ :=
      Klondike_moved_run_face_up s b pile_from pile_to amount hs htest hb
    obtain ⟨h1, h2, h3, h4⟩ := hs
    refine ⟨h1, h2, h3, ?_⟩
    show ∀ col ∈ b1, FaceOrdered col
    obtain ⟨colf, hcolf, rfl⟩ := flipBackAt_inv _ _ _ hb1
    have hsorted : ∀ col ∈ s.board, FaceSorted col := fun col hcol => (h4 col hcol).1
    have hsrc1 : FaceSorted (src.take (src.length - amount)) :=
      FaceSorted_take src _ (hsorted src (List.getElem?_mem hsrc))
    have hq2 : ∀ col ∈ s.board.set (szSub pile_from 1) (src.take (src.length - amount)),
        FaceSorted col := forall_mem_set FaceSorted _ _ _ hsorted hsrc1
    have hne : src.drop (src.length - amount) ≠ [] := by
      intro he
      have := congrArg List.length he
      simp only [List.length_drop, List.length_nil] at this
      omega
    have hnew : FaceOrdered (dst ++ src.drop (src.length - amount)) :=
      FaceOrdered_append dst _ (hq2 dst (List.getElem?_mem hdst)) hrun hne
    have hqb : ∀ col ∈ (s.board.set (szSub pile_from 1) (src.take (src.length - amount))).set
        (szSub pile_to 1) (dst ++ src.drop (src.length - amount)), FaceSorted col :=
      forall_mem_set FaceSorted _ _ _ hq2 hnew.1
    have hflip : FaceOrdered (flipTop colf) :=
      FaceOrdered_flipTop colf (hqb colf (List.getElem?_mem hcolf))
    intro col hcol
    obtain ⟨j, hj⟩ := List.mem_iff_getElem?.mp hcol
    by_cases hjf : szSub pile_from 1 = j
    · subst hjf
      rw [List.getElem?_set_self (lt_of_getElem? hcolf)] at hj
      cases hj
      exact hflip
    · rw [List.getElem?_set_ne hjf] at hj
      by_cases hjt : szSub pile_to 1 = j
      · subst hjt
        rw [List.getElem?_set_self (by
          have := lt_of_getElem? hdst
          exact this)] at hj
        cases hj
        exact hnew
      · rw [List.getElem?_set_ne hjt, List.getElem?_set_ne hjf] at hj
        exact h4 col (List.getElem?_mem hj)

theorem draw_faces (n : Nat) (s s' : Klondike) (h : Klondike.DrawCards.draw n s = .ok s')
    (hs : FacesOk s) : FacesOk s' := by
  induction n generalizing s with
  | zero =>
    simp only [Klondike.DrawCards.draw, Except.ok.injEq] at h
    subst h
    exact hs
  | succ n ih =>
    unfold Klondike.DrawCards.draw at h
    split at h
    · cases h
    · rename_i c deck1 hd
      have hdeck := DrawOne_some _ _ _ hd
      apply ih _ h
      obtain ⟨h1, h2, h3, h4⟩ := hs
      refine ⟨fun x hx => h1 x (by rw [hdeck]; exact List.mem_append_left _ hx), ?_, h3, h4⟩
      intro x hx
      rcases List.mem_append.mp hx with hx | hx
      · exact h2 x hx
      · rw [List.mem_singleton, turn_up] at hx
        rw [hx]

theorem prepare_faces (s : Klondike) (hs : FacesOk s) :
    FacesOk (Klondike.DrawCards.prepare s).2 := by
  unfold Klondike.DrawCards.prepare
  split
  · exact hs
  · split
    · obtain ⟨h1, h2, h3, h4⟩ := hs
      simp only [recycle_spec s.free.length s.free [] (le_refl _), List.nil_append]
      refine ⟨?_, fun x hx => by simp at hx, h3, h4⟩
      intro x hx
      simp only [List.mem_map] at hx
      obtain ⟨y, _, rfl⟩ := hx
      rfl
    · exact hs

theorem Klondike_DrawCards_faces (d : Bool) (s s' : Klondike)
    (h : Klondike.DrawCards d s = .ok s') (hs : FacesOk s) : FacesOk s' := by
  unfold Klondike.DrawCards at h
  simp only at h
  split at h
  · exact draw_faces _ _ _ h (prepare_faces s hs)
  · cases h; exact prepare_faces s hs

theorem Klondike_AutoMove_faces (fuel : Nat) (s s' : Klondike)
    (h : Klondike.AutoMove fuel s = .ok s') (hs : FacesOk s) : FacesOk s' := by
  refine AutoMove_preserves _ _ FacesOk ?_ ?_ fuel s s' h hs
  · intro s r hr hs
    unfold Klondike.AutoMoveFree at hr
    simp only at hr
    split at hr
    · split at hr
      · cases hr
      · split at hr
        · cases hr
        · rename_i s1 h1
          cases hr
          exact Klondike_MoveFreeToStack_faces _ _ _ _ h1 hs
    · cases hr; exact hs
  · intro s r hr hs
    exact AutoMoveBoard_loop_preserves _ FacesOk
      (fun s p stack aut s' h hs => Klondike_MoveBoardToStack_faces s s' p stack aut h hs)
      _ _ _ _ _ hr hs

/-- Every Klondike operation keeps the face-up invariant. -/
theorem Klondike_Move_faces (d : Bool) (s s' : Klondike) (h : Klondike.Move d s s')
    (hs : FacesOk s) : FacesOk s' := by
  cases h with
  | boardToBoard f t a h => exact Klondike_MoveBoardToBoard_faces _ _ _ _ _ h hs
  | freeToBoard t h => exact Klondike_MoveFreeToBoard_faces _ _ _ h hs
  | freeToStack u a h => exact Klondike_MoveFreeToStack_faces _ _ _ _ h hs
  | boardToStack f u a h => exact Klondike_MoveBoardToStack_faces _ _ _ _ _ h hs
  | stackToBoard t u h => exact Klondike_MoveStackToBoard_faces _ _ _ _ h hs
  | drawCards h => exact Klondike_DrawCards_faces d _ _ h hs
  | autoMove fuel h => exact Klondike_AutoMove_faces fuel _ _ h hs

theorem fresh_face_down :
    ∀ c ∈ StandardDeck.fresh PolarStandardPlayingCard, c.face_up = false := by
  intro c hc
  simp only [StandardDeck.fresh, List.mem_flatMap, List.mem_map] at hc
  obtain ⟨u, _, r, _, rfl⟩ := hc
  rfl

/-- The position dealt has the face-up invariant. -/
theorem Klondike_Deal_faces (shuffled : List PolarStandardPlayingCard) (s : Klondike)
    (hperm : shuffled.Perm (StandardDeck.fresh PolarStandardPlayingCard))
    (hdeal : Klondike.Deal (Solitaire.fresh PolarStandardPlayingCard) shuffled = .ok s) :
    FacesOk s := by
  have h52 : shuffled.length = 52 := by rw [hperm.length_eq]; decide
  have hdown : ∀ c ∈ shuffled, c.face_up = false :=
    fun c hc => fresh_face_down c (hperm.subset hc)
  obtain ⟨s2, h1, _, _, hcols, _, _, hdeck, hfree, hst⟩ :=
    Klondike_Deal_52_layout shuffled h52 hdown
  rw [hdeal] at h1
  cases h1
  refine ⟨hdeck, by rw [hfree]; simp, ?_, ?_⟩
  · rw [hst]
    intro st hst2 c hc
    simp only [List.mem_cons, List.mem_singleton, List.not_mem_nil, or_false, or_self] at hst2
    rw [hst2] at hc
    simp at hc
  · intro col hcol
    obtain ⟨i, hi⟩ := List.mem_iff_getElem?.mp hcol
    obtain ⟨hlen, hface⟩ := hcols i col hi
    constructor
    · unfold FaceSorted
      rw [List.pairwise_iff_getElem]
      intro j k hj hk hjk hup
      have := (hface j col[j] (List.getElem?_eq_getElem hj)).mp hup
      omega
    · intro c hc
      obtain ⟨l, hl⟩ := List.getLast?_eq_some_iff.mp hc
      have hci : col[i]? = some c := by
        have hll : l.length = i := by
          have := congrArg List.length hl
          simp only [List.length_append, List.length_singleton] at this
          omega
        rw [hl, ← hll]
        simp
      exact (hface i c hci).mpr rfl

/-- Every Klondike state reachable from `Deal` has the face-up invariant. -/
theorem Klondike_Reachable_faces (d : Bool) (s : Klondike) (h : Klondike.Reachable d s) :
    FacesOk s := by
  induction h with
  | deal shuffled s hperm hdeal => exact Klondike_Deal_faces shuffled s hperm hdeal
  | move s s' _ hmove ih => exact Klondike_Move_faces d s s' hmove ih

/-- C36: in every Klondike state reachable from `Deal` through `DrawCards`,
`AutoMove` and the move operations, in either draw mode, every card of the deck
is face-down, every card of the waste pile and of the foundations is face-up,
and in every board column no face-down card lies above a face-up card and the
top card, if there is one, is face-up. Hence the cards a move takes, the top
card of a column, of the waste pile or of a foundation, are face-up, and so are
all cards of a run that `MoveBoardToBoard` moves after its test passed. Every
operation leads to a state with the same properties. -/
theorem Klondike_face_up_invariant (d : Bool) (s : Klondike) (h : Klondike.Reachable d s) :
    (∀ c ∈ s.deck, c.face_up = false) ∧ (∀ c ∈ s.free, c.face_up = true) ∧
    (∀ st ∈ s.stacks_, ∀ c ∈ st, c.face_up = true) ∧
    (∀ col ∈ s.board,
      (∀ (i j : Nat) (ci cj : PolarStandardPlayingCard), i < j → col[i]? = some ci →
        col[j]? = some cj →
        ci.face_up = true → cj.face_up = true) ∧
      ∀ c, col.getLast? = some c → c.face_up = true) ∧
    (∀ pile_from pile_to amount s',
      Klondike.MoveBoardToBoard s pile_from pile_to amount = .ok s' →
      Klondike.MoveBoardToBoard.test s pile_from pile_to amount = .ok true →
      ∃ src, s.board[szSub pile_from 1]? = some src ∧ 1 ≤ amount ∧ amount ≤ src.length ∧
        ∀ c ∈ src.drop (src.length - amount), c.face_up = true) ∧
    (∀ s', Klondike.Move d s s' → FacesOk s') := by
  have hs := Klondike_Reachable_faces d s h
  refine ⟨hs.1, hs.2.1, hs.2.2.1, ?_, ?_, fun s' hm => Klondike_Move_faces d s s' hm hs⟩
  · intro col hcol
    refine ⟨?_, (hs.2.2.2 col hcol).2⟩
    intro i j ci cj hij hi hj hup
    have hil : i < col.length := lt_of_getElem? hi
    have hjl : j < col.length := lt_of_getElem? hj
    rw [List.getElem?_eq_getElem hil] at hi
    rw [List.getElem?_eq_getElem hjl] at hj
    cases hi
    cases hj
    exact (List.pairwise_iff_getElem.mp (hs.2.2.2 col hcol).1) i j hil hjl hij hup
  · intro f t a s' hmove htest
    unfold Klondike.MoveBoardToBoard at hmove
    rw [htest] at hmove
    simp only [bind_eq_ok_iff, except_pure, Except.ok.injEq] at hmove
    obtain ⟨b, hb, _⟩ := hmove
    obtain ⟨src, _, hsrc, ha1, ha, hrun, _⟩ := Klondike_moved_run_face_up s b f t a hs htest hb
    exact ⟨src, hsrc, ha1, ha, hrun⟩

/-- C36 at reachable positions: the 24 cards of the deck of the dealt position
are face-down, and the two cards on the waste pile of `shortWasteKlondike`,
reached by eight rounds of draws and automatic moves, are face-up, as are the
cards of its foundations. -/
theorem Klondike_face_up_invariant_witness :
    (∀ c ∈ dealtKlondike.deck, c.face_up = false) ∧ dealtKlondike.deck.length = 24 ∧
    (∀ c ∈ shortWasteKlondike.free, c.face_up = true) ∧
    (∀ st ∈ shortWasteKlondike.stacks_, ∀ c ∈ st, c.face_up = true) :=
  ⟨(Klondike_face_up_invariant true dealtKlondike (dealtKlondike_reachable true)).1,
    by decide,
    (Klondike_face_up_invariant false shortWasteKlondike shortWasteKlondike_reachable).2.1,
    (Klondike_face_up_invariant false shortWasteKlondike shortWasteKlondike_reachable).2.2.1⟩

/-! ## Freecell: a move that is not legal leaves the state unchanged -/

/-- The outcome of Freecell `MoveFreeToStack` for a suit name whose foundation is
`st`, when the difference `rank - 1` of the free cards is an `int` value. -/
theorem Freecell_MoveFreeToStack_cases (s : Freecell) (stack : String) (index : Nat)
    (aut : Bool) (st : List StandardPlayingCard) (hfree : s.free.length < SIZE_MOD)
    (hst : s.stacks_[Solitaire.GetStackSuit stack]? = some st)
    (hov : ∀ c ∈ s.free, IsInt32 (GetRank c - 1)) :
    (Freecell.LegalFreeToStack s stack index →
      ∃ c, s.free[index - 1]? = some c ∧
        Freecell.MoveFreeToStack s stack index aut = .ok
          { s with stacks_ := s.stacks_.set (Solitaire.GetStackSuit stack) (st ++ [c]),
                   free := s.free.eraseIdx (index - 1) }) ∧
    (¬ Freecell.LegalFreeToStack s stack index →
      Freecell.MoveFreeToStack s stack index aut = .ok s) := by
  have hgetD : s.stacks_.getD (Solitaire.GetStackSuit stack) [] = st := by
    rw [List.getD_eq_getElem?_getD, hst]; rfl
  by_cases hrange : 1 ≤ index ∧ index ≤ s.free.length
  swap
  · have hnl : ¬ Freecell.LegalFreeToStack s stack index := fun h => hrange ⟨h.1, h.2.1⟩
    refine ⟨fun h => absurd h hnl, fun _ => ?_⟩
    have htest : Freecell.MoveFreeToStack.test s stack index = .ok false := by
      unfold Freecell.MoveFreeToStack.test
      cases h1 : !s.free.isEmpty
      · rfl
      · rw [sAnd_true]
        by_cases h2 : 1 ≤ index
        · rw [decide_eq_true h2, sAnd_true]
          have h3 : ¬ index ≤ s.free.length := fun h => hrange ⟨h2, h⟩
          rw [decide_eq_false h3, sAnd_false]
        · rw [decide_eq_false h2, sAnd_false]
    simp only [Freecell.MoveFreeToStack, htest]
  obtain ⟨h1, h2⟩ := hrange
  have hidx : szSub index 1 = index - 1 := szSub_of_le h1 (by omega)
  have hlt : index - 1 < s.free.length := by omega
  have hc : s.free[index - 1]? = some s.free[index - 1] := List.getElem?_eq_getElem hlt
  generalize s.free[index - 1] = c at hc
  have hne : (!s.free.isEmpty) = true := by
    cases hf : s.free with
    | nil => rw [hf] at hlt; simp at hlt
    | cons a l => rfl
  have hcheck := Freecell_CheckCardToStack_eval s (Solitaire.GetStackSuit stack) index st c
    (by rw [hidx]; exact hc) hst (fun _ => hov c (List.getElem?_mem hc))
  have htest : Freecell.MoveFreeToStack.test s stack index =
      .ok (decide (FitsFoundation c stack st)) := by
    simp only [Freecell.MoveFreeToStack.test, hne, sAnd_true, decide_eq_true h1,
      decide_eq_true h2, hidx, vecAt_eq_ok hc, except_bind_ok, except_pure, hcheck, sAnd_ok_ok,
      FitsFoundation, Bool.decide_and, Bool.true_and]
  have hiff : Freecell.LegalFreeToStack s stack index ↔ FitsFoundation c stack st := by
    simp only [Freecell.LegalFreeToStack, hgetD, hc, Option.some.injEq, exists_eq_left']
    exact ⟨fun h => h.2.2, fun h => ⟨h1, h2, h⟩⟩
  constructor
  · intro hl
    refine ⟨c, hc, ?_⟩
    simp only [Freecell.MoveFreeToStack, htest, decide_eq_true (hiff.mp hl), hidx,
      vecAt_eq_ok hc, except_bind_ok, pushAt_eq_ok c hst, except_pure]
  · intro hnl
    simp only [Freecell.MoveFreeToStack, htest, decide_eq_false (fun h => hnl (hiff.mpr h))]

/-- Every position that a Freecell game reaches is a game position. -/
theorem Freecell_Reachable_position (s : Freecell) (h : Freecell.Reachable s) :
    Freecell.GamePosition s :=
  ⟨Freecell_Reachable_board_length s h, (Freecell_Reachable_ordered s h).1,
    Freecell_Reachable_free s h, cards_of_count s (Freecell_Reachable_count s h)⟩

/-- The linear capacity is at most the capacity that the spec states. -/
theorem Freecell_capacity_le_stated (s : Freecell) (pile_to : Nat) :
    Freecell.capacity s pile_to ≤ Freecell.statedCapacity s pile_to := by
  unfold Freecell.capacity Freecell.statedCapacity
  exact Nat.mul_le_mul_left _ (Nat.lt_two_pow _)

/-- A board-to-board move that is legal with the linear capacity is legal with
the capacity that the spec states. -/
theorem Freecell_stated_of_legal (s : Freecell) (pile_from pile_to amount : Nat)
    (h : Freecell.LegalBoardToBoard s pile_from pile_to amount) :
    Freecell.StatedLegalBoardToBoard s pile_from pile_to amount :=
  ⟨h.1, h.2.1, h.2.2.1, h.2.2.2.1, h.2.2.2.2.1, h.2.2.2.2.2.1,
    le_trans h.2.2.2.2.2.2.1 (Freecell_capacity_le_stated s pile_to), h.2.2.2.2.2.2.2⟩

/-- In a game position each of the six move operations of Freecell, called with
a column index in [1,8] (and, to a foundation, on a column that is not empty;
from a foundation, with a suit name; between columns, with an amount that the
source column holds), leaves the state unchanged when the move is not legal. -/
theorem Freecell_GamePosition_rejects (s : Freecell) (hs : Freecell.GamePosition s) :
    (∀ pile_from pile_to amount : Nat,
      (¬ (1 ≤ pile_from ∧ pile_from ≤ 8) ∨ ¬ (1 ≤ pile_to ∧ pile_to ≤ 8) ∨ amount = 1 ∨
        (1 ≤ amount ∧ amount ≤ (s.board.getD (pile_from - 1) []).length)) →
      ¬ Freecell.StatedLegalBoardToBoard s pile_from pile_to amount ∨
        ¬ Freecell.LegalBoardToBoard s pile_from pile_to amount →
      Freecell.MoveBoardToBoard s pile_from pile_to amount = .ok s) ∧
    (∀ (pile_from : Nat) (stack : String) (aut : Bool) (col : List StandardPlayingCard)
      (c : StandardPlayingCard),
      1 ≤ pile_from ∧ pile_from ≤ 8 → s.board[pile_from - 1]? = some (col ++ [c]) →
      ¬ FitsFoundation c stack (s.stacks_.getD (Solitaire.GetStackSuit stack) []) →
      Freecell.MoveBoardToStack s pile_from stack aut = .ok s) ∧
    (∀ pile_from : Nat, 1 ≤ pile_from ∧ pile_from ≤ 8 →
      ¬ (s.board.getD (pile_from - 1) [] ≠ [] ∧ s.free.length < 4) →
      Freecell.MoveBoardToFree s pile_from = .ok s) ∧
    (∀ pile_to index : Nat, 1 ≤ pile_to ∧ pile_to ≤ 8 →
      ¬ Freecell.LegalFreeToBoard s pile_to index →
      Freecell.MoveFreeToBoard s pile_to index = .ok s) ∧
    (∀ (stack : String) (index : Nat) (aut : Bool),
      ¬ Freecell.LegalFreeToStack s stack index →
      Freecell.MoveFreeToStack s stack index aut = .ok s) ∧
    (∀ (pile_to : Nat) (stack : String), 1 ≤ pile_to ∧ pile_to ≤ 8 → ValidSuit stack →
      ¬ Freecell.LegalStackToBoard (s.stacks_.getD (Solitaire.GetStackSuit stack) [])
        (s.board.getD (pile_to - 1) []) →
      Freecell.MoveStackToBoard s pile_to stack = .ok s) := by
  obtain ⟨hboard, hstacks, hfree, hlen, hfc, hbc, hsc⟩ := hs
  have hcol : ∀ p : Nat, 1 ≤ p ∧ p ≤ 8 →
      ∃ col, s.board[p - 1]? = some col ∧ s.board.getD (p - 1) [] = col := by
    intro p hp
    have hlt : p - 1 < s.board.length := by omega
    refine ⟨s.board[p - 1], List.getElem?_eq_getElem hlt, ?_⟩
    rw [List.getD_eq_getElem?_getD, List.getElem?_eq_getElem hlt]; rfl
  have hfound : ∀ stack : String, ValidSuit stack →
      ∃ st, s.stacks_[Solitaire.GetStackSuit stack]? = some st ∧
        s.stacks_.getD (Solitaire.GetStackSuit stack) [] = st := by
    intro stack hv
    have hlt : Solitaire.GetStackSuit stack < s.stacks_.length := by
      have := GetStackSuit_lt hv
      omega
    refine ⟨s.stacks_[Solitaire.GetStackSuit stack], List.getElem?_eq_getElem hlt, ?_⟩
    rw [List.getD_eq_getElem?_getD, List.getElem?_eq_getElem hlt]; rfl
  have hsz : ∀ p : Nat, p ≤ 8 → p < SIZE_MOD := by
    intro p hp; rw [SIZE_MOD_eq]; omega
  refine ⟨?_, ?_, ?_, ?_, ?_, ?_⟩
  · intro pile_from pile_to amount hdom hnl
    have hnl2 : ¬ Freecell.LegalBoardToBoard s pile_from pile_to amount := by
      rcases hnl with h | h
      · exact fun hl => h (Freecell_stated_of_legal s pile_from pile_to amount hl)
      · exact h
    exact (Freecell_MoveBoardToBoard_cases s pile_from pile_to amount hboard hfree hlen
      (fun col hc c hcc => ⟨(DeckCard_int c (hbc col hc c hcc)).1,
        (DeckCard_int c (hbc col hc c hcc)).2.2⟩) hdom).2 hnl2
  · intro pile_from stack aut col c hp hc hnl
    have hmem : c ∈ col ++ [c] := by simp
    have hdc := hbc _ (List.getElem?_mem hc) c hmem
    by_cases hv : ValidSuit stack
    · obtain ⟨st, hst, hgetD⟩ := hfound stack hv
      rw [hgetD] at hnl
      exact (Freecell_MoveBoardToStack_cases s pile_from stack aut col c st hp.1
        (hsz _ hp.2) hc hst (fun _ _ => (DeckCard_int c hdc).2.1)).2 hnl
    · have hidx : szSub pile_from 1 = pile_from - 1 := szSub_of_le hp.1 (hsz _ hp.2)
      exact (Freecell_MoveBoardToStack_invalid s pile_from stack aut c hv
        (by rw [hidx]; exact backAt_eq_ok hc (List.getLast?_concat col)) hdc.2).2
  · intro pile_from hp hnl
    obtain ⟨col, hc, hgetD⟩ := hcol pile_from hp
    rw [hgetD] at hnl
    exact (Freecell_MoveBoardToFree_cases s pile_from col hp.1 (hsz _ hp.2) hc).2 hnl
  · intro pile_to index hp hnl
    obtain ⟨dst, hd, _⟩ := hcol pile_to hp
    exact (Freecell_MoveFreeToBoard_cases s pile_to index dst hp.1 (hsz _ hp.2) hd
      (by rw [SIZE_MOD_eq]; omega)
      (fun c _ hc _ _ => (DeckCard_int c (hfc c (List.getElem?_mem hc))).2.2)).2 hnl
  · intro stack index aut hnl
    by_cases hv : ValidSuit stack
    · obtain ⟨st, hst, _⟩ := hfound stack hv
      exact (Freecell_MoveFreeToStack_cases s stack index aut st (by rw [SIZE_MOD_eq]; omega)
        hst (fun c hc => (DeckCard_int c (hfc c hc)).2.1)).2 hnl
    · exact (Freecell_MoveFreeToStack_invalid s stack index aut hv
        (fun c hc => (hfc c hc).2)).2
  · intro pile_to stack hp hv hnl
    obtain ⟨dst, hd, hgetD⟩ := hcol pile_to hp
    obtain ⟨st, hst, hgetS⟩ := hfound stack hv
    rw [hgetD, hgetS] at hnl
    exact (Freecell_MoveStackToBoard_cases s pile_to stack st dst hp hd hst
      (fun t ht _ => (DeckCard_int t
        (hsc st (List.getElem?_mem hst) t (List.mem_of_mem_getLast? ht))).2.2)).2 hnl

/-- C6 as stated fails: it speaks of every argument, and the operations are
defined only on the arguments that the input loop passes on. In positions that
a game reaches, `MoveBoardToFree` and `MoveBoardToStack` on the columns 0 and 9,
`MoveFreeToBoard` and `MoveStackToBoard` on the column 9 and `MoveStackToBoard`
with a name that is no suit read a vector outside its bounds, `MoveBoardToStack`
on an empty column calls `back()` on it, and `MoveBoardToBoard` with seven cards
of a column of six reads the column outside its bounds; none of these moves is
legal, and none of these calls has a defined outcome. -/
theorem Freecell_illegal_arguments_fault :
    Freecell.Reachable dealtFreecell ∧ Freecell.Reachable stuckFreecell ∧
    Freecell.Reachable wonFreecell ∧
    Freecell.MoveBoardToFree dealtFreecell 9 = .error .outOfRange ∧
    Freecell.MoveBoardToFree dealtFreecell 0 = .error .outOfRange ∧
    Freecell.MoveBoardToStack dealtFreecell 9 "spade" false = .error .outOfRange ∧
    Freecell.MoveBoardToStack dealtFreecell 0 "spade" false = .error .outOfRange ∧
    wonFreecell.board.getD 0 [] = [] ∧
    Freecell.MoveBoardToStack wonFreecell 1 "spade" false = .error .emptyBack ∧
    Freecell.MoveFreeToBoard stuckFreecell 9 1 = .error .outOfRange ∧
    Freecell.MoveStackToBoard wonFreecell 9 "heart" = .error .outOfRange ∧
    Freecell.MoveStackToBoard dealtFreecell 1 "hearts" = .error .outOfRange ∧
    (dealtFreecell.board.getD 4 []).length = 6 ∧
    ¬ Freecell.StatedLegalBoardToBoard dealtFreecell 5 1 7 ∧
    Freecell.MoveBoardToBoard dealtFreecell 5 1 7 = .error .outOfRange :=
  ⟨dealtFreecell_reachable, stuckFreecell_reachable, wonFreecell_reachable, by decide,
    by decide, by decide, by decide, by decide, by decide, by decide, by decide, by decide,
    by decide, fun h => absurd h.2.2.2.2.1 (by decide), by decide⟩

/-- C6, amended: every position that a Freecell game reaches is a game position
(eight columns of at most 52 cards, four foundations, at most four occupied
free cells, cards of the standard deck), and in a game position each of the six
move operations leaves the state unchanged whenever the move is not legal by
the rules of the spec and the arguments are of the kind the input loop passes
on: `MoveBoardToBoard` with an index outside [1,8], or one card, or between one
card and as many as the source column holds, the move being illegal with the
capacity that the spec states or with the linear capacity; `MoveBoardToStack`
from a column in [1,8] that is not empty, to any name; `MoveBoardToFree` from a
column in [1,8]; `MoveFreeToBoard` to a column in [1,8], with any free-cell
index; `MoveFreeToStack` with any name and any index; `MoveStackToBoard` to a
column in [1,8] with one of the four suit names. -/
theorem Freecell_rejected_move_unchanged :
    (∀ s : Freecell, Freecell.Reachable s → Freecell.GamePosition s) ∧
    ∀ s : Freecell, Freecell.GamePosition s →
      (∀ pile_from pile_to amount : Nat,
        (¬ (1 ≤ pile_from ∧ pile_from ≤ 8) ∨ ¬ (1 ≤ pile_to ∧ pile_to ≤ 8) ∨ amount = 1 ∨
          (1 ≤ amount ∧ amount ≤ (s.board.getD (pile_from - 1) []).length)) →
        ¬ Freecell.StatedLegalBoardToBoard s pile_from pile_to amount ∨
          ¬ Freecell.LegalBoardToBoard s pile_from pile_to amount →
        Freecell.MoveBoardToBoard s pile_from pile_to amount = .ok s) ∧
      (∀ (pile_from : Nat) (stack : String) (aut : Bool) (col : List StandardPlayingCard)
        (c : StandardPlayingCard),
        1 ≤ pile_from ∧ pile_from ≤ 8 → s.board[pile_from - 1]? = some (col ++ [c]) →
        ¬ FitsFoundation c stack (s.stacks_.getD (Solitaire.GetStackSuit stack) []) →
        Freecell.MoveBoardToStack s pile_from stack aut = .ok s) ∧
      (∀ pile_from : Nat, 1 ≤ pile_from ∧ pile_from ≤ 8 →
        ¬ (s.board.getD (pile_from - 1) [] ≠ [] ∧ s.free.length < 4) →
        Freecell.MoveBoardToFree s pile_from = .ok s) ∧
      (∀ pile_to index : Nat, 1 ≤ pile_to ∧ pile_to ≤ 8 →
        ¬ Freecell.LegalFreeToBoard s pile_to index →
        Freecell.MoveFreeToBoard s pile_to index = .ok s) ∧
      (∀ (stack : String) (index : Nat) (aut : Bool),
        ¬ Freecell.LegalFreeToStack s stack index →
        Freecell.MoveFreeToStack s stack index aut = .ok s) ∧
      (∀ (pile_to : Nat) (stack : String), 1 ≤ pile_to ∧ pile_to ≤ 8 → ValidSuit stack →
        ¬ Freecell.LegalStackToBoard (s.stacks_.getD (Solitaire.GetStackSuit stack) [])
          (s.board.getD (pile_to - 1) []) →
        Freecell.MoveStackToBoard s pile_to stack = .ok s) :=
  ⟨Freecell_Reachable_position, Freecell_GamePosition_rejects⟩

/-- C6 (amended) at the reachable position `stuckFreecell`, whose four free cells
are occupied and whose foundations are empty: a move from the column 9, the
four of spades onto the three of spades, the four of spades to the empty spade
foundation or to a foundation with no suit name, a fifth card to the free
cells, the free cell 5, the seven of spades to the empty spade foundation and a
card of the empty spade foundation all leave the position as it is. -/
theorem Freecell_rejected_move_unchanged_witness :
    Freecell.GamePosition stuckFreecell ∧
    Freecell.MoveBoardToBoard stuckFreecell 9 1 1 = .ok stuckFreecell ∧
    Freecell.MoveBoardToBoard stuckFreecell 1 2 1 = .ok stuckFreecell ∧
    Freecell.MoveBoardToStack stuckFreecell 1 "spade" false = .ok stuckFreecell ∧
    Freecell.MoveBoardToStack stuckFreecell 1 "spades" false = .ok stuckFreecell ∧
    Freecell.MoveBoardToFree stuckFreecell 1 = .ok stuckFreecell ∧
    Freecell.MoveFreeToBoard stuckFreecell 1 5 = .ok stuckFreecell ∧
    Freecell.MoveFreeToStack stuckFreecell "spade" 1 false = .ok stuckFreecell ∧
    Freecell.MoveStackToBoard stuckFreecell 1 "spade" = .ok stuckFreecell := by
  have hs := Freecell_rejected_move_unchanged.1 stuckFreecell stuckFreecell_reachable
  obtain ⟨h1, h2, h3, h4, h5, h6⟩ := Freecell_rejected_move_unchanged.2 stuckFreecell hs
  refine ⟨hs, ?_, ?_, ?_, ?_, ?_, ?_, ?_, ?_⟩
  · exact h1 9 1 1 (Or.inl (by decide)) (Or.inl (fun h => absurd h.1.2 (by decide)))
  · refine h1 1 2 1 (Or.inr (Or.inr (Or.inl rfl))) (Or.inl (fun h => ?_))
    rcases h.2.2.2.2.2.2.2 with h0 | ⟨c, d, hc, hd, hcd⟩
    · revert h0; decide
    · have e1 : c = ⟨4, "spade"⟩ := by
        have : (some (⟨4, "spade"⟩ : StandardPlayingCard)) = some c := hc
        exact (Option.some.inj this).symm
      have e2 : d = ⟨3, "spade"⟩ := by
        have : (some (⟨3, "spade"⟩ : StandardPlayingCard)) = some d := hd
        exact (Option.some.inj this).symm
      subst e1 e2
      revert hcd; decide
  · exact h2 1 "spade" false
      [⟨13, "diamond"⟩, ⟨5, "diamond"⟩, ⟨10, "club"⟩, ⟨2, "club"⟩, ⟨7, "heart"⟩, ⟨12, "spade"⟩]
      ⟨4, "spade"⟩ (by decide) rfl (by decide)
  · exact h2 1 "spades" false
      [⟨13, "diamond"⟩, ⟨5, "diamond"⟩, ⟨10, "club"⟩, ⟨2, "club"⟩, ⟨7, "heart"⟩, ⟨12, "spade"⟩]
      ⟨4, "spade"⟩ (by decide) rfl (by decide)
  · exact h3 1 (by decide) (fun h => absurd h.2 (by decide))
  · exact h4 1 5 (by decide) (fun h => absurd h.2.1 (by decide))
  · refine h5 "spade" 1 false (fun h => ?_)
    obtain ⟨_, _, c, hc, hfit⟩ := h
    have e1 : c = ⟨7, "spade"⟩ := by
      have : (some (⟨7, "spade"⟩ : StandardPlayingCard)) = some c := hc
      exact (Option.some.inj this).symm
    subst e1
    revert hfit; decide
  · refine h6 1 "spade" (by decide) (by decide) (fun h => ?_)
    obtain ⟨t, _, ht, _⟩ := h
    have : (none : Option StandardPlayingCard) = some t := ht
    cases this

end CardGames
